import Mathlib

/-!
# Mfinder scan dispatcher

Shallow embedding of `backend/scanner/gogo/concurrency.go` (token bucket, rate limiter,
concurrency manager, tuning loop, counters), `backend/scanner/gogo/engine.go`
(`buildCIDRs`, `addrAllowed`, `streamTargets`, `runPreflight`, `dispatchTargets`,
`normalizeDefaults`, `prioritizePorts`), `backend/scanner/gogo/progress.go` (progress
reporter, `classifyStatus`), `backend/scanner/gogo/params.go` (`NormalizedTargets`,
`WithDefaults`, `mergeConcurrencyOptions`) and `backend/fingerprint/ruleset.go`
(`compileRules`, `Match`).

Conventions of the embedding.

* Wall-clock readings (`time.Now()`) are explicit arguments, in integer nanoseconds.
* A `float64` value is the rational number it holds. The arithmetic of the tuning loop
  (`sampleCPU`, `errRate`, `timeoutRate`, `avgRTT`, the constants `0.05` and `0.03`, the
  product with `0.7` in `shrink70`) and of the inflight estimate (`estimateInflightLimit`)
  is rounded as float64 rounds it: every operation gives the float64 nearest to its exact
  result (`f64`). The quantities of the token bucket (`rate`, `cap`, `tok`, elapsed
  seconds) are exact rationals: what is stated of the bucket for the claims (the
  evaluations at the failing inputs, the range of the level) holds with the rounding of
  float64 as well. The conversion `time.Duration(x)` of a float to an integer number of
  nanoseconds discards the fraction, as Go does.
* A value of type `int` or `int64` is an integer. The sums, differences and products of
  the progress reporter (`ingest`, `flush`), of the inflight estimate
  (`estimateInflightLimit`, `configureInflightLimit`), of the tuning step (`tuneTarget`)
  and of `recordFinish` wrap to 64 bits as in Go (`wrapInt`); `uint64` counters are
  naturals reduced modulo `2 ^ 64` where the code subtracts or adds them. A statement
  that needs the exact result says within which bounds of its inputs it holds.
* A `*TokenBucket` that may be `nil` is an `Option TokenBucket`.
* A Go string is the list of its runes.
* Addresses are numbers tagged with their family; the classification methods of
  `netip.Addr` are written out bit by bit.
* `buildCIDRs` calls functions whose code is outside the repository: parsing, printing and
  comparing of `utils.CIDR` (github.com/chainreactors/utils), the text functions of
  `net/netip`, and the DNS resolver. They are the fields of the structure `Lib`, and the
  statements say which property of them they rely on. `netipx.IPSetBuilder` is modelled by
  the set of addresses it denotes, in the normal form of `IPSet`.
* The three results of `buildCIDRs` are the three fields of `BuildResult`.
* The case mappings of package `unicode` above ASCII are the fields of `CaseTables`; what
  the process reads from its host (CPU count, thread ceiling of the gogo core, file
  descriptor limit) are the fields of `Host`; the iteration of `utils.CIDR` (`Count`,
  `Next`) is the structure `IterLib`.
* A goroutine that loops over a `select` is a function of the list of what its rounds
  receive (`ReporterInput`, `TuneTick`, `DispatchInput`); its effects on the outside are
  the list it returns (`StreamEvent`, `DispatchEffect`). The looks of `streamTargets` at
  its context are numbered, and `StreamEnv.done` tells which of them find it cancelled.
* A compiled `*regexp.Regexp` is known by the text of its expression; whether
  `regexp.Compile` accepts an expression, what it matches, and `strings.EqualFold`, are the
  fields of `TextLib`. The expressions without operators (plain characters and escaped
  special characters) are read as package `regexp` reads them by `withLiterals`, which
  leaves the other expressions to a `TextLib`. `utils.ParsePortsString` is the field of
  `PortLib`. A closure that `buildMatcher` returns is a value of `matcherFunc`, and
  `matcherFunc.run` calls it.
-/

namespace Mfinder

/-! ## Token bucket (concurrency.go) -/

/-- The fields `rate`, `cap`, `tok`, `last` of the Go struct `TokenBucket`
(the mutex is not modelled: calls are executed one at a time). -/
structure TokenBucket where
  rate : ℚ
  cap : ℚ
  tok : ℚ
  last : Int
deriving DecidableEq

/-- Go conversion of a float to an integer: the fraction is discarded (towards zero). -/
def truncToInt (x : ℚ) : Int :=
  if 0 ≤ x then ⌊x⌋ else -⌊-x⌋

/-- The value of a Go `int` or `int64` (64 bits, two's complement) that the result `x` of
an addition, subtraction or multiplication wraps to. -/
def wrapInt (x : Int) : Int := (x + 2 ^ 63) % 2 ^ 64 - 2 ^ 63

/-- The Go conversion `int(x)` of a float64: the fraction is discarded; outside the range
of `int` Go leaves the result to the implementation, and the value taken here is the one
of amd64, the least `int`. -/
def floatToInt (x : ℚ) : Int :=
  if -(2 : ℚ) ^ 63 ≤ x ∧ x < (2 : ℚ) ^ 63 then truncToInt x else -2 ^ 63

/-- The number of binary digits of `n`, by halving at most `fuel` times. -/
def bitLength : Nat → Nat → Nat
  | 0, _ => 0
  | fuel + 1, n => if n = 0 then 0 else bitLength fuel (n / 2) + 1

/-- The integer nearest to `n / d`, the even one of two that are equally near. -/
def roundQuot (n d : Nat) : Nat :=
  let q := n / d
  let r := n % d
  if 2 * r > d ∨ (2 * r = d ∧ q % 2 = 1) then q + 1 else q

/-- The binary exponent of `a / b` for positive `a` and `b`: the `k` with
`2 ^ k <= a / b < 2 ^ (k + 1)`. -/
def log2Quot (a b : Nat) : Int :=
  let k : Int := (bitLength a a : Int) - (bitLength b b : Int)
  if b * 2 ^ k.toNat ≤ a * 2 ^ (-k).toNat then k else k - 1

/-- The rounding of float64 arithmetic: the float64 value nearest to the rational `x`
(53 significant binary digits), the one with an even significand when two are equally
near. A float64 operation gives `f64` of the exact result, and a decimal constant stands
for `f64` of its value. The exponent is not bounded: the quantities rounded in this file
stay far inside the range of float64. -/
def f64 (x : ℚ) : ℚ :=
  if x = 0 then 0
  else
    let a := x.num.natAbs
    let b := x.den
    let e := log2Quot a b - 52
    let m := roundQuot (a * 2 ^ (-e).toNat) (b * 2 ^ e.toNat)
    (if x < 0 then -(m : ℚ) else (m : ℚ)) * 2 ^ e

/-- A rational that float64 holds exactly, the exponent range apart: an integer of at most
53 binary digits times a power of two. -/
def isF64 (y : ℚ) : Prop := ∃ (m e : Int), |m| ≤ 2 ^ 53 ∧ y = (m : ℚ) * 2 ^ e

/-- Number of nanoseconds in `time.Second`. -/
def nsPerSecond : ℚ := 1000000000

/-- The Go function `NewTokenBucket(rate, capacity)`, with `now` the value of `time.Now()`. -/
def NewTokenBucket (rate : ℚ) (capacity : Int) (now : Int) : Option TokenBucket :=
  if rate ≤ 0 then none
  else
    let capacity :=
      if capacity ≤ 0 then
        (if truncToInt rate ≤ 0 then 1 else truncToInt rate)
      else capacity
    some { rate := rate, cap := (capacity : ℚ), tok := 0, last := now }

/-- The seconds elapsed between two clock readings: `now.Sub(last).Seconds()`. -/
def elapsedSeconds (last now : Int) : ℚ := ((now - last : Int) : ℚ) / nsPerSecond

/-- The refill step of `Wait`: `tok` and `last` move only when `elapsed > 0`. -/
def refill (b : TokenBucket) (now : Int) : TokenBucket :=
  if 0 < elapsedSeconds b.last now then
    { b with tok := min b.cap (b.tok + b.rate * elapsedSeconds b.last now), last := now }
  else b

/-- The method `(*TokenBucket).Wait(n)` on a non-nil receiver, `now` being the value of
`time.Now()` read inside the call: the new bucket state and the returned duration in
nanoseconds. -/
def TokenBucket.Wait (b : TokenBucket) (n : Int) (now : Int) : TokenBucket × Int :=
  if n ≤ 0 then (b, 0)
  else
    let need : ℚ := (n : ℚ)
    let b1 := refill b now
    if b1.tok ≥ need then ({ b1 with tok := b1.tok - need }, 0)
    else
      let deficit := need - b1.tok
      let wait := deficit / b1.rate
      ({ b1 with last := now }, truncToInt (wait * nsPerSecond))

/-- The method `Wait` on a possibly nil receiver. -/
def waitOpt (b : Option TokenBucket) (n : Int) (now : Int) : Option TokenBucket × Int :=
  match b with
  | none => (none, 0)
  | some b => ((b.Wait n now).1, (b.Wait n now).2)

/-- Run a sequence of `Wait(n)` calls, each with its clock reading, from state `b`;
returns the final state and the list of returned durations. -/
def runWaits : TokenBucket → List (Int × Int) → TokenBucket × List Int
  | b, [] => (b, [])
  | b, (n, now) :: rest =>
    let r := b.Wait n now
    let rr := runWaits r.1 rest
    (rr.1, r.2 :: rr.2)

/-- Sum of the `n` of the calls that returned a zero delay. -/
def grantedSum : List (Int × Int) → List Int → Int
  | (n, _) :: calls, d :: ds => (if d = 0 then n else 0) + grantedSum calls ds
  | _, _ => 0

/-- The state invariant of a bucket: positive rate and level within `[0, cap]`. -/
def TokenBucket.Inv (b : TokenBucket) : Prop :=
  0 < b.rate ∧ 0 ≤ b.tok ∧ b.tok ≤ b.cap

/-- The refilled level `L = min(capacity, level + rate * elapsedSeconds)` of the
specification, for a call at clock reading `now`. -/
def refilledLevel (b : TokenBucket) (now : Int) : ℚ :=
  min b.cap (b.tok + b.rate * elapsedSeconds b.last now)

/-- Ten `Wait(1)` calls at strictly increasing clock readings within two seconds. -/
def tenCalls : List (Int × Int) :=
  [(1, 333333333), (1, 333333334), (1, 666666666), (1, 666666667), (1, 1000000000),
   (1, 1333333333), (1, 1333333334), (1, 1666666666), (1, 1666666667), (1, 2000000000)]

/-- The tokens one `Wait(n)` call takes out of the bucket. -/
def consumed (b : TokenBucket) (n now : Int) : ℚ :=
  if 0 < n ∧ (n : ℚ) ≤ (refill b now).tok then (n : ℚ) else 0

/-- The tokens a sequence of `Wait` calls takes out of the bucket. -/
def consumedTotal : TokenBucket → List (Int × Int) → ℚ
  | _, [] => 0
  | b, (n, now) :: rest => consumed b n now + consumedTotal (b.Wait n now).1 rest

/-- The clock readings of the calls are non-decreasing, starting not before `t`. -/
def clockMonotone : Int → List (Int × Int) → Prop
  | _, [] => True
  | t, (_, now) :: rest => t ≤ now ∧ clockMonotone now rest

/-! ## Rate limiter (concurrency.go) -/

/-- The Go struct `ConcurrencyOptions` (params.go); `Mode` is the string behind
`ConcurrencyMode`. The rate limiter reads `MaxPPS` and `PerIPMaxPPS`. -/
structure ConcurrencyOptions where
  Mode : String
  Threads : Int
  MaxThreads : Int
  MaxPPS : Int
  PerIPMaxPPS : Int
deriving DecidableEq

/-- The Go struct `rateLimiter`; the `sync.Map` `perIP` is an association list from the
destination string to its bucket. -/
structure rateLimiter where
  global : Option TokenBucket
  perIP : List (String × TokenBucket)
  perRate : ℚ
  perCap : Int
deriving DecidableEq

/-- The Go function `newRateLimiterFromOptions(opts)`; `now` is the clock reading taken by
`NewTokenBucket`. The divisions are integer divisions of positive numbers. -/
def newRateLimiterFromOptions (opts : ConcurrencyOptions) (now : Int) : Option rateLimiter :=
  let global : Option TokenBucket :=
    if opts.MaxPPS > 0 then
      let cap := opts.MaxPPS / 4
      let cap := if cap ≤ 0 then opts.MaxPPS else cap
      NewTokenBucket (opts.MaxPPS : ℚ) cap now
    else none
  let per : ℚ × Int :=
    if opts.PerIPMaxPPS > 0 then
      let cap := opts.PerIPMaxPPS / 4
      let cap := if cap ≤ 0 then opts.PerIPMaxPPS else cap
      ((opts.PerIPMaxPPS : ℚ), cap)
    else (0, 0)
  if global.isNone ∧ per.1 ≤ 0 then none
  else some { global := global, perIP := [], perRate := per.1, perCap := per.2 }

/-- The call `perIP.LoadOrStore(ip, fresh)`: the bucket already stored for `ip`, else `fresh`. -/
def loadOrStore (m : List (String × TokenBucket)) (ip : String) (fresh : TokenBucket) :
    TokenBucket :=
  match m.lookup ip with
  | some b => b
  | none => fresh

/-- Write the (mutated) bucket of `ip` back into the map. -/
def storeBucket (m : List (String × TokenBucket)) (ip : String) (b : TokenBucket) :
    List (String × TokenBucket) :=
  match m with
  | [] => [(ip, b)]
  | (k, v) :: rest => if k = ip then (k, b) :: rest else (k, v) :: storeBucket rest ip b

/-- The loop of `reserveBatch` that takes the largest element of a non-empty `waits`. -/
def maxWait (first : Int) (rest : List Int) : Int :=
  rest.foldl (fun m w => if w > m then w else m) first

/-- The three clock readings taken during one `reserveBatch` call: inside the global
`Wait`, inside `NewTokenBucket`, and inside the per-destination `Wait`. -/
structure Clock where
  tGlobal : Int
  tNew : Int
  tPer : Int

/-- The method `(*rateLimiter).reserveBatch(ip, batch)` on a non-nil receiver: the new
limiter state, the granted flag and the wait in nanoseconds. -/
def rateLimiter.reserveBatch (r : rateLimiter) (ip : String) (batch : Int) (c : Clock) :
    rateLimiter × Bool × Int :=
  if batch ≤ 0 then (r, true, 0)
  else
    let g := waitOpt r.global batch c.tGlobal
    let waits : List Int := if g.2 > 0 then [g.2] else []
    let r1 : rateLimiter := { r with global := g.1 }
    let step : rateLimiter × List Int :=
      if r.perRate > 0 ∧ ip ≠ "" then
        match NewTokenBucket r.perRate r.perCap c.tNew with
        | some fresh =>
          let bucket := loadOrStore r1.perIP ip fresh
          let w := bucket.Wait batch c.tPer
          ({ r1 with perIP := storeBucket r1.perIP ip w.1 },
            if w.2 > 0 then waits ++ [w.2] else waits)
        | none => (r1, waits)
      else (r1, waits)
    match step.2 with
    | [] => (step.1, true, 0)
    | w0 :: ws => (step.1, false, maxWait w0 ws)

/-- The call `r.reserveBatch(ip, batch)` on a possibly nil receiver. -/
def reserveBatchOpt (r : Option rateLimiter) (ip : String) (batch : Int) (c : Clock) :
    Option rateLimiter × Bool × Int :=
  match r with
  | none => (none, true, 0)
  | some r => (some (r.reserveBatch ip batch c).1, (r.reserveBatch ip batch c).2)

/-- The wait the global bucket reports to `reserveBatch` (zero without a global bucket). -/
def globalWait (r : rateLimiter) (batch : Int) (c : Clock) : Int :=
  (waitOpt r.global batch c.tGlobal).2

/-- The wait the destination's bucket reports to `reserveBatch` (zero when that bucket is
not checked). -/
def destWait (r : rateLimiter) (ip : String) (batch : Int) (c : Clock) : Int :=
  if r.perRate > 0 ∧ ip ≠ "" then
    match NewTokenBucket r.perRate r.perCap c.tNew with
    | some fresh => ((loadOrStore r.perIP ip fresh).Wait batch c.tPer).2
    | none => 0
  else 0

/-! ## Addresses and prefixes (package net/netip)

The types and predicates of the Go standard library that `engine.go` calls. An address
is the zero `Addr`, an IPv4 address (a 32-bit value) or an IPv6 address (a 128-bit
value); zones are left out, since neither `netip.ParsePrefix` nor the resolver path
produces one. -/

/-- The type `netip.Addr`. -/
inductive Addr where
  | zero
  | v4 (n : Nat)
  | v6 (n : Nat)
deriving DecidableEq, Repr

/-- The method `Addr.IsValid`. -/
def Addr.IsValid : Addr → Bool
  | .zero => false
  | _ => true

/-- The method `Addr.Is4`. -/
def Addr.Is4 : Addr → Bool
  | .v4 _ => true
  | _ => false

/-- The method `Addr.Is6` (true for IPv4-mapped IPv6 addresses too). -/
def Addr.Is6 : Addr → Bool
  | .v6 _ => true
  | _ => false

/-- The method `Addr.BitLen`. -/
def Addr.BitLen : Addr → Nat
  | .zero => 0
  | .v4 _ => 32
  | .v6 _ => 128

/-- The numeric value of the address. -/
def Addr.val : Addr → Nat
  | .zero => 0
  | .v4 n => n
  | .v6 n => n

/-- The method `Addr.Is4In6`: an IPv6 address of the form `::ffff:a.b.c.d`. -/
def Addr.Is4In6 : Addr → Bool
  | .v6 n => n / 2 ^ 32 = 0xffff
  | _ => false

/-- The method `Addr.Unmap`. -/
def Addr.Unmap (a : Addr) : Addr :=
  if a.Is4In6 then .v4 (a.val % 2 ^ 32) else a

/-- Byte `i` (0 is the most significant) of an IPv4 value: `ip.v4(i)`. -/
def v4byte (n i : Nat) : Nat := n / 2 ^ (8 * (3 - i)) % 256

/-- The method `Addr.IsUnspecified`: `0.0.0.0` or `::`. -/
def Addr.IsUnspecified (a : Addr) : Bool :=
  a = .v4 0 || a = .v6 0

/-- The method `Addr.IsLoopback`. -/
def Addr.IsLoopback (a : Addr) : Bool :=
  match a.Unmap with
  | .v4 n => v4byte n 0 = 127
  | .v6 n => n = 1
  | .zero => false

/-- The method `Addr.IsMulticast`. -/
def Addr.IsMulticast (a : Addr) : Bool :=
  match a.Unmap with
  | .v4 n => v4byte n 0 &&& 0xf0 = 0xe0
  | .v6 n => n / 2 ^ 120 = 0xff
  | .zero => false

/-- The method `Addr.IsLinkLocalUnicast`. -/
def Addr.IsLinkLocalUnicast (a : Addr) : Bool :=
  match a.Unmap with
  | .v4 n => v4byte n 0 = 169 && v4byte n 1 = 254
  | .v6 n => n / 2 ^ 112 &&& 0xffc0 = 0xfe80
  | .zero => false

/-- The method `Addr.IsLinkLocalMulticast`. -/
def Addr.IsLinkLocalMulticast (a : Addr) : Bool :=
  match a.Unmap with
  | .v4 n => v4byte n 0 = 224 && v4byte n 1 = 0 && v4byte n 2 = 0
  | .v6 n => n / 2 ^ 112 &&& 0xff0f = 0xff02
  | .zero => false

/-- The method `Addr.IsPrivate`: RFC 1918 for IPv4, RFC 4193 for IPv6. -/
def Addr.IsPrivate (a : Addr) : Bool :=
  match a.Unmap with
  | .v4 n => v4byte n 0 = 10 || (v4byte n 0 = 172 && v4byte n 1 &&& 0xf0 = 16) ||
      (v4byte n 0 = 192 && v4byte n 1 = 168)
  | .v6 n => n / 2 ^ 120 &&& 0xfe = 0xfc
  | .zero => false

/-- The method `Addr.IsGlobalUnicast`. -/
def Addr.IsGlobalUnicast (a : Addr) : Bool :=
  if !a.IsValid then false
  else
    let ip := a.Unmap
    if ip.Is4 && (ip = .v4 0 || ip = .v4 0xffffffff) then false
    else ip ≠ .v6 0 && !ip.IsLoopback && !ip.IsMulticast && !ip.IsLinkLocalUnicast

/-- The type `netip.Prefix`: an address and a prefix length. -/
structure Prefix where
  addr : Addr
  bits : Nat
deriving DecidableEq, Repr

/-- The method `Prefix.IsValid`: a valid address (with a value that fits its width) and a
length of at most `Addr.BitLen` bits. -/
def Prefix.IsValid (p : Prefix) : Bool :=
  p.addr.IsValid && p.bits ≤ p.addr.BitLen && p.addr.val < 2 ^ p.addr.BitLen

/-- The function `netip.PrefixFrom`. -/
def PrefixFrom (a : Addr) (bits : Nat) : Prefix := ⟨a, bits⟩

/-! ## IP sets (package go4.org/netipx)

`IPSetBuilder` is modelled by the set it denotes, kept in the normal form that
`IPSetBuilder.IPSet` produces: per address family a list of inclusive ranges, sorted,
disjoint and not adjacent. -/

/-- The type `netipx.IPRange`: address family and inclusive bounds. -/
structure IPRange where
  is6 : Bool
  lo : Nat
  hi : Nat
deriving DecidableEq, Repr

/-- The function `netipx.RangeOfPrefix`: the range of the masked prefix, `none` for an
invalid prefix (the zero `IPRange`). -/
def RangeOfPrefix (p : Prefix) : Option IPRange :=
  if p.IsValid then
    let size := 2 ^ (p.addr.BitLen - p.bits)
    let lo := p.addr.val - p.addr.val % size
    some ⟨p.addr.Is6, lo, lo + size - 1⟩
  else none

/-- Union of a range list in normal form with the range `[lo, hi]`. -/
def insertRange (lo hi : Nat) : List (Nat × Nat) → List (Nat × Nat)
  | [] => [(lo, hi)]
  | (a, b) :: rest =>
    if hi + 1 < a then (lo, hi) :: (a, b) :: rest
    else if b + 1 < lo then (a, b) :: insertRange lo hi rest
    else insertRange (min lo a) (max hi b) rest

/-- What is left of the range `[a, b]` once `[lo, hi]` is taken out. -/
def cutRange (lo hi : Nat) (r : Nat × Nat) : List (Nat × Nat) :=
  if hi < r.1 ∨ r.2 < lo then [r]
  else (if r.1 < lo then [(r.1, lo - 1)] else []) ++ (if hi < r.2 then [(hi + 1, r.2)] else [])

/-- Difference of a range list and the range `[lo, hi]`. -/
def removeRange (lo hi : Nat) : List (Nat × Nat) → List (Nat × Nat)
  | [] => []
  | r :: rest => cutRange lo hi r ++ removeRange lo hi rest

/-- The type `netipx.IPSetBuilder`: the IPv4 ranges, the IPv6 ranges, and whether an
invalid argument was recorded (`errs`). -/
structure IPSetBuilder where
  r4 : List (Nat × Nat)
  r6 : List (Nat × Nat)
  errs : Bool
deriving DecidableEq, Repr

/-- The zero value `netipx.IPSetBuilder{}`. -/
def IPSetBuilder.empty : IPSetBuilder := ⟨[], [], false⟩

/-- The method `IPSetBuilder.AddPrefix`. -/
def IPSetBuilder.AddPrefix (s : IPSetBuilder) (p : Prefix) : IPSetBuilder :=
  match RangeOfPrefix p with
  | some r =>
    if r.is6 then { s with r6 := insertRange r.lo r.hi s.r6 }
    else { s with r4 := insertRange r.lo r.hi s.r4 }
  | none => { s with errs := true }

/-- The method `IPSetBuilder.RemovePrefix`. -/
def IPSetBuilder.RemovePrefix (s : IPSetBuilder) (p : Prefix) : IPSetBuilder :=
  match RangeOfPrefix p with
  | some r =>
    if r.is6 then { s with r6 := removeRange r.lo r.hi s.r6 }
    else { s with r4 := removeRange r.lo r.hi s.r4 }
  | none => { s with errs := true }

/-- The type `netipx.IPSet`: IPv4 ranges and IPv6 ranges in normal form. -/
structure IPSet where
  r4 : List (Nat × Nat)
  r6 : List (Nat × Nat)
deriving DecidableEq, Repr

/-- The method `IPSetBuilder.IPSet`: the set, or an error when an invalid argument was
recorded. -/
def IPSetBuilder.IPSet (s : IPSetBuilder) : Option IPSet :=
  if s.errs then none else some ⟨s.r4, s.r6⟩

/-- The aligned blocks `(base, h)`, of `2 ^ h` addresses from `base`, that make up the
range `[a, b]` inside the aligned block of `2 ^ h` addresses at `base`, in ascending
order: the fewest prefixes that cover the range exactly. -/
def blocksOf : (h : Nat) → (base a b : Nat) → List (Nat × Nat)
  | 0, base, _, _ => [(base, 0)]
  | h + 1, base, a, b =>
    if a = base ∧ b = base + 2 ^ (h + 1) - 1 then [(base, h + 1)]
    else
      let mid := base + 2 ^ h
      if b < mid then blocksOf h base a b
      else if mid ≤ a then blocksOf h mid a b
      else blocksOf h base a (mid - 1) ++ blocksOf h mid mid b

/-- Width in bits of an address family. -/
def famWidth (is6 : Bool) : Nat := if is6 then 128 else 32

/-- The prefixes of one range of an `IPSet` (`IPRange.Prefixes`). -/
def rangePrefixes (is6 : Bool) (r : Nat × Nat) : List Prefix :=
  (blocksOf (famWidth is6) 0 r.1 r.2).map fun blk =>
    ⟨if is6 then Addr.v6 blk.1 else Addr.v4 blk.1, famWidth is6 - blk.2⟩

/-- The method `IPSet.Prefixes`: IPv4 prefixes first, then IPv6, each ascending. -/
def IPSet.Prefixes (s : IPSet) : List Prefix :=
  s.r4.flatMap (rangePrefixes false) ++ s.r6.flatMap (rangePrefixes true)

/-! ## Target expansion (engine.go) -/

/-- The predicate `unicode.IsSpace` used by `strings.TrimSpace`. -/
def isSpaceChar (c : Char) : Bool :=
  c = '\t' || c = '\n' || c.val = 0x0B || c.val = 0x0C || c = '\r' || c = ' ' ||
  c.val = 0x85 || c.val = 0xA0 || c.val = 0x1680 || (0x2000 ≤ c.val && c.val ≤ 0x200a) ||
  c.val = 0x2028 || c.val = 0x2029 || c.val = 0x202f || c.val = 0x205f || c.val = 0x3000

/-- The function `strings.TrimSpace`. -/
def TrimSpace (s : String) : String :=
  String.mk ((s.data.dropWhile isSpaceChar).reverse.dropWhile isSpaceChar).reverse

/-- The type `utils.CIDR` of github.com/chainreactors/utils, as far as `engine.go` reads
it: the address `IP`, the prefix length `Mask`, and the host name `IP.Host`. -/
structure CIDR where
  ip : Addr
  mask : Nat
  host : String
deriving DecidableEq, Repr

/-- The functions that `buildCIDRs` calls and whose code lies outside the repository:
`utils.ParseCIDR`, `utils.IsIp`, `(*CIDR).String`, `CIDR.IP.String`, `(*CIDR).Compare`
(github.com/chainreactors/utils); `netip.ParsePrefix`, `Prefix.String`, `Addr.String`
(net/netip); and the DNS lookup `net.DefaultResolver.LookupIPAddr`, whose entries are
given as the results of `netip.AddrFromSlice` (`none` when that conversion fails). -/
structure Lib where
  ParseCIDR : String → Option CIDR
  IsIp : String → Bool
  cidrString : CIDR → String
  ipString : CIDR → String
  Compare : CIDR → CIDR → Int
  ParsePrefix : String → Option Prefix
  prefixString : Prefix → String
  addrString : Addr → String
  LookupIPAddr : String → Option (List (Option Addr))

/-- The Go struct `cidrBuildOptions`. -/
structure cidrBuildOptions where
  resolveHosts : Bool
  resolveIPv6 : Bool
  allowLoopback : Bool
  allowPrivate : Bool
deriving DecidableEq, Repr

/-- The Go function `addrAllowed`. -/
def addrAllowed (addr : Addr) (opts : cidrBuildOptions) : Bool :=
  if !addr.IsValid then false
  else if addr.IsUnspecified || addr.IsMulticast || addr.IsLinkLocalUnicast ||
      addr.IsLinkLocalMulticast then false
  else if addr.IsLoopback && !opts.allowLoopback then false
  else if addr.IsPrivate && !opts.allowPrivate then false
  else if !addr.IsGlobalUnicast && !(addr.IsLoopback && opts.allowLoopback) then false
  else true

/-- The Go function `prefixAllowed`. -/
def prefixAllowed (p : Prefix) (opts : cidrBuildOptions) : Bool :=
  addrAllowed p.addr opts

/-- The loop of `resolveHostRecords` over the looked-up entries; `results` doubles as the
`seen` set, which holds exactly the addresses appended so far. -/
def resolveLoop (includeIPv6 : Bool) : List (Option Addr) → List Addr → List Addr
  | [], results => results
  | none :: rest, results => resolveLoop includeIPv6 rest results
  | some addr :: rest, results =>
    let addr := if addr.Is4In6 then addr.Unmap else addr
    if addr.Is6 && !includeIPv6 then resolveLoop includeIPv6 rest results
    else if addr ∈ results then resolveLoop includeIPv6 rest results
    else resolveLoop includeIPv6 rest (results ++ [addr])

/-- The Go function `resolveHostRecords`; `none` is the lookup error. -/
def resolveHostRecords (lib : Lib) (host : String) (includeIPv6 : Bool) : Option (List Addr) :=
  match lib.LookupIPAddr host with
  | none => none
  | some ips => some (resolveLoop includeIPv6 ips [])

/-- The Go function `appendUnique`. -/
def appendUnique (xs : List String) (val : String) : List String :=
  if val ∈ xs then xs else xs ++ [val]

/-- The closure `appendHost` of `buildCIDRs`, on the map `hostMap` as an association list. -/
def appendHost (hostMap : List (String × List String)) (ip host : String) :
    List (String × List String) :=
  if host = "" then hostMap
  else
    match hostMap.lookup ip with
    | some hosts =>
      hostMap.map fun kv => if kv.1 = ip then (kv.1, appendUnique hosts host) else kv
    | none => hostMap ++ [(ip, appendUnique [] host)]

/-- The errors `buildCIDRs` returns, one constructor per `return nil, nil, ...`. -/
inductive BuildError where
  | invalidTarget (raw : String)
  | resolveFailed (host : String)
  | allDisallowed (host : String)
  | invalidTargetPrefix (raw : String)
  | targetNotAllowed (raw : String)
  | noValidTargets
  | invalidExclude (raw : String)
  | invalidExcludePrefix (raw : String)
  | builderError
  | noTargetsRemain
deriving DecidableEq, Repr

/-- The local variables `builder`, `hostMap` and `includeCount` of `buildCIDRs`. -/
structure BuildState where
  builder : IPSetBuilder
  hostMap : List (String × List String)
  includeCount : Nat
deriving DecidableEq, Repr

/-- The condition under which a parsed target is resolved through DNS:
`host != "" && !utils.IsIp(host) && opts.resolveHosts`. -/
def takesResolvePath (lib : Lib) (opts : cidrBuildOptions) (cidr : CIDR) : Bool :=
  TrimSpace cidr.host ≠ "" && !lib.IsIp (TrimSpace cidr.host) && opts.resolveHosts

/-- The first loop of `buildCIDRs`, over `targets`. -/
def addTargets (lib : Lib) (opts : cidrBuildOptions) :
    List String → BuildState → Except BuildError BuildState
  | [], st => .ok st
  | raw :: rest, st =>
    let raw := TrimSpace raw
    if raw = "" then addTargets lib opts rest st
    else
      match lib.ParseCIDR raw with
      | none => .error (.invalidTarget raw)
      | some cidr =>
        let host := TrimSpace cidr.host
        if takesResolvePath lib opts cidr then
          match resolveHostRecords lib host opts.resolveIPv6 with
          | none => .error (.resolveFailed host)
          | some records =>
            let allowed := records.filter fun addr => addrAllowed addr opts
            if allowed.length = 0 then .error (.allDisallowed host)
            else
              addTargets lib opts rest
                { builder := allowed.foldl
                    (fun b addr => b.AddPrefix (PrefixFrom addr addr.BitLen)) st.builder
                  hostMap := allowed.foldl
                    (fun m addr => appendHost m (lib.addrString addr) host) st.hostMap
                  includeCount := st.includeCount + allowed.length }
        else
          match lib.ParsePrefix (lib.cidrString cidr) with
          | none => .error (.invalidTargetPrefix raw)
          | some pfx =>
            if !prefixAllowed pfx opts then .error (.targetNotAllowed raw)
            else
              addTargets lib opts rest
                { builder := st.builder.AddPrefix pfx
                  hostMap :=
                    if host ≠ "" && !lib.IsIp host then appendHost st.hostMap (lib.ipString cidr) host
                    else st.hostMap
                  includeCount := st.includeCount + 1 }

/-- The second loop of `buildCIDRs`, over `excludes`. -/
def removeExcludes (lib : Lib) : List String → IPSetBuilder → Except BuildError IPSetBuilder
  | [], b => .ok b
  | raw :: rest, b =>
    let raw := TrimSpace raw
    if raw = "" then removeExcludes lib rest b
    else
      match lib.ParseCIDR raw with
      | none => .error (.invalidExclude raw)
      | some cidr =>
        match lib.ParsePrefix (lib.cidrString cidr) with
        | none => .error (.invalidExcludePrefix raw)
        | some pfx => removeExcludes lib rest (b.RemovePrefix pfx)

/-- The ordering function handed to `sort.SliceStable`: `cidrs[i].Compare(cidrs[j]) < 0`. -/
def cidrLess (lib : Lib) (a b : CIDR) : Bool := lib.Compare a b < 0

/-- The call `sort.SliceStable(cidrs, less)`: a stable sort, as an insertion sort that
puts an element before the first later element that is not less than it. -/
def sortStable (lib : Lib) (cidrs : List CIDR) : List CIDR :=
  cidrs.insertionSort fun a b => cidrLess lib b a = false

/-- The three results of `buildCIDRs`: the ranges (`[]` for the nil slice), the host map
(`none` for the nil map) and the error (`none` for nil). -/
structure BuildResult where
  cidrs : List CIDR
  hostMap : Option (List (String × List String))
  err : Option BuildError
deriving DecidableEq, Repr

/-- The statement `return nil, nil, err`. -/
def BuildResult.fail (e : BuildError) : BuildResult := ⟨[], none, some e⟩

/-- The ranges built from the prefixes of the final set: each prefix is printed and parsed
back with `utils.ParseCIDR`, and dropped when that returns nil. -/
def cidrsOfSet (lib : Lib) (ipset : IPSet) : List CIDR :=
  ipset.Prefixes.filterMap fun p => lib.ParseCIDR (lib.prefixString p)

/-- The Go function `buildCIDRs`. -/
def buildCIDRs (lib : Lib) (targets excludes : List String) (opts : cidrBuildOptions) :
    BuildResult :=
  match addTargets lib opts targets ⟨IPSetBuilder.empty, [], 0⟩ with
  | .error e => .fail e
  | .ok st =>
    if st.includeCount = 0 then .fail .noValidTargets
    else
      match removeExcludes lib excludes st.builder with
      | .error e => .fail e
      | .ok builder =>
        match builder.IPSet with
        | none => .fail .builderError
        | some ipset =>
          let cidrs := cidrsOfSet lib ipset
          if cidrs.length = 0 then .fail .noTargetsRemain
          else ⟨sortStable lib cidrs, some st.hostMap, none⟩

/-! ## Vocabulary of the statements -/

/-- The number `x` lies in one of the ranges of the list. -/
def inRanges (L : List (Nat × Nat)) (x : Nat) : Prop :=
  ∃ r ∈ L, r.1 ≤ x ∧ x ≤ r.2

/-- Every range of the list is non-empty and below `bound`. -/
def rangesOK (bound : Nat) (L : List (Nat × Nat)) : Prop :=
  ∀ r ∈ L, r.1 ≤ r.2 ∧ r.2 < bound

/-- The number `x` lies in one of the blocks `(base, h)`, that is in `[base, base + 2 ^ h)`. -/
def inBlocks (bl : List (Nat × Nat)) (x : Nat) : Prop :=
  ∃ blk ∈ bl, blk.1 ≤ x ∧ x < blk.1 + 2 ^ blk.2

/-- The address belongs to the set under construction. -/
def IPSetBuilder.Contains (s : IPSetBuilder) : Addr → Prop
  | .v4 n => inRanges s.r4 n
  | .v6 n => inRanges s.r6 n
  | .zero => False

/-- The ranges of the builder are non-empty and fit their family. -/
def IPSetBuilder.WF (s : IPSetBuilder) : Prop :=
  rangesOK (2 ^ 32) s.r4 ∧ rangesOK (2 ^ 128) s.r6

/-- The method `Prefix.Contains`: the address is of the family of the prefix and agrees
with it on the first `bits` bits, that is, lies in the range of the masked prefix. -/
def Prefix.Contains (p : Prefix) (a : Addr) : Bool :=
  match RangeOfPrefix p with
  | some r => a.IsValid && a.Is6 = r.is6 && r.lo ≤ a.val && a.val ≤ r.hi
  | none => false

/-- The addresses a returned range stands for: those of the block `IP/Mask`, which
`(*CIDR).Count` and `(*CIDR).Next` enumerate from the first address of the block. -/
def CIDR.Contains (c : CIDR) (a : Addr) : Bool :=
  Prefix.Contains ⟨c.ip, c.mask⟩ a

/-- The prefix that a non-blank literal target or exclude string denotes for
`buildCIDRs`: `netip.ParsePrefix(utils.ParseCIDR(raw).String())`. -/
def literalPrefix (lib : Lib) (raw : String) : Option Prefix :=
  if TrimSpace raw = "" then none
  else
    match lib.ParseCIDR (TrimSpace raw) with
    | none => none
    | some cidr => lib.ParsePrefix (lib.cidrString cidr)

/-- The value of the local variable `ipset` of `buildCIDRs`, when the run reaches it. -/
def finalSet (lib : Lib) (targets excludes : List String) (opts : cidrBuildOptions) :
    Option IPSet :=
  match addTargets lib opts targets ⟨IPSetBuilder.empty, [], 0⟩ with
  | .error _ => none
  | .ok st =>
    if st.includeCount = 0 then none
    else
      match removeExcludes lib excludes st.builder with
      | .error _ => none
      | .ok builder => builder.IPSet

/-- The library prints the prefix and parses it back to the range with the same address
and length. -/
def roundTrips (lib : Lib) (p : Prefix) : Bool :=
  match lib.ParseCIDR (lib.prefixString p) with
  | some c => c.ip = p.addr && c.mask = p.bits
  | none => false

/-- None of the address classes that the safety rail of `addrAllowed` is about. -/
def Addr.isSafe (a : Addr) : Bool :=
  !a.IsPrivate && !a.IsLoopback && !a.IsUnspecified && !a.IsMulticast &&
    !a.IsLinkLocalUnicast && !a.IsLinkLocalMulticast

/-- The address is of family `is6` and its value lies in `[lo, hi]`. -/
def addrIn (is6 : Bool) (lo hi : Nat) (a : Addr) : Prop :=
  ∃ n, a = (if is6 then Addr.v6 n else Addr.v4 n) ∧ lo ≤ n ∧ n ≤ hi

/-- Some string of the list denotes a prefix that contains the address. -/
def coveredBy (lib : Lib) (raws : List String) (a : Addr) : Prop :=
  ∃ raw ∈ raws, ∃ p, literalPrefix lib raw = some p ∧ p.Contains a = true

/-- Some string of the list denotes an invalid prefix. -/
def hasInvalid (lib : Lib) (raws : List String) : Prop :=
  ∃ raw ∈ raws, ∃ p, literalPrefix lib raw = some p ∧ p.IsValid = false

/-- Every target that parses takes the literal path of `buildCIDRs`. -/
def allLiteral (lib : Lib) (opts : cidrBuildOptions) (targets : List String) : Prop :=
  ∀ raw ∈ targets, ∀ c, lib.ParseCIDR (TrimSpace raw) = some c →
    takesResolvePath lib opts c = false

/-- The initial values of the local variables of `buildCIDRs`. -/
def initState : BuildState := ⟨IPSetBuilder.empty, [], 0⟩

/-- A blank target, or a literal target whose prefix parses and is allowed. -/
def literalOK (lib : Lib) (opts : cidrBuildOptions) (raw : String) : Prop :=
  TrimSpace raw = "" ∨ ∃ p, literalPrefix lib raw = some p ∧ prefixAllowed p opts = true

/-- The library with another DNS lookup. -/
def Lib.withLookup (lib : Lib) (lookup : String → Option (List (Option Addr))) : Lib :=
  { lib with LookupIPAddr := lookup }

/-! ## A small instance of the library

Enough of the external functions to run `buildCIDRs` on a few IPv4 literals and one host
name: dotted-quad printing, and parsing by table. -/

/-- Dotted-quad text of an IPv4 value. -/
def fmtV4 (n : Nat) : String :=
  toString (v4byte n 0) ++ "." ++ toString (v4byte n 1) ++ "." ++ toString (v4byte n 2) ++
    "." ++ toString (v4byte n 3)

/-- Text of an address (IPv4 only). -/
def demoAddrString : Addr → String
  | .v4 n => fmtV4 n
  | _ => "?"

/-- The IPv4 blocks the instance can parse, as value and prefix length. -/
def demoBlocks : List (Nat × Nat) :=
  [(0x0A000001, 32), (0x08000000, 6), (0xCB007100, 30), (0xCB007100, 31), (0xCB007102, 31),
   (0xCB007102, 32), (0xCB007103, 32), (0xC6336407, 32)]

/-- The host names the instance knows, with the addresses the resolver reports. -/
def demoHosts : List (String × List (Option Addr)) :=
  [("intranet.example", [some (.v6 0xffff0A000005), some (.v4 0x0A000005)])]

/-- Parsing by table: `a.b.c.d/n` for the blocks of `demoBlocks`, and `a.b.c.d` for those
of length 32. -/
def demoParsePrefix (s : String) : Option Prefix :=
  (demoBlocks.find? fun blk =>
    s = fmtV4 blk.1 ++ "/" ++ toString blk.2 || (blk.2 = 32 && s = fmtV4 blk.1)).map
    fun blk => ⟨.v4 blk.1, blk.2⟩

/-- The instance of `utils.ParseCIDR`: the literals of `demoParsePrefix` with an empty
host, and the known host names with their first address. -/
def demoParseCIDR (s : String) : Option CIDR :=
  match demoParsePrefix s with
  | some p => some ⟨p.addr, p.bits, ""⟩
  | none => if (demoHosts.lookup s).isSome then some ⟨.v4 0x0A000005, 32, s⟩ else none

/-- Sort key of a range: family, address, then length. -/
def demoKey (c : CIDR) : Int :=
  (((if c.ip.Is6 then 2 ^ 32 else 0) + c.ip.val) * 129 + c.mask : Nat)

/-- The instance of the library. -/
def demoLib : Lib where
  ParseCIDR := demoParseCIDR
  IsIp := fun s => (demoParsePrefix s).isSome && !s.contains '/'
  cidrString := fun c => demoAddrString c.ip ++ "/" ++ toString c.mask
  ipString := fun c => demoAddrString c.ip
  Compare := fun a b => if demoKey a < demoKey b then -1 else if demoKey a = demoKey b then 0 else 1
  ParsePrefix := demoParsePrefix
  prefixString := fun p => demoAddrString p.addr ++ "/" ++ toString p.bits
  addrString := demoAddrString
  LookupIPAddr := fun host => demoHosts.lookup host

/-- Options of the examples: no resolution, loopback and private addresses refused. -/
def demoOpts : cidrBuildOptions := ⟨false, false, false, false⟩

/-- Targets of the examples: two adjacent blocks and a blank entry. -/
def demoTargets : List String := ["203.0.113.0/31", " ", "203.0.113.2/31"]

/-- Excludes of the examples: the last address of the second block. -/
def demoExcludes : List String := ["203.0.113.3"]

/-! ## Progress reporter (progress.go) -/

/-- The Go struct `Progress`; `PPS` is a rational, `Timestamp` a clock reading. -/
structure Progress where
  Planned : Int
  Enqueued : Int
  Started : Int
  Succeeded : Int
  Failed : Int
  TimedOut : Int
  Active : Int
  PPS : ℚ
  UptimeMs : Int
  Timestamp : Int
deriving DecidableEq

/-- The Go struct `progressEvent`. -/
structure progressEvent where
  kind : String
  count : Int
deriving DecidableEq

/-- What one call of the closure `flush` reads from outside the reporter: `time.Now()`,
`conc.EffectivePPS()`, `conc.Uptime().Milliseconds()`, and whether the send on `r.out` is
taken (otherwise the `ctx.Done()` case of that `select` is). -/
structure FlushEnv where
  now : Int
  pps : ℚ
  uptimeMs : Int
  delivered : Bool

/-- What the `select` of `progressReporter.loop` receives in one round. -/
inductive ReporterInput where
  | ctxDone (env : FlushEnv)
  | event (ev : progressEvent)
  | closed (env : FlushEnv)
  | tick (env : FlushEnv)

/-- The local variables `snapshot` and `pending` of `progressReporter.loop`. -/
structure ReporterState where
  snapshot : Progress
  pending : Bool

/-- The state of `loop` before its first round, for a reporter with `planned`. -/
def ReporterState.init (planned : Int) : ReporterState :=
  { snapshot := { Planned := planned, Enqueued := 0, Started := 0, Succeeded := 0,
                  Failed := 0, TimedOut := 0, Active := 0, PPS := 0, UptimeMs := 0,
                  Timestamp := 0 }
    pending := false }

/-- The closure `flush` of `loop`: the new state and the snapshots sent on `r.out`
(none or one). `hasConc` tells whether `r.conc` is non-nil. The subtractions are those of
Go `int`. -/
def flush (hasConc : Bool) (s : ReporterState) (env : FlushEnv) :
    ReporterState × List Progress :=
  if !s.pending then (s, [])
  else
    let active := wrapInt (wrapInt (wrapInt (s.snapshot.Started - s.snapshot.Succeeded) -
      s.snapshot.Failed) - s.snapshot.TimedOut)
    let snap : Progress :=
      { s.snapshot with
        Timestamp := env.now
        Active := if active < 0 then 0 else active
        PPS := if hasConc then env.pps else 0
        UptimeMs := if hasConc then env.uptimeMs else 0 }
    ({ snapshot := snap, pending := false }, if env.delivered then [snap] else [])

/-- The `switch ev.kind` of `loop`, followed by `pending = true`. The additions are those
of Go `int`. -/
def ingest (s : ReporterState) (ev : progressEvent) : ReporterState :=
  let snap := s.snapshot
  let snap : Progress :=
    if ev.kind = "enqueued" then { snap with Enqueued := wrapInt (snap.Enqueued + ev.count) }
    else if ev.kind = "started" then { snap with Started := wrapInt (snap.Started + ev.count) }
    else if ev.kind = "succeeded" then
      { snap with Succeeded := wrapInt (snap.Succeeded + ev.count) }
    else if ev.kind = "failed" then { snap with Failed := wrapInt (snap.Failed + ev.count) }
    else if ev.kind = "timeout" then
      { snap with TimedOut := wrapInt (snap.TimedOut + ev.count) }
    else snap
  { snapshot := snap, pending := true }

/-- The `for` loop of `progressReporter.loop` over the rounds of its `select`: the
snapshots sent on `r.out`, each with the number of rounds that came before the round
that sent it (counted from `pos`). The loop returns at `ctx.Done()` and at the close of
the event channel. -/
def reporterLoop (hasConc : Bool) : Nat → ReporterState → List ReporterInput →
    List (Nat × Progress)
  | _, _, [] => []
  | pos, s, .ctxDone env :: _ => (flush hasConc s env).2.map fun p => (pos, p)
  | pos, s, .closed env :: _ => (flush hasConc s env).2.map fun p => (pos, p)
  | pos, s, .event ev :: rest => reporterLoop hasConc (pos + 1) (ingest s ev) rest
  | pos, s, .tick env :: rest =>
    ((flush hasConc { s with pending := true } env).2.map fun p => (pos, p)) ++
      reporterLoop hasConc (pos + 1) (flush hasConc { s with pending := true } env).1 rest

/-- The snapshots a reporter created with `planned` emits over the given rounds. -/
def emittedSnapshots (hasConc : Bool) (planned : Int) (inputs : List ReporterInput) :
    List (Nat × Progress) :=
  reporterLoop hasConc 0 (ReporterState.init planned) inputs

/-- The events among the first rounds. -/
def eventsOf : List ReporterInput → List progressEvent
  | [] => []
  | .event ev :: rest => ev :: eventsOf rest
  | _ :: rest => eventsOf rest

/-- Sum of the counts of the events of one kind. -/
def sumKind (kind : String) (evs : List progressEvent) : Int :=
  ((evs.filter fun ev => ev.kind = kind).map fun ev => ev.count).sum

/-- The five event counters and `Planned` of a snapshot are those of a reporter created
with `planned` that has ingested the events `evs`. -/
def countersOf (p : Progress) (planned : Int) (evs : List progressEvent) : Prop :=
  p.Planned = planned ∧ p.Enqueued = sumKind "enqueued" evs ∧
  p.Started = sumKind "started" evs ∧ p.Succeeded = sumKind "succeeded" evs ∧
  p.Failed = sumKind "failed" evs ∧ p.TimedOut = sumKind "timeout" evs

/-- No event counter of `a` exceeds that of `b`. -/
def countersLe (a b : Progress) : Prop :=
  a.Enqueued ≤ b.Enqueued ∧ a.Started ≤ b.Started ∧ a.Succeeded ≤ b.Succeeded ∧
  a.Failed ≤ b.Failed ∧ a.TimedOut ≤ b.TimedOut

/-- Sum of the sizes of the counts of the events: the sum of their absolute values. -/
def countTotal (evs : List progressEvent) : Int :=
  (evs.map fun ev => |ev.count|).sum

/-- Rounds of a small run: two events, a tick, two more events (one of a kind the reporter
does not know), and the closing of the event channel. -/
def demoRounds : List ReporterInput :=
  [ReporterInput.event ⟨"started", 3⟩, ReporterInput.event ⟨"succeeded", 5⟩,
   ReporterInput.tick ⟨1000, 2, 7, true⟩, ReporterInput.event ⟨"enqueued", 4⟩,
   ReporterInput.event ⟨"bogus", 9⟩, ReporterInput.closed ⟨2000, 1, 9, true⟩]

/-! ## Status classification (progress.go) and case mapping (package unicode) -/

/-- The simple case mappings of the runes above ASCII (the tables behind `unicode.ToLower`
and `unicode.ToUpper`). -/
structure CaseTables where
  lower : Char → Char
  upper : Char → Char

/-- The ASCII branch of `unicode.ToLower`. -/
def asciiLower (c : Char) : Char :=
  if 'A' ≤ c ∧ c ≤ 'Z' then Char.ofNat (c.toNat + 32) else c

/-- The ASCII branch of `unicode.ToUpper`. -/
def asciiUpper (c : Char) : Char :=
  if 'a' ≤ c ∧ c ≤ 'z' then Char.ofNat (c.toNat - 32) else c

/-- The function `unicode.ToLower`. -/
def toLowerRune (t : CaseTables) (c : Char) : Char :=
  if c.toNat ≤ 0x7F then asciiLower c else t.lower c

/-- The function `unicode.ToUpper`. -/
def toUpperRune (t : CaseTables) (c : Char) : Char :=
  if c.toNat ≤ 0x7F then asciiUpper c else t.upper c

/-- The function `strings.ToLower`: every rune mapped by `unicode.ToLower`. -/
def ToLower (t : CaseTables) (s : String) : String :=
  String.mk (s.data.map (toLowerRune t))

/-- The function `strings.Contains`. -/
def Contains (s substr : String) : Bool :=
  decide (substr.data <:+: s.data)

/-- The Go function `classifyStatus`. -/
def classifyStatus (t : CaseTables) (status : String) : Bool :=
  let status := ToLower t status
  if status = "" then false
  else if Contains status "timeout" || Contains status "timed out" then true
  else false

/-- A fragment of the case tables: the dotless small `ı` (U+0131) has upper case `I` and
is its own lower case; the dotted capital `İ` (U+0130) has lower case `i`. -/
def demoCase : CaseTables where
  lower := fun c => if c.toNat = 0x130 then 'i' else c
  upper := fun c => if c.toNat = 0x131 then 'I' else c

/-! ## Scan parameters (params.go) -/

/-- The Go struct `ScanParams`. -/
structure ScanParams where
  Targets : List String
  Target : String
  TargetsText : String
  Ports : String
  Mode : String
  Ping : Bool
  NoScan : Bool
  Delay : Int
  HTTPSDelay : Int
  Exploit : String
  Verbose : Int
  PortProbe : String
  IPProbe : String
  Exclude : List String
  Workflow : String
  Debug : Bool
  Opsec : Bool
  ResolveHosts : Bool
  ResolveIPv6 : Bool
  PreflightEnabled : Bool
  PreflightPorts : String
  PreflightTimeout : Int
  AllowLoopback : Bool
  AllowPrivate : Bool
  Worker : String
  Concurrency : ConcurrencyOptions
  Threads : Int
deriving DecidableEq

/-- The zero value of `ScanParams`. -/
def ScanParams.zero : ScanParams :=
  { Targets := [], Target := "", TargetsText := "", Ports := "", Mode := "", Ping := false,
    NoScan := false, Delay := 0, HTTPSDelay := 0, Exploit := "", Verbose := 0,
    PortProbe := "", IPProbe := "", Exclude := [], Workflow := "", Debug := false,
    Opsec := false, ResolveHosts := false, ResolveIPv6 := false, PreflightEnabled := false,
    PreflightPorts := "", PreflightTimeout := 0, AllowLoopback := false,
    AllowPrivate := false, Worker := "", Concurrency := ⟨"", 0, 0, 0, 0⟩, Threads := 0 }

/-- The closure `separators` of `splitTargetString`. -/
def isTargetSeparator (r : Char) : Bool :=
  r = '\n' || r = '\r' || r = '\t' || r = ',' || r = ';'

/-- The scan of `strings.FieldsFunc`: `cur` holds, reversed, the field being read. -/
def fieldsGo (sep : Char → Bool) : List Char → List Char → List (List Char)
  | cur, [] => if cur = [] then [] else [cur.reverse]
  | cur, c :: rest =>
    if sep c then
      if cur = [] then fieldsGo sep [] rest else cur.reverse :: fieldsGo sep [] rest
    else fieldsGo sep (c :: cur) rest

/-- The function `strings.FieldsFunc`: the maximal runs of runes that are not separators. -/
def FieldsFunc (s : String) (sep : Char → Bool) : List String :=
  (fieldsGo sep [] s.data).map String.mk

/-- The Go function `splitTargetString`. -/
def splitTargetString (raw : String) : List String :=
  if TrimSpace raw = "" then []
  else ((FieldsFunc raw isTargetSeparator).map TrimSpace).filter fun seg => seg ≠ ""

/-- The closure `appendTarget` of `NormalizedTargets`, as a function on `ordered`; the set
`dedup` holds exactly the elements of `ordered`. -/
def appendTarget (ordered : List String) (raw : String) : List String :=
  let raw := TrimSpace raw
  if raw = "" then ordered
  else if raw ∈ ordered then ordered
  else ordered ++ [raw]

/-- The Go method `ScanParams.NormalizedTargets`. -/
def ScanParams.NormalizedTargets (p : ScanParams) : List String :=
  let ordered := p.Targets.foldl appendTarget []
  let ordered := (splitTargetString p.Target).foldl appendTarget ordered
  (splitTargetString p.TargetsText).foldl appendTarget ordered

/-- The distinct elements of a list, each at its first occurrence. -/
def keepFirst : List String → List String
  | [] => []
  | x :: xs => x :: (keepFirst xs).filter fun y => y ≠ x

/-- The trimmed non-empty forms of the strings of a list, in order. -/
def trimmedNonEmpty (l : List String) : List String :=
  (l.map TrimSpace).filter fun x => x ≠ ""

/-- The tokens of a string split on newline, carriage return, tab, comma and semicolon:
the trimmed non-empty fields, in order. -/
def targetTokens (raw : String) : List String :=
  trimmedNonEmpty (FieldsFunc raw isTargetSeparator)

/-- The separators of the target strings: newline, carriage return, tab, comma and
semicolon. -/
def targetSeparators : List Char := ['\n', '\r', '\t', ',', ';']

/-- The tokens of a string, said without the code: the string is cut at every separator,
and each piece is trimmed and kept when something is left of it. -/
def tokensAt (seps : List Char) (raw : String) : List String :=
  ((raw.data.splitOnP fun c => decide (c ∈ seps)).map fun piece =>
    TrimSpace (String.mk piece)).filter fun x => x ≠ ""

/-- Parameters whose targets come in the three forms, with every separator, blanks and
repetitions. -/
def demoTargetParams : ScanParams :=
  { ScanParams.zero with
    Targets := [" a ", "b", " ", "a"],
    Target := "c,a;;d\ne x",
    TargetsText := " f\tb\r g ,\n" }

/-- The string neither starts nor ends with a white-space character. -/
def noOuterSpace (x : String) : Prop :=
  (∀ c, x.data.head? = some c → isSpaceChar c = false) ∧
  (∀ c, x.data.getLast? = some c → isSpaceChar c = false)

/-! ## Concurrency manager (concurrency.go, engine.go, fd_limits_posix.go) -/

/-- What the process reads from its host: `runtime.NumCPU()`, the thread ceiling of the
gogo core for `runtime.GOOS` (`gogocore.LinuxDefaultThreads` or
`gogocore.WindowsMacDefaultThreads`), and the soft limit `r.Cur` that
`syscall.Getrlimit(RLIMIT_NOFILE)` reports, `none` when the call fails. -/
structure Host where
  numCPU : Int
  coreThreads : Int
  rlimitCur : Option Nat
deriving DecidableEq

/-- The constant `portChunkSize`. -/
def portChunkSize : Int := 8

/-- The constant `defaultGlobalMaxPPS`. -/
def defaultGlobalMaxPPS : Int := 200

/-- The constant `ConcurrencyModeAuto`. -/
def ConcurrencyModeAuto : String := "auto"

/-- The constant `ConcurrencyModeManual`. -/
def ConcurrencyModeManual : String := "manual"

/-- The Go function `fdSoftLimit`. -/
def fdSoftLimit (h : Host) : Int :=
  match h.rlimitCur with
  | none => 0
  | some cur => if cur ≤ 0 ∨ cur > 2147483647 then 0 else (cur : Int)

/-- The Go function `fdAwareThreadCap`. -/
def fdAwareThreadCap (h : Host) : Int :=
  let fd := fdSoftLimit h
  if fd ≤ 0 then 0
  else
    let cap := fd / 4
    if cap < 8 then 8 else cap

/-- The Go function `defaultThreadCount`. -/
def defaultThreadCount (h : Host) : Int :=
  let cores := if h.numCPU ≤ 0 then 1 else h.numCPU
  let base := cores * 8
  let base := if base < 32 then 32 else base
  let max := h.coreThreads
  if max > 0 ∧ base > max then max else base

/-- The Go function `defaultAutoMaxThreads`. -/
def defaultAutoMaxThreads (h : Host) : Int :=
  let base := defaultThreadCount h * 2
  let base := if base < 128 then 128 else base
  if base > 1024 then 1024 else base

/-- The Go function `normalizeConcurrencyMode`. -/
def normalizeConcurrencyMode (t : CaseTables) (mode : String) : String :=
  let m := ToLower t (TrimSpace mode)
  if m = ConcurrencyModeManual then ConcurrencyModeManual
  else if m = ConcurrencyModeAuto then ConcurrencyModeAuto
  else ""

/-- The Go struct `concurrencyManager`, without its pool, statistics, context and
permit counters. -/
structure concurrencyManager where
  mode : String
  options : ConcurrencyOptions
  limiter : Option rateLimiter
  maxThreads : Int
  minThreads : Int
  inflightLimit : Int
deriving DecidableEq

/-- The Go method `estimateInflightLimit`, with the arithmetic of Go `int` and of
float64. -/
def concurrencyManager.estimateInflightLimit (h : Host) (m : concurrencyManager)
    (params : ScanParams) : Int :=
  let globalRate := m.options.MaxPPS
  let globalRate :=
    if globalRate ≤ 0 then
      if m.mode = ConcurrencyModeManual ∧ m.options.Threads > 0 then
        wrapInt (m.options.Threads * 20)
      else defaultGlobalMaxPPS
    else globalRate
  let timeoutSeconds : ℚ := f64 ((wrapInt (params.Delay + params.HTTPSDelay) : Int) : ℚ)
  let timeoutSeconds : ℚ := if timeoutSeconds ≤ 0 then 2 else timeoutSeconds
  let chunk := portChunkSize
  let chunk := if chunk ≤ 0 then 1 else chunk
  let candidates : List Int :=
    if globalRate > 0 then
      let rateCap := floatToInt (f64 (f64 (globalRate : ℚ) * timeoutSeconds))
      let rateCap := if rateCap ≤ 0 then globalRate else rateCap
      [rateCap]
    else []
  let threadCap := wrapInt (wrapInt (m.maxThreads * portChunkSize) * 4)
  let candidates := if threadCap > 0 then candidates ++ [threadCap] else candidates
  let fd := fdSoftLimit h
  let candidates :=
    if fd > 0 then
      let fdCap := fd / 2
      if fdCap > 0 then candidates ++ [fdCap] else candidates
    else candidates
  let limit :=
    match candidates with
    | [] => 0
    | c0 :: rest => rest.foldl (fun limit c => if c > 0 ∧ c < limit then c else limit) c0
  if limit < chunk then chunk else limit

/-- The Go method `configureInflightLimit`. -/
def concurrencyManager.configureInflightLimit (h : Host) (m : concurrencyManager)
    (params : ScanParams) : concurrencyManager :=
  let limit := m.estimateInflightLimit h params
  let limit := if limit ≤ 0 then wrapInt (m.maxThreads * portChunkSize) else limit
  let minLimit := wrapInt (m.minThreads * portChunkSize)
  let limit := if limit < minLimit then minLimit else limit
  { m with inflightLimit := limit }

/-- The Go function `newConcurrencyManager`, with `now` the reading of `time.Now()` taken
for the rate limiter. -/
def newConcurrencyManager (h : Host) (t : CaseTables) (opts : ConcurrencyOptions)
    (params : ScanParams) (now : Int) : concurrencyManager :=
  let mode := normalizeConcurrencyMode t opts.Mode
  let mode := if mode = "" then ConcurrencyModeAuto else mode
  let baseline := defaultThreadCount h
  let baseline := if baseline < 8 then 8 else baseline
  let fdCap := fdAwareThreadCap h
  let baseline := if fdCap > 0 ∧ baseline > fdCap then fdCap else baseline
  let mgr : concurrencyManager :=
    { mode := mode, options := opts, limiter := newRateLimiterFromOptions opts now,
      maxThreads := 0, minThreads := 8, inflightLimit := 0 }
  let mgr : concurrencyManager :=
    if mgr.mode = ConcurrencyModeManual then
      let threads := opts.Threads
      let threads := if threads ≤ 0 then baseline else threads
      { mgr with maxThreads := threads, options := { mgr.options with Threads := threads } }
    else
      let maxThreads := opts.MaxThreads
      let maxThreads := if maxThreads ≤ 0 then defaultAutoMaxThreads h else maxThreads
      let fdCap := fdAwareThreadCap h
      let maxThreads := if fdCap > 0 ∧ maxThreads > fdCap then fdCap else maxThreads
      { mgr with maxThreads := maxThreads }
  mgr.configureInflightLimit h params

/-- The Go method `InitialWorkers`: the manager after the call and the value returned. -/
def concurrencyManager.InitialWorkers (h : Host) (m : concurrencyManager) :
    concurrencyManager × Int :=
  if m.mode = ConcurrencyModeManual then
    let m : concurrencyManager :=
      if m.options.Threads ≤ 0 then
        { m with options := { m.options with Threads := defaultThreadCount h } }
      else m
    if m.options.Threads < m.minThreads then (m, m.minThreads)
    else (m, m.options.Threads)
  else
    let base := defaultThreadCount h
    let base := if base < m.minThreads then m.minThreads else base
    let base := if base > m.maxThreads then m.maxThreads else base
    (m, base)

/-- The Go struct `statsSnapshot`; the `uint64` fields are naturals below `2 ^ 64`. -/
structure statsSnapshot where
  successes : Nat
  failures : Nat
  timeouts : Nat
  durationsNS : Nat
  inflight : Int
  backlog : Int
  deltaSuccess : Nat
  deltaFailure : Nat
  deltaTimeout : Nat
  deltaDurNS : Nat
deriving DecidableEq

/-- The zero value `statsSnapshot{}`. -/
def statsSnapshot.zero : statsSnapshot := ⟨0, 0, 0, 0, 0, 0, 0, 0, 0, 0⟩

/-- The counters of `executionStats` as one `snapshot` call loads them. -/
structure executionStats where
  successes : Nat
  failures : Nat
  timeouts : Nat
  durationsNS : Nat
  inflight : Int
  backlog : Int
deriving DecidableEq

/-- Subtraction of `uint64` values. -/
def subU64 (a b : Nat) : Nat := (a % 2 ^ 64 + 2 ^ 64 - b % 2 ^ 64) % 2 ^ 64

/-- Addition of `uint64` values. -/
def addU64 (a b : Nat) : Nat := (a + b) % 2 ^ 64

/-- The Go method `executionStats.snapshot`. -/
def executionStats.snapshot (s : executionStats) (prev : statsSnapshot) : statsSnapshot :=
  { successes := s.successes, failures := s.failures, timeouts := s.timeouts,
    durationsNS := s.durationsNS, inflight := s.inflight, backlog := s.backlog,
    deltaSuccess := subU64 s.successes prev.successes,
    deltaFailure := subU64 s.failures prev.failures,
    deltaTimeout := subU64 s.timeouts prev.timeouts,
    deltaDurNS := subU64 s.durationsNS prev.durationsNS }

/-- The Go method `sampleCPU`: `usage` is `stats.ProcessCPUUsage`, `none` when
`utils.GetSystemStats` fails. -/
def sampleCPU (usage : Option ℚ) : ℚ :=
  match usage with
  | none => 0
  | some u => f64 (u * 100)

/-- What one tick of `autoTuneLoop` reads: the counters and the process CPU usage. -/
structure TuneTick where
  stats : executionStats
  cpu : Option ℚ

/-- The rounding of float64 to a significand of 53 binary digits, on a natural number: the
nearest number with at most 53 significant digits, the one with an even significand when
two are equally near. -/
def roundBits (n : Nat) : Nat :=
  let sh := bitLength n n - 53
  let q := n / 2 ^ sh
  let r := n % 2 ^ sh
  if 2 * r > 2 ^ sh ∨ (2 * r = 2 ^ sh ∧ q % 2 = 1) then (q + 1) * 2 ^ sh else q * 2 ^ sh

/-- The float64 constant `0.7` is `float07 / 2 ^ 53`. -/
def float07 : Nat := 6305039478318694

/-- The expression `int(float64(currentThreads) * 0.7)`: the conversion to float64, the
float64 product (the exact product rounded to 53 significant digits), and the conversion
to `int`, which discards the fraction. -/
def shrink70 (c : Int) : Int :=
  let p : Nat := roundBits (roundBits c.natAbs * float07) / 2 ^ 53
  if c < 0 then -(p : Int) else (p : Int)

/-- The local variable `windowOps` of `autoTuneLoop`. -/
def windowOps (snap : statsSnapshot) : Nat :=
  addU64 (addU64 snap.deltaSuccess snap.deltaFailure) snap.deltaTimeout

/-- The local variable `errRate` of `autoTuneLoop`: a float64 quotient. -/
def errRate (snap : statsSnapshot) : ℚ :=
  if windowOps snap > 0 then
    f64 (f64 (snap.deltaFailure : ℚ) / f64 (windowOps snap : ℚ))
  else 0

/-- The local variable `timeoutRate` of `autoTuneLoop`: a float64 quotient. -/
def timeoutRate (snap : statsSnapshot) : ℚ :=
  if windowOps snap > 0 then
    f64 (f64 (snap.deltaTimeout : ℚ) / f64 (windowOps snap : ℚ))
  else 0

/-- The local variable `avgRTT` of `autoTuneLoop`, in milliseconds: two float64 divisions,
the second by `float64(time.Millisecond)`. -/
def avgRTT (snap : statsSnapshot) : ℚ :=
  if snap.deltaDurNS > 0 ∧ windowOps snap > 0 then
    f64 (f64 (f64 (snap.deltaDurNS : ℚ) / f64 (windowOps snap : ℚ)) / 1000000)
  else 0

/-- The first case of the `switch` of `autoTuneLoop`; `0.05` and `0.03` are the float64
constants. -/
def shrinkDue (snap : statsSnapshot) (cpu : Option ℚ) : Prop :=
  sampleCPU cpu > 85 ∨ errRate snap > f64 (5 / 100) ∨ timeoutRate snap > f64 (3 / 100)

instance shrinkDue_decidable (snap : statsSnapshot) (cpu : Option ℚ) :
    Decidable (shrinkDue snap cpu) := by
  unfold shrinkDue; infer_instance

/-- The number of operations of a window, as a sum of natural numbers. -/
def windowTotal (snap : statsSnapshot) : Nat :=
  snap.deltaSuccess + snap.deltaFailure + snap.deltaTimeout

/-- The error rate of a window as a rational number: the failures per operation, 0 for a
window without operations. -/
def errorRatio (snap : statsSnapshot) : ℚ :=
  if windowTotal snap = 0 then 0 else (snap.deltaFailure : ℚ) / (windowTotal snap : ℚ)

/-- The timeout rate of a window as a rational number: the timeouts per operation, 0 for a
window without operations. -/
def timeoutRatio (snap : statsSnapshot) : ℚ :=
  if windowTotal snap = 0 then 0 else (snap.deltaTimeout : ℚ) / (windowTotal snap : ℚ)

/-- The average round-trip time of a window in milliseconds, as a rational number: the
nanoseconds per operation over a million, 0 for a window without operations. -/
def meanRTT (snap : statsSnapshot) : ℚ :=
  if windowTotal snap = 0 then 0
  else (snap.deltaDurNS : ℚ) / (windowTotal snap : ℚ) / 1000000

/-- The `switch` of the `ticker.C` case of `autoTuneLoop`, with the rates it reads: the
value of `desired` before the clamps. The quotients and the product with `0.7` are rounded
as float64 rounds them, and the sums are those of Go `int`. -/
def tuneTarget (currentThreads : Int) (snap : statsSnapshot) (cpu : Option ℚ) : Int :=
  if shrinkDue snap cpu then shrink70 currentThreads
  else if snap.backlog > currentThreads then wrapInt (currentThreads + 64)
  else if avgRTT snap < 50 ∧ snap.backlog > 0 then wrapInt (currentThreads + 32)
  else currentThreads

/-- The two clamps that follow the `switch`: the value of `desired` that is compared with
`currentThreads` and passed to `pool.Tune`. -/
def desiredThreads (m : concurrencyManager) (currentThreads : Int) (snap : statsSnapshot)
    (cpu : Option ℚ) : Int :=
  let desired := tuneTarget currentThreads snap cpu
  let desired := if desired < m.minThreads then m.minThreads else desired
  if desired > m.maxThreads then m.maxThreads else desired

/-- The `for` loop of `autoTuneLoop` over its ticks, until the context is done: the
arguments of the calls of `pool.Tune`, in order. -/
def tuneRounds (m : concurrencyManager) : Int → statsSnapshot → List TuneTick → List Int
  | _, _, [] => []
  | currentThreads, last, tk :: rest =>
    let snap := tk.stats.snapshot last
    let desired := desiredThreads m currentThreads snap tk.cpu
    if desired ≠ currentThreads then desired :: tuneRounds m desired snap rest
    else tuneRounds m currentThreads snap rest

/-- The Go method `autoTuneLoop` of a manager whose pool (if bound) has capacity `cap` and
whose counters read `first` at the start: the arguments of the calls of `pool.Tune`. -/
def concurrencyManager.autoTuneLoop (h : Host) (m : concurrencyManager) (pool : Option Int)
    (first : executionStats) (ticks : List TuneTick) : List Int :=
  match pool with
  | none => []
  | some cap =>
    let currentThreads := if cap ≤ 0 then (m.InitialWorkers h).2 else cap
    tuneRounds m currentThreads (first.snapshot statsSnapshot.zero) ticks

/-- The capacities of the worker pool over one run of `Engine.Run`: the pool is created
with the value of `InitialWorkers` and bound to the manager, whose tuning loop runs in
auto mode only. -/
def poolCapacities (h : Host) (m : concurrencyManager) (first : executionStats)
    (ticks : List TuneTick) : List Int :=
  let r := m.InitialWorkers h
  if r.1.mode = ConcurrencyModeAuto then r.2 :: r.1.autoTuneLoop h (some r.2) first ticks
  else [r.2]

/-- A Linux host with four cores, the thread ceiling of the gogo core at 4000 and the
usual soft limit of 1024 open files. -/
def demoHost : Host := ⟨4, 4000, some 1024⟩

/-- The rate ceiling the inflight estimate uses: `MaxPPS`, else twenty per thread of a
manual run, else `defaultGlobalMaxPPS`. -/
def rateCeiling (m : concurrencyManager) : Int :=
  if m.options.MaxPPS > 0 then m.options.MaxPPS
  else if m.mode = ConcurrencyModeManual ∧ m.options.Threads > 0 then m.options.Threads * 20
  else defaultGlobalMaxPPS

/-- The probe timeout in seconds: `Delay + HTTPSDelay`, or 2 when that is not positive. -/
def probeTimeoutSeconds (params : ScanParams) : Int :=
  if params.Delay + params.HTTPSDelay ≤ 0 then 2 else params.Delay + params.HTTPSDelay

/-- The smallest of the positive numbers of a list, 0 when there is none. -/
def minPositive (l : List Int) : Int :=
  ((l.filter fun c => 0 < c).min?).getD 0

/-- The admission limit as a formula with the given floor:
`max(floor, min(rateCeiling * probeTimeoutSeconds, maxThreads * portChunkSize * 4,
fdSoftLimit / 2))`, the minimum being over the positive candidates. -/
def inflightFormula (h : Host) (m : concurrencyManager) (params : ScanParams)
    (floor : Int) : Int :=
  max floor (minPositive [rateCeiling m * probeTimeoutSeconds params,
    m.maxThreads * portChunkSize * 4, fdSoftLimit h / 2])

/-- Options of an auto run with a thread ceiling of 4. -/
def demoAutoOptions : ConcurrencyOptions := ⟨"auto", 0, 4, 0, 0⟩

/-- Counters of a run in which every probe failed, and a busy processor. -/
def demoOverload : TuneTick := ⟨⟨0, 50, 0, 1000000, 0, 100⟩, some 1⟩

/-- Options of an auto run limited to ten packets per second. -/
def demoSlowOptions : ConcurrencyOptions := ⟨"auto", 0, 0, 10, 0⟩

/-- Parameters with a probe timeout of one second and a TLS timeout of one second. -/
def demoSlowParams : ScanParams := { ScanParams.zero with Delay := 1, HTTPSDelay := 1 }

/-- Options of a manual run with four threads. -/
def demoManualOptions : ConcurrencyOptions := ⟨"manual", 4, 0, 0, 0⟩

/-! ## Target stream (engine.go) -/

/-- The Go struct `scanTarget`. -/
structure scanTarget where
  ip : String
  port : String
  hosts : List String
deriving DecidableEq

/-- The iteration interface of `utils.CIDR` that the target stream calls: `cidr.Count()`,
the strings `ip.String()` of the successive results of `cidr.Next()` after `cidr.Reset()`
up to the first `nil`, and `cidr.IP.String()`. -/
structure IterLib where
  Count : CIDR → Int
  Nexts : CIDR → List String
  ipString : CIDR → String

/-- The Go struct `cidrCursor`; `upcoming` is the position of the iterator inside `cidr`:
the addresses `cidr.Next()` has yet to return. -/
structure cidrCursor where
  cidr : CIDR
  upcoming : List String
  remaining : Int
  fallback : String
deriving DecidableEq

/-- The Go function `newCIDRCursor`. -/
def newCIDRCursor (L : IterLib) (cidr : Option CIDR) : Option cidrCursor :=
  match cidr with
  | none => none
  | some c => some { cidr := c, upcoming := L.Nexts c, remaining := L.Count c,
                     fallback := L.ipString c }

/-- The Go method `cidrCursor.nextIP`: the cursor after the call and the two results. -/
def cidrCursor.nextIP (c : cidrCursor) : cidrCursor × String × Bool :=
  if c.remaining ≤ 0 then (c, "", false)
  else
    match c.upcoming with
    | [] => ({ c with remaining := 0 }, "", false)
    | ip :: rest => ({ c with upcoming := rest, remaining := c.remaining - 1 }, ip, true)

/-- The Go function `hostsForIP`. -/
def hostsForIP (ip : String) (hostMap : List (String × List String)) (fallback : String) :
    List String :=
  match hostMap.lookup ip with
  | some (h :: hs) => h :: hs
  | _ =>
    match hostMap.lookup fallback with
    | some (h :: hs) => h :: hs
    | _ => []

/-- The Go struct `ipCursor`, without `readyAt`; `cursor` is never nil, as `buildIterators`
skips a nil cursor. -/
structure ipCursor where
  cursor : cidrCursor
  ip : String
  hosts : List String
  portIndex : Nat
  preflightChecked : Bool
  preflightAllowed : Bool
deriving DecidableEq

/-- The Go method `ipCursor.advance`: the cursor after the call and the result. -/
def ipCursor.advance (c : ipCursor) (hostMap : List (String × List String)) :
    ipCursor × Bool :=
  let r := c.cursor.nextIP
  if r.2.2 = false then ({ c with cursor := r.1 }, false)
  else
    ({ cursor := r.1, ip := r.2.1, hosts := hostsForIP r.2.1 hostMap r.1.fallback,
       portIndex := 0, preflightChecked := false, preflightAllowed := false }, true)

/-- The Go function `buildIterators`. -/
def buildIterators (L : IterLib) (cidrs : List (Option CIDR)) : List ipCursor :=
  cidrs.filterMap fun cidr =>
    match newCIDRCursor L cidr with
    | none => none
    | some cursor =>
      if cursor.remaining ≤ 0 then none
      else some { cursor := cursor, ip := "", hosts := [], portIndex := 0,
                  preflightChecked := false, preflightAllowed := false }

/-- The Go struct `preflightConfig`; `timeout` in nanoseconds. -/
structure preflightConfig where
  ports : List Int
  timeout : Int
deriving DecidableEq

/-- The outcomes of `dialer.DialContext` that `runPreflight` tells apart: a connection, the
error `context.Canceled`, a timeout, any other error. -/
inductive DialResult where
  | connected
  | canceled
  | timeout
  | other
deriving DecidableEq

/-- What the target stream reads from outside: `done k` tells whether the `k`-th look at
the context finds it cancelled, `dial ip port` is the outcome of dialling that address and
port. -/
structure StreamEnv where
  done : Nat → Bool
  dial : String → Int → DialResult

/-- The results of `runPreflight`, with the number of looks at the context so far;
`cancelled` stands for a non-nil error, which is always `ctx.Err()`. -/
structure PreflightRun where
  k : Nat
  allowed : Bool
  cancelled : Bool
deriving DecidableEq

/-- The `for` loop of `runPreflight` over `cfg.ports`. -/
def dialLoop (E : StreamEnv) (ip : String) : Nat → List Int → PreflightRun
  | k, [] => ⟨k, false, false⟩
  | k, port :: rest =>
    if E.done k then ⟨k + 1, false, true⟩
    else
      match E.dial ip port with
      | DialResult.connected => ⟨k + 1, true, false⟩
      | DialResult.canceled => ⟨k + 2, false, E.done (k + 1)⟩
      | DialResult.timeout => dialLoop E ip (k + 1) rest
      | DialResult.other => dialLoop E ip (k + 1) rest

/-- The Go function `runPreflight`. -/
def runPreflight (E : StreamEnv) (k : Nat) (ip : String) (cfg : Option preflightConfig) :
    PreflightRun :=
  match cfg with
  | none => ⟨k, true, false⟩
  | some cfg => if cfg.ports.length = 0 then ⟨k, true, false⟩ else dialLoop E ip k cfg.ports

/-- What `streamTargets` does to the outside while its cursor is at the address `ip`: a
call of the reporter (`Enqueued`, `Started`, `Failed`, as the event it sends), a call of
`conc.IncBacklog` or `conc.DecBacklog`, and a send on the channel `out`. -/
inductive StreamEvent where
  | report (ip : String) (ev : progressEvent)
  | incBacklog (ip : String) (n : Int)
  | decBacklog (ip : String) (n : Int)
  | send (t : scanTarget)
deriving DecidableEq

/-- The loop `for i, port := range chunk` of `streamTargets`: the number of looks at the
context, what was done, and whether the loop returned `ctx.Err()`. -/
def sendChunk (E : StreamEnv) (hasConc : Bool) (ip : String) (hosts : List String) :
    Nat → List String → Nat × List StreamEvent × Bool
  | k, [] => (k, [], false)
  | k, port :: rest =>
    if E.done k then
      (k + 1, if hasConc then [StreamEvent.decBacklog ip ((rest.length : Int) + 1)] else [],
        true)
    else
      let r := sendChunk E hasConc ip hosts (k + 1) rest
      (r.1, StreamEvent.send ⟨ip, port, hosts⟩ :: r.2.1, r.2.2)

/-- One round of the loop `for len(queue) > 0` of `streamTargets`, for the cursor taken
from the head of the queue: the number of looks at the context, what was done, the cursor
appended to the queue (if any), and whether the function returned `ctx.Err()`. -/
structure RoundResult where
  k : Nat
  events : List StreamEvent
  next : Option ipCursor
  cancelled : Bool

/-- The body of the loop `for len(queue) > 0` of `streamTargets`. -/
def streamRound (E : StreamEnv) (hostMap : List (String × List String)) (ports : List String)
    (hasConc : Bool) (preflight : Option preflightConfig) (k : Nat) (cursor : ipCursor) :
    RoundResult :=
  if E.done k then ⟨k + 1, [], none, true⟩
  else
    let k := k + 1
    let pre : PreflightRun × ipCursor :=
      match preflight with
      | none => (⟨k, true, false⟩, cursor)
      | some cfg =>
        if cursor.preflightChecked = false then
          let r := runPreflight E k cursor.ip (some cfg)
          if r.cancelled then (r, cursor)
          else (r, { cursor with preflightChecked := true, preflightAllowed := r.allowed })
        else (⟨k, true, false⟩, cursor)
    if pre.1.cancelled then ⟨pre.1.k, [], none, true⟩
    else
      let k := pre.1.k
      let cursor := pre.2
      if preflight.isSome ∧ cursor.preflightAllowed = false then
        let events :=
          if ports.length > 0 then
            [StreamEvent.report cursor.ip ⟨"started", ports.length⟩,
             StreamEvent.report cursor.ip ⟨"failed", ports.length⟩]
          else []
        let a := cursor.advance hostMap
        if a.2 = false then ⟨k, events, none, false⟩ else ⟨k, events, some a.1, false⟩
      else
        let start := cursor.portIndex
        let finish := start + 8
        let finish := if finish > ports.length then ports.length else finish
        let chunk := (ports.take finish).drop start
        let events :=
          StreamEvent.report cursor.ip ⟨"enqueued", chunk.length⟩ ::
            (if hasConc then [StreamEvent.incBacklog cursor.ip chunk.length] else [])
        let s := sendChunk E hasConc cursor.ip cursor.hosts k chunk
        if s.2.2 then ⟨s.1, events ++ s.2.1, none, true⟩
        else if finish ≥ ports.length then
          let a := cursor.advance hostMap
          if a.2 = false then ⟨s.1, events ++ s.2.1, none, false⟩
          else ⟨s.1, events ++ s.2.1, some a.1, false⟩
        else ⟨s.1, events ++ s.2.1, some { cursor with portIndex := finish }, false⟩

/-- What a run of `streamTargets` did and whether it returned `ctx.Err()` (else `nil`). -/
structure StreamRun where
  trace : List StreamEvent
  cancelled : Bool
deriving DecidableEq

/-- The loop `for len(queue) > 0` of `streamTargets`, for at most `fuel` rounds; `none`
when the rounds do not suffice. -/
def streamLoop (E : StreamEnv) (hostMap : List (String × List String)) (ports : List String)
    (hasConc : Bool) (preflight : Option preflightConfig) :
    Nat → Nat → List ipCursor → Option StreamRun
  | _, _, [] => some ⟨[], false⟩
  | 0, _, _ :: _ => none
  | fuel + 1, k, cursor :: queue =>
    let r := streamRound E hostMap ports hasConc preflight k cursor
    if r.cancelled then some ⟨r.events, true⟩
    else
      let queue := match r.next with
        | some c => queue ++ [c]
        | none => queue
      match streamLoop E hostMap ports hasConc preflight fuel r.k queue with
      | none => none
      | some run => some ⟨r.events ++ run.trace, run.cancelled⟩

/-- The first loop of `streamTargets`: the iterators that `advance` to an address. -/
def initialQueue (hostMap : List (String × List String)) (iterators : List ipCursor) :
    List ipCursor :=
  iterators.filterMap fun it =>
    let a := it.advance hostMap
    if a.2 = false then none else some a.1

/-- The Go function `streamTargets`, for at most `fuel` rounds of its main loop. -/
def streamTargets (L : IterLib) (E : StreamEnv) (fuel : Nat) (cidrs : List (Option CIDR))
    (hostMap : List (String × List String)) (ports : List String) (hasConc : Bool)
    (preflight : Option preflightConfig) : Option StreamRun :=
  let iterators := buildIterators L cidrs
  if iterators.length = 0 then some ⟨[], false⟩
  else
    let queue := initialQueue hostMap iterators
    if queue.length = 0 then some ⟨[], false⟩
    else streamLoop E hostMap ports hasConc preflight fuel 0 queue

/-- The addresses the cursor of a range yields: those `Next()` returns, at most
`Count()` of them. -/
def rangeAddrs (L : IterLib) (c : CIDR) : List String :=
  (L.Nexts c).take (L.Count c).toNat

/-- The addresses of all ranges, each with the host names its tasks carry. -/
def plannedAddrs (L : IterLib) (hostMap : List (String × List String))
    (cidrs : List (Option CIDR)) : List (String × List String) :=
  cidrs.reduceOption.flatMap fun c =>
    (rangeAddrs L c).map fun ip => (ip, hostsForIP ip hostMap (L.ipString c))

/-- One task for each pair of an address of a range and a port of the list. -/
def plannedTargets (L : IterLib) (hostMap : List (String × List String))
    (cidrs : List (Option CIDR)) (ports : List String) : List scanTarget :=
  (plannedAddrs L hostMap cidrs).flatMap fun a => ports.map fun port => ⟨a.1, port, a.2⟩

/-- The sum of `Count()` over the ranges. -/
def totalCount (L : IterLib) (cidrs : List (Option CIDR)) : Int :=
  (cidrs.reduceOption.map L.Count).sum

/-- The tasks sent on `out`, in order. -/
def sendsOf (tr : List StreamEvent) : List scanTarget :=
  tr.filterMap fun e =>
    match e with
    | StreamEvent.send t => some t
    | _ => none

/-- The sum of the counts passed to the reporter for one kind of event. -/
def reportSum (kind : String) (tr : List StreamEvent) : Int :=
  (tr.map fun e =>
    match e with
    | StreamEvent.report _ ev => if ev.kind = kind then ev.count else 0
    | _ => 0).sum

/-- The sum of the counts passed to `conc.IncBacklog`. -/
def backlogSum (tr : List StreamEvent) : Int :=
  (tr.map fun e =>
    match e with
    | StreamEvent.incBacklog _ n => n
    | _ => 0).sum

/-- The address the cursor is at when the event happens. -/
def StreamEvent.cursorIp : StreamEvent → String
  | StreamEvent.report ip _ => ip
  | StreamEvent.incBacklog ip _ => ip
  | StreamEvent.decBacklog ip _ => ip
  | StreamEvent.send t => t.ip

/-- Rounds that suffice for `streamTargets`: one per address and port, and one more per
address. -/
def streamBound (L : IterLib) (cidrs : List (Option CIDR)) (ports : List String) : Nat :=
  ((cidrs.reduceOption.map fun c => (rangeAddrs L c).length).sum) * (ports.length + 1)

/-- The addresses a cursor has yet to yield. -/
def cidrCursor.left (c : cidrCursor) : List String :=
  c.upcoming.take c.remaining.toNat

/-- What an undisturbed run does for one address from the port index `start` on: chunk
after chunk of at most eight ports. -/
def chunksFrom (ports : List String) (hasConc : Bool) (ip : String) (hosts : List String)
    (start : Nat) : List StreamEvent :=
  (StreamEvent.report ip ⟨"enqueued", (((ports.drop start).take 8).length : Int)⟩ ::
    (if hasConc then [StreamEvent.incBacklog ip (((ports.drop start).take 8).length : Int)]
     else [])) ++
  ((ports.drop start).take 8).map (fun port => StreamEvent.send ⟨ip, port, hosts⟩) ++
  (if start + 8 < ports.length then chunksFrom ports hasConc ip hosts (start + 8) else [])
termination_by ports.length - start

/-- What an undisturbed run does for an address that preflight refuses. -/
def refusal (ports : List String) (ip : String) : List StreamEvent :=
  if ports.length > 0 then
    [StreamEvent.report ip ⟨"started", ports.length⟩,
     StreamEvent.report ip ⟨"failed", ports.length⟩]
  else []

/-- What an undisturbed run does for one address from the port index `start` on, given
the verdict of preflight. -/
def addrTrace (ports : List String) (hasConc : Bool) (preflight : Option preflightConfig)
    (allowed : Bool) (ip : String) (hosts : List String) (start : Nat) : List StreamEvent :=
  if preflight.isSome ∧ allowed = false then refusal ports ip
  else chunksFrom ports hasConc ip hosts start

/-- The verdict of preflight on an address in an undisturbed run. -/
def reachable (E : StreamEnv) (preflight : Option preflightConfig) (ip : String) : Bool :=
  (runPreflight E 0 ip preflight).allowed

/-- What an undisturbed run does for a cursor from its present state on. -/
def cursorRest (E : StreamEnv) (hostMap : List (String × List String)) (ports : List String)
    (hasConc : Bool) (preflight : Option preflightConfig) (c : ipCursor) : List StreamEvent :=
  addrTrace ports hasConc preflight
    (if c.preflightChecked then c.preflightAllowed else reachable E preflight c.ip)
    c.ip c.hosts c.portIndex ++
  c.cursor.left.flatMap fun ip =>
    addrTrace ports hasConc preflight (reachable E preflight ip) ip
      (hostsForIP ip hostMap c.cursor.fallback) 0

/-- Rounds that suffice for a cursor. -/
def cursorRounds (ports : List String) (c : ipCursor) : Nat :=
  1 + (ports.length - c.portIndex) + c.cursor.left.length * (ports.length + 1)

/-- An instance of the iteration interface for IPv4 ranges: `2 ^ (32 - mask)` addresses,
counted from the address of the range. -/
def demoIter : IterLib where
  Count := fun c => ((2 ^ (32 - c.mask) : Nat) : Int)
  Nexts := fun c => (List.range (2 ^ (32 - c.mask))).map fun i => fmtV4 (c.ip.val + i)
  ipString := fun c => demoAddrString c.ip

/-- The range `203.0.113.0/30`. -/
def demoRange : CIDR := ⟨Addr.v4 0xCB007100, 30, ""⟩

/-- A context that is never done and a network where nothing answers but `203.0.113.1`
and `203.0.113.3`, on port 443 only. -/
def demoEnv : StreamEnv where
  done := fun _ => false
  dial := fun ip port =>
    if (ip = "203.0.113.1" ∨ ip = "203.0.113.3") ∧ port = 443 then DialResult.connected
    else if port = 80 then DialResult.timeout
    else DialResult.other

/-- Preflight on the ports 80 and 443 with a timeout of 800 ms. -/
def demoPreflight : preflightConfig := ⟨[80, 443], 800000000⟩

/-! ## Dispatch loop (engine.go) -/

/-- The Go struct `scheduledTarget`; `readyAt` is a clock reading in nanoseconds. -/
structure scheduledTarget where
  item : scanTarget
  readyAt : Int
deriving DecidableEq

/-- The case the `select` at the end of a round of `dispatchTargets` takes: a task
received from `taskCh`, `taskCh` found closed, the timer, or `ctx.Done()`. -/
inductive SelectCase where
  | recv (tgt : scanTarget)
  | closed
  | timer
  | ctxDone
deriving DecidableEq

/-- What one round of the loop of `dispatchTargets` may read from outside: `time.Now()`,
the result of `conc.acquireInflight`, whether `ctx.Err()` is non-nil, the results of
`conc.WaitBatch`, whether `pool.Invoke` fails, whether the value on `streamErrCh` is
non-nil, and the case its `select` takes. -/
structure DispatchInput where
  now : Int
  acquired : Bool
  ctxErr : Bool
  granted : Bool
  wait : Int
  invokeFails : Bool
  streamErr : Bool
  sel : SelectCase
deriving DecidableEq

/-- What `dispatchTargets` does to the outside: calls of `conc.DecBacklog`,
`conc.IncBacklog`, `conc.releaseInflight`, `wg.Add(1)`, `wg.Done()`, and `pool.Invoke(tgt)`
with whether it accepted the task. -/
inductive DispatchEffect where
  | decBacklog (n : Int)
  | incBacklog (n : Int)
  | releaseInflight
  | wgAdd
  | wgDone
  | invoke (tgt : scanTarget) (accepted : Bool)
deriving DecidableEq

/-- The errors `dispatchTargets` returns: `ctx.Err()`, the error of `streamTargets`, the
error of `pool.Invoke`. -/
inductive DispatchError where
  | ctx
  | stream
  | invoke
deriving DecidableEq

/-- The local variables of `dispatchTargets` (`timerArmed` stands for `timerC != nil`),
with the tasks received from `taskCh` so far and what was done so far. -/
structure DispatchState where
  pending : List scanTarget
  delayed : List scheduledTarget
  timerArmed : Bool
  taskChOpen : Bool
  canceled : Bool
  received : List scanTarget
  effects : List DispatchEffect
deriving DecidableEq

/-- The state before the first round. -/
def DispatchState.init : DispatchState :=
  ⟨[], [], false, true, false, [], []⟩

/-- The duration `50 * time.Millisecond`. -/
def retryDelay : Int := 50000000

/-- The closure `pushDelayed`: append, then `sort.Slice` by `readyAt` (as an insertion
sort; Go leaves the order of entries with equal `readyAt` open). -/
def pushDelayed (delayed : List scheduledTarget) (entry : scheduledTarget) :
    List scheduledTarget :=
  (delayed ++ [entry]).insertionSort fun a b => a.readyAt ≤ b.readyAt

/-- The closure `popDelayedReady`: the new `pending` and `delayed`. -/
def popDelayedReady (now : Int) :
    List scanTarget → List scheduledTarget → List scanTarget × List scheduledTarget
  | pending, [] => (pending, [])
  | pending, d :: rest =>
    if d.readyAt ≤ now then popDelayedReady now (pending ++ [d.item]) rest
    else (pending, d :: rest)

/-- The value of `ctx.Err()` as a returned error. -/
def ctxError (inp : DispatchInput) : Option DispatchError :=
  if inp.ctxErr then some DispatchError.ctx else none

/-- The body of `if len(pending) > 0` in a round of `dispatchTargets`, after `tgt` has been
taken from `pending`: the state after it, and `some err` when the function returned `err`
there. -/
def submitTask (hasConc : Bool) (s : DispatchState) (tgt : scanTarget) (inp : DispatchInput) :
    DispatchState × Option (Option DispatchError) :=
  if hasConc then
    let s : DispatchState := { s with effects := s.effects ++ [DispatchEffect.decBacklog 1] }
    if inp.acquired = false then
      if inp.ctxErr then (s, some (some DispatchError.ctx))
      else
        ({ s with effects := s.effects ++ [DispatchEffect.incBacklog 1],
                  delayed := pushDelayed s.delayed ⟨tgt, inp.now + retryDelay⟩,
                  timerArmed := true }, none)
    else if inp.granted = false then
      let readyAt := if inp.wait ≤ 0 then inp.now + retryDelay else inp.now + inp.wait
      ({ s with effects := s.effects ++
                  [DispatchEffect.releaseInflight, DispatchEffect.incBacklog 1],
                delayed := pushDelayed s.delayed ⟨tgt, readyAt⟩,
                timerArmed := true }, none)
    else if inp.invokeFails then
      ({ s with effects := s.effects ++
          [DispatchEffect.wgAdd, DispatchEffect.invoke tgt false, DispatchEffect.wgDone,
           DispatchEffect.releaseInflight] }, some (some DispatchError.invoke))
    else
      ({ s with effects := s.effects ++
          [DispatchEffect.wgAdd, DispatchEffect.invoke tgt true] }, none)
  else if inp.invokeFails then
    ({ s with effects := s.effects ++
        [DispatchEffect.wgAdd, DispatchEffect.invoke tgt false, DispatchEffect.wgDone] },
      some (some DispatchError.invoke))
  else
    ({ s with effects := s.effects ++
        [DispatchEffect.wgAdd, DispatchEffect.invoke tgt true] }, none)

/-- The rest of a round of `dispatchTargets` when `pending` is empty: the check of the
closed stream and the `select`. -/
def awaitEvent (s : DispatchState) (inp : DispatchInput) :
    DispatchState × Option (Option DispatchError) :=
  if s.taskChOpen = false ∧ s.delayed.length = 0 then
    if s.canceled ∧ inp.streamErr = false then (s, some (ctxError inp))
    else (s, some (if inp.streamErr then some DispatchError.stream else none))
  else
    match inp.sel with
    | SelectCase.recv tgt =>
      ({ s with pending := s.pending ++ [tgt], received := s.received ++ [tgt] }, none)
    | SelectCase.closed => ({ s with taskChOpen := false }, none)
    | SelectCase.timer => (s, none)
    | SelectCase.ctxDone =>
      let s : DispatchState := { s with canceled := true }
      if s.taskChOpen = false ∧ s.pending.length = 0 ∧ s.delayed.length = 0 then
        if inp.streamErr then (s, some (some DispatchError.stream))
        else (s, some (ctxError inp))
      else (s, none)

/-- One round of the loop `for` of `dispatchTargets`: the state after it, and `some err`
when the function returned `err` in this round. -/
def dispatchRound (hasConc : Bool) (s : DispatchState) (inp : DispatchInput) :
    DispatchState × Option (Option DispatchError) :=
  let p := popDelayedReady inp.now s.pending s.delayed
  let s : DispatchState :=
    { s with pending := p.1, delayed := p.2, timerArmed := decide (p.2.length > 0) }
  match s.pending with
  | tgt :: rest => submitTask hasConc { s with pending := rest } tgt inp
  | [] => awaitEvent s inp

/-- The loop `for` of `dispatchTargets` over the rounds for which input is given: the
state reached, and `some err` when the function returned `err`. -/
def dispatchLoop (hasConc : Bool) :
    DispatchState → List DispatchInput → DispatchState × Option (Option DispatchError)
  | s, [] => (s, none)
  | s, inp :: rest =>
    match dispatchRound hasConc s inp with
    | (s, some err) => (s, some err)
    | (s, none) => dispatchLoop hasConc s rest

/-- The tasks `pool.Invoke` accepted, in order. -/
def submittedOf (effects : List DispatchEffect) : List scanTarget :=
  effects.filterMap fun e =>
    match e with
    | DispatchEffect.invoke tgt true => some tgt
    | _ => none

/-- The tasks held in `delayed`. -/
def delayedItems (delayed : List scheduledTarget) : List scanTarget :=
  delayed.map fun d => d.item

/-- The tasks received so far are, counted with multiplicity, those `pool.Invoke`
accepted, those in `pending`, those in `delayed`, and those of `dropped`. -/
def Accounted (s : DispatchState) (dropped : List scanTarget) : Prop :=
  s.received.Perm (submittedOf s.effects ++ s.pending ++ delayedItems s.delayed ++ dropped)

/-- A task of the examples. -/
def demoTask : scanTarget := ⟨"203.0.113.1", "80", []⟩

/-- Another task of the examples. -/
def demoTask2 : scanTarget := ⟨"203.0.113.1", "443", []⟩

/-- Four rounds: a task arrives and the rate limiter makes it wait 5 ns; a second task
arrives; then the context is cancelled while the dispatcher waits for an inflight slot. -/
def demoCancelRounds : List DispatchInput :=
  [⟨0, true, false, true, 0, false, false, SelectCase.recv demoTask⟩,
   ⟨1, true, false, false, 5, false, false, SelectCase.timer⟩,
   ⟨2, true, false, true, 0, false, false, SelectCase.recv demoTask2⟩,
   ⟨3, false, true, true, 0, false, false, SelectCase.ctxDone⟩]

/-- Four rounds: a task arrives and is submitted, the stream closes, the loop returns. -/
def demoCleanRounds : List DispatchInput :=
  [⟨0, true, false, true, 0, false, false, SelectCase.recv demoTask⟩,
   ⟨1, true, false, true, 0, false, false, SelectCase.timer⟩,
   ⟨2, true, false, true, 0, false, false, SelectCase.closed⟩,
   ⟨3, true, false, true, 0, false, false, SelectCase.timer⟩]

/-- The snapshot the tick of `demoRounds` emits. -/
def demoSnapshot : Progress := ⟨10, 0, 3, 5, 0, 0, 0, 2, 7, 1000⟩

/-! ## Defaults of the scan parameters (params.go, engine.go) -/

/-- The Go struct `DefaultOptions`. -/
structure DefaultOptions where
  Ports : String
  Mode : String
  Delay : Int
  HTTPSDelay : Int
  Exploit : String
  Verbose : Int
  PortProbe : String
  IPProbe : String
  ResolveHosts : Bool
  ResolveIPv6 : Bool
  PreflightEnabled : Bool
  PreflightPorts : String
  PreflightTimeout : Int
  AllowLoopback : Bool
  AllowPrivate : Bool
  Worker : String
  Concurrency : ConcurrencyOptions
deriving DecidableEq

/-- The zero value of `DefaultOptions`. -/
def DefaultOptions.zero : DefaultOptions :=
  { Ports := "", Mode := "", Delay := 0, HTTPSDelay := 0, Exploit := "", Verbose := 0,
    PortProbe := "", IPProbe := "", ResolveHosts := false, ResolveIPv6 := false,
    PreflightEnabled := false, PreflightPorts := "", PreflightTimeout := 0,
    AllowLoopback := false, AllowPrivate := false, Worker := "",
    Concurrency := ⟨"", 0, 0, 0, 0⟩ }

/-- The mode `mergeConcurrencyOptions` resolves: the first statements of the function, up
to `result.Mode = mode`. -/
def mergedMode (t : CaseTables) (user : ConcurrencyOptions) (legacyThreads : Int)
    (defaults : ConcurrencyOptions) : String :=
  let mode := normalizeConcurrencyMode t user.Mode
  let mode :=
    if mode = "" then
      if legacyThreads > 0 then ConcurrencyModeManual
      else normalizeConcurrencyMode t defaults.Mode
    else mode
  if mode = "" then ConcurrencyModeAuto else mode

/-- The four statements of `mergeConcurrencyOptions` on `MaxPPS` and `PerIPMaxPPS`, which
are the same in both branches of its `switch`. -/
def mergedRates (user result : ConcurrencyOptions) : ConcurrencyOptions :=
  let result := if user.MaxPPS > 0 then { result with MaxPPS := user.MaxPPS } else result
  let result := if result.MaxPPS < 0 then { result with MaxPPS := 0 } else result
  let result :=
    if user.PerIPMaxPPS > 0 then { result with PerIPMaxPPS := user.PerIPMaxPPS } else result
  if result.PerIPMaxPPS < 0 then { result with PerIPMaxPPS := 0 } else result

/-- The thread count of the manual branch of `mergeConcurrencyOptions`. -/
def mergedThreads (user : ConcurrencyOptions) (legacyThreads : Int)
    (defaults : ConcurrencyOptions) : Int :=
  let threads := user.Threads
  let threads := if threads ≤ 0 then legacyThreads else threads
  let threads := if threads ≤ 0 then defaults.Threads else threads
  if threads ≤ 0 then 64 else threads

/-- The ceiling of the auto branch of `mergeConcurrencyOptions`, for `result.MaxThreads`
starting at `defaults.MaxThreads`. -/
def mergedMaxThreads (user defaults : ConcurrencyOptions) : Int :=
  let maxThreads := defaults.MaxThreads
  let maxThreads := if user.MaxThreads > 0 then user.MaxThreads else maxThreads
  let maxThreads := if maxThreads ≤ 0 then defaults.MaxThreads else maxThreads
  if maxThreads ≤ 0 then 512 else maxThreads

/-- The Go function `mergeConcurrencyOptions`: the resolved options and `compatThreads`. -/
def mergeConcurrencyOptions (t : CaseTables) (user : ConcurrencyOptions) (legacyThreads : Int)
    (defaults : ConcurrencyOptions) : ConcurrencyOptions × Int :=
  let mode := mergedMode t user legacyThreads defaults
  let result : ConcurrencyOptions := { defaults with Mode := mode }
  if mode = ConcurrencyModeManual then
    let threads := mergedThreads user legacyThreads defaults
    let result := mergedRates user { result with Threads := threads }
    ({ result with MaxThreads := 0 }, threads)
  else
    let result := mergedRates user { result with MaxThreads := mergedMaxThreads user defaults }
    ({ result with Threads := 0 }, 0)

/-- The Go method `ScanParams.WithDefaults`, field by field: each assignment of the Go
code changes one field of the copy `cp` and reads only that field and `d`. -/
def ScanParams.WithDefaults (t : CaseTables) (p : ScanParams) (d : DefaultOptions) :
    ScanParams :=
  { p with
    Ports := if TrimSpace p.Ports = "" then d.Ports else p.Ports
    Mode := if TrimSpace p.Mode = "" then d.Mode else p.Mode
    Delay := if p.Delay ≤ 0 then d.Delay else p.Delay
    HTTPSDelay := if p.HTTPSDelay < 0 then d.HTTPSDelay else p.HTTPSDelay
    Exploit := if TrimSpace p.Exploit = "" then d.Exploit else p.Exploit
    Verbose := if p.Verbose < 0 then d.Verbose else p.Verbose
    PortProbe := if TrimSpace p.PortProbe = "" then d.PortProbe else p.PortProbe
    IPProbe := if TrimSpace p.IPProbe = "" then d.IPProbe else p.IPProbe
    ResolveHosts := d.ResolveHosts || p.ResolveHosts
    ResolveIPv6 := d.ResolveIPv6 || p.ResolveIPv6
    PreflightPorts :=
      if TrimSpace p.PreflightPorts = "" then d.PreflightPorts else p.PreflightPorts
    PreflightTimeout := if p.PreflightTimeout ≤ 0 then d.PreflightTimeout else p.PreflightTimeout
    PreflightEnabled := p.PreflightEnabled || d.PreflightEnabled
    AllowLoopback := p.AllowLoopback || d.AllowLoopback
    AllowPrivate := p.AllowPrivate || d.AllowPrivate
    Worker := if TrimSpace p.Worker ≠ "" then TrimSpace p.Worker else TrimSpace d.Worker
    Concurrency := (mergeConcurrencyOptions t p.Concurrency p.Threads d.Concurrency).1
    Threads := (mergeConcurrencyOptions t p.Concurrency p.Threads d.Concurrency).2 }

/-- The constant `defaultModeValue`. -/
def defaultModeValue : String := "default"

/-- The constant `defaultPreflightPortsSpec`. -/
def defaultPreflightPortsSpec : String := "80,443,53,3389"

/-- The value `int(defaultPreflightTimeout / time.Millisecond)`. -/
def defaultPreflightTimeoutMs : Int := 500

/-- The constant `defaultPerIPMaxPPS`. -/
def defaultPerIPMaxPPS : Int := 20

/-- The four statements of `normalizeDefaultConcurrency` on `MaxPPS` and `PerIPMaxPPS`,
which are the same in both branches of its `switch`. -/
def defaultRates (opts : ConcurrencyOptions) : ConcurrencyOptions :=
  let opts := if opts.MaxPPS ≤ 0 then { opts with MaxPPS := defaultGlobalMaxPPS } else opts
  let opts :=
    if opts.PerIPMaxPPS ≤ 0 then { opts with PerIPMaxPPS := defaultPerIPMaxPPS } else opts
  let opts := if opts.MaxPPS < 0 then { opts with MaxPPS := 0 } else opts
  if opts.PerIPMaxPPS < 0 then { opts with PerIPMaxPPS := 0 } else opts

/-- The Go function `normalizeDefaultConcurrency`. -/
def normalizeDefaultConcurrency (h : Host) (t : CaseTables) (opts : ConcurrencyOptions) :
    ConcurrencyOptions :=
  let mode := normalizeConcurrencyMode t opts.Mode
  let mode := if mode = "" then ConcurrencyModeAuto else mode
  let opts := { opts with Mode := mode }
  if mode = ConcurrencyModeManual then
    let opts := if opts.Threads ≤ 0 then { opts with Threads := defaultThreadCount h } else opts
    let opts := defaultRates opts
    { opts with MaxThreads := 0 }
  else
    let opts :=
      if opts.MaxThreads ≤ 0 then { opts with MaxThreads := defaultAutoMaxThreads h } else opts
    let opts := defaultRates opts
    { opts with Threads := 0 }

/-- The Go function `normalizeDefaults`, field by field. -/
def normalizeDefaults (h : Host) (t : CaseTables) (d : DefaultOptions) : DefaultOptions :=
  { d with
    Ports := if TrimSpace d.Ports = "" then "top1" else d.Ports
    Mode := if TrimSpace d.Mode = "" then defaultModeValue else d.Mode
    Delay := if d.Delay ≤ 0 then 2 else d.Delay
    HTTPSDelay := if d.HTTPSDelay < 0 then 2 else d.HTTPSDelay
    Exploit := if TrimSpace d.Exploit = "" then "none" else d.Exploit
    Verbose := if d.Verbose < 0 then 0 else d.Verbose
    PortProbe := if TrimSpace d.PortProbe = "" then defaultModeValue else d.PortProbe
    IPProbe := if TrimSpace d.IPProbe = "" then defaultModeValue else d.IPProbe
    PreflightPorts :=
      if TrimSpace d.PreflightPorts = "" then defaultPreflightPortsSpec else d.PreflightPorts
    PreflightTimeout :=
      if d.PreflightTimeout ≤ 0 then defaultPreflightTimeoutMs else d.PreflightTimeout
    Concurrency := normalizeDefaultConcurrency h t d.Concurrency }

/-- Parameters of a caller of the old interface: sixteen threads in the deprecated field, a
mode the engine does not know. -/
def demoLegacyParams : ScanParams :=
  { ScanParams.zero with Threads := 16, Concurrency := ⟨"fast", 0, 7, -1, 0⟩,
                         Worker := " w1 ", Ports := "80" }

/-- Defaults of an engine in auto mode with unset rates. -/
def demoDefaults : DefaultOptions :=
  { DefaultOptions.zero with Concurrency := ⟨"Auto", 3, 0, 0, -5⟩, Worker := "main" }

/-! ## Statistics, preflight dialling and the delayed queue -/

/-- The ports `dialLoop` dials, in order: the loop of `runPreflight` with its calls of
`dialer.DialContext` written down. -/
def dialTrace (E : StreamEnv) (ip : String) : Nat → List Int → List Int
  | _, [] => []
  | k, port :: rest =>
    if E.done k then []
    else
      match E.dial ip port with
      | DialResult.connected => [port]
      | DialResult.canceled => [port]
      | DialResult.timeout => port :: dialTrace E ip (k + 1) rest
      | DialResult.other => port :: dialTrace E ip (k + 1) rest

/-- The elements of a list up to and including the first that satisfies `p`; all of them
when none does. -/
def upToFirst {α : Type} (p : α → Bool) : List α → List α
  | [] => []
  | a :: l => if p a then [a] else a :: upToFirst p l

/-- The order of the delayed queue: by `readyAt`. -/
def readyOrder (a b : scheduledTarget) : Prop := a.readyAt ≤ b.readyAt

instance readyOrder_total : IsTotal scheduledTarget readyOrder :=
  ⟨fun a b => le_total a.readyAt b.readyAt⟩

instance readyOrder_trans : IsTrans scheduledTarget readyOrder :=
  ⟨fun _ _ _ h1 h2 => le_trans h1 h2⟩

instance readyOrder_decidable : DecidableRel readyOrder :=
  fun a b => inferInstanceAs (Decidable (a.readyAt ≤ b.readyAt))

/-! ## Port prioritisation (`engine.go`) -/

/-- The function `utils.ParsePortsString` of the gogo library, which names the ports of a
priority layer such as `top1`. -/
structure PortLib where
  ParsePortsString : String → List String

/-- The inner loop of `prioritizePorts` over one priority layer: a port of the layer is
appended to `result` when it is in `original` and not yet in `seen`. The map `seen` holds
exactly the elements of `result`, and `original` exactly those of `ports`. -/
def takeLayer (original : List String) : List String → List String → List String
  | result, [] => result
  | result, port :: layer =>
    if port ∉ original then takeLayer original result layer
    else if port ∈ result then takeLayer original result layer
    else takeLayer original (result ++ [port]) layer

/-- The last loop of `prioritizePorts`: a port is appended when it is not yet in `seen`. -/
def takeRest : List String → List String → List String
  | result, [] => result
  | result, port :: ports =>
    if port ∈ result then takeRest result ports
    else takeRest (result ++ [port]) ports

/-- The names of the priority layers in `prioritizePorts`. -/
def priorityNames : List String := ["top1", "top2", "top3"]

/-- The function `prioritizePorts`. -/
def prioritizePorts (L : PortLib) (ports : List String) : List String :=
  if ports.length ≤ 1 then ports
  else
    let result := priorityNames.foldl
      (fun result name => takeLayer ports result (L.ParsePortsString name)) []
    takeRest result ports

/-- The ports of the three priority layers, in the order the layers are read. -/
def layerPorts (L : PortLib) : List String :=
  L.ParsePortsString "top1" ++ L.ParsePortsString "top2" ++ L.ParsePortsString "top3"

/-- A port library whose layers overlap and hold ports that were not asked for. -/
def demoPortLib : PortLib where
  ParsePortsString := fun name =>
    if name = "top1" then ["80", "443", "80"]
    else if name = "top2" then ["22", "443", "8080"]
    else if name = "top3" then ["3306"]
    else []

/-! ## One step of the tuning loop (C24) -/

/-- A manager of an auto run with at most 256 workers. -/
def demoTuneManager : concurrencyManager :=
  newConcurrencyManager demoHost demoCase ⟨"Auto ", 0, 256, 0, 0⟩ ScanParams.zero 0

/-! ## Fingerprint rules (`backend/fingerprint/ruleset.go`) -/

/-- The Go struct `MatcherConfig`; its field `Type` is `type` here. -/
structure MatcherConfig where
  type : String
  Key : String
  Pattern : String
  Contains : String
  Equals : String
  IgnoreCase : Bool
deriving DecidableEq

/-- The Go struct `Rule`. -/
structure Rule where
  ID : String
  Service : String
  Product : String
  Version : String
  Confidence : Int
  Ports : List Int
  Protocols : List String
  Matchers : List MatcherConfig
  Tags : List String
deriving DecidableEq

/-- The Go struct `HTTPInfo`; the map `Headers` is the list of its entries. -/
structure HTTPInfo where
  Status : Int
  Headers : List (String × String)
  Title : String
  Server : String
  BodySample : String
  URL : String
  Path : String
deriving DecidableEq

/-- The Go struct `TLSInfo`. -/
structure TLSInfo where
  Version : String
  CipherSuite : String
  CertIssuer : String
  CertSubject : String
  SANs : List String
deriving DecidableEq

/-- The Go struct `Evidence`, without the field `RawProtocols`, which `ruleset.go` does not
read; the map `Passive` is the list of its entries. -/
structure Evidence where
  Banner : String
  HTTP : Option HTTPInfo
  HTTPs : List HTTPInfo
  TLS : Option TLSInfo
  Passive : List (String × String)
  FaviconHash : String
deriving DecidableEq

/-- The Go struct `Input`, without the maps `Hints` and `PassiveAttrs`, which `ruleset.go`
does not read. -/
structure Input where
  Host : String
  IP : String
  Port : Int
  Scheme : String
deriving DecidableEq

/-- The Go struct `MatchResult`. -/
structure MatchResult where
  Service : String
  Product : String
  Version : String
  Confidence : Int
  RuleID : String
  Tags : List String
deriving DecidableEq

/-- The value `MatchResult{}`. -/
def MatchResult.zero : MatchResult := ⟨"", "", "", 0, "", []⟩

/-- The value `Evidence{}`. -/
def Evidence.zero : Evidence := ⟨"", none, [], none, [], ""⟩

/-- The value `HTTPInfo{}`. -/
def HTTPInfo.zero : HTTPInfo := ⟨0, [], "", "", "", "", ""⟩

/-- What `ruleset.go` calls outside the repository and this file does not write out:
whether `regexp.Compile` accepts an expression, whether the `*Regexp` compiled from an
expression matches a string (`MatchString`), and `strings.EqualFold`. -/
structure TextLib where
  compiles : String → Bool
  MatchString : String → String → Bool
  EqualFold : String → String → Bool

/-- The characters `regexp.QuoteMeta` escapes: the backslash and `.+*?()|[]` with the two
braces, `^` and `$`. -/
def isSpecial (c : Char) : Bool :=
  c.toNat = 92 || c = '.' || c = '+' || c = '*' || c = '?' || c = '(' || c = ')' ||
  c = '|' || c = '[' || c = ']' || c.toNat = 123 || c.toNat = 125 || c = '^' || c = '$'

/-- The function `regexp.QuoteMeta` on the characters of a string. -/
def quoteChars : List Char → List Char
  | [] => []
  | c :: rest => if isSpecial c then Char.ofNat 92 :: c :: quoteChars rest
                 else c :: quoteChars rest

/-- The function `regexp.QuoteMeta`. -/
def QuoteMeta (s : String) : String := String.mk (quoteChars s.data)

/-- The value `m[key]` of a Go map of strings: the empty string when the key is absent. -/
def mapGet (m : List (String × String)) (key : String) : String :=
  match m.find? fun kv => kv.1 = key with
  | some kv => kv.2
  | none => ""

/-- The errors of `buildMatcher`: `empty favicon matcher`, `empty matcher pattern`,
`unknown matcher type` with the type, and the error of `regexp.Compile` with the
expression it rejected. -/
inductive MatcherError where
  | emptyFavicon
  | emptyPattern
  | unknownType (type : String)
  | badPattern (expr : String)
deriving DecidableEq

/-- The errors of `compileRules`: `rule missing id`, and `compile rule` with the id of the
rule and the error of `compileRule`. -/
inductive RuleSetError where
  | missingId
  | compileRule (id : String) (err : MatcherError)
deriving DecidableEq

/-- The function `regexp.Compile`: the compiled expression is known by its text. -/
def regexpCompile (L : TextLib) (expr : String) : Except MatcherError String :=
  if L.compiles expr then Except.ok expr else Except.error (MatcherError.badPattern expr)

/-- The Go function `compilePattern`. -/
def compilePattern (L : TextLib) (cfg : MatcherConfig) : Except MatcherError String :=
  if cfg.Pattern ≠ "" then
    if cfg.IgnoreCase then regexpCompile L ("(?i)" ++ cfg.Pattern)
    else regexpCompile L cfg.Pattern
  else
    let pattern :=
      if cfg.Contains ≠ "" then QuoteMeta cfg.Contains
      else if cfg.Equals ≠ "" then "^" ++ QuoteMeta cfg.Equals ++ "$"
      else ""
    if pattern = "" then Except.error MatcherError.emptyPattern
    else
      let pattern := if cfg.IgnoreCase then "(?i)" ++ pattern else pattern
      regexpCompile L pattern

/-- The Go function `gatherHTTPInfos`. -/
def gatherHTTPInfos (ev : Evidence) : List HTTPInfo :=
  if ev.HTTPs.length > 0 then ev.HTTPs
  else
    match ev.HTTP with
    | some info => [info]
    | none => []

/-- The closures `buildMatcher` returns, one constructor for each case of its `switch`,
with the variables the closure captured (`re`, `key`, `expected`). -/
inductive matcherFunc where
  | banner (re : String)
  | httpHeader (re key : String)
  | httpTitle (re : String)
  | httpBody (re : String)
  | httpHeaderAny (re : String)
  | httpFavicon (expected : String)
  | tlsSubject (re : String)
  | passive (re key : String)
deriving DecidableEq

/-- The call `fn(input, evidence)` of a closure of `buildMatcher`. -/
def matcherFunc.run (L : TextLib) (fn : matcherFunc) (_input : Input) (ev : Evidence) : Bool :=
  match fn with
  | matcherFunc.banner re => L.MatchString re ev.Banner
  | matcherFunc.httpHeader re key =>
    (gatherHTTPInfos ev).any fun info => L.MatchString re (mapGet info.Headers key)
  | matcherFunc.httpTitle re => (gatherHTTPInfos ev).any fun info => L.MatchString re info.Title
  | matcherFunc.httpBody re =>
    (gatherHTTPInfos ev).any fun info => L.MatchString re info.BodySample
  | matcherFunc.httpHeaderAny re =>
    (gatherHTTPInfos ev).any fun info => info.Headers.any fun kv => L.MatchString re kv.2
  | matcherFunc.httpFavicon expected => L.EqualFold ev.FaviconHash expected
  | matcherFunc.tlsSubject re =>
    match ev.TLS with
    | none => false
    | some tls => L.MatchString re tls.CertSubject
  | matcherFunc.passive re key => L.MatchString re (mapGet ev.Passive key)

/-- The Go function `buildMatcher`. -/
def buildMatcher (L : TextLib) (t : CaseTables) (cfg : MatcherConfig) :
    Except MatcherError matcherFunc :=
  if cfg.type = "banner" then
    match compilePattern L cfg with
    | Except.error err => Except.error err
    | Except.ok re => Except.ok (matcherFunc.banner re)
  else if cfg.type = "http_header" then
    match compilePattern L cfg with
    | Except.error err => Except.error err
    | Except.ok re => Except.ok (matcherFunc.httpHeader re (ToLower t cfg.Key))
  else if cfg.type = "http_title" then
    match compilePattern L cfg with
    | Except.error err => Except.error err
    | Except.ok re => Except.ok (matcherFunc.httpTitle re)
  else if cfg.type = "http_body" then
    match compilePattern L cfg with
    | Except.error err => Except.error err
    | Except.ok re => Except.ok (matcherFunc.httpBody re)
  else if cfg.type = "http_header_any" then
    match compilePattern L cfg with
    | Except.error err => Except.error err
    | Except.ok re => Except.ok (matcherFunc.httpHeaderAny re)
  else if cfg.type = "http_favicon" then
    let expected := TrimSpace cfg.Equals
    if expected = "" then Except.error MatcherError.emptyFavicon
    else Except.ok (matcherFunc.httpFavicon expected)
  else if cfg.type = "tls_subject" then
    match compilePattern L cfg with
    | Except.error err => Except.error err
    | Except.ok re => Except.ok (matcherFunc.tlsSubject re)
  else if cfg.type = "passive" then
    match compilePattern L cfg with
    | Except.error err => Except.error err
    | Except.ok re => Except.ok (matcherFunc.passive re (ToLower t cfg.Key))
  else Except.error (MatcherError.unknownType cfg.type)

/-- The Go struct `compiledRule`. -/
structure compiledRule where
  raw : Rule
  matchers : List matcherFunc
deriving DecidableEq

/-- The Go struct `RuleSet`. -/
structure RuleSet where
  rules : List compiledRule
deriving DecidableEq

/-- The loop of `compileRule` over the matchers that are left, `matchers` being
`cr.matchers`. -/
def compileMatchers (L : TextLib) (t : CaseTables) (matchers : List matcherFunc) :
    List MatcherConfig → Except MatcherError (List matcherFunc)
  | [] => Except.ok matchers
  | cfg :: rest =>
    match buildMatcher L t cfg with
    | Except.error err => Except.error err
    | Except.ok mf => compileMatchers L t (matchers ++ [mf]) rest

/-- The Go function `compileRule`. -/
def compileRule (L : TextLib) (t : CaseTables) (rule : Rule) :
    Except MatcherError compiledRule :=
  match compileMatchers L t [] rule.Matchers with
  | Except.error err => Except.error err
  | Except.ok matchers => Except.ok ⟨rule, matchers⟩

/-- The loop of `compileRules` over the rules that are left, `rules` being `rs.rules`. -/
def compileRulesFrom (L : TextLib) (t : CaseTables) (rules : List compiledRule) :
    List Rule → Except RuleSetError RuleSet
  | [] => Except.ok ⟨rules⟩
  | rule :: rest =>
    if rule.ID = "" then Except.error RuleSetError.missingId
    else
      match compileRule L t rule with
      | Except.error err => Except.error (RuleSetError.compileRule rule.ID err)
      | Except.ok compiled => compileRulesFrom L t (rules ++ [compiled]) rest

/-- The Go function `compileRules`, which `ParseRuleSet` calls on the decoded list. -/
def compileRules (L : TextLib) (t : CaseTables) (list : List Rule) :
    Except RuleSetError RuleSet :=
  compileRulesFrom L t [] list

/-- The Go function `ruleMatchesPort`. -/
def ruleMatchesPort (rule : Rule) (port : Int) : Bool :=
  if rule.Ports.length = 0 then true
  else rule.Ports.any fun p => p = port

/-- The Go function `ruleMatchesProto`. -/
def ruleMatchesProto (t : CaseTables) (rule : Rule) (proto : String) : Bool :=
  if rule.Protocols.length = 0 then true
  else
    let proto := ToLower t proto
    rule.Protocols.any fun p => ToLower t p = proto

/-- The result `Match` returns for a rule that matched. -/
def resultOf (raw : Rule) : MatchResult :=
  { Service := raw.Service, Product := raw.Product, Version := raw.Version,
    Confidence := raw.Confidence, RuleID := raw.ID, Tags := raw.Tags }

/-- The loop of `Match` over the rules that are left. -/
def matchRules (L : TextLib) (t : CaseTables) (input : Input) (evidence : Evidence) :
    List compiledRule → MatchResult
  | [] => MatchResult.zero
  | rule :: rest =>
    if !ruleMatchesPort rule.raw input.Port || !ruleMatchesProto t rule.raw input.Scheme then
      matchRules L t input evidence rest
    else if rule.matchers.all fun fn => fn.run L input evidence then resultOf rule.raw
    else matchRules L t input evidence rest

/-- The Go method `Match`. -/
def RuleSet.Match (L : TextLib) (t : CaseTables) (rs : RuleSet) (input : Input)
    (evidence : Evidence) : MatchResult :=
  matchRules L t input evidence rs.rules

/-- The matcher types whose closure is built from `compilePattern`. -/
def patternTypes : List String :=
  ["banner", "http_header", "http_title", "http_body", "http_header_any", "tls_subject",
   "passive"]

/-- The expression `compilePattern` hands to `regexp.Compile`, when there is one. -/
def patternExpr (cfg : MatcherConfig) : Option String :=
  if cfg.Pattern ≠ "" then
    some (if cfg.IgnoreCase then "(?i)" ++ cfg.Pattern else cfg.Pattern)
  else if cfg.Contains ≠ "" then
    some (if cfg.IgnoreCase then "(?i)" ++ QuoteMeta cfg.Contains else QuoteMeta cfg.Contains)
  else if cfg.Equals ≠ "" then
    some (if cfg.IgnoreCase then "(?i)" ++ ("^" ++ QuoteMeta cfg.Equals ++ "$")
          else "^" ++ QuoteMeta cfg.Equals ++ "$")
  else none

/-- A matcher `buildMatcher` rejects: its type is unknown; or it is built from a pattern
and has none (`pattern`, `contains` and `equals` all empty) or one that `regexp.Compile`
rejects; or it is an `http_favicon` matcher whose `equals` is blank. -/
def badMatcher (L : TextLib) (cfg : MatcherConfig) : Prop :=
  (cfg.type ∉ patternTypes ∧ cfg.type ≠ "http_favicon") ∨
  (cfg.type ∈ patternTypes ∧ cfg.Pattern = "" ∧ cfg.Contains = "" ∧ cfg.Equals = "") ∨
  (cfg.type ∈ patternTypes ∧ ∃ expr, patternExpr cfg = some expr ∧ L.compiles expr = false) ∨
  (cfg.type = "http_favicon" ∧ TrimSpace cfg.Equals = "")

/-- The text a literal expression of package `regexp` stands for, `escaped` telling whether
the character before was an unescaped backslash: a plain character and an escaped special
character stand for themselves; an unescaped special character, or a backslash before
another character, makes the expression no literal. -/
def literalFrom : Bool → List Char → Option (List Char)
  | escaped, [] => if escaped then none else some []
  | true, c :: rest => if isSpecial c then (literalFrom false rest).map fun l => c :: l else none
  | false, c :: rest =>
    if c.toNat = 92 then literalFrom true rest
    else if isSpecial c then none
    else (literalFrom false rest).map fun l => c :: l

/-- The text a literal expression stands for. -/
def literalOf (expr : List Char) : Option (List Char) := literalFrom false expr

/-- A regexp library that reads a literal expression as package `regexp` does (it compiles,
and it matches the strings that contain its text) and every other expression as `M`
does. -/
def withLiterals (M : TextLib) : TextLib where
  compiles := fun expr => (literalOf expr.data).isSome || M.compiles expr
  MatchString := fun expr s =>
    match literalOf expr.data with
    | some l => Contains s (String.mk l)
    | none => M.MatchString expr s
  EqualFold := M.EqualFold

/-- An instance for literal expressions only: such an expression compiles and matches the
strings that contain its text; `EqualFold` compares the lower-case forms of `demoCase`. -/
def demoText : TextLib where
  compiles := fun expr => (literalOf expr.data).isSome
  MatchString := fun expr s =>
    match literalOf expr.data with
    | some l => Contains s (String.mk l)
    | none => false
  EqualFold := fun a b => ToLower demoCase a = ToLower demoCase b

/-- The rule of `TestMatchHTTPBodyMatcher`. -/
def demoBodyRule : Rule :=
  ⟨"test-body", "http", "", "", 50, [], [], [⟨"http_body", "", "", "hello", "", false⟩], []⟩

/-- The rule of `TestMatchHTTPBodyMultipleResponses`. -/
def demoMultiRule : Rule :=
  ⟨"test-body-multi", "http", "", "", 50, [], [], [⟨"http_body", "", "foo", "", "", false⟩],
    []⟩

/-- The rule of `TestParseRuleSetInvalidRule`. -/
def demoInvalidRule : Rule := ⟨"", "http", "", "", 0, [], [], [], []⟩

/-- A rule with a favicon matcher whose `equals` is a blank. -/
def demoBlankFavicon : Rule :=
  ⟨"blank-favicon", "http", "", "", 50, [], [], [⟨"http_favicon", "", "", "", " ", false⟩],
    []⟩

/-- The input of the tests of `ruleset_test.go`. -/
def demoInput : Input := ⟨"", "", 80, "http"⟩

/-- The evidence of `TestMatchHTTPBodyMatcher`. -/
def demoBodyEvidence : Evidence :=
  { Evidence.zero with HTTP := some { HTTPInfo.zero with BodySample := "say hello world" } }

/-- The evidence of `TestMatchHTTPBodyMultipleResponses`. -/
def demoMultiEvidence : Evidence :=
  { Evidence.zero with
    HTTPs := [{ HTTPInfo.zero with BodySample := "bar" },
              { HTTPInfo.zero with BodySample := "foo baz" }] }

/-- A rule whose `contains` text holds a character that is special in an expression. -/
def demoDotRule : Rule :=
  ⟨"test-dot", "http", "", "", 50, [], [], [⟨"http_body", "", "", "v1.2", "", false⟩], []⟩

/-- A response whose body contains the text `v1.2`. -/
def demoDotEvidence : Evidence :=
  { Evidence.zero with HTTP := some { HTTPInfo.zero with BodySample := "server v1.2 (ok)" } }

/-- A response whose body contains `v1x2`, which the expression `v1.2` without its
backslash would match, and not the text `v1.2`. -/
def demoDotOther : Evidence :=
  { Evidence.zero with HTTP := some { HTTPInfo.zero with BodySample := "server v1x2 (ok)" } }

/-- A rule whose pattern is an opening parenthesis. -/
def demoBadPattern : Rule :=
  ⟨"bad-pattern", "http", "", "", 50, [], [], [⟨"banner", "", "(", "", "", false⟩], []⟩

end Mfinder

/-! # Theorems -/

namespace Mfinder

/-! ## Integer and float64 arithmetic of Go -/

theorem truncToInt_intCast (n : Int) : truncToInt (n : ℚ) = n := by
  unfold truncToInt
  split
  · exact Int.floor_intCast n
  · rw [← Int.cast_neg, Int.floor_intCast]; omega

theorem bitLength_zero (fuel : Nat) : bitLength fuel 0 = 0 := by
  cases fuel <;> simp [bitLength]

theorem bitLength_spec : ∀ (fuel n : Nat), n ≤ fuel → n ≠ 0 →
    ∃ k, bitLength fuel n = k + 1 ∧ 2 ^ k ≤ n ∧ n < 2 ^ (k + 1) := by
  intro fuel
  induction fuel with
  | zero => intro n hn h0; omega
  | succ f ih =>
    intro n hn h0
    unfold bitLength
    rw [if_neg h0]
    by_cases h1 : n / 2 = 0
    · refine ⟨0, ?_, ?_, ?_⟩
      · rw [h1, bitLength_zero]
      · simp; omega
      · simp; omega
    · obtain ⟨k, hk, hlo, hhi⟩ := ih (n / 2) (by omega) h1
      refine ⟨k + 1, by rw [hk], ?_, ?_⟩
      · rw [pow_succ]; omega
      · rw [pow_succ]; omega

/-- The number `bitLength n n` is the number of binary digits of `n`: the fuel suffices. -/
theorem bitLength_self (n : Nat) (h0 : n ≠ 0) :
    2 ^ (bitLength n n - 1) ≤ n ∧ n < 2 ^ bitLength n n := by
  obtain ⟨k, hk, hlo, hhi⟩ := bitLength_spec n n le_rfl h0
  rw [hk]
  exact ⟨hlo, hhi⟩

theorem roundQuot_nearest (n d : Nat) (hd : 0 < d) (z : Int) :
    |((roundQuot n d : Nat) : ℚ) - (n : ℚ) / d| ≤ |(z : ℚ) - (n : ℚ) / d| := by
  have hdq : (0 : ℚ) < d := by exact_mod_cast hd
  have hdm := Nat.div_add_mod n d
  have hml := Nat.mod_lt n hd
  have hx : (n : ℚ) / d = (n / d : Nat) + ((n % d : Nat) : ℚ) / d := by
    field_simp
    have : (n : ℚ) = d * (n / d : Nat) + (n % d : Nat) := by exact_mod_cast hdm.symm
    linarith
  have hr0 : (0 : ℚ) ≤ ((n % d : Nat) : ℚ) / d := by positivity
  have hr1 : ((n % d : Nat) : ℚ) / d < 1 := by
    rw [div_lt_one hdq]; exact_mod_cast hml
  unfold roundQuot
  simp only
  generalize hq : n / d = q at *
  generalize hr : n % d = r at *
  rw [hx]
  generalize hf : ((r : Nat) : ℚ) / d = f at *
  by_cases hup : 2 * r > d ∨ (2 * r = d ∧ q % 2 = 1)
  · rw [if_pos hup]
    have hhalf : (1 : ℚ) / 2 ≤ f := by
      rw [← hf, le_div_iff₀ hdq]
      have : d ≤ 2 * r := by omega
      have : (d : ℚ) ≤ 2 * r := by exact_mod_cast this
      linarith
    push_cast
    rcases le_or_lt z (q : Int) with hz | hz
    · have : (z : ℚ) ≤ q := by exact_mod_cast hz
      rw [abs_of_nonneg (by linarith), abs_of_nonpos (by linarith)]
      linarith
    · have : (q : ℚ) + 1 ≤ z := by exact_mod_cast hz
      rw [abs_of_nonneg (by linarith), abs_of_nonneg (by linarith)]
      linarith
  · rw [if_neg hup]
    have hhalf : f ≤ (1 : ℚ) / 2 := by
      rw [← hf, div_le_iff₀ hdq]
      have : 2 * r ≤ d := by omega
      have : (2 : ℚ) * r ≤ d := by exact_mod_cast this
      linarith
    rcases le_or_lt z (q : Int) with hz | hz
    · have : (z : ℚ) ≤ q := by exact_mod_cast hz
      rw [abs_of_nonpos (by linarith), abs_of_nonpos (by linarith)]
      linarith
    · have : (q : ℚ) + 1 ≤ z := by exact_mod_cast hz
      rw [abs_of_nonpos (by linarith), abs_of_nonneg (by linarith)]
      linarith

theorem zpow_split (k : Int) :
    (2 : ℚ) ^ k = (2 : ℚ) ^ k.toNat / (2 : ℚ) ^ (-k).toNat := by
  rcases le_or_lt 0 k with h | h
  · have h1 : ((k.toNat : Nat) : Int) = k := Int.toNat_of_nonneg h
    have h2 : (-k).toNat = 0 := by omega
    rw [h2, pow_zero, div_one, ← zpow_natCast, h1]
  · have h1 : k.toNat = 0 := by omega
    have h2 : (((-k).toNat : Nat) : Int) = -k := Int.toNat_of_nonneg (by omega)
    rw [h1, pow_zero, ← zpow_natCast, h2, zpow_neg, one_div, inv_inv]

theorem log2Quot_test (a b : Nat) (hb : 0 < b) (k : Int) :
    b * 2 ^ k.toNat ≤ a * 2 ^ (-k).toNat ↔ (2 : ℚ) ^ k ≤ (a : ℚ) / b := by
  have hbq : (0 : ℚ) < b := by exact_mod_cast hb
  have hp : (0 : ℚ) < (2 : ℚ) ^ (-k).toNat := by positivity
  rw [zpow_split, div_le_div_iff₀ hp hbq]
  constructor
  · intro h
    have : ((b * 2 ^ k.toNat : Nat) : ℚ) ≤ ((a * 2 ^ (-k).toNat : Nat) : ℚ) := by
      exact_mod_cast h
    push_cast at this
    linarith
  · intro h
    have : ((b * 2 ^ k.toNat : Nat) : ℚ) ≤ ((a * 2 ^ (-k).toNat : Nat) : ℚ) := by
      push_cast
      linarith
    exact_mod_cast this

theorem log2Quot_spec (a b : Nat) (ha : 0 < a) (hb : 0 < b) :
    (2 : ℚ) ^ (log2Quot a b) ≤ (a : ℚ) / b ∧ (a : ℚ) / b < (2 : ℚ) ^ (log2Quot a b + 1) := by
  obtain ⟨ka, hka, alo, ahi⟩ := bitLength_spec a a le_rfl (by omega)
  obtain ⟨kb, hkb, blo, bhi⟩ := bitLength_spec b b le_rfl (by omega)
  have hbq : (0 : ℚ) < b := by exact_mod_cast hb
  have haq : (0 : ℚ) < a := by exact_mod_cast ha
  have alo' : (2 : ℚ) ^ (ka : Int) ≤ a := by rw [zpow_natCast]; exact_mod_cast alo
  have ahi' : (a : ℚ) < (2 : ℚ) ^ ((ka : Int) + 1) := by
    have : (a : ℚ) < (2 : ℚ) ^ (ka + 1) := by exact_mod_cast ahi
    rwa [← zpow_natCast, Nat.cast_add, Nat.cast_one] at this
  have blo' : (2 : ℚ) ^ (kb : Int) ≤ b := by rw [zpow_natCast]; exact_mod_cast blo
  have bhi' : (b : ℚ) < (2 : ℚ) ^ ((kb : Int) + 1) := by
    have : (b : ℚ) < (2 : ℚ) ^ (kb + 1) := by exact_mod_cast bhi
    rwa [← zpow_natCast, Nat.cast_add, Nat.cast_one] at this
  have hk : ((bitLength a a : Nat) : Int) - (bitLength b b : Nat) = (ka : Int) - kb := by
    rw [hka, hkb]; push_cast; ring
  have two : (0 : ℚ) < 2 := by norm_num
  -- a / b < 2 ^ (ka - kb + 1)
  have hup : (a : ℚ) / b < (2 : ℚ) ^ ((ka : Int) - kb + 1) := by
    rw [div_lt_iff₀ hbq]
    have e : (2 : ℚ) ^ ((ka : Int) - kb + 1) * (2 : ℚ) ^ (kb : Int) = (2 : ℚ) ^ ((ka : Int) + 1) := by
      rw [← zpow_add₀ (by norm_num)]; congr 1; ring
    have hpos : (0 : ℚ) < (2 : ℚ) ^ ((ka : Int) - kb + 1) := zpow_pos two _
    calc (a : ℚ) < (2 : ℚ) ^ ((ka : Int) + 1) := ahi'
      _ = (2 : ℚ) ^ ((ka : Int) - kb + 1) * (2 : ℚ) ^ (kb : Int) := e.symm
      _ ≤ (2 : ℚ) ^ ((ka : Int) - kb + 1) * b := by
        apply mul_le_mul_of_nonneg_left blo' (le_of_lt hpos)
  -- 2 ^ (ka - kb - 1) ≤ a / b
  have hlo : (2 : ℚ) ^ ((ka : Int) - kb - 1) ≤ (a : ℚ) / b := by
    rw [le_div_iff₀ hbq]
    have e : (2 : ℚ) ^ ((ka : Int) - kb - 1) * (2 : ℚ) ^ ((kb : Int) + 1) = (2 : ℚ) ^ (ka : Int) := by
      rw [← zpow_add₀ (by norm_num)]; congr 1; ring
    have hpos : (0 : ℚ) < (2 : ℚ) ^ ((ka : Int) - kb - 1) := zpow_pos two _
    calc (2 : ℚ) ^ ((ka : Int) - kb - 1) * b
        ≤ (2 : ℚ) ^ ((ka : Int) - kb - 1) * (2 : ℚ) ^ ((kb : Int) + 1) := by
          apply mul_le_mul_of_nonneg_left (le_of_lt bhi') (le_of_lt hpos)
      _ = (2 : ℚ) ^ (ka : Int) := e
      _ ≤ a := alo'
  unfold log2Quot
  simp only [hk]
  by_cases ht : b * 2 ^ ((ka : Int) - kb).toNat ≤ a * 2 ^ (-((ka : Int) - kb)).toNat
  · rw [if_pos ht]
    exact ⟨(log2Quot_test a b hb _).1 ht, hup⟩
  · rw [if_neg ht]
    have hnot : ¬ (2 : ℚ) ^ ((ka : Int) - kb) ≤ (a : ℚ) / b := fun h =>
      ht ((log2Quot_test a b hb _).2 h)
    refine ⟨hlo, ?_⟩
    have : (ka : Int) - kb - 1 + 1 = (ka : Int) - kb := by ring
    rw [this]
    exact not_le.1 hnot

theorem scaled_quot (a b : Nat) (hb : 0 < b) (E : Int) :
    (((a * 2 ^ (-E).toNat : Nat) : ℚ)) / ((b * 2 ^ E.toNat : Nat) : ℚ) =
      ((a : ℚ) / b) / (2 : ℚ) ^ E := by
  rw [zpow_split E]
  push_cast
  have h1 : (0 : ℚ) < (2 : ℚ) ^ E.toNat := by positivity
  have h2 : (0 : ℚ) < (2 : ℚ) ^ (-E).toNat := by positivity
  have h3 : (0 : ℚ) < b := by exact_mod_cast hb
  field_simp

theorem f64_pos_core (x : ℚ) (hx : 0 < x) :
    ∃ (m : Nat) (e : Int), f64 x = (m : ℚ) * 2 ^ e ∧ 2 ^ 52 ≤ m ∧ m ≤ 2 ^ 53 ∧
      (2 : ℚ) ^ 52 * 2 ^ e ≤ x ∧
      ∀ z : Int, |(m : ℚ) * 2 ^ e - x| ≤ |(z : ℚ) * 2 ^ e - x| := by
  have hnum : 0 < x.num := Rat.num_pos.2 hx
  have ha : 0 < x.num.natAbs := Int.natAbs_pos.2 (ne_of_gt hnum)
  have hb : 0 < x.den := x.den_pos
  have hxe : x = (x.num.natAbs : ℚ) / x.den := by
    have h1 : ((x.num.natAbs : Nat) : Int) = x.num := Int.natAbs_of_nonneg (le_of_lt hnum)
    have h2 : ((x.num.natAbs : Nat) : ℚ) = (x.num : ℚ) := by
      calc ((x.num.natAbs : Nat) : ℚ) = (((x.num.natAbs : Nat) : Int) : ℚ) :=
            (Int.cast_natCast _).symm
        _ = (x.num : ℚ) := by rw [h1]
    rw [h2]
    exact (Rat.num_div_den x).symm
  obtain ⟨hlo, hhi⟩ := log2Quot_spec x.num.natAbs x.den ha hb
  rw [← hxe] at hlo hhi
  generalize hL : log2Quot x.num.natAbs x.den = L at hlo hhi
  have two : (0 : ℚ) < 2 := by norm_num
  have hpe : (0 : ℚ) < (2 : ℚ) ^ (L - 52) := zpow_pos two _
  have hD : 0 < x.den * 2 ^ (L - 52).toNat := Nat.mul_pos hb (by positivity)
  -- the scaled quotient
  have hs : (((x.num.natAbs * 2 ^ (-(L - 52)).toNat : Nat) : ℚ)) /
      ((x.den * 2 ^ (L - 52).toNat : Nat) : ℚ) = x / (2 : ℚ) ^ (L - 52) := by
    rw [scaled_quot _ _ hb, ← hxe]
  have hnear := roundQuot_nearest (x.num.natAbs * 2 ^ (-(L - 52)).toNat)
    (x.den * 2 ^ (L - 52).toNat) hD
  rw [hs] at hnear
  generalize hm : roundQuot (x.num.natAbs * 2 ^ (-(L - 52)).toNat)
    (x.den * 2 ^ (L - 52).toNat) = m at hnear
  have hval : f64 x = (m : ℚ) * 2 ^ (L - 52) := by
    unfold f64
    rw [if_neg (ne_of_gt hx)]
    simp only [hL, hm, if_neg (not_lt.2 (le_of_lt hx))]
  -- bounds on the scaled value
  have e52 : (2 : ℚ) ^ 52 * 2 ^ (L - 52) = 2 ^ L := by
    have : (2 : ℚ) ^ (52 : Nat) = (2 : ℚ) ^ (52 : Int) := by norm_cast
    rw [this, ← zpow_add₀ (by norm_num)]; congr 1; ring
  have e53 : (2 : ℚ) ^ 53 * 2 ^ (L - 52) = 2 ^ (L + 1) := by
    have : (2 : ℚ) ^ (53 : Nat) = (2 : ℚ) ^ (53 : Int) := by norm_cast
    rw [this, ← zpow_add₀ (by norm_num)]; congr 1; ring
  have slo : (2 : ℚ) ^ 52 ≤ x / 2 ^ (L - 52) := by
    rw [le_div_iff₀ hpe, e52]; exact hlo
  have shi : x / 2 ^ (L - 52) < (2 : ℚ) ^ 53 := by
    rw [div_lt_iff₀ hpe, e53]; exact hhi
  have grid : ∀ z : Int, |(m : ℚ) * 2 ^ (L - 52) - x| ≤ |(z : ℚ) * 2 ^ (L - 52) - x| := by
    intro z
    have h := hnear z
    have e1 : (m : ℚ) * 2 ^ (L - 52) - x = ((m : ℚ) - x / 2 ^ (L - 52)) * 2 ^ (L - 52) := by
      field_simp
    have e2 : (z : ℚ) * 2 ^ (L - 52) - x = ((z : ℚ) - x / 2 ^ (L - 52)) * 2 ^ (L - 52) := by
      field_simp
    rw [e1, e2, abs_mul, abs_mul]
    exact mul_le_mul_of_nonneg_right h (abs_nonneg _)
  refine ⟨m, L - 52, hval, ?_, ?_, ?_, grid⟩
  · have h := hnear ((2 : Int) ^ 52)
    rw [show (((2 : Int) ^ 52 : Int) : ℚ) = (2 : ℚ) ^ 52 by norm_cast] at h
    rw [abs_of_nonpos (by linarith : (2 : ℚ) ^ 52 - x / 2 ^ (L - 52) ≤ 0)] at h
    have h2 := neg_abs_le ((m : ℚ) - x / 2 ^ (L - 52))
    have : (2 : ℚ) ^ 52 ≤ m := by linarith
    exact_mod_cast this
  · have h := hnear ((2 : Int) ^ 53)
    rw [show (((2 : Int) ^ 53 : Int) : ℚ) = (2 : ℚ) ^ 53 by norm_cast] at h
    rw [abs_of_nonneg (by linarith : (0 : ℚ) ≤ 2 ^ 53 - x / 2 ^ (L - 52))] at h
    have h2 := le_abs_self ((m : ℚ) - x / 2 ^ (L - 52))
    have : (m : ℚ) ≤ 2 ^ 53 := by linarith
    exact_mod_cast this
  · rw [e52]; exact hlo

theorem f64_zero : f64 0 = 0 := by
  unfold f64; rw [if_pos rfl]

theorem f64_rep (x : ℚ) (hx : 0 ≤ x) : isF64 (f64 x) := by
  rcases eq_or_lt_of_le hx with h | h
  · rw [← h, f64_zero]
    exact ⟨0, 0, by norm_num, by norm_num⟩
  · obtain ⟨m, e, hv, _, hm, _, _⟩ := f64_pos_core x h
    refine ⟨m, e, ?_, by rw [hv]; norm_cast⟩
    rw [abs_of_nonneg (by positivity)]
    exact_mod_cast hm

/-- The value `f64 x` is a float64 value nearest to `x`. -/
theorem f64_nearest (x y : ℚ) (hx : 0 ≤ x) (hy : isF64 y) : |f64 x - x| ≤ |y - x| := by
  rcases eq_or_lt_of_le hx with h | h
  · rw [← h, f64_zero]; simp
  · obtain ⟨m, e, hv, _, _, hg, grid⟩ := f64_pos_core x h
    obtain ⟨m', e', hm', rfl⟩ := hy
    rw [hv]
    have two : (0 : ℚ) < 2 := by norm_num
    rcases le_or_lt e e' with he | he
    · have h1 := grid (m' * 2 ^ (e' - e).toNat)
      have e1 : (((m' * 2 ^ (e' - e).toNat : Int) : ℚ)) * 2 ^ e = (m' : ℚ) * 2 ^ e' := by
        push_cast
        have : ((2 : ℚ) ^ (e' - e).toNat) = (2 : ℚ) ^ (e' - e) := by
          rw [← zpow_natCast, Int.toNat_of_nonneg (by omega)]
        rw [this, mul_assoc, ← zpow_add₀ (by norm_num)]
        congr 2; ring
      rw [e1] at h1
      exact h1
    · have h1 := grid ((2 : Int) ^ 52)
      rw [show (((2 : Int) ^ 52 : Int) : ℚ) = (2 : ℚ) ^ 52 by norm_cast] at h1
      have hy : (m' : ℚ) * 2 ^ e' ≤ (2 : ℚ) ^ 52 * 2 ^ e := by
        have hpe : (0 : ℚ) < (2 : ℚ) ^ e' := zpow_pos two _
        have hm2 : (m' : ℚ) ≤ (2 : ℚ) ^ 53 := by
          have := le_trans (le_abs_self m') hm'
          exact_mod_cast this
        have hle : (2 : ℚ) ^ e' ≤ (2 : ℚ) ^ (e - 1) :=
          zpow_le_zpow_right₀ (by norm_num) (by omega)
        have e53 : (2 : ℚ) ^ 53 * 2 ^ (e - 1) = (2 : ℚ) ^ 52 * 2 ^ e := by
          have a1 : (2 : ℚ) ^ (53 : Nat) = (2 : ℚ) ^ (53 : Int) := by norm_cast
          have a2 : (2 : ℚ) ^ (52 : Nat) = (2 : ℚ) ^ (52 : Int) := by norm_cast
          rw [a1, a2, ← zpow_add₀ (by norm_num), ← zpow_add₀ (by norm_num)]
          congr 1; ring
        calc (m' : ℚ) * 2 ^ e' ≤ (2 : ℚ) ^ 53 * 2 ^ e' :=
              mul_le_mul_of_nonneg_right hm2 (le_of_lt hpe)
          _ ≤ (2 : ℚ) ^ 53 * 2 ^ (e - 1) :=
              mul_le_mul_of_nonneg_left hle (by positivity)
          _ = (2 : ℚ) ^ 52 * 2 ^ e := e53
      rw [abs_of_nonpos (by linarith : (2 : ℚ) ^ 52 * 2 ^ e - x ≤ 0)] at h1
      rw [abs_of_nonpos (by linarith : (m' : ℚ) * 2 ^ e' - x ≤ 0)]
      linarith

theorem f64_le_of_le (x y : ℚ) (hx : 0 ≤ x) (hxy : x ≤ y) (hy : isF64 y) : f64 x ≤ y := by
  have h := f64_nearest x y hx hy
  rw [abs_of_nonneg (by linarith : 0 ≤ y - x)] at h
  have := le_abs_self (f64 x - x)
  linarith

theorem le_f64_of_le (x y : ℚ) (hx : 0 ≤ x) (hyx : y ≤ x) (hy : isF64 y) : y ≤ f64 x := by
  have h := f64_nearest x y hx hy
  rw [abs_of_nonpos (by linarith : y - x ≤ 0)] at h
  have := neg_abs_le (f64 x - x)
  linarith

theorem f64_of_isF64 (y : ℚ) (h0 : 0 ≤ y) (hy : isF64 y) : f64 y = y :=
  le_antisymm (f64_le_of_le y y h0 le_rfl hy) (le_f64_of_le y y h0 le_rfl hy)

theorem f64_nonneg (x : ℚ) (hx : 0 ≤ x) : 0 ≤ f64 x :=
  le_f64_of_le x 0 hx hx ⟨0, 0, by norm_num, by norm_num⟩

theorem f64_mono (x y : ℚ) (hx : 0 ≤ x) (hxy : x ≤ y) : f64 x ≤ f64 y := by
  by_contra hlt
  rw [not_le] at hlt
  have hy0 : 0 ≤ y := le_trans hx hxy
  have h1 := f64_nearest x (f64 y) hx (f64_rep y hy0)
  have h2 := f64_nearest y (f64 x) hy0 (f64_rep x hx)
  -- f64 y < f64 x, x ≤ y
  have a1 := le_abs_self (f64 y - x)
  have a2 := neg_abs_le (f64 y - x)
  have b1 := le_abs_self (f64 x - y)
  have b2 := neg_abs_le (f64 x - y)
  have c1 := le_abs_self (f64 x - x)
  have c2 := neg_abs_le (f64 x - x)
  have d1 := le_abs_self (f64 y - y)
  have d2 := neg_abs_le (f64 y - y)
  rcases le_or_lt (f64 y) x with h | h
  · rw [abs_of_nonpos (by linarith : f64 y - x ≤ 0)] at h1
    rcases le_or_lt y (f64 x) with h' | h'
    · rw [abs_of_nonneg (by linarith : 0 ≤ f64 x - y)] at h2
      -- midpoint argument: x ≥ mid ≥ y
      have hxy2 : x = y := by linarith
      subst hxy2
      exact absurd hlt (lt_irrefl _)
    · rw [abs_of_nonpos (by linarith : f64 x - y ≤ 0)] at h2
      linarith
  · rw [abs_of_nonneg (by linarith : 0 ≤ f64 y - x)] at h1
    linarith

theorem isF64_natCast (n : Nat) (h : n ≤ 2 ^ 53) : isF64 (n : ℚ) :=
  ⟨n, 0, by rw [abs_of_nonneg (by positivity)]; exact_mod_cast h, by norm_num⟩

theorem f64_natCast (n : Nat) (h : n ≤ 2 ^ 53) : f64 (n : ℚ) = n :=
  f64_of_isF64 _ (by positivity) (isF64_natCast n h)

theorem f64_neg (x : ℚ) : f64 (-x) = -f64 x := by
  unfold f64
  by_cases h0 : x = 0
  · subst h0; simp
  · have h1 : ¬ -x = 0 := fun h => h0 (neg_eq_zero.1 h)
    rw [if_neg h0, if_neg h1]
    simp only [Rat.neg_num, Int.natAbs_neg, Rat.neg_den]
    rcases lt_or_gt_of_ne h0 with h | h
    · have h2 : ¬ -x < 0 := by linarith [neg_pos.2 h]
      rw [if_pos h, if_neg h2]; ring
    · have h2 : -x < 0 := by linarith
      have h3 : ¬ x < 0 := by linarith
      rw [if_pos h2, if_neg h3]; ring

theorem f64_intCast (n : Int) (h : |n| ≤ 2 ^ 53) : f64 (n : ℚ) = n := by
  rcases le_or_lt 0 n with h0 | h0
  · obtain ⟨k, rfl⟩ := Int.eq_ofNat_of_zero_le h0
    rw [abs_of_nonneg h0] at h
    have := f64_natCast k (by exact_mod_cast h)
    exact_mod_cast this
  · obtain ⟨k, hk⟩ := Int.eq_ofNat_of_zero_le (by omega : 0 ≤ -n)
    rw [abs_of_neg h0] at h
    have e : (n : ℚ) = -((k : Nat) : ℚ) := by
      have : n = -(k : Int) := by omega
      rw [this]; push_cast; ring
    rw [e, f64_neg, f64_natCast k (by rw [hk] at h; exact_mod_cast h)]

theorem wrapInt_of_range (x : Int) (h1 : -2 ^ 63 ≤ x) (h2 : x < 2 ^ 63) : wrapInt x = x := by
  unfold wrapInt
  norm_num at h1 h2 ⊢
  omega

theorem wrapInt_range (x : Int) : -2 ^ 63 ≤ wrapInt x ∧ wrapInt x < 2 ^ 63 := by
  unfold wrapInt
  norm_num
  omega

theorem wrapInt_sub_wrapInt (x y : Int) : wrapInt (wrapInt x - y) = wrapInt (x - y) := by
  unfold wrapInt
  norm_num
  omega

theorem floatToInt_intCast (n : Int) (h1 : -2 ^ 63 ≤ n) (h2 : n < 2 ^ 63) :
    floatToInt (n : ℚ) = n := by
  unfold floatToInt
  have a : -(2 : ℚ) ^ 63 ≤ (n : ℚ) := by exact_mod_cast h1
  have b : (n : ℚ) < (2 : ℚ) ^ 63 := by exact_mod_cast h2
  rw [if_pos ⟨a, b⟩, truncToInt_intCast]

/-! ## Token bucket -/

theorem nsPerSecond_pos : (0 : ℚ) < nsPerSecond := by
  norm_num [nsPerSecond]

theorem NewTokenBucket_inv {rate : ℚ} {capacity now : Int} {b : TokenBucket}
    (h : NewTokenBucket rate capacity now = some b) : b.Inv := by
  unfold NewTokenBucket at h
  split at h
  · exact absurd h (by simp)
  · rename_i hr
    simp only [Option.some.injEq] at h
    subst h
    refine ⟨lt_of_not_ge hr, le_refl _, ?_⟩
    show (0 : ℚ) ≤ ((_ : Int) : ℚ)
    split
    · split
      · norm_num
      · rename_i h2
        exact_mod_cast le_of_lt (lt_of_not_ge h2)
    · rename_i h1
      exact_mod_cast le_of_lt (lt_of_not_ge h1)

theorem refill_inv {b : TokenBucket} (now : Int) (h : b.Inv) : (refill b now).Inv := by
  obtain ⟨hr, h0, hc⟩ := h
  unfold refill
  split
  · rename_i he
    refine ⟨hr, ?_, min_le_left _ _⟩
    exact le_min (le_trans h0 hc) (add_nonneg h0 (mul_nonneg (le_of_lt hr) (le_of_lt he)))
  · exact ⟨hr, h0, hc⟩

theorem refill_rate (b : TokenBucket) (now : Int) : (refill b now).rate = b.rate := by
  unfold refill; split <;> rfl

theorem refill_cap (b : TokenBucket) (now : Int) : (refill b now).cap = b.cap := by
  unfold refill; split <;> rfl

theorem Wait_inv {b : TokenBucket} (n now : Int) (h : b.Inv) : (b.Wait n now).1.Inv := by
  unfold TokenBucket.Wait
  split
  · exact h
  · have hi := refill_inv now h
    obtain ⟨hr, h0, hc⟩ := hi
    simp only
    split
    · rename_i hge
      refine ⟨hr, ?_, ?_⟩
      · simpa using hge
      · have : (0 : ℚ) ≤ (n : ℚ) := by
          rename_i hn
          exact_mod_cast le_of_lt (lt_of_not_ge hn)
        show (refill b now).tok - (n : ℚ) ≤ (refill b now).cap
        linarith
    · exact ⟨hr, h0, hc⟩

theorem Wait_cap (b : TokenBucket) (n now : Int) : (b.Wait n now).1.cap = b.cap := by
  unfold TokenBucket.Wait
  split
  · rfl
  · simp only
    split <;> simp [refill_cap]

theorem runWaits_inv (calls : List (Int × Int)) :
    ∀ b : TokenBucket, b.Inv → (runWaits b calls).1.Inv := by
  induction calls with
  | nil => intro b h; exact h
  | cons c rest ih =>
    intro b h
    obtain ⟨n, now⟩ := c
    exact ih _ (Wait_inv n now h)

theorem runWaits_cap (calls : List (Int × Int)) :
    ∀ b : TokenBucket, (runWaits b calls).1.cap = b.cap := by
  induction calls with
  | nil => intro b; rfl
  | cons c rest ih =>
    intro b
    obtain ⟨n, now⟩ := c
    show (runWaits (b.Wait n now).1 rest).1.cap = b.cap
    rw [ih, Wait_cap]

/-- C2: the token level of a bucket created by `NewTokenBucket` is in `[0, capacity]`
initially and after every sequence of `Wait(n)` calls, for all integers `n` and all
clock readings; the capacity itself never changes. -/
theorem tokenBucket_level_in_range (rate : ℚ) (capacity t0 : Int) (b : TokenBucket)
    (calls : List (Int × Int)) (h : NewTokenBucket rate capacity t0 = some b) :
    0 ≤ (runWaits b calls).1.tok ∧ (runWaits b calls).1.tok ≤ (runWaits b calls).1.cap ∧
      (runWaits b calls).1.cap = b.cap := by
  have hi := runWaits_inv calls b (NewTokenBucket_inv h)
  exact ⟨hi.2.1, hi.2.2, runWaits_cap calls b⟩

theorem tokenBucket_level_in_range_witness :
    NewTokenBucket 2 0 0 = some ⟨2, 2, 0, 0⟩ ∧
    0 ≤ (runWaits ⟨2, 2, 0, 0⟩ [(1, 500000000), (5, 700000000), (-3, 100)]).1.tok ∧
    (runWaits ⟨2, 2, 0, 0⟩ [(1, 500000000), (5, 700000000), (-3, 100)]).1.tok ≤
      (runWaits ⟨2, 2, 0, 0⟩ [(1, 500000000), (5, 700000000), (-3, 100)]).1.cap ∧
    (runWaits ⟨2, 2, 0, 0⟩ [(1, 500000000), (5, 700000000), (-3, 100)]).1.cap = 2 :=
  ⟨by norm_num [NewTokenBucket, truncToInt, Int.floor_eq_iff],
   tokenBucket_level_in_range 2 0 0 ⟨2, 2, 0, 0⟩ _
     (by norm_num [NewTokenBucket, truncToInt, Int.floor_eq_iff])⟩

/-- C1 (evaluation at the failing input): for the bucket `NewTokenBucket(3, 3)` created at
time 0, the ten `Wait(1)` calls of `tenCalls`, made at strictly increasing times within
`T = 2` seconds, all return a zero delay, so ten permits count as granted although
`R * T + C = 3 * 2 + 3 = 9`. -/
theorem tokenBucket_grants_exceed_bound :
    NewTokenBucket 3 3 0 = some ⟨3, 3, 0, 0⟩ ∧
    (runWaits ⟨3, 3, 0, 0⟩ tenCalls).2 = [0, 0, 0, 0, 0, 0, 0, 0, 0, 0] ∧
    grantedSum tenCalls (runWaits ⟨3, 3, 0, 0⟩ tenCalls).2 = 10 ∧
    (∀ c ∈ tenCalls, 0 ≤ c.2 ∧ c.2 ≤ 2 * 1000000000) ∧
    ((3 : ℚ) * 2 + 3 < 10) := by
  have h : (runWaits ⟨3, 3, 0, 0⟩ tenCalls).2 = [0, 0, 0, 0, 0, 0, 0, 0, 0, 0] := by
    norm_num [runWaits, tenCalls, TokenBucket.Wait, refill, elapsedSeconds, nsPerSecond,
      truncToInt, Int.floor_eq_iff]
  refine ⟨by norm_num [NewTokenBucket], h, ?_, ?_, by norm_num⟩
  · rw [h]; simp [grantedSum, tenCalls]
  · intro c hc
    simp only [tenCalls, List.mem_cons, List.mem_singleton, List.not_mem_nil, or_false] at hc
    rcases hc with h | h | h | h | h | h | h | h | h | h <;> subst h <;> norm_num

theorem refill_tok_eq {b : TokenBucket} {now : Int} (hc : b.tok ≤ b.cap) (ht : b.last ≤ now) :
    (refill b now).tok = refilledLevel b now := by
  unfold refill refilledLevel
  split
  · rfl
  · rename_i he
    have h0 : elapsedSeconds b.last now = 0 := by
      apply le_antisymm (le_of_not_gt he)
      unfold elapsedSeconds
      apply div_nonneg _ (le_of_lt nsPerSecond_pos)
      exact_mod_cast sub_nonneg.mpr ht
    rw [h0, mul_zero, add_zero, min_eq_right hc]

theorem Wait_of_ge {b : TokenBucket} {n now : Int} (hn : 0 < n)
    (h : (n : ℚ) ≤ (refill b now).tok) :
    b.Wait n now = ({ refill b now with tok := (refill b now).tok - n }, 0) := by
  have h' : (refill b now).tok ≥ (n : ℚ) := h
  simp [TokenBucket.Wait, not_le.mpr hn, h']

theorem Wait_of_lt {b : TokenBucket} {n now : Int} (hn : 0 < n)
    (h : (refill b now).tok < (n : ℚ)) :
    b.Wait n now = ({ refill b now with last := now },
      truncToInt (((n : ℚ) - (refill b now).tok) / (refill b now).rate * nsPerSecond)) := by
  have h' : ¬ (refill b now).tok ≥ (n : ℚ) := not_le.mpr h
  simp [TokenBucket.Wait, not_le.mpr hn, h']

theorem Wait_last_mono (b : TokenBucket) (n now : Int) (h : b.last ≤ now) :
    b.last ≤ (b.Wait n now).1.last ∧ (b.Wait n now).1.last ≤ now := by
  have hr : b.last ≤ (refill b now).last ∧ (refill b now).last ≤ now := by
    unfold refill; split
    · exact ⟨h, le_refl _⟩
    · exact ⟨le_refl _, h⟩
  unfold TokenBucket.Wait
  split
  · exact ⟨le_refl _, h⟩
  · simp only
    split
    · exact hr
    · exact ⟨h, le_refl _⟩

theorem Wait_rate (b : TokenBucket) (n now : Int) : (b.Wait n now).1.rate = b.rate := by
  unfold TokenBucket.Wait
  split
  · rfl
  · simp only
    split <;> simp [refill_rate]

/-- One call: what is taken out plus what is left is at most what was there plus the
refill for the time by which `last` moved. -/
theorem Wait_budget (b : TokenBucket) (n now : Int) (hr : 0 < b.rate) (h : b.last ≤ now) :
    consumed b n now + (b.Wait n now).1.tok ≤
      b.tok + b.rate * elapsedSeconds b.last (b.Wait n now).1.last := by
  have hel0 : elapsedSeconds b.last b.last = 0 := by simp [elapsedSeconds]
  have hrf : (refill b now).tok ≤ b.tok + b.rate * elapsedSeconds b.last (refill b now).last := by
    unfold refill; split
    · exact min_le_right _ _
    · simp [hel0]
  have hmono : elapsedSeconds b.last (refill b now).last ≤ elapsedSeconds b.last now := by
    unfold refill; split
    · exact le_refl _
    · rename_i he; rw [hel0]
      unfold elapsedSeconds
      apply div_nonneg _ (le_of_lt nsPerSecond_pos)
      exact_mod_cast sub_nonneg.mpr h
  by_cases hn : 0 < n
  · by_cases hge : (n : ℚ) ≤ (refill b now).tok
    · rw [Wait_of_ge hn hge]
      simp only [consumed, hn, hge, and_self, if_true]
      linarith
    · rw [Wait_of_lt hn (not_le.mp hge)]
      simp only [consumed, hn, hge, and_false, if_false]
      have := mul_le_mul_of_nonneg_left hmono (le_of_lt hr)
      linarith
  · have hn' : n ≤ 0 := not_lt.mp hn
    simp [TokenBucket.Wait, hn', consumed, hn, hel0]

/-- The tokens actually taken out of a bucket over a run of calls at non-decreasing
clock readings never exceed the initial level plus `rate` times the elapsed time. -/
theorem consumedTotal_le (calls : List (Int × Int)) :
    ∀ b : TokenBucket, 0 < b.rate → clockMonotone b.last calls →
      consumedTotal b calls + (runWaits b calls).1.tok ≤
        b.tok + b.rate * elapsedSeconds b.last (runWaits b calls).1.last ∧
      (∀ t, (∀ c ∈ calls, c.2 ≤ t) → b.last ≤ t → (runWaits b calls).1.last ≤ t) := by
  induction calls with
  | nil =>
    intro b _ _
    refine ⟨?_, fun t _ h => h⟩
    simp [consumedTotal, runWaits, elapsedSeconds]
  | cons c rest ih =>
    intro b hr hm
    obtain ⟨n, now⟩ := c
    obtain ⟨h1, h2⟩ := hm
    obtain ⟨l1, l2⟩ := Wait_last_mono b n now h1
    have hm' : clockMonotone (b.Wait n now).1.last rest := by
      cases rest with
      | nil => trivial
      | cons c2 rest2 => exact ⟨le_trans l2 h2.1, h2.2⟩
    obtain ⟨q1, q2⟩ := ih (b.Wait n now).1 (by rw [Wait_rate]; exact hr) hm'
    refine ⟨?_, fun t ht hb => q2 t (fun c hc => ht c (List.mem_cons_of_mem _ hc))
      (le_trans l2 (ht (n, now) (List.mem_cons_self _ _)))⟩
    have hb := Wait_budget b n now hr h1
    rw [Wait_rate] at q1
    have hsplit : elapsedSeconds b.last (runWaits (b.Wait n now).1 rest).1.last =
        elapsedSeconds b.last (b.Wait n now).1.last +
          elapsedSeconds (b.Wait n now).1.last (runWaits (b.Wait n now).1 rest).1.last := by
      simp only [elapsedSeconds]
      push_cast
      ring
    show consumed b n now + consumedTotal (b.Wait n now).1 rest +
        (runWaits (b.Wait n now).1 rest).1.tok ≤
      b.tok + b.rate * elapsedSeconds b.last (runWaits (b.Wait n now).1 rest).1.last
    rw [hsplit, mul_add]
    linarith

/-- The tokens taken out of a bucket created by `NewTokenBucket` at `t0`, over calls at
non-decreasing clock readings within `[t0, t0 + T]` (in nanoseconds), are at most
`rate * T`. -/
theorem consumedTotal_le_rate_T (rate : ℚ) (capacity t0 T : Int) (b : TokenBucket)
    (calls : List (Int × Int)) (h : NewTokenBucket rate capacity t0 = some b)
    (hm : clockMonotone t0 calls) (hT : ∀ c ∈ calls, c.2 ≤ t0 + T) (hT0 : 0 ≤ T) :
    consumedTotal b calls ≤ rate * ((T : ℚ) / nsPerSecond) := by
  have hinv := NewTokenBucket_inv h
  have hb : b.rate = rate ∧ b.tok = 0 ∧ b.last = t0 := by
    unfold NewTokenBucket at h
    split at h
    · cases h
    · simp only [Option.some.injEq] at h
      subst h
      exact ⟨rfl, rfl, rfl⟩
  obtain ⟨hrate, htok, hlast⟩ := hb
  obtain ⟨q1, q2⟩ := consumedTotal_le calls b hinv.1 (by rw [hlast]; exact hm)
  have hl := q2 (t0 + T) hT (by rw [hlast]; omega)
  have hfin := (runWaits_inv calls b hinv).2.1
  have hel : elapsedSeconds b.last (runWaits b calls).1.last ≤ (T : ℚ) / nsPerSecond := by
    unfold elapsedSeconds
    apply div_le_div_of_nonneg_right _ (le_of_lt nsPerSecond_pos)
    rw [hlast]
    exact_mod_cast (by omega : (runWaits b calls).1.last - t0 ≤ T)
  have := mul_le_mul_of_nonneg_left hel (le_of_lt hinv.1)
  rw [htok, hrate] at q1
  rw [hrate] at this
  linarith

/-- C3 (evaluation at the failing input): for the bucket with rate 3, capacity 3 and level
0 last refilled at time 0, the refilled level `L` at 333333333 ns is below 1, and `Wait(1)`
at that time returns the delay 0 and leaves a level that is positive and below 1: the call
reports a zero delay although `L < n`, and it consumes nothing. -/
theorem Wait_zero_delay_below_level :
    refilledLevel ⟨3, 3, 0, 0⟩ 333333333 < 1 ∧
    ((⟨3, 3, 0, 0⟩ : TokenBucket).Wait 1 333333333).2 = 0 ∧
    0 < ((⟨3, 3, 0, 0⟩ : TokenBucket).Wait 1 333333333).1.tok ∧
    ((⟨3, 3, 0, 0⟩ : TokenBucket).Wait 1 333333333).1.tok < 1 := by
  norm_num [TokenBucket.Wait, refill, refilledLevel, elapsedSeconds, nsPerSecond, truncToInt,
    Int.floor_eq_iff]

/-! ## Rate limiter -/

/-- C4 (evaluation at the failing input): the limiter built from `MaxPPS = 3` at time 0 has
a global bucket whose refilled level at 333333333 ns is below 1, and `reserveBatch` with
batch 1 at that time grants (true, zero wait) and leaves the level untouched. -/
theorem reserveBatch_grants_below_batch :
    newRateLimiterFromOptions ⟨"", 0, 0, 3, 0⟩ 0 = some ⟨some ⟨3, 3, 0, 0⟩, [], 0, 0⟩ ∧
    refilledLevel ⟨3, 3, 0, 0⟩ 333333333 = 999999999 / 1000000000 ∧
    (⟨some ⟨3, 3, 0, 0⟩, [], 0, 0⟩ : rateLimiter).reserveBatch "203.0.113.1" 1
        ⟨333333333, 333333334, 333333335⟩ =
      (⟨some ⟨3, 3, 999999999 / 1000000000, 333333333⟩, [], 0, 0⟩, true, 0) := by
  refine ⟨?_, ?_, ?_⟩
  · norm_num [newRateLimiterFromOptions, NewTokenBucket]
  · norm_num [refilledLevel, elapsedSeconds, nsPerSecond]
  · norm_num [rateLimiter.reserveBatch, waitOpt, TokenBucket.Wait, refill, elapsedSeconds,
      nsPerSecond, truncToInt, Int.floor_eq_iff]

/-- C5 (evaluation at the failing input): limiter built from `MaxPPS = 4`,
`PerIPMaxPPS = 3` at time 0. A first `reserveBatch("203.0.113.1", 1)` one second later is
refused with a wait of 333333332 ns. At the retry exactly that long after, the global
bucket holds 1 token and the destination bucket 0.999999999 token, yet the call returns
granted; the global level drops from 1 to 0. -/
theorem reserveBatch_grants_short_destination :
    newRateLimiterFromOptions ⟨"", 0, 0, 4, 3⟩ 0 = some ⟨some ⟨4, 1, 0, 0⟩, [], 3, 3⟩ ∧
    (⟨some ⟨4, 1, 0, 0⟩, [], 3, 3⟩ : rateLimiter).reserveBatch "203.0.113.1" 1
        ⟨1000000000, 1000000001, 1000000002⟩ =
      (⟨some ⟨4, 1, 0, 1000000000⟩,
        [("203.0.113.1", ⟨3, 3, 3 / 1000000000, 1000000002⟩)], 3, 3⟩, false, 333333332) ∧
    refilledLevel ⟨4, 1, 0, 1000000000⟩ 1333333332 = 1 ∧
    refilledLevel ⟨3, 3, 3 / 1000000000, 1000000002⟩ 1333333334 = 999999999 / 1000000000 ∧
    (⟨some ⟨4, 1, 0, 1000000000⟩,
        [("203.0.113.1", ⟨3, 3, 3 / 1000000000, 1000000002⟩)], 3, 3⟩ : rateLimiter).reserveBatch
        "203.0.113.1" 1 ⟨1333333332, 1333333333, 1333333334⟩ =
      (⟨some ⟨4, 1, 0, 1333333332⟩,
        [("203.0.113.1", ⟨3, 3, 999999999 / 1000000000, 1333333334⟩)], 3, 3⟩, true, 0) := by
  have hip : ("203.0.113.1" : String) ≠ "" := by decide
  refine ⟨?_, ?_, ?_, ?_, ?_⟩
  · norm_num [newRateLimiterFromOptions, NewTokenBucket]
  · norm_num [rateLimiter.reserveBatch, waitOpt, TokenBucket.Wait, refill, elapsedSeconds,
      nsPerSecond, truncToInt, Int.floor_eq_iff, NewTokenBucket, loadOrStore, storeBucket,
      maxWait, hip]
  · norm_num [refilledLevel, elapsedSeconds, nsPerSecond]
  · norm_num [refilledLevel, elapsedSeconds, nsPerSecond]
  · norm_num [rateLimiter.reserveBatch, waitOpt, TokenBucket.Wait, refill, elapsedSeconds,
      nsPerSecond, truncToInt, Int.floor_eq_iff, NewTokenBucket, loadOrStore, storeBucket,
      maxWait, hip]

/-- The outcome of `reserveBatch` in terms of the waits its two checks report: granted with
zero wait when neither is positive, else refused with the larger of the two. -/
theorem reserveBatch_outcome (r : rateLimiter) (ip : String) (batch : Int) (c : Clock)
    (hb : 0 < batch) :
    (r.reserveBatch ip batch c).2 =
      if 0 < globalWait r batch c ∨ 0 < destWait r ip batch c then
        (false, max (globalWait r batch c) (destWait r ip batch c))
      else (true, 0) := by
  have hb' : ¬ batch ≤ 0 := not_le.mpr hb
  unfold rateLimiter.reserveBatch globalWait destWait
  simp only [hb', if_false, gt_iff_lt]
  by_cases hp1 : 0 < r.perRate <;> by_cases hp2 : ip = "" <;>
    by_cases hg : 0 < (waitOpt r.global batch c.tGlobal).2
  all_goals simp only [hp1, hp2, hg, ne_eq, not_true_eq_false, not_false_eq_true, and_false,
    and_true, and_self, if_true, if_false, true_or, false_or, or_false, lt_self_iff_false,
    maxWait, List.foldl_nil, Prod.mk.injEq, true_and]
  · exact (max_eq_left (le_of_lt hg)).symm
  · cases hn : NewTokenBucket r.perRate r.perCap c.tNew with
    | none => simp [maxWait, le_of_lt hg]
    | some fresh =>
      by_cases hw : 0 < ((loadOrStore r.perIP ip fresh).Wait batch c.tPer).2
      · simp only [hw, if_true, List.singleton_append, maxWait, List.foldl_cons,
          List.foldl_nil, true_or, Prod.mk.injEq, true_and, max_def, gt_iff_lt]
        split_ifs <;> omega
      · simp only [hw, if_false, maxWait, List.foldl_nil, or_false, Prod.mk.injEq, true_and,
          if_true, max_def]
        split_ifs <;> omega
  · cases hn : NewTokenBucket r.perRate r.perCap c.tNew with
    | none => simp
    | some fresh =>
      by_cases hw : 0 < ((loadOrStore r.perIP ip fresh).Wait batch c.tPer).2
      · simp only [hw, if_true, List.nil_append, maxWait, List.foldl_nil, Prod.mk.injEq,
          true_and, max_def]
        split_ifs <;> omega
      · simp [hw]
  · exact (max_eq_left (le_of_lt hg)).symm
  · exact (max_eq_left (le_of_lt hg)).symm

/-- The part of the two-step check that is by design: a global bucket that holds at least
`batch` tokens loses them in `reserveBatch`, whatever the destination's bucket reports. -/
theorem reserveBatch_takes_global (r : rateLimiter) (g : TokenBucket) (ip : String)
    (batch : Int) (c : Clock) (hg : r.global = some g) (hb : 0 < batch)
    (hlevel : (batch : ℚ) ≤ (refill g c.tGlobal).tok) :
    (r.reserveBatch ip batch c).1.global =
      some { refill g c.tGlobal with tok := (refill g c.tGlobal).tok - batch } := by
  have hb' : ¬ batch ≤ 0 := not_le.mpr hb
  have hw : g.Wait batch c.tGlobal =
      ({ refill g c.tGlobal with tok := (refill g c.tGlobal).tok - batch }, 0) :=
    Wait_of_ge hb hlevel
  unfold rateLimiter.reserveBatch
  simp only [hb', if_false, hg, waitOpt, hw]
  split <;> (split <;> rename_i hs <;> revert hs <;> split <;> (try split) <;> intro hs <;> rfl)

/-! ## Range lists -/

theorem inRanges_nil (x : Nat) : inRanges [] x ↔ False := by
  simp [inRanges]

theorem inRanges_cons (r : Nat × Nat) (L : List (Nat × Nat)) (x : Nat) :
    inRanges (r :: L) x ↔ (r.1 ≤ x ∧ x ≤ r.2) ∨ inRanges L x := by
  simp [inRanges]

theorem inRanges_append (L1 L2 : List (Nat × Nat)) (x : Nat) :
    inRanges (L1 ++ L2) x ↔ inRanges L1 x ∨ inRanges L2 x := by
  simp [inRanges, or_and_right, exists_or]

theorem insertRange_mem (L : List (Nat × Nat)) :
    ∀ (lo hi x bound : Nat), lo ≤ hi → rangesOK bound L →
      (inRanges (insertRange lo hi L) x ↔ (lo ≤ x ∧ x ≤ hi) ∨ inRanges L x) := by
  induction L with
  | nil => intro lo hi x bound _ _; simp [insertRange, inRanges]
  | cons r rest ih =>
    intro lo hi x bound hle hok
    obtain ⟨a, b⟩ := r
    have hab : a ≤ b := (hok (a, b) (List.mem_cons_self _ _)).1
    have hrest : rangesOK bound rest := fun r hr => hok r (List.mem_cons_of_mem _ hr)
    unfold insertRange
    split
    · simp only [inRanges_cons]
    · split
      · rw [inRanges_cons, ih lo hi x bound hle hrest, inRanges_cons]
        tauto
      · rename_i h1 h2
        rw [ih (min lo a) (max hi b) x bound (le_trans (min_le_left _ _)
          (le_trans hle (le_max_left _ _))) hrest, inRanges_cons]
        simp only [min_le_iff, le_max_iff]
        have key : ((lo ≤ x ∨ a ≤ x) ∧ (x ≤ hi ∨ x ≤ b)) ↔
            ((lo ≤ x ∧ x ≤ hi) ∨ (a ≤ x ∧ x ≤ b)) := by omega
        rw [key, or_assoc]

theorem insertRange_ok (L : List (Nat × Nat)) :
    ∀ (lo hi bound : Nat), lo ≤ hi → hi < bound → rangesOK bound L →
      rangesOK bound (insertRange lo hi L) := by
  induction L with
  | nil =>
    intro lo hi bound hle hb _ r hr
    simp only [insertRange, List.mem_singleton] at hr
    subst hr
    exact ⟨hle, hb⟩
  | cons r rest ih =>
    intro lo hi bound hle hb hok
    obtain ⟨a, b⟩ := r
    have hab := hok (a, b) (List.mem_cons_self _ _)
    have hrest : rangesOK bound rest := fun r hr => hok r (List.mem_cons_of_mem _ hr)
    unfold insertRange
    split
    · intro r hr
      rcases List.mem_cons.mp hr with h | h
      · subst h; exact ⟨hle, hb⟩
      · exact hok r h
    · split
      · intro r hr
        rcases List.mem_cons.mp hr with h | h
        · subst h; exact hab
        · exact ih lo hi bound hle hb hrest r h
      · exact ih _ _ bound (le_trans (min_le_left _ _) (le_trans hle (le_max_left _ _)))
          (max_lt hb hab.2) hrest

theorem cutRange_mem (lo hi : Nat) (r : Nat × Nat) (x : Nat) (hr : r.1 ≤ r.2) :
    inRanges (cutRange lo hi r) x ↔ (r.1 ≤ x ∧ x ≤ r.2) ∧ ¬ (lo ≤ x ∧ x ≤ hi) := by
  obtain ⟨a, b⟩ := r
  simp only at hr
  unfold cutRange
  split
  · rename_i h
    simp only [inRanges_cons, inRanges_nil, or_false]
    constructor
    · rintro ⟨h1, h2⟩; exact ⟨⟨h1, h2⟩, by omega⟩
    · rintro ⟨h1, _⟩; exact h1
  · rename_i h
    rw [inRanges_append]
    by_cases h1 : a < lo <;> by_cases h2 : hi < b <;>
      simp only [h1, h2, if_true, if_false, inRanges_cons, inRanges_nil, or_false, false_or]
    · omega
    · omega
    · omega
    · rw [false_iff]; omega

theorem cutRange_ok (lo hi bound : Nat) (r : Nat × Nat) (hr : r.1 ≤ r.2 ∧ r.2 < bound) :
    rangesOK bound (cutRange lo hi r) := by
  obtain ⟨a, b⟩ := r
  simp only at hr
  intro q hq
  unfold cutRange at hq
  split at hq
  · simp only [List.mem_singleton] at hq
    subst hq; exact hr
  · rename_i h
    rcases List.mem_append.mp hq with h3 | h3
    · split at h3
      · simp only [List.mem_singleton] at h3
        subst h3; simp only; omega
      · simp at h3
    · split at h3
      · simp only [List.mem_singleton] at h3
        subst h3; simp only; omega
      · simp at h3

theorem removeRange_mem (L : List (Nat × Nat)) (lo hi x bound : Nat) (hok : rangesOK bound L) :
    inRanges (removeRange lo hi L) x ↔ inRanges L x ∧ ¬ (lo ≤ x ∧ x ≤ hi) := by
  induction L with
  | nil => simp [removeRange, inRanges_nil]
  | cons r rest ih =>
    have hrest : rangesOK bound rest := fun r hr => hok r (List.mem_cons_of_mem _ hr)
    unfold removeRange
    rw [inRanges_append, cutRange_mem lo hi r x (hok r (List.mem_cons_self _ _)).1, ih hrest,
      inRanges_cons]
    tauto

theorem removeRange_ok (L : List (Nat × Nat)) (lo hi bound : Nat) (hok : rangesOK bound L) :
    rangesOK bound (removeRange lo hi L) := by
  induction L with
  | nil => intro r hr; simp [removeRange] at hr
  | cons r rest ih =>
    have hrest : rangesOK bound rest := fun r hr => hok r (List.mem_cons_of_mem _ hr)
    intro q hq
    unfold removeRange at hq
    rcases List.mem_append.mp hq with h | h
    · exact cutRange_ok lo hi bound r (hok r (List.mem_cons_self _ _)) q h
    · exact ih hrest q h

/-- Taking out a range that meets no range of the list changes nothing. -/
theorem removeRange_disjoint (L : List (Nat × Nat)) (lo hi : Nat)
    (h : ∀ r ∈ L, hi < r.1 ∨ r.2 < lo) : removeRange lo hi L = L := by
  induction L with
  | nil => rfl
  | cons r rest ih =>
    unfold removeRange
    rw [ih (fun r hr => h r (List.mem_cons_of_mem _ hr))]
    simp [cutRange, h r (List.mem_cons_self _ _)]

/-! ## Prefixes of a range -/

theorem inBlocks_append (l1 l2 : List (Nat × Nat)) (x : Nat) :
    inBlocks (l1 ++ l2) x ↔ inBlocks l1 x ∨ inBlocks l2 x := by
  simp [inBlocks, or_and_right, exists_or]

theorem inBlocks_singleton (blk : Nat × Nat) (x : Nat) :
    inBlocks [blk] x ↔ blk.1 ≤ x ∧ x < blk.1 + 2 ^ blk.2 := by
  simp [inBlocks]

theorem blocksOf_mem (h : Nat) :
    ∀ (base a b x : Nat), base ≤ a → a ≤ b → b < base + 2 ^ h →
      (inBlocks (blocksOf h base a b) x ↔ a ≤ x ∧ x ≤ b) := by
  induction h with
  | zero =>
    intro base a b x h1 h2 h3
    simp only [blocksOf, inBlocks_singleton, pow_zero] at h3 ⊢
    omega
  | succ h ih =>
    intro base a b x h1 h2 h3
    have hk : 0 < 2 ^ h := Nat.pow_pos (by norm_num)
    have h2k : 2 ^ (h + 1) = 2 * 2 ^ h := by rw [pow_succ]; ring
    unfold blocksOf
    split
    · rename_i hw
      rw [inBlocks_singleton]
      simp only
      omega
    · rename_i hw
      simp only
      split
      · rw [ih base a b x h1 h2 (by omega)]
      · split
        · rw [ih (base + 2 ^ h) a b x (by omega) h2 (by omega)]
        · rw [inBlocks_append, ih base a (base + 2 ^ h - 1) x h1 (by omega) (by omega),
            ih (base + 2 ^ h) (base + 2 ^ h) b x (le_refl _) (by omega) (by omega)]
          omega

theorem blocksOf_aligned (h : Nat) :
    ∀ (base a b : Nat), 2 ^ h ∣ base → base ≤ a → a ≤ b → b < base + 2 ^ h →
      ∀ blk ∈ blocksOf h base a b,
        2 ^ blk.2 ∣ blk.1 ∧ blk.2 ≤ h ∧ blk.1 + 2 ^ blk.2 ≤ base + 2 ^ h := by
  induction h with
  | zero =>
    intro base a b hd h1 h2 h3 blk hblk
    simp only [blocksOf, List.mem_singleton] at hblk
    subst hblk
    exact ⟨by simp, le_refl _, le_refl _⟩
  | succ h ih =>
    intro base a b hd h1 h2 h3 blk hblk
    have hk : 0 < 2 ^ h := Nat.pow_pos (by norm_num)
    have h2k : 2 ^ (h + 1) = 2 * 2 ^ h := by rw [pow_succ]; ring
    have hd1 : 2 ^ h ∣ base := Dvd.dvd.trans ⟨2, by rw [h2k]; ring⟩ hd
    have hd2 : 2 ^ h ∣ base + 2 ^ h := Dvd.dvd.add hd1 (dvd_refl _)
    unfold blocksOf at hblk
    split at hblk
    · simp only [List.mem_singleton] at hblk
      subst hblk
      exact ⟨hd, le_refl _, le_refl _⟩
    · simp only at hblk
      split at hblk
      · obtain ⟨q1, q2, q3⟩ := ih base a b hd1 h1 h2 (by omega) blk hblk
        exact ⟨q1, by omega, by omega⟩
      · split at hblk
        · obtain ⟨q1, q2, q3⟩ := ih (base + 2 ^ h) a b hd2 (by omega) h2 (by omega) blk hblk
          exact ⟨q1, by omega, by omega⟩
        · rcases List.mem_append.mp hblk with hb | hb
          · obtain ⟨q1, q2, q3⟩ :=
              ih base a (base + 2 ^ h - 1) hd1 h1 (by omega) (by omega) blk hb
            exact ⟨q1, by omega, by omega⟩
          · obtain ⟨q1, q2, q3⟩ :=
              ih (base + 2 ^ h) (base + 2 ^ h) b hd2 (le_refl _) (by omega) (by omega) blk hb
            exact ⟨q1, by omega, by omega⟩

/-! ## Prefixes and the set builder -/

theorem RangeOfPrefix_some {p : Prefix} {r : IPRange} (h : RangeOfPrefix p = some r) :
    p.IsValid = true ∧ r.is6 = p.addr.Is6 ∧ r.lo ≤ r.hi ∧ r.hi < 2 ^ famWidth r.is6 := by
  unfold RangeOfPrefix at h
  split at h
  · rename_i hv
    simp only [Option.some.injEq] at h
    subst h
    refine ⟨hv, rfl, ?_, ?_⟩
    · have : 0 < 2 ^ (p.addr.BitLen - p.bits) := Nat.pow_pos (by norm_num)
      simp only
      omega
    · simp only [Prefix.IsValid, Bool.and_eq_true, decide_eq_true_eq] at hv
      obtain ⟨⟨hva, hb⟩, hval⟩ := hv
      have hw : famWidth p.addr.Is6 = p.addr.BitLen := by
        cases hp : p.addr <;> simp [hp, Addr.IsValid] at hva <;>
          simp [famWidth, Addr.Is6, Addr.BitLen]
      simp only [hw]
      set w := p.addr.BitLen
      set size := 2 ^ (w - p.bits) with hsize
      have hpos : 0 < size := Nat.pow_pos (by norm_num)
      have hsplit : 2 ^ w = size * 2 ^ p.bits := by
        rw [hsize, ← pow_add]; congr 1; omega
      have hq : p.addr.val / size < 2 ^ p.bits := by
        rw [Nat.div_lt_iff_lt_mul hpos, mul_comm, ← hsplit]; exact hval
      have hlo : p.addr.val - p.addr.val % size = size * (p.addr.val / size) := by
        have := Nat.div_add_mod p.addr.val size
        omega
      rw [hlo, hsplit]
      have : size * (p.addr.val / size) + size ≤ size * 2 ^ p.bits := by
        calc size * (p.addr.val / size) + size = size * (p.addr.val / size + 1) := by ring
          _ ≤ size * 2 ^ p.bits := Nat.mul_le_mul_left _ hq
      omega
  · exact absurd h (by simp)

theorem RangeOfPrefix_none {p : Prefix} (h : RangeOfPrefix p = none) : p.IsValid = false := by
  unfold RangeOfPrefix at h
  split at h
  · exact absurd h (by simp)
  · rename_i hv; simpa using hv

theorem Prefix.contains_iff {p : Prefix} {r : IPRange} (h : RangeOfPrefix p = some r)
    (a : Addr) :
    p.Contains a = true ↔
      ((r.is6 = false ∧ ∃ n, a = .v4 n ∧ r.lo ≤ n ∧ n ≤ r.hi) ∨
       (r.is6 = true ∧ ∃ n, a = .v6 n ∧ r.lo ≤ n ∧ n ≤ r.hi)) := by
  unfold Prefix.Contains
  rw [h]
  cases a with
  | zero => simp [Addr.IsValid]
  | v4 n => cases hr : r.is6 <;> simp [Addr.IsValid, Addr.Is6, Addr.val, hr, and_assoc]
  | v6 n => cases hr : r.is6 <;> simp [Addr.IsValid, Addr.Is6, Addr.val, hr, and_assoc]

theorem Prefix.contains_invalid {p : Prefix} (h : RangeOfPrefix p = none) (a : Addr) :
    p.Contains a = false := by
  unfold Prefix.Contains
  rw [h]

theorem AddPrefix_contains (s : IPSetBuilder) (p : Prefix) (a : Addr) (hs : s.WF) :
    (s.AddPrefix p).Contains a ↔ s.Contains a ∨ p.Contains a = true := by
  unfold IPSetBuilder.AddPrefix
  cases h : RangeOfPrefix p with
  | none => simp [Prefix.contains_invalid h, IPSetBuilder.Contains]
  | some r =>
    obtain ⟨_, _, hle, _⟩ := RangeOfPrefix_some h
    rw [Prefix.contains_iff h]
    obtain ⟨is6, lo, hi⟩ := r
    cases is6 <;> cases a <;>
      simp [IPSetBuilder.Contains, insertRange_mem _ _ _ _ _ hle hs.1,
        insertRange_mem _ _ _ _ _ hle hs.2, or_comm]

theorem AddPrefix_WF (s : IPSetBuilder) (p : Prefix) (hs : s.WF) : (s.AddPrefix p).WF := by
  unfold IPSetBuilder.AddPrefix
  cases h : RangeOfPrefix p with
  | none => exact hs
  | some r =>
    obtain ⟨_, _, hle, hb⟩ := RangeOfPrefix_some h
    obtain ⟨is6, lo, hi⟩ := r
    cases is6
    · simp only [famWidth, Bool.false_eq_true, if_false] at hb
      exact ⟨insertRange_ok _ _ _ _ hle hb hs.1, hs.2⟩
    · simp only [famWidth, if_true] at hb
      exact ⟨hs.1, insertRange_ok _ _ _ _ hle hb hs.2⟩

theorem RemovePrefix_contains (s : IPSetBuilder) (p : Prefix) (a : Addr) (hs : s.WF) :
    (s.RemovePrefix p).Contains a ↔ s.Contains a ∧ ¬ p.Contains a = true := by
  unfold IPSetBuilder.RemovePrefix
  cases h : RangeOfPrefix p with
  | none => simp [Prefix.contains_invalid h, IPSetBuilder.Contains]
  | some r =>
    rw [Prefix.contains_iff h]
    obtain ⟨is6, lo, hi⟩ := r
    cases is6 <;> cases a <;>
      simp [IPSetBuilder.Contains, removeRange_mem _ _ _ _ _ hs.1,
        removeRange_mem _ _ _ _ _ hs.2]

theorem RemovePrefix_WF (s : IPSetBuilder) (p : Prefix) (hs : s.WF) :
    (s.RemovePrefix p).WF := by
  unfold IPSetBuilder.RemovePrefix
  cases h : RangeOfPrefix p with
  | none => exact hs
  | some r =>
    obtain ⟨is6, lo, hi⟩ := r
    cases is6
    · exact ⟨removeRange_ok _ _ _ _ hs.1, hs.2⟩
    · exact ⟨hs.1, removeRange_ok _ _ _ _ hs.2⟩

theorem AddPrefix_errs (s : IPSetBuilder) (p : Prefix) :
    (s.AddPrefix p).errs = (s.errs || !p.IsValid) := by
  unfold IPSetBuilder.AddPrefix
  cases h : RangeOfPrefix p with
  | none => simp [RangeOfPrefix_none h]
  | some r =>
    have := (RangeOfPrefix_some h).1
    obtain ⟨is6, lo, hi⟩ := r
    cases is6 <;> simp [this]

theorem RemovePrefix_errs (s : IPSetBuilder) (p : Prefix) :
    (s.RemovePrefix p).errs = (s.errs || !p.IsValid) := by
  unfold IPSetBuilder.RemovePrefix
  cases h : RangeOfPrefix p with
  | none => simp [RangeOfPrefix_none h]
  | some r =>
    have := (RangeOfPrefix_some h).1
    obtain ⟨is6, lo, hi⟩ := r
    cases is6 <;> simp [this]

theorem RangeOfPrefix_block (is6 : Bool) (base h : Nat) (hd : 2 ^ h ∣ base)
    (hh : h ≤ famWidth is6) (hb : base + 2 ^ h ≤ 2 ^ famWidth is6) :
    RangeOfPrefix ⟨if is6 then Addr.v6 base else Addr.v4 base, famWidth is6 - h⟩ =
      some ⟨is6, base, base + 2 ^ h - 1⟩ := by
  have hpos : 0 < 2 ^ h := Nat.pow_pos (by norm_num)
  have hmod : base % 2 ^ h = 0 := Nat.mod_eq_zero_of_dvd hd
  cases is6
  · simp only [famWidth, Bool.false_eq_true, if_false] at hh hb ⊢
    have hsub : 32 - (32 - h) = h := by omega
    have hlt : base < 4294967296 := by norm_num at hb; omega
    simp [RangeOfPrefix, Prefix.IsValid, Addr.IsValid, Addr.BitLen, Addr.val, Addr.Is6, hsub,
      hmod, hlt]
  · simp only [famWidth, if_true] at hh hb ⊢
    have hsub : 128 - (128 - h) = h := by omega
    have hlt : base < 340282366920938463463374607431768211456 := by norm_num at hb; omega
    simp [RangeOfPrefix, Prefix.IsValid, Addr.IsValid, Addr.BitLen, Addr.val, Addr.Is6, hsub,
      hmod, hlt]

theorem rangePrefixes_contains (is6 : Bool) (r : Nat × Nat) (a : Addr) (h1 : r.1 ≤ r.2)
    (h2 : r.2 < 2 ^ famWidth is6) :
    (∃ p ∈ rangePrefixes is6 r, p.Contains a = true) ↔ addrIn is6 r.1 r.2 a := by
  have hal := blocksOf_aligned (famWidth is6) 0 r.1 r.2 (dvd_zero _) (Nat.zero_le _) h1
    (by omega)
  have hmem := fun x => blocksOf_mem (famWidth is6) 0 r.1 r.2 x (Nat.zero_le _) h1 (by omega)
  have hblk : ∀ blk ∈ blocksOf (famWidth is6) 0 r.1 r.2,
      ((⟨if is6 then Addr.v6 blk.1 else Addr.v4 blk.1, famWidth is6 - blk.2⟩ : Prefix).Contains a
        = true ↔ addrIn is6 blk.1 (blk.1 + 2 ^ blk.2 - 1) a) := by
    intro blk hb
    obtain ⟨q1, q2, q3⟩ := hal blk hb
    rw [Prefix.contains_iff (RangeOfPrefix_block is6 blk.1 blk.2 q1 q2 (by omega))]
    cases is6 <;> simp [addrIn]
  constructor
  · rintro ⟨p, hp, hc⟩
    simp only [rangePrefixes, List.mem_map] at hp
    obtain ⟨blk, hb, rfl⟩ := hp
    obtain ⟨n, hn, h3, h4⟩ := (hblk blk hb).mp hc
    have hpos : 0 < 2 ^ blk.2 := Nat.pow_pos (by norm_num)
    have := (hmem n).mp ⟨blk, hb, h3, by omega⟩
    exact ⟨n, hn, this.1, this.2⟩
  · rintro ⟨n, hn, h3, h4⟩
    obtain ⟨blk, hb, h5, h6⟩ := (hmem n).mpr ⟨h3, h4⟩
    refine ⟨_, List.mem_map.mpr ⟨blk, hb, rfl⟩, (hblk blk hb).mpr ⟨n, hn, h5, by omega⟩⟩

theorem builder_contains_iff (s : IPSetBuilder) (a : Addr) :
    s.Contains a ↔ (∃ r ∈ s.r4, addrIn false r.1 r.2 a) ∨ (∃ r ∈ s.r6, addrIn true r.1 r.2 a) := by
  cases a <;> simp [IPSetBuilder.Contains, addrIn, inRanges]

/-- The prefixes of a well-formed set cover exactly the addresses of the set. -/
theorem Prefixes_contains (s : IPSetBuilder) (a : Addr) (hs : s.WF) :
    (∃ p ∈ (IPSet.mk s.r4 s.r6).Prefixes, p.Contains a = true) ↔ s.Contains a := by
  rw [builder_contains_iff]
  simp only [IPSet.Prefixes, List.mem_append, List.mem_flatMap]
  constructor
  · rintro ⟨p, (⟨r, hr, hp⟩ | ⟨r, hr, hp⟩), hc⟩
    · exact Or.inl ⟨r, hr, (rangePrefixes_contains false r a (hs.1 r hr).1 (hs.1 r hr).2).mp
        ⟨p, hp, hc⟩⟩
    · exact Or.inr ⟨r, hr, (rangePrefixes_contains true r a (hs.2 r hr).1 (hs.2 r hr).2).mp
        ⟨p, hp, hc⟩⟩
  · rintro (⟨r, hr, hin⟩ | ⟨r, hr, hin⟩)
    · obtain ⟨p, hp, hc⟩ :=
        (rangePrefixes_contains false r a (hs.1 r hr).1 (hs.1 r hr).2).mpr hin
      exact ⟨p, Or.inl ⟨r, hr, hp⟩, hc⟩
    · obtain ⟨p, hp, hc⟩ :=
        (rangePrefixes_contains true r a (hs.2 r hr).1 (hs.2 r hr).2).mpr hin
      exact ⟨p, Or.inr ⟨r, hr, hp⟩, hc⟩

/-! ## The two loops of `buildCIDRs` -/

theorem empty_WF : IPSetBuilder.empty.WF := by
  constructor <;> intro r hr <;> simp [IPSetBuilder.empty] at hr

theorem foldl_AddPrefix_WF (l : List Addr) :
    ∀ b : IPSetBuilder, b.WF →
      (l.foldl (fun b addr => b.AddPrefix (PrefixFrom addr addr.BitLen)) b).WF := by
  induction l with
  | nil => intro b hb; exact hb
  | cons a rest ih => intro b hb; exact ih _ (AddPrefix_WF _ _ hb)

theorem addTargets_WF (lib : Lib) (opts : cidrBuildOptions) (ts : List String) :
    ∀ st st', addTargets lib opts ts st = .ok st' → st.builder.WF → st'.builder.WF := by
  induction ts with
  | nil =>
    intro st st' h hw
    simp only [addTargets, Except.ok.injEq] at h
    subst h; exact hw
  | cons raw rest ih =>
    intro st st' h hw
    simp only [addTargets] at h
    split at h
    · exact ih _ _ h hw
    · split at h
      · cases h
      · split at h
        · split at h
          · cases h
          · split at h
            · cases h
            · exact ih _ _ h (foldl_AddPrefix_WF _ _ hw)
        · split at h
          · cases h
          · split at h
            · cases h
            · exact ih _ _ h (AddPrefix_WF _ _ hw)

theorem coveredBy_cons (lib : Lib) (raw : String) (rest : List String) (a : Addr) :
    coveredBy lib (raw :: rest) a ↔
      (∃ p, literalPrefix lib raw = some p ∧ p.Contains a = true) ∨ coveredBy lib rest a := by
  simp [coveredBy]

theorem hasInvalid_cons (lib : Lib) (raw : String) (rest : List String) :
    hasInvalid lib (raw :: rest) ↔
      (∃ p, literalPrefix lib raw = some p ∧ p.IsValid = false) ∨ hasInvalid lib rest := by
  simp [hasInvalid]

theorem removeExcludes_spec (lib : Lib) (ex : List String) :
    ∀ b b', removeExcludes lib ex b = .ok b' → b.WF →
      b'.WF ∧ (∀ a, b'.Contains a ↔ b.Contains a ∧ ¬ coveredBy lib ex a) ∧
      (b'.errs = true ↔ b.errs = true ∨ hasInvalid lib ex) := by
  induction ex with
  | nil =>
    intro b b' h hw
    simp only [removeExcludes, Except.ok.injEq] at h
    subst h
    exact ⟨hw, fun a => by simp [coveredBy], by simp [hasInvalid]⟩
  | cons raw rest ih =>
    intro b b' h hw
    simp only [removeExcludes] at h
    split at h
    · rename_i hblank
      obtain ⟨q1, q2, q3⟩ := ih _ _ h hw
      have hnone : literalPrefix lib raw = none := by simp [literalPrefix, hblank]
      refine ⟨q1, fun a => ?_, ?_⟩
      · rw [q2 a, coveredBy_cons, hnone]; simp
      · rw [q3, hasInvalid_cons, hnone]; simp
    · rename_i hblank
      split at h
      · cases h
      · rename_i cidr hc
        split at h
        · cases h
        · rename_i pfx hp
          obtain ⟨q1, q2, q3⟩ := ih _ _ h (RemovePrefix_WF _ _ hw)
          have hsome : literalPrefix lib raw = some pfx := by
            simp [literalPrefix, hblank, hc, hp]
          refine ⟨q1, fun a => ?_, ?_⟩
          · rw [q2 a, RemovePrefix_contains _ _ _ hw, coveredBy_cons, hsome]
            simp only [Option.some.injEq, exists_eq_left']
            tauto
          · rw [q3, RemovePrefix_errs, hasInvalid_cons, hsome]
            simp only [Option.some.injEq, exists_eq_left', Bool.or_eq_true,
              Bool.not_eq_true']
            tauto

theorem addTargets_literal (lib : Lib) (opts : cidrBuildOptions) (ts : List String) :
    ∀ st st', addTargets lib opts ts st = .ok st' → allLiteral lib opts ts → st.builder.WF →
      (∀ a, st'.builder.Contains a ↔ st.builder.Contains a ∨ coveredBy lib ts a) ∧
      (st'.builder.errs = true ↔ st.builder.errs = true ∨ hasInvalid lib ts) := by
  induction ts with
  | nil =>
    intro st st' h _ _
    simp only [addTargets, Except.ok.injEq] at h
    subst h
    exact ⟨fun a => by simp [coveredBy], by simp [hasInvalid]⟩
  | cons raw rest ih =>
    intro st st' h hlit hw
    have hlit' : allLiteral lib opts rest := fun r hr => hlit r (List.mem_cons_of_mem _ hr)
    simp only [addTargets] at h
    split at h
    · rename_i hblank
      obtain ⟨q2, q3⟩ := ih _ _ h hlit' hw
      have hnone : literalPrefix lib raw = none := by simp [literalPrefix, hblank]
      refine ⟨fun a => ?_, ?_⟩
      · rw [q2 a, coveredBy_cons, hnone]; simp
      · rw [q3, hasInvalid_cons, hnone]; simp
    · rename_i hblank
      split at h
      · cases h
      · rename_i cidr hc
        have hpath := hlit raw (List.mem_cons_self _ _) cidr hc
        simp only [hpath, Bool.false_eq_true, if_false] at h
        split at h
        · cases h
        · rename_i pfx hp
          split at h
          · cases h
          · obtain ⟨q2, q3⟩ := ih _ _ h hlit' (AddPrefix_WF _ _ hw)
            have hsome : literalPrefix lib raw = some pfx := by
              simp [literalPrefix, hblank, hc, hp]
            refine ⟨fun a => ?_, ?_⟩
            · rw [q2 a, AddPrefix_contains _ _ _ hw, coveredBy_cons, hsome]
              simp only [Option.some.injEq, exists_eq_left']
              tauto
            · rw [q3, AddPrefix_errs, hasInvalid_cons, hsome]
              simp only [Option.some.injEq, exists_eq_left', Bool.or_eq_true,
                Bool.not_eq_true']
              tauto

/-! ## `buildCIDRs` as a whole -/

theorem fail_err (e : BuildError) : (BuildResult.fail e).err = some e := rfl

/-- What a successful run of `buildCIDRs` went through. -/
theorem buildCIDRs_ok_inv {lib : Lib} {ts ex : List String} {opts : cidrBuildOptions}
    (hok : (buildCIDRs lib ts ex opts).err = none) :
    ∃ st b, addTargets lib opts ts initState = .ok st ∧ st.includeCount ≠ 0 ∧
      removeExcludes lib ex st.builder = .ok b ∧ b.errs = false ∧
      cidrsOfSet lib ⟨b.r4, b.r6⟩ ≠ [] ∧
      finalSet lib ts ex opts = some ⟨b.r4, b.r6⟩ ∧
      buildCIDRs lib ts ex opts =
        ⟨sortStable lib (cidrsOfSet lib ⟨b.r4, b.r6⟩), some st.hostMap, none⟩ := by
  unfold buildCIDRs at hok
  unfold buildCIDRs finalSet
  cases h1 : addTargets lib opts ts ⟨IPSetBuilder.empty, [], 0⟩ with
  | error e => rw [h1] at hok; simp [fail_err] at hok
  | ok st =>
    rw [h1] at hok
    simp only at hok ⊢
    by_cases h2 : st.includeCount = 0
    · simp [h2, fail_err] at hok
    · simp only [h2, if_false] at hok ⊢
      cases h3 : removeExcludes lib ex st.builder with
      | error e => rw [h3] at hok; simp [fail_err] at hok
      | ok b =>
        rw [h3] at hok
        simp only at hok ⊢
        by_cases h4 : b.errs = true
        · simp [IPSetBuilder.IPSet, h4, fail_err] at hok
        · have h4' : b.errs = false := by simpa using h4
          simp only [IPSetBuilder.IPSet, h4', Bool.false_eq_true, if_false] at hok ⊢
          by_cases h5 : (cidrsOfSet lib ⟨b.r4, b.r6⟩).length = 0
          · simp [h5, fail_err] at hok
          · simp only [h5, if_false]
            refine ⟨st, b, h1, h2, h3, h4', ?_, rfl, rfl⟩
            intro hnil
            exact h5 (by rw [hnil]; rfl)

theorem mem_sortStable (lib : Lib) (l : List CIDR) (c : CIDR) :
    c ∈ sortStable lib l ↔ c ∈ l :=
  (List.perm_insertionSort _ l).mem_iff

theorem CIDR.contains_of_roundTrip {c : CIDR} {p : Prefix} (h1 : c.ip = p.addr)
    (h2 : c.mask = p.bits) (a : Addr) : c.Contains a = p.Contains a := by
  unfold CIDR.Contains
  rw [h1, h2]

theorem roundTrips_spec {lib : Lib} {p : Prefix} (h : roundTrips lib p = true) :
    ∃ c, lib.ParseCIDR (lib.prefixString p) = some c ∧ c.ip = p.addr ∧ c.mask = p.bits := by
  unfold roundTrips at h
  split at h
  · rename_i c hc
    simp only [Bool.and_eq_true, decide_eq_true_eq] at h
    exact ⟨c, hc, h.1, h.2⟩
  · cases h

/-- With a library that round-trips the prefixes of the set, the ranges built from the
set cover exactly the addresses of the set. -/
theorem cidrsOfSet_contains (lib : Lib) (b : IPSetBuilder) (hw : b.WF)
    (hrt : ∀ p ∈ (IPSet.mk b.r4 b.r6).Prefixes, roundTrips lib p = true) (a : Addr) :
    (∃ c ∈ cidrsOfSet lib ⟨b.r4, b.r6⟩, c.Contains a = true) ↔ b.Contains a := by
  rw [← Prefixes_contains b a hw]
  simp only [cidrsOfSet, List.mem_filterMap]
  constructor
  · rintro ⟨c, ⟨p, hp, hpc⟩, hc⟩
    obtain ⟨c', hc', h1, h2⟩ := roundTrips_spec (hrt p hp)
    rw [hpc, Option.some.injEq] at hc'
    subst hc'
    exact ⟨p, hp, by rw [← CIDR.contains_of_roundTrip h1 h2]; exact hc⟩
  · rintro ⟨p, hp, hc⟩
    obtain ⟨c, hpc, h1, h2⟩ := roundTrips_spec (hrt p hp)
    exact ⟨c, ⟨p, hp, hpc⟩, by rw [CIDR.contains_of_roundTrip h1 h2]; exact hc⟩

theorem empty_contains (a : Addr) : ¬ IPSetBuilder.empty.Contains a := by
  cases a <;> simp [IPSetBuilder.Contains, IPSetBuilder.empty, inRanges]

/-- Coverage of a successful run on literal targets. -/
theorem buildCIDRs_covers {lib : Lib} {ts ex : List String} {opts : cidrBuildOptions}
    (hlit : allLiteral lib opts ts)
    (hrt : ∀ s, finalSet lib ts ex opts = some s → ∀ p ∈ s.Prefixes, roundTrips lib p = true)
    (hok : (buildCIDRs lib ts ex opts).err = none) (a : Addr) :
    (∃ c ∈ (buildCIDRs lib ts ex opts).cidrs, c.Contains a = true) ↔
      coveredBy lib ts a ∧ ¬ coveredBy lib ex a := by
  obtain ⟨st, b, h1, _, h3, _, _, h6, h7⟩ := buildCIDRs_ok_inv hok
  have hw1 := addTargets_WF lib opts ts _ _ h1 empty_WF
  obtain ⟨q1, _⟩ := addTargets_literal lib opts ts _ _ h1 hlit empty_WF
  obtain ⟨hw2, q2, _⟩ := removeExcludes_spec lib ex _ _ h3 hw1
  rw [h7]
  simp only [mem_sortStable]
  rw [cidrsOfSet_contains lib b hw2 (hrt _ h6) a, q2 a, q1 a]
  simp [initState, empty_contains]

/-! ### An exclude outside the included set -/

theorem removeExcludes_append (lib : Lib) (ex1 ex2 : List String) :
    ∀ b, removeExcludes lib (ex1 ++ ex2) b =
      match removeExcludes lib ex1 b with
      | .error e => .error e
      | .ok b1 => removeExcludes lib ex2 b1 := by
  induction ex1 with
  | nil => intro b; simp [removeExcludes]
  | cons raw rest ih =>
    intro b
    simp only [List.cons_append, removeExcludes]
    split
    · exact ih b
    · split
      · rfl
      · split
        · rfl
        · exact ih _

theorem removeExcludes_cons_literal (lib : Lib) (e : String) (rest : List String)
    (b : IPSetBuilder) (p : Prefix) (h : literalPrefix lib e = some p) :
    removeExcludes lib (e :: rest) b = removeExcludes lib rest (b.RemovePrefix p) := by
  unfold literalPrefix at h
  split at h
  · cases h
  · rename_i hblank
    split at h
    · cases h
    · rename_i cidr hc
      simp [removeExcludes, hblank, hc, h]

theorem RemovePrefix_disjoint (b : IPSetBuilder) (p : Prefix) (hw : b.WF)
    (hv : p.IsValid = true) (hd : ∀ a, p.Contains a = true → ¬ b.Contains a) :
    b.RemovePrefix p = b := by
  unfold IPSetBuilder.RemovePrefix
  cases h : RangeOfPrefix p with
  | none => rw [RangeOfPrefix_none h] at hv; cases hv
  | some r =>
    obtain ⟨_, _, hle, _⟩ := RangeOfPrefix_some h
    have hc := Prefix.contains_iff h
    obtain ⟨is6, lo, hi⟩ := r
    simp only at hle
    cases is6
    · have : removeRange lo hi b.r4 = b.r4 := by
        apply removeRange_disjoint
        intro q hq
        by_contra hcon
        have hq1 := (hw.1 q hq).1
        refine hd (.v4 (max q.1 lo)) ((hc _).mpr (Or.inl ⟨rfl, _, rfl, ?_, ?_⟩)) ?_
        · exact le_max_right _ _
        · simp only [max_le_iff]; omega
        · exact ⟨q, hq, le_max_left _ _, by simp only [max_le_iff]; omega⟩
      simp [this]
    · have : removeRange lo hi b.r6 = b.r6 := by
        apply removeRange_disjoint
        intro q hq
        by_contra hcon
        have hq1 := (hw.2 q hq).1
        refine hd (.v6 (max q.1 lo)) ((hc _).mpr (Or.inr ⟨rfl, _, rfl, ?_, ?_⟩)) ?_
        · exact le_max_right _ _
        · simp only [max_le_iff]; omega
        · exact ⟨q, hq, le_max_left _ _, by simp only [max_le_iff]; omega⟩
      simp [this]

/-- An exclude whose (valid) prefix meets no target prefix can be dropped from the
exclude list without changing the result of `buildCIDRs`. -/
theorem buildCIDRs_disjoint_exclude {lib : Lib} {ts : List String} {opts : cidrBuildOptions}
    (hlit : allLiteral lib opts ts) (e : String) (p : Prefix)
    (hp : literalPrefix lib e = some p) (hv : p.IsValid = true)
    (hd : ∀ a, p.Contains a = true → ¬ coveredBy lib ts a) (ex1 ex2 : List String) :
    buildCIDRs lib ts (ex1 ++ e :: ex2) opts = buildCIDRs lib ts (ex1 ++ ex2) opts := by
  unfold buildCIDRs
  cases h1 : addTargets lib opts ts ⟨IPSetBuilder.empty, [], 0⟩ with
  | error e => rfl
  | ok st =>
    simp only
    by_cases h2 : st.includeCount = 0
    · simp [h2]
    · simp only [h2, if_false]
      have hw1 := addTargets_WF lib opts ts _ _ h1 empty_WF
      obtain ⟨q1, _⟩ := addTargets_literal lib opts ts _ _ h1 hlit empty_WF
      rw [removeExcludes_append, removeExcludes_append]
      cases h3 : removeExcludes lib ex1 st.builder with
      | error e => rfl
      | ok b1 =>
        simp only
        obtain ⟨hw2, q2, _⟩ := removeExcludes_spec lib ex1 _ _ h3 hw1
        rw [removeExcludes_cons_literal lib e ex2 b1 p hp, RemovePrefix_disjoint b1 p hw2 hv]
        intro a ha hb
        apply hd a ha
        have := (q1 a).mp ((q2 a).mp hb).1
        rcases this with h | h
        · exact absurd h (empty_contains a)
        · exact h

/-! ### The order of the targets -/

theorem addTargets_literal_inv (lib : Lib) (opts : cidrBuildOptions) (ts : List String) :
    ∀ st st', addTargets lib opts ts st = .ok st' → allLiteral lib opts ts →
      (∀ raw ∈ ts, literalOK lib opts raw) ∧
      (st'.includeCount = 0 ↔ st.includeCount = 0 ∧ ∀ raw ∈ ts, TrimSpace raw = "") := by
  induction ts with
  | nil =>
    intro st st' h _
    simp only [addTargets, Except.ok.injEq] at h
    subst h
    simp
  | cons raw rest ih =>
    intro st st' h hlit
    have hlit' : allLiteral lib opts rest := fun r hr => hlit r (List.mem_cons_of_mem _ hr)
    simp only [addTargets] at h
    split at h
    · rename_i hblank
      obtain ⟨q1, q2⟩ := ih _ _ h hlit'
      refine ⟨?_, ?_⟩
      · intro r hr
        rcases List.mem_cons.mp hr with h0 | h0
        · subst h0; exact Or.inl hblank
        · exact q1 r h0
      · rw [q2]; simp [hblank]
    · rename_i hblank
      split at h
      · cases h
      · rename_i cidr hc
        have hpath := hlit raw (List.mem_cons_self _ _) cidr hc
        simp only [hpath, Bool.false_eq_true, if_false] at h
        split at h
        · cases h
        · rename_i pfx hp
          split at h
          · cases h
          · rename_i hallow
            obtain ⟨q1, q2⟩ := ih _ _ h hlit'
            refine ⟨?_, ?_⟩
            · intro r hr
              rcases List.mem_cons.mp hr with h0 | h0
              · subst h0
                exact Or.inr ⟨pfx, by simp [literalPrefix, hblank, hc, hp], by simpa using hallow⟩
              · exact q1 r h0
            · rw [q2]; simp [hblank]

theorem addTargets_literal_ok (lib : Lib) (opts : cidrBuildOptions) (ts : List String) :
    allLiteral lib opts ts → (∀ raw ∈ ts, literalOK lib opts raw) →
      ∀ st, ∃ st', addTargets lib opts ts st = .ok st' := by
  induction ts with
  | nil => intro _ _ st; exact ⟨st, rfl⟩
  | cons raw rest ih =>
    intro hlit hall st
    have hlit' : allLiteral lib opts rest := fun r hr => hlit r (List.mem_cons_of_mem _ hr)
    have hall' : ∀ r ∈ rest, literalOK lib opts r := fun r hr => hall r (List.mem_cons_of_mem _ hr)
    rcases hall raw (List.mem_cons_self _ _) with hblank | ⟨p, hp, hallow⟩
    · simp only [addTargets, hblank, if_true]
      exact ih hlit' hall' st
    · unfold literalPrefix at hp
      split at hp
      · cases hp
      · rename_i hblank
        split at hp
        · cases hp
        · rename_i cidr hc
          have hpath := hlit raw (List.mem_cons_self _ _) cidr hc
          simp only [addTargets, hblank, if_false, hc, hpath, Bool.false_eq_true, hp, hallow,
            Bool.not_true]
          exact ih hlit' hall' _

theorem removeExcludes_ok_any (lib : Lib) (ex : List String) :
    ∀ b b', removeExcludes lib ex b = .ok b' → ∀ b2, ∃ b2', removeExcludes lib ex b2 = .ok b2' := by
  induction ex with
  | nil => intro _ _ _ b2; exact ⟨b2, rfl⟩
  | cons raw rest ih =>
    intro b b' h b2
    simp only [removeExcludes] at h ⊢
    split at h
    · rename_i hblank
      simp only [hblank, if_true]
      exact ih _ _ h b2
    · rename_i hblank
      simp only [hblank, if_false]
      split at h
      · cases h
      · rename_i cidr hc
        split at h
        · cases h
        · exact ih _ _ h _

/-- The result of `buildCIDRs` from the outcome of its stages. -/
theorem buildCIDRs_ok_of {lib : Lib} {ts ex : List String} {opts : cidrBuildOptions}
    {st : BuildState} {b : IPSetBuilder}
    (h1 : addTargets lib opts ts initState = .ok st) (h2 : st.includeCount ≠ 0)
    (h3 : removeExcludes lib ex st.builder = .ok b) (h4 : b.errs = false) :
    finalSet lib ts ex opts = some ⟨b.r4, b.r6⟩ ∧
    (cidrsOfSet lib ⟨b.r4, b.r6⟩ ≠ [] →
      buildCIDRs lib ts ex opts =
        ⟨sortStable lib (cidrsOfSet lib ⟨b.r4, b.r6⟩), some st.hostMap, none⟩) := by
  unfold initState at h1
  constructor
  · simp [finalSet, h1, h2, h3, IPSetBuilder.IPSet, h4]
  · intro h5
    have h5' : (cidrsOfSet lib ⟨b.r4, b.r6⟩).length ≠ 0 := by
      intro h; exact h5 (List.length_eq_zero.mp h)
    simp [buildCIDRs, h1, h2, h3, IPSetBuilder.IPSet, h4, h5']

theorem cidrsOfSet_nonempty_contains (lib : Lib) (b : IPSetBuilder) (hw : b.WF)
    (h : cidrsOfSet lib ⟨b.r4, b.r6⟩ ≠ []) : ∃ a, b.Contains a := by
  obtain ⟨c, hc⟩ := List.exists_mem_of_ne_nil _ h
  simp only [cidrsOfSet, List.mem_filterMap, IPSet.Prefixes, List.mem_append,
    List.mem_flatMap] at hc
  obtain ⟨p, (⟨r, hr, _⟩ | ⟨r, hr, _⟩), _⟩ := hc
  · exact ⟨.v4 r.1, r, hr, le_refl _, (hw.1 r hr).1⟩
  · exact ⟨.v6 r.1, r, hr, le_refl _, (hw.2 r hr).1⟩

theorem coveredBy_perm (lib : Lib) {l1 l2 : List String} (h : l1.Perm l2) (a : Addr) :
    coveredBy lib l1 a ↔ coveredBy lib l2 a := by
  simp only [coveredBy, h.mem_iff]

theorem hasInvalid_perm (lib : Lib) {l1 l2 : List String} (h : l1.Perm l2) :
    hasInvalid lib l1 ↔ hasInvalid lib l2 := by
  simp only [hasInvalid, h.mem_iff]

/-- A successful run on literal targets stays successful when the targets are permuted
(given that the library round-trips the prefixes of the permuted run). -/
theorem buildCIDRs_perm_ok {lib : Lib} {ts ts' ex : List String} {opts : cidrBuildOptions}
    (hlit : allLiteral lib opts ts) (hperm : ts'.Perm ts)
    (hrt : ∀ s, finalSet lib ts' ex opts = some s → ∀ p ∈ s.Prefixes, roundTrips lib p = true)
    (hok : (buildCIDRs lib ts ex opts).err = none) :
    (buildCIDRs lib ts' ex opts).err = none := by
  obtain ⟨st, b, h1, h2, h3, h4, h5, _, _⟩ := buildCIDRs_ok_inv hok
  have hlit' : allLiteral lib opts ts' := fun r hr => hlit r (hperm.mem_iff.mp hr)
  have hw1 := addTargets_WF lib opts ts _ _ h1 empty_WF
  obtain ⟨q1, e1⟩ := addTargets_literal lib opts ts _ _ h1 hlit empty_WF
  obtain ⟨hw2, q2, e2⟩ := removeExcludes_spec lib ex _ _ h3 hw1
  obtain ⟨k1, k2⟩ := addTargets_literal_inv lib opts ts _ _ h1 hlit
  obtain ⟨st', h1'⟩ := addTargets_literal_ok lib opts ts' hlit'
    (fun r hr => k1 r (hperm.mem_iff.mp hr)) initState
  have hw1' := addTargets_WF lib opts ts' _ _ h1' empty_WF
  obtain ⟨q1', e1'⟩ := addTargets_literal lib opts ts' _ _ h1' hlit' empty_WF
  obtain ⟨k1', k2'⟩ := addTargets_literal_inv lib opts ts' _ _ h1' hlit'
  obtain ⟨b', h3'⟩ := removeExcludes_ok_any lib ex _ _ h3 st'.builder
  obtain ⟨hw2', q2', e2'⟩ := removeExcludes_spec lib ex _ _ h3' hw1'
  have h2' : st'.includeCount ≠ 0 := by
    intro h0
    apply h2
    rw [k2]
    exact ⟨rfl, fun r hr => (k2'.mp h0).2 r (hperm.mem_iff.mpr hr)⟩
  have h4' : b'.errs = false := by
    have hne : ¬ b.errs = true := by simp [h4]
    rw [e2, e1] at hne
    have : ¬ b'.errs = true := by
      rw [e2', e1', hasInvalid_perm lib hperm]
      exact hne
    simpa using this
  obtain ⟨f1, f2⟩ := buildCIDRs_ok_of h1' h2' h3' h4'
  obtain ⟨a, ha⟩ := cidrsOfSet_nonempty_contains lib b hw2 h5
  have ha' : b'.Contains a := by
    rw [q2', q1', coveredBy_perm lib hperm, ← q1, ← q2]
    exact ha
  obtain ⟨c, hc, _⟩ := (cidrsOfSet_contains lib b' hw2' (hrt _ f1) a).mpr ha'
  rw [f2 (List.ne_nil_of_mem hc)]

/-- C6: for literal targets and excludes, when `buildCIDRs` succeeds (and the library
parses back the prefixes it printed), the addresses covered by the returned ranges are
exactly those covered by some target prefix and by no exclude prefix; the run on any
permutation of the targets succeeds too and covers the same addresses; and an exclude
whose prefix meets no target prefix can be added anywhere in the exclude list without
changing the result. -/
theorem buildCIDRs_set_difference (lib : Lib) (opts : cidrBuildOptions)
    (targets excludes : List String)
    (hlit : allLiteral lib opts targets)
    (hrt : ∀ s, finalSet lib targets excludes opts = some s →
      ∀ p ∈ s.Prefixes, roundTrips lib p = true)
    (hok : (buildCIDRs lib targets excludes opts).err = none) :
    (∀ a, (∃ c ∈ (buildCIDRs lib targets excludes opts).cidrs, c.Contains a = true) ↔
      coveredBy lib targets a ∧ ¬ coveredBy lib excludes a) ∧
    (∀ ts, ts.Perm targets →
      (∀ s, finalSet lib ts excludes opts = some s →
        ∀ p ∈ s.Prefixes, roundTrips lib p = true) →
      (buildCIDRs lib ts excludes opts).err = none ∧
      ∀ a, (∃ c ∈ (buildCIDRs lib ts excludes opts).cidrs, c.Contains a = true) ↔
        (∃ c ∈ (buildCIDRs lib targets excludes opts).cidrs, c.Contains a = true)) ∧
    (∀ e p ex1 ex2, excludes = ex1 ++ ex2 → literalPrefix lib e = some p →
      p.IsValid = true → (∀ a, p.Contains a = true → ¬ coveredBy lib targets a) →
      buildCIDRs lib targets (ex1 ++ e :: ex2) opts = buildCIDRs lib targets excludes opts) := by
  refine ⟨fun a => buildCIDRs_covers hlit hrt hok a, ?_, ?_⟩
  · intro ts hperm hrt'
    have hok' := buildCIDRs_perm_ok hlit hperm hrt' hok
    have hlit' : allLiteral lib opts ts := fun r hr => hlit r (hperm.mem_iff.mp hr)
    refine ⟨hok', fun a => ?_⟩
    rw [buildCIDRs_covers hlit' hrt' hok' a, buildCIDRs_covers hlit hrt hok a,
      coveredBy_perm lib hperm]
  · intro e p ex1 ex2 hex hp hv hd
    rw [hex]
    exact buildCIDRs_disjoint_exclude hlit e p hp hv hd ex1 ex2

theorem demo_allLiteral (ts : List String) : allLiteral demoLib demoOpts ts := by
  intro raw _ c _
  simp [takesResolvePath, demoOpts]

set_option maxRecDepth 100000 in
theorem buildCIDRs_set_difference_witness :
    (buildCIDRs demoLib demoTargets demoExcludes demoOpts).err = none ∧
    (∀ a, (∃ c ∈ (buildCIDRs demoLib demoTargets demoExcludes demoOpts).cidrs,
        c.Contains a = true) ↔
      coveredBy demoLib demoTargets a ∧ ¬ coveredBy demoLib demoExcludes a) ∧
    ((buildCIDRs demoLib demoTargets.reverse demoExcludes demoOpts).err = none ∧
      ∀ a, (∃ c ∈ (buildCIDRs demoLib demoTargets.reverse demoExcludes demoOpts).cidrs,
          c.Contains a = true) ↔
        (∃ c ∈ (buildCIDRs demoLib demoTargets demoExcludes demoOpts).cidrs,
          c.Contains a = true)) ∧
    buildCIDRs demoLib demoTargets ("198.51.100.7" :: demoExcludes) demoOpts =
      buildCIDRs demoLib demoTargets demoExcludes demoOpts := by
  have hok : (buildCIDRs demoLib demoTargets demoExcludes demoOpts).err = none := by decide
  have hrt : ∀ s, finalSet demoLib demoTargets demoExcludes demoOpts = some s →
      ∀ p ∈ s.Prefixes, roundTrips demoLib p = true := by
    intro s hs
    have hfs : finalSet demoLib demoTargets demoExcludes demoOpts =
        some ⟨[(0xCB007100, 0xCB007102)], []⟩ := by decide
    rw [hfs, Option.some.injEq] at hs
    subst hs
    decide
  have hrt' : ∀ s, finalSet demoLib demoTargets.reverse demoExcludes demoOpts = some s →
      ∀ p ∈ s.Prefixes, roundTrips demoLib p = true := by
    intro s hs
    have hfs : finalSet demoLib demoTargets.reverse demoExcludes demoOpts =
        some ⟨[(0xCB007100, 0xCB007102)], []⟩ := by decide
    rw [hfs, Option.some.injEq] at hs
    subst hs
    decide
  have hd : ∀ a, (⟨.v4 0xC6336407, 32⟩ : Prefix).Contains a = true →
      ¬ coveredBy demoLib demoTargets a := by
    intro a ha hcov
    have r0 : RangeOfPrefix ⟨.v4 0xC6336407, 32⟩ = some ⟨false, 0xC6336407, 0xC6336407⟩ := by
      decide
    rcases (Prefix.contains_iff r0 a).mp ha with ⟨_, n, hn, h1, h2⟩ | ⟨h, _⟩
    · obtain ⟨raw, hraw, q, hq, hqa⟩ := hcov
      simp only [demoTargets, List.mem_cons, List.mem_singleton, List.not_mem_nil,
        or_false] at hraw
      rcases hraw with rfl | rfl | rfl
      · have hl : literalPrefix demoLib "203.0.113.0/31" = some ⟨.v4 0xCB007100, 31⟩ := by
          decide
        rw [hl, Option.some.injEq] at hq
        subst hq
        have r1 : RangeOfPrefix ⟨.v4 0xCB007100, 31⟩ = some ⟨false, 0xCB007100, 0xCB007101⟩ := by
          decide
        rcases (Prefix.contains_iff r1 a).mp hqa with ⟨_, m, hm, h3, h4⟩ | ⟨h, _⟩
        · rw [hn] at hm
          injection hm with hm
          simp only at h1 h2 h3 h4
          omega
        · cases h
      · have hl : literalPrefix demoLib " " = none := by decide
        rw [hl] at hq
        cases hq
      · have hl : literalPrefix demoLib "203.0.113.2/31" = some ⟨.v4 0xCB007102, 31⟩ := by
          decide
        rw [hl, Option.some.injEq] at hq
        subst hq
        have r1 : RangeOfPrefix ⟨.v4 0xCB007102, 31⟩ = some ⟨false, 0xCB007102, 0xCB007103⟩ := by
          decide
        rcases (Prefix.contains_iff r1 a).mp hqa with ⟨_, m, hm, h3, h4⟩ | ⟨h, _⟩
        · rw [hn] at hm
          injection hm with hm
          simp only at h1 h2 h3 h4
          omega
        · cases h
    · cases h
  have T := buildCIDRs_set_difference demoLib demoOpts demoTargets demoExcludes
    (demo_allLiteral _) hrt hok
  exact ⟨hok, T.1, T.2.1 demoTargets.reverse (List.reverse_perm _) hrt',
    T.2.2 "198.51.100.7" ⟨.v4 0xC6336407, 32⟩ [] demoExcludes rfl (by decide) (by decide) hd⟩

/-! ## Errors of `buildCIDRs` -/

/-- One round of the target loop either returns an error or goes on with the rest. -/
theorem addTargets_cons_cases (lib : Lib) (opts : cidrBuildOptions) (raw : String)
    (rest : List String) (st : BuildState) :
    (∃ e, addTargets lib opts (raw :: rest) st = .error e) ∨
    (∃ st1, addTargets lib opts (raw :: rest) st = addTargets lib opts rest st1) := by
  simp only [addTargets]
  split
  · exact Or.inr ⟨_, rfl⟩
  · split
    · exact Or.inl ⟨_, rfl⟩
    · split
      · split
        · exact Or.inl ⟨_, rfl⟩
        · split
          · exact Or.inl ⟨_, rfl⟩
          · exact Or.inr ⟨_, rfl⟩
      · split
        · exact Or.inl ⟨_, rfl⟩
        · split
          · exact Or.inl ⟨_, rfl⟩
          · exact Or.inr ⟨_, rfl⟩

/-- A target whose own round fails makes the whole loop fail, wherever it stands. -/
theorem addTargets_error_of_mem (lib : Lib) (opts : cidrBuildOptions) (raw : String)
    (hfail : ∀ rest st, ∃ e, addTargets lib opts (raw :: rest) st = .error e)
    (ts : List String) (hmem : raw ∈ ts) :
    ∀ st, ∃ e, addTargets lib opts ts st = .error e := by
  induction ts with
  | nil => cases hmem
  | cons x rest ih =>
    intro st
    rcases List.mem_cons.mp hmem with h | h
    · subst h; exact hfail rest st
    · rcases addTargets_cons_cases lib opts x rest st with ⟨e, he⟩ | ⟨st1, h1⟩
      · exact ⟨e, he⟩
      · rw [h1]; exact ih h st1

theorem buildCIDRs_of_addTargets_error {lib : Lib} {opts : cidrBuildOptions}
    {ts ex : List String} {e : BuildError}
    (h : addTargets lib opts ts initState = .error e) :
    buildCIDRs lib ts ex opts = .fail e := by
  unfold initState at h
  simp [buildCIDRs, h]

/-- A non-blank target that `utils.ParseCIDR` rejects fails its round. -/
theorem step_fails_parse (lib : Lib) (opts : cidrBuildOptions) (raw : String)
    (hnb : TrimSpace raw ≠ "") (h : lib.ParseCIDR (TrimSpace raw) = none) :
    ∀ rest st, ∃ e, addTargets lib opts (raw :: rest) st = .error e := by
  intro rest st
  simp [addTargets, hnb, h]

/-- A non-blank literal target whose text `netip.ParsePrefix` rejects fails its round. -/
theorem step_fails_prefix (lib : Lib) (opts : cidrBuildOptions) (raw : String) (c : CIDR)
    (hnb : TrimSpace raw ≠ "") (hc : lib.ParseCIDR (TrimSpace raw) = some c)
    (hpath : takesResolvePath lib opts c = false)
    (h : lib.ParsePrefix (lib.cidrString c) = none) :
    ∀ rest st, ∃ e, addTargets lib opts (raw :: rest) st = .error e := by
  intro rest st
  simp [addTargets, hnb, hc, hpath, h]

/-- A non-blank literal target whose prefix is not allowed fails its round. -/
theorem step_fails_notAllowed (lib : Lib) (opts : cidrBuildOptions) (raw : String) (c : CIDR)
    (p : Prefix) (hnb : TrimSpace raw ≠ "") (hc : lib.ParseCIDR (TrimSpace raw) = some c)
    (hpath : takesResolvePath lib opts c = false)
    (hp : lib.ParsePrefix (lib.cidrString c) = some p) (h : prefixAllowed p opts = false) :
    ∀ rest st, ∃ e, addTargets lib opts (raw :: rest) st = .error e := by
  intro rest st
  simp [addTargets, hnb, hc, hpath, hp, h]

/-- A host name whose resolved addresses are all disallowed fails its round. -/
theorem step_fails_resolved (lib : Lib) (opts : cidrBuildOptions) (raw : String) (c : CIDR)
    (records : List Addr) (hnb : TrimSpace raw ≠ "")
    (hc : lib.ParseCIDR (TrimSpace raw) = some c)
    (hpath : takesResolvePath lib opts c = true)
    (hr : resolveHostRecords lib (TrimSpace c.host) opts.resolveIPv6 = some records)
    (h : ∀ a ∈ records, addrAllowed a opts = false) :
    ∀ rest st, ∃ e, addTargets lib opts (raw :: rest) st = .error e := by
  intro rest st
  have hf : records.filter (fun addr => addrAllowed addr opts) = [] := by
    rw [List.filter_eq_nil_iff]
    intro a ha
    simp [h a ha]
  simp [addTargets, hnb, hc, hpath, hr, hf]

theorem addTargets_blank (lib : Lib) (opts : cidrBuildOptions) (ts : List String)
    (h : ∀ raw ∈ ts, TrimSpace raw = "") : ∀ st, addTargets lib opts ts st = .ok st := by
  induction ts with
  | nil => intro st; rfl
  | cons x rest ih =>
    intro st
    simp only [addTargets, h x (List.mem_cons_self _ _), if_true]
    exact ih (fun r hr => h r (List.mem_cons_of_mem _ hr)) st

/-- The error results of `buildCIDRs` carry no ranges and no host map. -/
theorem buildCIDRs_err_shape (lib : Lib) (ts ex : List String) (opts : cidrBuildOptions) :
    ((buildCIDRs lib ts ex opts).err ≠ none →
      (buildCIDRs lib ts ex opts).cidrs = [] ∧ (buildCIDRs lib ts ex opts).hostMap = none) ∧
    ((buildCIDRs lib ts ex opts).err = none →
      (buildCIDRs lib ts ex opts).cidrs ≠ [] ∧ (buildCIDRs lib ts ex opts).hostMap ≠ none) := by
  constructor
  · intro herr
    by_cases hok : (buildCIDRs lib ts ex opts).err = none
    · exact absurd hok herr
    · revert hok herr
      unfold buildCIDRs
      split
      · intros; exact ⟨rfl, rfl⟩
      · split
        · intros; exact ⟨rfl, rfl⟩
        · split
          · intros; exact ⟨rfl, rfl⟩
          · split
            · intros; exact ⟨rfl, rfl⟩
            · simp only
              split
              · intros; exact ⟨rfl, rfl⟩
              · intro h; exact absurd rfl h
  · intro hok
    obtain ⟨st, b, _, _, _, _, h5, _, h7⟩ := buildCIDRs_ok_inv hok
    rw [h7]
    refine ⟨?_, by simp⟩
    intro hnil
    have : ∀ c, c ∈ cidrsOfSet lib ⟨b.r4, b.r6⟩ → False := by
      intro c hc
      have := (mem_sortStable lib _ c).mpr hc
      simp only at hnil
      rw [hnil] at this
      cases this
    obtain ⟨c, hc⟩ := List.exists_mem_of_ne_nil _ h5
    exact this c hc

/-! ## The safety rail -/

theorem addrAllowed_false_of_class (a : Addr) (o : cidrBuildOptions)
    (h : a.IsUnspecified = true ∨ a.IsMulticast = true ∨ a.IsLinkLocalUnicast = true ∨
      a.IsLinkLocalMulticast = true) : addrAllowed a o = false := by
  unfold addrAllowed
  rcases h with h | h | h | h <;> simp [h]

theorem addrAllowed_false_of_loopback (a : Addr) (o : cidrBuildOptions)
    (h : a.IsLoopback = true) (ho : o.allowLoopback = false) : addrAllowed a o = false := by
  unfold addrAllowed
  simp [h, ho]

theorem addrAllowed_false_of_private (a : Addr) (o : cidrBuildOptions)
    (h : a.IsPrivate = true) (ho : o.allowPrivate = false) : addrAllowed a o = false := by
  unfold addrAllowed
  simp [h, ho]

/-- C7: `addrAllowed` is false for every unspecified, multicast or link-local address
whatever the options, for every loopback address when `allowLoopback` is false, and for
every private address when `allowPrivate` is false; and `buildCIDRs` returns an error (no
ranges, no host map) as soon as some literal target denotes a prefix whose address is
private while `allowPrivate` is false. -/
theorem addrAllowed_safety_rail :
    (∀ (a : Addr) (o : cidrBuildOptions),
      (a.IsUnspecified = true ∨ a.IsMulticast = true ∨ a.IsLinkLocalUnicast = true ∨
        a.IsLinkLocalMulticast = true → addrAllowed a o = false) ∧
      (a.IsLoopback = true → o.allowLoopback = false → addrAllowed a o = false) ∧
      (a.IsPrivate = true → o.allowPrivate = false → addrAllowed a o = false)) ∧
    (∀ (lib : Lib) (opts : cidrBuildOptions) (targets excludes : List String) (raw : String),
      opts.allowPrivate = false → raw ∈ targets → TrimSpace raw ≠ "" →
      (∀ c, lib.ParseCIDR (TrimSpace raw) = some c → takesResolvePath lib opts c = false) →
      (∀ p, literalPrefix lib raw = some p → p.addr.IsPrivate = true) →
      (buildCIDRs lib targets excludes opts).err ≠ none ∧
      (buildCIDRs lib targets excludes opts).cidrs = [] ∧
      (buildCIDRs lib targets excludes opts).hostMap = none) := by
  refine ⟨fun a o => ⟨addrAllowed_false_of_class a o, addrAllowed_false_of_loopback a o,
    addrAllowed_false_of_private a o⟩, ?_⟩
  intro lib opts targets excludes raw hpriv hmem hnb hlit haddr
  have hfail : ∀ rest st, ∃ e, addTargets lib opts (raw :: rest) st = .error e := by
    cases hc : lib.ParseCIDR (TrimSpace raw) with
    | none => exact step_fails_parse lib opts raw hnb hc
    | some c =>
      cases hp : lib.ParsePrefix (lib.cidrString c) with
      | none => exact step_fails_prefix lib opts raw c hnb hc (hlit c hc) hp
      | some p =>
        have hlp : literalPrefix lib raw = some p := by simp [literalPrefix, hnb, hc, hp]
        exact step_fails_notAllowed lib opts raw c p hnb hc (hlit c hc) hp
          (addrAllowed_false_of_private _ _ (haddr p hlp) hpriv)
  obtain ⟨e, he⟩ := addTargets_error_of_mem lib opts raw hfail targets hmem initState
  rw [buildCIDRs_of_addTargets_error he]
  exact ⟨by simp [BuildResult.fail], rfl, rfl⟩

set_option maxRecDepth 100000 in
theorem addrAllowed_safety_rail_witness :
    (Addr.v4 0x0A000001).IsPrivate = true ∧ demoOpts.allowPrivate = false ∧
    addrAllowed (.v4 0x0A000001) demoOpts = false ∧
    literalPrefix demoLib "10.0.0.1" = some ⟨.v4 0x0A000001, 32⟩ ∧
    (buildCIDRs demoLib ["10.0.0.1"] [] demoOpts).err ≠ none ∧
    (buildCIDRs demoLib ["10.0.0.1"] [] demoOpts).cidrs = [] ∧
    (buildCIDRs demoLib ["10.0.0.1"] [] demoOpts).hostMap = none := by
  have hl : literalPrefix demoLib "10.0.0.1" = some ⟨.v4 0x0A000001, 32⟩ := by decide
  refine ⟨by decide, rfl,
    (addrAllowed_safety_rail.1 (.v4 0x0A000001) demoOpts).2.2 (by decide) rfl, hl,
    addrAllowed_safety_rail.2 demoLib demoOpts ["10.0.0.1"] [] "10.0.0.1" rfl
      (List.mem_singleton.mpr rfl) (by decide) (fun c _ => demo_allLiteral ["10.0.0.1"]
        "10.0.0.1" (List.mem_singleton.mpr rfl) c (by assumption)) ?_⟩
  intro p hp
  rw [hl, Option.some.injEq] at hp
  subst hp
  decide

/-- C8 (evaluation at the failing input): with `allowPrivate` and `allowLoopback` both
false, `buildCIDRs` accepts the target `8.0.0.0/6` and returns the range `8.0.0.0/6`, which
covers the private address `10.0.0.1`, an address that `buildCIDRs` refuses when it is
given as a target of its own. -/
theorem buildCIDRs_returns_private_address :
    demoOpts.allowPrivate = false ∧ demoOpts.allowLoopback = false ∧
    buildCIDRs demoLib ["8.0.0.0/6"] [] demoOpts =
      ⟨[⟨.v4 0x08000000, 6, ""⟩], some [], none⟩ ∧
    CIDR.Contains ⟨.v4 0x08000000, 6, ""⟩ (.v4 0x0A000001) = true ∧
    (Addr.v4 0x0A000001).IsPrivate = true ∧
    (buildCIDRs demoLib ["10.0.0.1"] [] demoOpts).err ≠ none ∧
    (buildCIDRs demoLib ["10.0.0.1"] [] demoOpts).cidrs = [] := by
  refine ⟨rfl, rfl, ?_, ?_, ?_, ?_, ?_⟩ <;> decide

theorem isSafe_of_addrAllowed (a : Addr) (o : cidrBuildOptions) (hp : o.allowPrivate = false)
    (hl : o.allowLoopback = false) (h : addrAllowed a o = true) : a.isSafe = true := by
  unfold addrAllowed at h
  unfold Addr.isSafe
  cases h1 : a.IsUnspecified <;> cases h2 : a.IsMulticast <;>
    cases h3 : a.IsLinkLocalUnicast <;> cases h4 : a.IsLinkLocalMulticast <;>
    cases h5 : a.IsLoopback <;> cases h6 : a.IsPrivate <;>
    simp [h1, h2, h3, h4, h5, h6, hp, hl] at h ⊢

/-! ## Determinism and order of the result -/

theorem addTargets_withLookup (lib : Lib) (opts : cidrBuildOptions)
    (lookup : String → Option (List (Option Addr))) (hres : opts.resolveHosts = false)
    (ts : List String) :
    ∀ st, addTargets (lib.withLookup lookup) opts ts st = addTargets lib opts ts st := by
  have hpath : ∀ l : Lib, ∀ c, takesResolvePath l opts c = false := by
    intro l c; simp [takesResolvePath, hres]
  induction ts with
  | nil => intro st; rfl
  | cons x rest ih =>
    intro st
    simp only [addTargets, hpath, Bool.false_eq_true, if_false]
    simp only [Lib.withLookup]
    split
    · exact ih st
    · split
      · rfl
      · split
        · rfl
        · split
          · rfl
          · exact ih _

theorem removeExcludes_withLookup (lib : Lib)
    (lookup : String → Option (List (Option Addr))) (ex : List String) :
    ∀ b, removeExcludes (lib.withLookup lookup) ex b = removeExcludes lib ex b := by
  induction ex with
  | nil => intro b; rfl
  | cons x rest ih =>
    intro b
    simp only [removeExcludes]
    simp only [Lib.withLookup]
    split
    · exact ih b
    · split
      · rfl
      · split
        · rfl
        · exact ih _

theorem buildCIDRs_withLookup (lib : Lib) (opts : cidrBuildOptions)
    (lookup : String → Option (List (Option Addr))) (hres : opts.resolveHosts = false)
    (ts ex : List String) :
    buildCIDRs (lib.withLookup lookup) ts ex opts = buildCIDRs lib ts ex opts := by
  unfold buildCIDRs
  rw [addTargets_withLookup lib opts lookup hres ts]
  simp only [removeExcludes_withLookup]
  rfl

theorem sortStable_pairwise (lib : Lib)
    (hanti : ∀ a b, lib.Compare a b < 0 ↔ 0 < lib.Compare b a)
    (htrans : ∀ a b c, lib.Compare a b ≤ 0 → lib.Compare b c ≤ 0 → lib.Compare a c ≤ 0)
    (l : List CIDR) : (sortStable lib l).Pairwise fun x y => lib.Compare x y ≤ 0 := by
  have hiff : ∀ a b, (cidrLess lib b a = false) ↔ lib.Compare a b ≤ 0 := by
    intro a b
    simp only [cidrLess, decide_eq_false_iff_not, not_lt]
    constructor
    · intro h
      by_contra hc
      have := (hanti b a).mpr (not_le.mp hc)
      omega
    · intro h
      by_contra hc
      have := (hanti b a).mp (not_le.mp hc)
      omega
  haveI : IsTotal CIDR (fun a b => cidrLess lib b a = false) := ⟨by
    intro a b
    simp only [hiff]
    by_cases h : lib.Compare a b ≤ 0
    · exact Or.inl h
    · right
      have := (hanti b a).mpr (not_le.mp h)
      omega⟩
  haveI : IsTrans CIDR (fun a b => cidrLess lib b a = false) := ⟨by
    intro a b c
    simp only [hiff]
    exact htrans a b c⟩
  have hs := List.sorted_insertionSort (fun a b => cidrLess lib b a = false) l
  exact List.Pairwise.imp (fun {a b} h => (hiff a b).mp h) hs

/-- C9: without host name resolution the result of `buildCIDRs` does not depend on the
DNS lookup, so two calls on the same targets, excludes and options return the same
result; and, the comparison of ranges being a total preorder, the returned list is
sorted: for all positions `i < j`, `ranges[i].Compare(ranges[j]) <= 0`. -/
theorem buildCIDRs_deterministic_sorted (lib : Lib) (opts : cidrBuildOptions)
    (targets excludes : List String) (hres : opts.resolveHosts = false)
    (hanti : ∀ a b, lib.Compare a b < 0 ↔ 0 < lib.Compare b a)
    (htrans : ∀ a b c, lib.Compare a b ≤ 0 → lib.Compare b c ≤ 0 → lib.Compare a c ≤ 0) :
    (∀ lookup, buildCIDRs (lib.withLookup lookup) targets excludes opts =
      buildCIDRs lib targets excludes opts) ∧
    (∀ (i j : Fin (buildCIDRs lib targets excludes opts).cidrs.length), i < j →
      lib.Compare ((buildCIDRs lib targets excludes opts).cidrs.get i)
        ((buildCIDRs lib targets excludes opts).cidrs.get j) ≤ 0) := by
  refine ⟨fun lookup => buildCIDRs_withLookup lib opts lookup hres targets excludes, ?_⟩
  have hpw : (buildCIDRs lib targets excludes opts).cidrs.Pairwise
      fun x y => lib.Compare x y ≤ 0 := by
    by_cases hok : (buildCIDRs lib targets excludes opts).err = none
    · obtain ⟨st, b, _, _, _, _, _, _, h7⟩ := buildCIDRs_ok_inv hok
      rw [h7]
      exact sortStable_pairwise lib hanti htrans _
    · rw [((buildCIDRs_err_shape lib targets excludes opts).1 hok).1]
      exact List.Pairwise.nil
  intro i j hij
  exact List.pairwise_iff_get.mp hpw i j hij

theorem demoCompare_anti (a b : CIDR) :
    demoLib.Compare a b < 0 ↔ 0 < demoLib.Compare b a := by
  simp only [demoLib]
  split_ifs <;> omega

theorem demoCompare_trans (a b c : CIDR) (h1 : demoLib.Compare a b ≤ 0)
    (h2 : demoLib.Compare b c ≤ 0) : demoLib.Compare a c ≤ 0 := by
  simp only [demoLib] at h1 h2 ⊢
  split_ifs at h1 h2 ⊢ <;> omega

set_option maxRecDepth 100000 in
theorem buildCIDRs_deterministic_sorted_witness :
    demoOpts.resolveHosts = false ∧
    (buildCIDRs demoLib ["203.0.113.3", "203.0.113.0/31"] [] demoOpts).cidrs =
      [⟨.v4 0xCB007100, 31, ""⟩, ⟨.v4 0xCB007103, 32, ""⟩] ∧
    (∀ lookup, buildCIDRs (demoLib.withLookup lookup) ["203.0.113.3", "203.0.113.0/31"] []
        demoOpts = buildCIDRs demoLib ["203.0.113.3", "203.0.113.0/31"] [] demoOpts) ∧
    (∀ (i j : Fin (buildCIDRs demoLib ["203.0.113.3", "203.0.113.0/31"] []
        demoOpts).cidrs.length), i < j →
      demoLib.Compare
        ((buildCIDRs demoLib ["203.0.113.3", "203.0.113.0/31"] [] demoOpts).cidrs.get i)
        ((buildCIDRs demoLib ["203.0.113.3", "203.0.113.0/31"] [] demoOpts).cidrs.get j) ≤ 0) :=
  ⟨rfl, by decide,
    buildCIDRs_deterministic_sorted demoLib demoOpts ["203.0.113.3", "203.0.113.0/31"] [] rfl
      demoCompare_anti demoCompare_trans⟩

/-! ## The error cases -/

theorem buildCIDRs_err_of_step (lib : Lib) (opts : cidrBuildOptions) (ts ex : List String)
    (raw : String) (hmem : raw ∈ ts)
    (hfail : ∀ rest st, ∃ e, addTargets lib opts (raw :: rest) st = .error e) :
    (buildCIDRs lib ts ex opts).err ≠ none := by
  obtain ⟨e, he⟩ := addTargets_error_of_mem lib opts raw hfail ts hmem initState
  rw [buildCIDRs_of_addTargets_error he]
  simp [BuildResult.fail]

/-- C10: every error result of `buildCIDRs` has nil ranges and a nil host map, and every
result without error has a non-empty range list. An error is returned when some
non-blank target is rejected by `utils.ParseCIDR`, or is a literal whose text
`netip.ParsePrefix` rejects; when every target is blank; when every address of the set
built from the targets lies in some exclude prefix; and when a target is resolved as a
host name and none of its addresses is allowed. -/
theorem buildCIDRs_error_cases (lib : Lib) (opts : cidrBuildOptions)
    (targets excludes : List String) :
    ((buildCIDRs lib targets excludes opts).err ≠ none →
      (buildCIDRs lib targets excludes opts).cidrs = [] ∧
      (buildCIDRs lib targets excludes opts).hostMap = none) ∧
    ((buildCIDRs lib targets excludes opts).err = none →
      (buildCIDRs lib targets excludes opts).cidrs ≠ []) ∧
    (∀ raw ∈ targets, TrimSpace raw ≠ "" →
      (lib.ParseCIDR (TrimSpace raw) = none ∨
        ∃ c, lib.ParseCIDR (TrimSpace raw) = some c ∧ takesResolvePath lib opts c = false ∧
          lib.ParsePrefix (lib.cidrString c) = none) →
      (buildCIDRs lib targets excludes opts).err ≠ none) ∧
    ((∀ raw ∈ targets, TrimSpace raw = "") →
      (buildCIDRs lib targets excludes opts).err = some .noValidTargets) ∧
    (∀ st, addTargets lib opts targets initState = .ok st →
      (∀ a, st.builder.Contains a → coveredBy lib excludes a) →
      (buildCIDRs lib targets excludes opts).err ≠ none) ∧
    (∀ raw ∈ targets, TrimSpace raw ≠ "" → ∀ c records,
      lib.ParseCIDR (TrimSpace raw) = some c → takesResolvePath lib opts c = true →
      resolveHostRecords lib (TrimSpace c.host) opts.resolveIPv6 = some records →
      (∀ a ∈ records, addrAllowed a opts = false) →
      (buildCIDRs lib targets excludes opts).err ≠ none) := by
  refine ⟨(buildCIDRs_err_shape lib targets excludes opts).1,
    fun h => ((buildCIDRs_err_shape lib targets excludes opts).2 h).1, ?_, ?_, ?_, ?_⟩
  · intro raw hmem hnb hbad
    apply buildCIDRs_err_of_step lib opts targets excludes raw hmem
    rcases hbad with h | ⟨c, hc, hpath, hp⟩
    · exact step_fails_parse lib opts raw hnb h
    · exact step_fails_prefix lib opts raw c hnb hc hpath hp
  · intro hblank
    have h1 := addTargets_blank lib opts targets hblank initState
    unfold initState at h1
    simp [buildCIDRs, h1, BuildResult.fail]
  · intro st h1 hcov hok
    obtain ⟨st', b, h1', _, h3, _, h5, _, _⟩ := buildCIDRs_ok_inv hok
    rw [h1, Except.ok.injEq] at h1'
    subst h1'
    have hw1 := addTargets_WF lib opts targets _ _ h1 empty_WF
    obtain ⟨hw2, q2, _⟩ := removeExcludes_spec lib excludes _ _ h3 hw1
    obtain ⟨a, ha⟩ := cidrsOfSet_nonempty_contains lib b hw2 h5
    have := (q2 a).mp ha
    exact this.2 (hcov a this.1)
  · intro raw hmem hnb c records hc hpath hr hall
    exact buildCIDRs_err_of_step lib opts targets excludes raw hmem
      (step_fails_resolved lib opts raw c records hnb hc hpath hr hall)

set_option maxRecDepth 100000 in
theorem buildCIDRs_error_cases_witness :
    (buildCIDRs demoLib ["203.0.113.3", "no such target"] [] demoOpts).err ≠ none ∧
    (buildCIDRs demoLib [" ", ""] [] demoOpts).err = some .noValidTargets ∧
    (buildCIDRs demoLib ["203.0.113.2/31"] ["203.0.113.0/30"] demoOpts).err ≠ none ∧
    (buildCIDRs demoLib ["intranet.example"] [] ⟨true, false, false, false⟩).err ≠ none ∧
    (buildCIDRs demoLib ["intranet.example"] [] ⟨true, false, false, false⟩).cidrs = [] ∧
    (buildCIDRs demoLib ["intranet.example"] [] ⟨true, false, false, false⟩).hostMap = none := by
  have h4 : (buildCIDRs demoLib ["intranet.example"] [] ⟨true, false, false, false⟩).err ≠
      none :=
    (buildCIDRs_error_cases demoLib ⟨true, false, false, false⟩ ["intranet.example"]
      []).2.2.2.2.2 "intranet.example" (List.mem_singleton.mpr rfl) (by decide)
      ⟨.v4 0x0A000005, 32, "intranet.example"⟩ [.v4 0x0A000005] (by decide) (by decide)
      (by decide) (by decide)
  refine ⟨?_, ?_, ?_, h4, (buildCIDRs_error_cases demoLib ⟨true, false, false, false⟩
    ["intranet.example"] []).1 h4⟩
  · exact (buildCIDRs_error_cases demoLib demoOpts ["203.0.113.3", "no such target"]
      []).2.2.1 "no such target" (by simp) (by decide) (Or.inl (by decide))
  · exact (buildCIDRs_error_cases demoLib demoOpts [" ", ""] []).2.2.2.1 (by decide)
  · refine (buildCIDRs_error_cases demoLib demoOpts ["203.0.113.2/31"]
      ["203.0.113.0/30"]).2.2.2.2.1 ⟨⟨[(0xCB007102, 0xCB007103)], [], false⟩, [], 1⟩
      (by rfl) ?_
    intro a ha
    refine ⟨"203.0.113.0/30", List.mem_singleton.mpr rfl, ⟨.v4 0xCB007100, 30⟩, by decide, ?_⟩
    have r1 : RangeOfPrefix ⟨.v4 0xCB007100, 30⟩ = some ⟨false, 0xCB007100, 0xCB007103⟩ := by
      decide
    rw [Prefix.contains_iff r1]
    cases a with
    | zero => exact absurd ha (by simp [IPSetBuilder.Contains])
    | v4 n =>
      simp only [IPSetBuilder.Contains, inRanges, List.mem_singleton, exists_eq_left] at ha
      exact Or.inl ⟨rfl, n, rfl, by simp only; omega, by simp only; omega⟩
    | v6 n => exact absurd ha (by simp [IPSetBuilder.Contains, inRanges])

/-! ## Progress reporter -/

theorem sumKind_append_one (kind : String) (evs : List progressEvent) (ev : progressEvent) :
    sumKind kind (evs ++ [ev]) = sumKind kind evs + (if ev.kind = kind then ev.count else 0) := by
  unfold sumKind
  by_cases h : ev.kind = kind <;> simp [List.filter_append, List.filter_cons, h]

theorem eventsOf_append (a b : List ReporterInput) :
    eventsOf (a ++ b) = eventsOf a ++ eventsOf b := by
  induction a with
  | nil => rfl
  | cons x rest ih => cases x <;> simp [eventsOf, ih]

theorem flush_counters (hasConc : Bool) (s : ReporterState) (env : FlushEnv) (planned : Int)
    (evs : List progressEvent) (h : countersOf s.snapshot planned evs) :
    countersOf (flush hasConc s env).1.snapshot planned evs ∧
    ∀ p ∈ (flush hasConc s env).2, countersOf p planned evs := by
  unfold flush
  split
  · exact ⟨h, fun p hp => by simp at hp⟩
  · refine ⟨h, fun p hp => ?_⟩
    simp only at hp
    split at hp
    · simp only [List.mem_singleton] at hp
      subst hp; exact h
    · simp at hp

theorem countTotal_nonneg (evs : List progressEvent) : 0 ≤ countTotal evs := by
  unfold countTotal
  apply List.sum_nonneg
  intro x hx
  obtain ⟨ev, _, rfl⟩ := List.mem_map.mp hx
  exact abs_nonneg _

theorem countTotal_append (a b : List progressEvent) :
    countTotal (a ++ b) = countTotal a + countTotal b := by
  simp [countTotal]

theorem countTotal_take_le (l : List ReporterInput) (k : Nat) :
    countTotal (eventsOf (l.take k)) ≤ countTotal (eventsOf l) := by
  have h : countTotal (eventsOf l) =
      countTotal (eventsOf (l.take k)) + countTotal (eventsOf (l.drop k)) := by
    rw [← countTotal_append, ← eventsOf_append, List.take_append_drop]
  have := countTotal_nonneg (eventsOf (l.drop k))
  omega

theorem sumKind_cons (kind : String) (ev : progressEvent) (evs : List progressEvent) :
    sumKind kind (ev :: evs) = (if ev.kind = kind then ev.count else 0) + sumKind kind evs := by
  unfold sumKind
  by_cases h : ev.kind = kind <;> simp [List.filter_cons, h]

/-- The sizes of the five sums of a reporter add up to at most the total of the events. -/
theorem sumKind_abs_le (evs : List progressEvent) :
    |sumKind "enqueued" evs| + |sumKind "started" evs| + |sumKind "succeeded" evs| +
      |sumKind "failed" evs| + |sumKind "timeout" evs| ≤ countTotal evs := by
  induction evs with
  | nil => simp [sumKind, countTotal]
  | cons ev rest ih =>
    have hc : countTotal (ev :: rest) = |ev.count| + countTotal rest := by
      simp [countTotal]
    rw [hc]
    simp only [sumKind_cons]
    have t := fun a : Int => abs_add ev.count a
    by_cases k1 : ev.kind = "enqueued"
    · have := t (sumKind "enqueued" rest)
      simp only [k1, if_true, show ¬ "enqueued" = "started" by decide,
        show ¬ "enqueued" = "succeeded" by decide, show ¬ "enqueued" = "failed" by decide,
        show ¬ "enqueued" = "timeout" by decide, if_false, zero_add]
      linarith
    · by_cases k2 : ev.kind = "started"
      · have := t (sumKind "started" rest)
        simp only [k2, if_true, show ¬ "started" = "enqueued" by decide,
          show ¬ "started" = "succeeded" by decide, show ¬ "started" = "failed" by decide,
          show ¬ "started" = "timeout" by decide, if_false, zero_add]
        linarith
      · by_cases k3 : ev.kind = "succeeded"
        · have := t (sumKind "succeeded" rest)
          simp only [k3, if_true, show ¬ "succeeded" = "enqueued" by decide,
            show ¬ "succeeded" = "started" by decide, show ¬ "succeeded" = "failed" by decide,
            show ¬ "succeeded" = "timeout" by decide, if_false, zero_add]
          linarith
        · by_cases k4 : ev.kind = "failed"
          · have := t (sumKind "failed" rest)
            simp only [k4, if_true, show ¬ "failed" = "enqueued" by decide,
              show ¬ "failed" = "started" by decide, show ¬ "failed" = "succeeded" by decide,
              show ¬ "failed" = "timeout" by decide, if_false, zero_add]
            linarith
          · by_cases k5 : ev.kind = "timeout"
            · have := t (sumKind "timeout" rest)
              simp only [k5, if_true, show ¬ "timeout" = "enqueued" by decide,
                show ¬ "timeout" = "started" by decide,
                show ¬ "timeout" = "succeeded" by decide,
                show ¬ "timeout" = "failed" by decide, if_false, zero_add]
              linarith
            · simp only [k1, k2, k3, k4, k5, if_false, zero_add]
              have := abs_nonneg ev.count
              linarith

theorem ingest_counters (s : ReporterState) (ev : progressEvent) (planned : Int)
    (evs : List progressEvent) (h : countersOf s.snapshot planned evs)
    (hb : countTotal (evs ++ [ev]) < 2 ^ 63) :
    countersOf (ingest s ev).snapshot planned (evs ++ [ev]) := by
  obtain ⟨h0, h1, h2, h3, h4, h5⟩ := h
  have hs := sumKind_abs_le (evs ++ [ev])
  have a1 := abs_le.mp (le_refl |sumKind "enqueued" (evs ++ [ev])|)
  have a2 := abs_le.mp (le_refl |sumKind "started" (evs ++ [ev])|)
  have a3 := abs_le.mp (le_refl |sumKind "succeeded" (evs ++ [ev])|)
  have a4 := abs_le.mp (le_refl |sumKind "failed" (evs ++ [ev])|)
  have a5 := abs_le.mp (le_refl |sumKind "timeout" (evs ++ [ev])|)
  have n1 := abs_nonneg (sumKind "enqueued" (evs ++ [ev]))
  have n2 := abs_nonneg (sumKind "started" (evs ++ [ev]))
  have n3 := abs_nonneg (sumKind "succeeded" (evs ++ [ev]))
  have n4 := abs_nonneg (sumKind "failed" (evs ++ [ev]))
  have n5 := abs_nonneg (sumKind "timeout" (evs ++ [ev]))
  have w : ∀ k : String, |sumKind k (evs ++ [ev])| ≤ countTotal (evs ++ [ev]) →
      ev.kind = k → wrapInt (sumKind k evs + ev.count) = sumKind k (evs ++ [ev]) := by
    intro k hk hkind
    have e : sumKind k (evs ++ [ev]) = sumKind k evs + ev.count := by
      rw [sumKind_append_one, if_pos hkind]
    have := abs_le.mp hk
    rw [← e]
    exact wrapInt_of_range _ (by omega) (by omega)
  unfold ingest countersOf
  by_cases k1 : ev.kind = "enqueued"
  · have := w "enqueued" (by omega) k1
    simp only [k1, if_true, h0, h1, h2, h3, h4, h5, sumKind_append_one] at this ⊢
    simp [this]
  · by_cases k2 : ev.kind = "started"
    · have := w "started" (by omega) k2
      simp only [k2, if_true, h0, h1, h2, h3, h4, h5, sumKind_append_one] at this ⊢
      simp [this]
    · by_cases k3 : ev.kind = "succeeded"
      · have := w "succeeded" (by omega) k3
        simp only [k3, if_true, h0, h1, h2, h3, h4, h5, sumKind_append_one] at this ⊢
        simp [this]
      · by_cases k4 : ev.kind = "failed"
        · have := w "failed" (by omega) k4
          simp only [k4, if_true, h0, h1, h2, h3, h4, h5, sumKind_append_one] at this ⊢
          simp [this]
        · by_cases k5 : ev.kind = "timeout"
          · have := w "timeout" (by omega) k5
            simp only [k5, if_true, h0, h1, h2, h3, h4, h5, sumKind_append_one] at this ⊢
            simp [this]
          · simp [k1, k2, k3, k4, k5, h0, h1, h2, h3, h4, h5, sumKind_append_one]

theorem reporterLoop_counters (hasConc : Bool) (planned : Int) (rest : List ReporterInput) :
    ∀ (pre : List ReporterInput) (s : ReporterState),
      countersOf s.snapshot planned (eventsOf pre) →
      countTotal (eventsOf (pre ++ rest)) < 2 ^ 63 →
      ∀ kp ∈ reporterLoop hasConc pre.length s rest,
        countersOf kp.2 planned (eventsOf ((pre ++ rest).take kp.1)) := by
  induction rest with
  | nil => intro pre s _ _ kp h; simp [reporterLoop] at h
  | cons inp rest ih =>
    intro pre s hs hb kp h
    have htake : (pre ++ inp :: rest).take pre.length = pre := by simp
    have hstep : pre ++ inp :: rest = (pre ++ [inp]) ++ rest := by simp
    cases inp with
    | ctxDone env =>
      simp only [reporterLoop, List.mem_map] at h
      obtain ⟨p, hp, rfl⟩ := h
      simp only [htake]
      exact (flush_counters hasConc s env planned _ hs).2 p hp
    | closed env =>
      simp only [reporterLoop, List.mem_map] at h
      obtain ⟨p, hp, rfl⟩ := h
      simp only [htake]
      exact (flush_counters hasConc s env planned _ hs).2 p hp
    | event ev =>
      simp only [reporterLoop] at h
      have hb2 : countTotal (eventsOf pre ++ [ev]) < 2 ^ 63 := by
        rw [hstep, eventsOf_append, countTotal_append, eventsOf_append] at hb
        have := countTotal_nonneg (eventsOf rest)
        simp only [eventsOf] at hb
        omega
      rw [hstep]
      rw [hstep] at hb
      refine ih (pre ++ [ReporterInput.event ev]) (ingest s ev) ?_ hb kp (by simpa using h)
      rw [eventsOf_append]
      exact ingest_counters s ev planned _ hs hb2
    | tick env =>
      simp only [reporterLoop, List.mem_append, List.mem_map] at h
      have hf := flush_counters hasConc { s with pending := true } env planned _ hs
      rcases h with ⟨p, hp, rfl⟩ | h
      · simp only [htake]
        exact hf.2 p hp
      · rw [hstep]
        rw [hstep] at hb
        refine ih (pre ++ [ReporterInput.tick env]) _ ?_ hb kp (by simpa using h)
        rw [eventsOf_append]
        simpa [eventsOf] using hf.1

/-- The value `flush` gives to `Active`, from the counters of the snapshot. -/
theorem flush_active (hasConc : Bool) (s : ReporterState) (env : FlushEnv) :
    ∀ p ∈ (flush hasConc s env).2,
      p.Active = max 0 (wrapInt (wrapInt (wrapInt (p.Started - p.Succeeded) - p.Failed) -
        p.TimedOut)) := by
  intro p hp
  unfold flush at hp
  split at hp
  · simp at hp
  · simp only at hp
    split at hp
    · simp only [List.mem_singleton] at hp
      subst hp
      simp only
      split
      · rename_i h; rw [max_eq_left (le_of_lt h)]
      · rename_i h; rw [max_eq_right (not_lt.mp h)]
    · simp at hp

theorem reporterLoop_active (hasConc : Bool) (inputs : List ReporterInput) :
    ∀ pos s, ∀ kp ∈ reporterLoop hasConc pos s inputs,
      kp.2.Active = max 0 (wrapInt (wrapInt (wrapInt (kp.2.Started - kp.2.Succeeded) -
        kp.2.Failed) - kp.2.TimedOut)) := by
  induction inputs with
  | nil => intro pos s kp h; simp [reporterLoop] at h
  | cons inp rest ih =>
    intro pos s kp h
    cases inp with
    | ctxDone env =>
      simp only [reporterLoop, List.mem_map] at h
      obtain ⟨p, hp, rfl⟩ := h
      exact flush_active hasConc s env p hp
    | closed env =>
      simp only [reporterLoop, List.mem_map] at h
      obtain ⟨p, hp, rfl⟩ := h
      exact flush_active hasConc s env p hp
    | event ev => exact ih _ _ kp (by simpa [reporterLoop] using h)
    | tick env =>
      simp only [reporterLoop, List.mem_append, List.mem_map] at h
      rcases h with ⟨p, hp, rfl⟩ | h
      · exact flush_active hasConc _ env p hp
      · exact ih _ _ kp h

theorem emitted_counters (hasConc : Bool) (planned : Int) (inputs : List ReporterInput)
    (hb : countTotal (eventsOf inputs) < 2 ^ 63) :
    ∀ kp ∈ emittedSnapshots hasConc planned inputs,
      countersOf kp.2 planned (eventsOf (inputs.take kp.1)) := by
  intro kp h
  have := reporterLoop_counters hasConc planned inputs [] (ReporterState.init planned)
    (by simp [countersOf, ReporterState.init, eventsOf, sumKind]) (by simpa using hb) kp h
  simpa using this

/-- C17: for every sequence of rounds of the reporter (events of any kind, ticks, close,
cancellation) whose event counts add up, in absolute value, to less than `2 ^ 63` (so that
no counter of Go `int` wraps), every emitted snapshot satisfies
`Active = max(0, Started - Succeeded - Failed - TimedOut)`. -/
theorem emitted_active_clamped (hasConc : Bool) (planned : Int)
    (inputs : List ReporterInput) (hb : countTotal (eventsOf inputs) < 2 ^ 63) :
    ∀ kp ∈ emittedSnapshots hasConc planned inputs,
      kp.2.Active = max 0 (kp.2.Started - kp.2.Succeeded - kp.2.Failed - kp.2.TimedOut) := by
  intro kp h
  have hraw := reporterLoop_active hasConc inputs 0 _ kp h
  obtain ⟨_, _, c2, c3, c4, c5⟩ := emitted_counters hasConc planned inputs hb kp h
  have hs := sumKind_abs_le (eventsOf (inputs.take kp.1))
  have ht := countTotal_take_le inputs kp.1
  have n1 := abs_nonneg (sumKind "enqueued" (eventsOf (inputs.take kp.1)))
  rw [← c2, ← c3, ← c4, ← c5] at hs
  have a2 := abs_le.mp (le_refl |kp.2.Started|)
  have a3 := abs_le.mp (le_refl |kp.2.Succeeded|)
  have a4 := abs_le.mp (le_refl |kp.2.Failed|)
  have a5 := abs_le.mp (le_refl |kp.2.TimedOut|)
  have e1 : wrapInt (kp.2.Started - kp.2.Succeeded) = kp.2.Started - kp.2.Succeeded :=
    wrapInt_of_range _ (by omega) (by omega)
  have e2 : wrapInt (kp.2.Started - kp.2.Succeeded - kp.2.Failed) =
      kp.2.Started - kp.2.Succeeded - kp.2.Failed :=
    wrapInt_of_range _ (by omega) (by omega)
  have e3 : wrapInt (kp.2.Started - kp.2.Succeeded - kp.2.Failed - kp.2.TimedOut) =
      kp.2.Started - kp.2.Succeeded - kp.2.Failed - kp.2.TimedOut :=
    wrapInt_of_range _ (by omega) (by omega)
  rw [hraw, e1, e2, e3]

theorem sumKind_take_mono (kind : String) (l : List ReporterInput)
    (hnn : ∀ ev ∈ eventsOf l, 0 ≤ ev.count) (i j : Nat) (hij : i ≤ j) :
    sumKind kind (eventsOf (l.take i)) ≤ sumKind kind (eventsOf (l.take j)) := by
  have hsplit : l.take j = l.take i ++ (l.take j).drop i := by
    have := List.take_append_drop i (l.take j)
    rw [List.take_take, min_eq_left hij] at this
    exact this.symm
  have hmem : ∀ ev ∈ eventsOf ((l.take j).drop i), ev ∈ eventsOf l := by
    intro ev hev
    have h1 : l = l.take i ++ ((l.take j).drop i ++ l.drop j) := by
      rw [← List.append_assoc, ← hsplit, List.take_append_drop]
    rw [h1, eventsOf_append, eventsOf_append]
    exact List.mem_append_right _ (List.mem_append_left _ hev)
  rw [hsplit, eventsOf_append]
  have hpos : 0 ≤ sumKind kind (eventsOf ((l.take j).drop i)) := by
    unfold sumKind
    apply List.sum_nonneg
    intro x hx
    obtain ⟨ev, hev, rfl⟩ := List.mem_map.mp hx
    exact hnn ev (hmem ev (List.mem_filter.mp hev).1)
  have : sumKind kind (eventsOf (l.take i) ++ eventsOf ((l.take j).drop i)) =
      sumKind kind (eventsOf (l.take i)) + sumKind kind (eventsOf ((l.take j).drop i)) := by
    simp [sumKind, List.filter_append]
  omega

theorem reporterLoop_positions (hasConc : Bool) (rest : List ReporterInput) :
    ∀ (pos : Nat) (s : ReporterState),
      (∀ kp ∈ reporterLoop hasConc pos s rest, pos ≤ kp.1) ∧
      (reporterLoop hasConc pos s rest).Pairwise fun a b => a.1 ≤ b.1 := by
  induction rest with
  | nil => intro pos s; simp [reporterLoop]
  | cons inp rest ih =>
    intro pos s
    have hone : ∀ (env : FlushEnv) (s : ReporterState),
        (∀ kp ∈ (flush hasConc s env).2.map fun p => (pos, p), pos ≤ kp.1) ∧
        ((flush hasConc s env).2.map fun p => (pos, p)).Pairwise fun a b => a.1 ≤ b.1 := by
      intro env s
      refine ⟨fun kp h => ?_, ?_⟩
      · obtain ⟨p, _, rfl⟩ := List.mem_map.mp h
        exact le_refl _
      · rw [List.pairwise_map]
        exact List.pairwise_of_forall fun _ _ => le_refl pos
    cases inp with
    | ctxDone env => simpa only [reporterLoop] using hone env s
    | closed env => simpa only [reporterLoop] using hone env s
    | event ev =>
      obtain ⟨q1, q2⟩ := ih (pos + 1) (ingest s ev)
      simp only [reporterLoop]
      exact ⟨fun kp h => by have := q1 kp h; omega, q2⟩
    | tick env =>
      obtain ⟨q1, q2⟩ := ih (pos + 1) (flush hasConc { s with pending := true } env).1
      obtain ⟨o1, o2⟩ := hone env { s with pending := true }
      simp only [reporterLoop]
      refine ⟨fun kp h => ?_, ?_⟩
      · rcases List.mem_append.mp h with h | h
        · exact o1 kp h
        · have := q1 kp h; omega
      · rw [List.pairwise_append]
        refine ⟨o2, q2, ?_⟩
        intro a ha b hb
        obtain ⟨p, _, rfl⟩ := List.mem_map.mp ha
        have := q1 b hb
        simp only
        omega

/-- C18: for every sequence of rounds whose events have non-negative counts that add up
to less than `2 ^ 63` (so that no counter of Go `int` wraps), each emitted snapshot has
`Planned` equal to the planned total and each of `Enqueued`, `Started`, `Succeeded`,
`Failed`, `TimedOut` equal to the sum of the counts of the events of its kind among the
rounds before the one that emitted it; and of two emitted snapshots the later one has no
smaller counter. -/
theorem emitted_counters_monotone (hasConc : Bool) (planned : Int)
    (inputs : List ReporterInput) (hnn : ∀ ev ∈ eventsOf inputs, 0 ≤ ev.count)
    (hb : countTotal (eventsOf inputs) < 2 ^ 63) :
    (∀ kp ∈ emittedSnapshots hasConc planned inputs,
      countersOf kp.2 planned (eventsOf (inputs.take kp.1))) ∧
    (emittedSnapshots hasConc planned inputs).Pairwise fun a b => countersLe a.2 b.2 := by
  have hc := emitted_counters hasConc planned inputs hb
  refine ⟨hc, ?_⟩
  have hpos := (reporterLoop_positions hasConc inputs 0 (ReporterState.init planned)).2
  have hpos2 : (emittedSnapshots hasConc planned inputs).Pairwise fun a b => a.1 ≤ b.1 := hpos
  rw [List.pairwise_iff_forall_sublist] at hpos2 ⊢
  intro a b hab
  have hij := hpos2 hab
  have ha := hc a (hab.subset (List.mem_cons_self _ _))
  have hb2 := hc b (hab.subset (List.mem_cons_of_mem _ (List.mem_cons_self _ _)))
  obtain ⟨_, a1, a2, a3, a4, a5⟩ := ha
  obtain ⟨_, b1, b2, b3, b4, b5⟩ := hb2
  unfold countersLe
  rw [a1, a2, a3, a4, a5, b1, b2, b3, b4, b5]
  exact ⟨sumKind_take_mono _ inputs hnn _ _ hij, sumKind_take_mono _ inputs hnn _ _ hij,
    sumKind_take_mono _ inputs hnn _ _ hij, sumKind_take_mono _ inputs hnn _ _ hij,
    sumKind_take_mono _ inputs hnn _ _ hij⟩

theorem emittedSnapshots_demo :
    emittedSnapshots true 10 demoRounds =
      [(2, ⟨10, 0, 3, 5, 0, 0, 0, 2, 7, 1000⟩), (5, ⟨10, 4, 3, 5, 0, 0, 0, 1, 9, 2000⟩)] := by
  have w1 : wrapInt 3 = 3 := by decide
  have w2 : wrapInt 5 = 5 := by decide
  have w3 : wrapInt (-2) = -2 := by decide
  have w4 : wrapInt 4 = 4 := by decide
  simp [emittedSnapshots, demoRounds, reporterLoop, ReporterState.init, ingest, flush, w1, w2,
    w3, w4]

theorem countTotal_demo : countTotal (eventsOf demoRounds) = 21 := by
  decide

theorem emitted_active_clamped_witness :
    countTotal (eventsOf demoRounds) < 2 ^ 63 ∧
    (2, demoSnapshot) ∈ emittedSnapshots true 10 demoRounds ∧
    demoSnapshot.Active =
      max 0 (demoSnapshot.Started - demoSnapshot.Succeeded - demoSnapshot.Failed -
        demoSnapshot.TimedOut) :=
  ⟨by rw [countTotal_demo]; norm_num,
   by rw [emittedSnapshots_demo]; exact List.mem_cons_self _ _,
   emitted_active_clamped true 10 demoRounds (by rw [countTotal_demo]; norm_num)
     (2, demoSnapshot) (by rw [emittedSnapshots_demo]; exact List.mem_cons_self _ _)⟩

theorem emitted_counters_monotone_witness :
    (∀ ev ∈ eventsOf demoRounds, 0 ≤ ev.count) ∧
    countTotal (eventsOf demoRounds) < 2 ^ 63 ∧
    ((∀ kp ∈ emittedSnapshots true 10 demoRounds,
      countersOf kp.2 10 (eventsOf (demoRounds.take kp.1))) ∧
    (emittedSnapshots true 10 demoRounds).Pairwise fun a b => countersLe a.2 b.2) :=
  ⟨by simp [demoRounds, eventsOf], by rw [countTotal_demo]; norm_num,
   emitted_counters_monotone true 10 demoRounds (by simp [demoRounds, eventsOf])
     (by rw [countTotal_demo]; norm_num)⟩

/-- The counters of Go `int` wrap: after `Succeeded` and `Failed` events of `2 ^ 63 - 1`
tasks each, with nothing started, the emitted snapshot has `Active = 2`. -/
theorem emitted_active_wraps :
    emittedSnapshots false 0
      [ReporterInput.event ⟨"succeeded", 2 ^ 63 - 1⟩, ReporterInput.event ⟨"failed", 2 ^ 63 - 1⟩,
       ReporterInput.closed ⟨0, 0, 0, true⟩] =
      [(2, ⟨0, 0, 0, 2 ^ 63 - 1, 2 ^ 63 - 1, 0, 2, 0, 0, 0⟩)] := by
  have w1 : wrapInt 9223372036854775807 = 9223372036854775807 := by decide
  have w2 : wrapInt (-9223372036854775807) = -9223372036854775807 := by decide
  have w3 : wrapInt (-18446744073709551614) = 2 := by decide
  have w4 : wrapInt 2 = 2 := by decide
  simp [emittedSnapshots, reporterLoop, ReporterState.init, ingest, flush, w1, w2, w3, w4]

/-! ## Status classification -/

theorem ascii_table :
    ∀ n : Fin 128,
      asciiLower (asciiUpper (Char.ofNat n)) = asciiLower (Char.ofNat n) ∧
      (asciiUpper (Char.ofNat n)).toNat ≤ 0x7F ∧
      asciiLower (asciiLower (Char.ofNat n)) = asciiLower (Char.ofNat n) ∧
      (asciiLower (Char.ofNat n)).toNat ≤ 0x7F := by
  decide

theorem ascii_case (c : Char) (h : c.toNat ≤ 0x7F) :
    asciiLower (asciiUpper c) = asciiLower c ∧ (asciiUpper c).toNat ≤ 0x7F ∧
    asciiLower (asciiLower c) = asciiLower c ∧ (asciiLower c).toNat ≤ 0x7F := by
  have := ascii_table ⟨c.toNat, by omega⟩
  simpa [Char.ofNat_toNat] using this

theorem toLower_toUpper_ascii (t : CaseTables) (c : Char) (h : c.toNat ≤ 0x7F) :
    toLowerRune t (toUpperRune t c) = toLowerRune t c ∧
    toLowerRune t (toLowerRune t c) = toLowerRune t c := by
  obtain ⟨h1, h2, h3, h4⟩ := ascii_case c h
  simp only [toLowerRune, toUpperRune, h, if_true, h2, h4, h1, h3, and_self]

theorem classifyStatus_of_lower (t : CaseTables) (s s' : String)
    (h : ToLower t s' = ToLower t s) : classifyStatus t s' = classifyStatus t s := by
  unfold classifyStatus
  rw [h]

theorem classifyStatus_iff (t : CaseTables) (s : String) :
    classifyStatus t s = true ↔
      ("timeout".data <:+: (ToLower t s).data ∨ "timed out".data <:+: (ToLower t s).data) := by
  unfold classifyStatus Contains
  simp only
  split
  · rename_i h
    rw [h]
    simp only [Bool.false_eq_true, false_iff]
    decide
  · simp

/-- C19 (counterexample): the dotless `ı` is a letter whose other case is `I`; the status
`tımeout` is not classified as a timeout, and the same status with that letter in its
other case, `tImeout`, is. -/
theorem classifyStatus_changes_with_case :
    toUpperRune demoCase 'ı' = 'I' ∧
    classifyStatus demoCase "tımeout" = false ∧
    classifyStatus demoCase ⟨'t' :: toUpperRune demoCase 'ı' :: "meout".data⟩ = true := by
  decide

/-- C19 (amended): `classifyStatus(s)` is true if and only if the lower-cased `s` contains
`timeout` or `timed out`; it is false for the empty string; and the result is unchanged
by changing the case of any ASCII letter of `s`, and more generally by any change of `s`
that keeps its lower-cased form. -/
theorem classifyStatus_spec (t : CaseTables) (s : String) :
    (classifyStatus t s = true ↔
      ("timeout".data <:+: (ToLower t s).data ∨ "timed out".data <:+: (ToLower t s).data)) ∧
    classifyStatus t "" = false ∧
    (∀ (l1 l2 : List Char) (c : Char), s = ⟨l1 ++ c :: l2⟩ → c.toNat ≤ 0x7F →
      classifyStatus t ⟨l1 ++ toUpperRune t c :: l2⟩ = classifyStatus t s ∧
      classifyStatus t ⟨l1 ++ toLowerRune t c :: l2⟩ = classifyStatus t s) ∧
    (∀ s', ToLower t s' = ToLower t s → classifyStatus t s' = classifyStatus t s) := by
  refine ⟨classifyStatus_iff t s, by simp [classifyStatus, ToLower], ?_,
    fun s' h => classifyStatus_of_lower t s s' h⟩
  intro l1 l2 c hs hc
  obtain ⟨h1, h2⟩ := toLower_toUpper_ascii t c hc
  subst hs
  constructor <;> apply classifyStatus_of_lower <;> simp [ToLower, h1, h2]

theorem classifyStatus_spec_witness :
    classifyStatus demoCase "Dial TIMED OUT" = true ∧
    "timed out".data <:+: (ToLower demoCase "Dial TIMED OUT").data ∧
    classifyStatus demoCase "Dial tIMED OUT" = classifyStatus demoCase "Dial TIMED OUT" := by
  have T := classifyStatus_spec demoCase "Dial TIMED OUT"
  refine ⟨by decide, by decide, ?_⟩
  have := (T.2.2.1 "Dial ".data "IMED OUT".data 'T' rfl (by decide)).2
  simpa [toLowerRune, asciiLower] using this

/-! ## Target normalisation (C20) -/

theorem TrimSpace_data (s : String) :
    (TrimSpace s).data = (s.data.dropWhile isSpaceChar).rdropWhile isSpaceChar := rfl

theorem TrimSpace_noOuterSpace (s : String) : noOuterSpace (TrimSpace s) := by
  constructor
  · intro c hc
    rw [TrimSpace_data] at hc
    have hpre := List.rdropWhile_prefix isSpaceChar (s.data.dropWhile isSpaceChar)
    obtain ⟨t, ht⟩ := hpre
    have h1 := List.head?_dropWhile_not isSpaceChar s.data
    rw [← ht] at h1
    cases hl : (s.data.dropWhile isSpaceChar).rdropWhile isSpaceChar with
    | nil => rw [hl] at hc; simp at hc
    | cons a l =>
      rw [hl] at hc h1
      simp at hc h1
      subst hc
      simpa using h1
  · intro c hc
    rw [TrimSpace_data] at hc
    by_cases hne : (s.data.dropWhile isSpaceChar).rdropWhile isSpaceChar = []
    · rw [hne] at hc; simp at hc
    · have h := List.rdropWhile_last_not isSpaceChar _ hne
      rw [List.getLast?_eq_getLast _ hne] at hc
      simp at hc
      subst hc
      simpa using h

theorem TrimSpace_of_noOuterSpace (x : String) (h : noOuterSpace x) : TrimSpace x = x := by
  obtain ⟨h1, h2⟩ := h
  have e1 : x.data.dropWhile isSpaceChar = x.data := by
    cases hd : x.data with
    | nil => rfl
    | cons a l =>
      have := h1 a (by rw [hd]; rfl)
      simp [List.dropWhile, this]
  have e2 : x.data.rdropWhile isSpaceChar = x.data := by
    by_cases hne : x.data = []
    · rw [hne]; rfl
    · rw [List.rdropWhile_eq_self_iff]
      intro hl
      have := h2 (x.data.getLast hl) (List.getLast?_eq_getLast _ hl)
      simp [this]
  apply String.ext
  rw [TrimSpace_data, e1, e2]

theorem TrimSpace_idem (s : String) : TrimSpace (TrimSpace s) = TrimSpace s :=
  TrimSpace_of_noOuterSpace _ (TrimSpace_noOuterSpace s)

theorem TrimSpace_eq_empty_iff (s : String) :
    TrimSpace s = "" ↔ ∀ c ∈ s.data, isSpaceChar c = true := by
  constructor
  · intro h
    have hd : (s.data.dropWhile isSpaceChar).rdropWhile isSpaceChar = [] := by
      rw [← TrimSpace_data, h]
    rw [List.rdropWhile_eq_nil_iff] at hd
    intro c hc
    by_contra hn
    have hmem : ∃ y ∈ s.data, ¬ isSpaceChar y = true := ⟨c, hc, hn⟩
    have hne : s.data.dropWhile isSpaceChar ≠ [] := by
      intro h0
      rw [List.dropWhile_eq_nil_iff] at h0
      exact hn (h0 c hc)
    have h1 := List.head?_dropWhile_not isSpaceChar s.data
    cases hl : s.data.dropWhile isSpaceChar with
    | nil => exact hne hl
    | cons a l =>
      rw [hl] at h1 hd
      simp at h1
      have := hd a (List.mem_cons_self _ _)
      simp [h1] at this
  · intro h
    apply String.ext
    rw [TrimSpace_data]
    have : s.data.dropWhile isSpaceChar = [] := by
      rw [List.dropWhile_eq_nil_iff]; exact h
    rw [this]; rfl

theorem fieldsGo_chars (sep : Char → Bool) (rest cur : List Char) :
    ∀ f ∈ fieldsGo sep cur rest, ∀ c ∈ f, c ∈ cur ∨ c ∈ rest := by
  induction rest generalizing cur with
  | nil =>
    intro f hf c hc
    unfold fieldsGo at hf
    split at hf
    · simp at hf
    · simp at hf; subst hf; left; simpa using hc
  | cons a rest ih =>
    intro f hf c hc
    unfold fieldsGo at hf
    split at hf
    · split at hf
      · rcases ih [] f hf c hc with h | h
        · simp at h
        · right; exact List.mem_cons_of_mem _ h
      · rcases List.mem_cons.1 hf with h | h
        · subst h; left; simpa using hc
        · rcases ih [] f h c hc with h | h
          · simp at h
          · right; exact List.mem_cons_of_mem _ h
    · rcases ih (a :: cur) f hf c hc with h | h
      · rcases List.mem_cons.1 h with h | h
        · right; rw [h]; exact List.mem_cons_self _ _
        · left; exact h
      · right; exact List.mem_cons_of_mem _ h

theorem trimmedNonEmpty_idem (l : List String) :
    trimmedNonEmpty (trimmedNonEmpty l) = trimmedNonEmpty l := by
  induction l with
  | nil => rfl
  | cons x xs ih =>
    unfold trimmedNonEmpty at ih ⊢
    by_cases hx : TrimSpace x = ""
    · simpa [hx] using ih
    · simp only [List.map_cons, List.filter_cons, hx, ne_eq, not_false_eq_true,
        decide_True, if_true, TrimSpace_idem]
      rw [ih]

theorem trimmedNonEmpty_append (a b : List String) :
    trimmedNonEmpty (a ++ b) = trimmedNonEmpty a ++ trimmedNonEmpty b := by
  simp [trimmedNonEmpty]

theorem splitTargetString_eq (raw : String) : splitTargetString raw = targetTokens raw := by
  unfold splitTargetString targetTokens trimmedNonEmpty
  split
  · rename_i h
    rw [TrimSpace_eq_empty_iff] at h
    symm
    rw [List.filter_eq_nil_iff]
    intro x hx
    rw [List.mem_map] at hx
    obtain ⟨f, hf, rfl⟩ := hx
    unfold FieldsFunc at hf
    rw [List.mem_map] at hf
    obtain ⟨g, hg, rfl⟩ := hf
    have : TrimSpace (String.mk g) = "" := by
      rw [TrimSpace_eq_empty_iff]
      intro c hc
      rcases fieldsGo_chars _ _ _ g hg c hc with h1 | h1
      · simp at h1
      · exact h c h1
    simp [this]
  · rfl

theorem foldl_appendTarget (l acc : List String) :
    l.foldl appendTarget acc =
      acc ++ (keepFirst (trimmedNonEmpty l)).filter fun y => y ∉ acc := by
  induction l generalizing acc with
  | nil => simp [trimmedNonEmpty, keepFirst]
  | cons x xs ih =>
    rw [List.foldl_cons, ih]
    by_cases hx : TrimSpace x = ""
    · have : trimmedNonEmpty (x :: xs) = trimmedNonEmpty xs := by
        simp [trimmedNonEmpty, hx]
      rw [this]
      simp [appendTarget, hx]
    · have : trimmedNonEmpty (x :: xs) = TrimSpace x :: trimmedNonEmpty xs := by
        simp [trimmedNonEmpty, hx]
      rw [this]
      by_cases hm : TrimSpace x ∈ acc
      · simp only [appendTarget, hx, hm, if_false, if_true, keepFirst, List.filter_cons,
          not_true_eq_false, decide_False, List.filter_filter]
        congr 1
        apply List.filter_congr
        intro y _
        by_cases hy : y ∈ acc
        · simp [hy]
        · have : y ≠ TrimSpace x := fun e => hy (e ▸ hm)
          simp [hy, this]
      · simp only [appendTarget, hx, hm, if_false, keepFirst, List.filter_cons,
          not_false_eq_true, decide_True, if_true, List.filter_filter, List.append_assoc,
          List.singleton_append]
        congr 2
        apply List.filter_congr
        intro y _
        by_cases hy : y ∈ acc <;> by_cases hy2 : y = TrimSpace x <;> simp [hy, hy2]

theorem mem_keepFirst (l : List String) (x : String) : x ∈ keepFirst l ↔ x ∈ l := by
  induction l with
  | nil => simp [keepFirst]
  | cons a l ih =>
    simp only [keepFirst, List.mem_cons, List.mem_filter, ih]
    by_cases h : x = a <;> simp [h]

theorem keepFirst_nodup (l : List String) : (keepFirst l).Nodup := by
  induction l with
  | nil => simp [keepFirst]
  | cons a l ih =>
    simp only [keepFirst, List.nodup_cons]
    exact ⟨by simp [List.mem_filter], ih.filter _⟩

theorem NormalizedTargets_eq (p : ScanParams) :
    p.NormalizedTargets =
      keepFirst (trimmedNonEmpty p.Targets ++ targetTokens p.Target ++
        targetTokens p.TargetsText) := by
  unfold ScanParams.NormalizedTargets
  simp only [← List.foldl_append, splitTargetString_eq]
  rw [foldl_appendTarget]
  simp only [List.nil_append, trimmedNonEmpty_append, targetTokens, trimmedNonEmpty_idem,
    List.append_assoc]
  simp

theorem isTargetSeparator_eq (c : Char) :
    isTargetSeparator c = decide (c ∈ targetSeparators) := by
  simp [isTargetSeparator, targetSeparators, Bool.or_assoc]

theorem modifyHead_eq_self (f : List Char → List Char) (hf : ∀ x, f x = x)
    (l : List (List Char)) : l.modifyHead f = l := by
  cases l <;> simp [List.modifyHead, hf]

/-- The scan of `strings.FieldsFunc` gives the pieces between the separators that are not
empty. -/
theorem fieldsGo_eq_splitOnP (sep : Char → Bool) (l : List Char) :
    ∀ cur : List Char,
      fieldsGo sep cur l =
        ((l.splitOnP sep).modifyHead fun x => cur.reverse ++ x).filter fun x => x ≠ [] := by
  induction l with
  | nil =>
    intro cur
    by_cases hc : cur = []
    · simp [fieldsGo, hc, List.modifyHead]
    · simp [fieldsGo, hc, List.modifyHead]
  | cons c rest ih =>
    intro cur
    rw [List.splitOnP_cons]
    unfold fieldsGo
    by_cases hs : sep c = true
    · rw [if_pos hs, if_pos hs, ih [], modifyHead_eq_self _ (by simp)]
      by_cases hc : cur = []
      · simp [hc, List.modifyHead]
      · simp [hc, List.modifyHead]
    · rw [if_neg hs, if_neg hs, ih (c :: cur)]
      congr 1
      cases rest.splitOnP sep with
      | nil => rfl
      | cons x xs => simp [List.modifyHead]

theorem targetTokens_eq (raw : String) : targetTokens raw = tokensAt targetSeparators raw := by
  have hsep : isTargetSeparator = fun c => decide (c ∈ targetSeparators) :=
    funext isTargetSeparator_eq
  have hempty : TrimSpace (String.mk []) = "" := by decide
  unfold targetTokens tokensAt trimmedNonEmpty FieldsFunc
  rw [fieldsGo_eq_splitOnP, modifyHead_eq_self _ (by simp), ← hsep]
  generalize raw.data.splitOnP isTargetSeparator = pieces
  induction pieces with
  | nil => rfl
  | cons x xs ih =>
    by_cases hx : x = []
    · subst hx
      simp only [List.filter_cons, ne_eq, not_true_eq_false, decide_False, List.map_cons,
        hempty, Bool.false_eq_true, if_false]
      exact ih
    · simp only [List.filter_cons, ne_eq, hx, not_false_eq_true, decide_True, if_true,
        List.map_cons]
      by_cases ht : TrimSpace (String.mk x) = ""
      · simp only [ht, not_true_eq_false, decide_False, Bool.false_eq_true, if_false]
        exact ih
      · simp only [ht, not_false_eq_true, decide_True, if_true]
        rw [ih]

/-- C20: for every `ScanParams`, `NormalizedTargets` holds no empty string, no string that
starts or ends with white space, and no duplicate; it is the list of the trimmed non-empty
entries of `Targets`, then the tokens of `Target`, then the tokens of `TargetsText`, each
kept at its first occurrence, where the tokens of a string are its pieces between the
separators newline, carriage return, tab, comma and semicolon, trimmed, without the
empty ones. -/
theorem NormalizedTargets_spec (p : ScanParams) :
    "" ∉ p.NormalizedTargets ∧
    (∀ x ∈ p.NormalizedTargets, noOuterSpace x) ∧
    p.NormalizedTargets.Nodup ∧
    p.NormalizedTargets =
      keepFirst (trimmedNonEmpty p.Targets ++ tokensAt ['\n', '\r', '\t', ',', ';'] p.Target ++
        tokensAt ['\n', '\r', '\t', ',', ';'] p.TargetsText) := by
  have hmem : ∀ x ∈ p.NormalizedTargets, ∃ y, x = TrimSpace y ∧ x ≠ "" := by
    intro x hx
    rw [NormalizedTargets_eq, mem_keepFirst] at hx
    simp only [targetTokens, ← trimmedNonEmpty_append] at hx
    unfold trimmedNonEmpty at hx
    rw [List.mem_filter, List.mem_map] at hx
    obtain ⟨⟨y, _, rfl⟩, h2⟩ := hx
    exact ⟨y, rfl, by simpa using h2⟩
  refine ⟨?_, ?_, ?_, ?_⟩
  · intro h
    obtain ⟨_, _, h2⟩ := hmem _ h
    exact h2 rfl
  · intro x hx
    obtain ⟨y, rfl, _⟩ := hmem _ hx
    exact TrimSpace_noOuterSpace y
  · rw [NormalizedTargets_eq]
    exact keepFirst_nodup _
  · rw [NormalizedTargets_eq, targetTokens_eq, targetTokens_eq]
    rfl

set_option maxRecDepth 100000 in
theorem NormalizedTargets_spec_witness :
    demoTargetParams.NormalizedTargets = ["a", "b", "c", "d", "e x", "f", "g"] ∧
    tokensAt ['\n', '\r', '\t', ',', ';'] demoTargetParams.Target = ["c", "a", "d", "e x"] ∧
    tokensAt ['\n', '\r', '\t', ',', ';'] demoTargetParams.TargetsText = ["f", "b", "g"] ∧
    keepFirst (trimmedNonEmpty demoTargetParams.Targets ++
      tokensAt ['\n', '\r', '\t', ',', ';'] demoTargetParams.Target ++
      tokensAt ['\n', '\r', '\t', ',', ';'] demoTargetParams.TargetsText) =
        ["a", "b", "c", "d", "e x", "f", "g"] :=
  ⟨by decide, by decide, by decide,
   by rw [← (NormalizedTargets_spec demoTargetParams).2.2.2]; decide⟩

/-! ## Concurrency manager (C11, C12, C13) -/

theorem fdAwareThreadCap_range (h : Host) : fdAwareThreadCap h = 0 ∨ 8 ≤ fdAwareThreadCap h := by
  unfold fdAwareThreadCap
  simp only
  split
  · left; rfl
  · right; split <;> omega

theorem defaultAutoMaxThreads_ge (h : Host) : 128 ≤ defaultAutoMaxThreads h := by
  unfold defaultAutoMaxThreads
  simp only
  split_ifs <;> omega

theorem newConcurrencyManager_minThreads (h : Host) (t : CaseTables)
    (opts : ConcurrencyOptions) (params : ScanParams) (now : Int) :
    (newConcurrencyManager h t opts params now).minThreads = 8 := by
  unfold newConcurrencyManager concurrencyManager.configureInflightLimit
  simp only
  split_ifs <;> rfl

theorem newConcurrencyManager_mode (h : Host) (t : CaseTables)
    (opts : ConcurrencyOptions) (params : ScanParams) (now : Int) :
    (newConcurrencyManager h t opts params now).mode =
      if normalizeConcurrencyMode t opts.Mode = "" then ConcurrencyModeAuto
      else normalizeConcurrencyMode t opts.Mode := by
  unfold newConcurrencyManager concurrencyManager.configureInflightLimit
  simp only
  split_ifs <;> rfl

theorem newConcurrencyManager_maxThreads_auto (h : Host) (t : CaseTables)
    (opts : ConcurrencyOptions) (params : ScanParams) (now : Int)
    (hm : (newConcurrencyManager h t opts params now).mode = ConcurrencyModeAuto) :
    (newConcurrencyManager h t opts params now).maxThreads =
      if fdAwareThreadCap h > 0 ∧
          (if opts.MaxThreads ≤ 0 then defaultAutoMaxThreads h else opts.MaxThreads) >
            fdAwareThreadCap h
      then fdAwareThreadCap h
      else if opts.MaxThreads ≤ 0 then defaultAutoMaxThreads h else opts.MaxThreads := by
  rw [newConcurrencyManager_mode] at hm
  have hne : ¬ ((if normalizeConcurrencyMode t opts.Mode = "" then ConcurrencyModeAuto
      else normalizeConcurrencyMode t opts.Mode) = ConcurrencyModeManual) := by
    rw [hm]; decide
  unfold newConcurrencyManager concurrencyManager.configureInflightLimit
  simp only [hne, if_false]

theorem desiredThreads_bounds (m : concurrencyManager) (cur : Int) (snap : statsSnapshot)
    (cpu : Option ℚ) :
    desiredThreads m cur snap cpu ≤ m.maxThreads ∧
    (m.minThreads ≤ m.maxThreads → m.minThreads ≤ desiredThreads m cur snap cpu) ∧
    (m.maxThreads < m.minThreads → desiredThreads m cur snap cpu = m.maxThreads) := by
  unfold desiredThreads
  simp only
  generalize tuneTarget cur snap cpu = d
  split_ifs <;> refine ⟨?_, ?_, ?_⟩ <;> intros <;> omega

theorem tuneRounds_bounds (m : concurrencyManager) (ticks : List TuneTick) :
    ∀ (cur : Int) (last : statsSnapshot), ∀ c ∈ tuneRounds m cur last ticks,
      c ≤ m.maxThreads ∧ (m.minThreads ≤ m.maxThreads → m.minThreads ≤ c) ∧
      (m.maxThreads < m.minThreads → c = m.maxThreads) := by
  induction ticks with
  | nil => intro cur last c hc; simp [tuneRounds] at hc
  | cons tk rest ih =>
    intro cur last c hc
    unfold tuneRounds at hc
    simp only at hc
    split at hc
    · rcases List.mem_cons.1 hc with h | h
      · rw [h]; exact desiredThreads_bounds m cur _ tk.cpu
      · exact ih _ _ c h
    · exact ih _ _ c hc

theorem InitialWorkers_auto (h : Host) (m : concurrencyManager)
    (hm : m.mode = ConcurrencyModeAuto) :
    (m.InitialWorkers h).1 = m ∧
    (m.InitialWorkers h).2 ≤ m.maxThreads ∧
    (m.minThreads ≤ m.maxThreads → m.minThreads ≤ (m.InitialWorkers h).2) ∧
    (m.maxThreads < m.minThreads → (m.InitialWorkers h).2 = m.maxThreads) := by
  have hne : ¬ m.mode = ConcurrencyModeManual := by rw [hm]; decide
  unfold concurrencyManager.InitialWorkers
  simp only [hne, if_false]
  refine ⟨trivial, ?_⟩
  split_ifs <;> refine ⟨?_, ?_, ?_⟩ <;> intros <;> omega

/-- C11 (amended): in auto mode the floor `minThreads` is 8 and every capacity
of the pool, the one returned by `InitialWorkers` and each argument of `pool.Tune`, for
every host, options and sequence of ticks, is at most `maxThreads`; it is at least
`minThreads` whenever `minThreads ≤ maxThreads`, which holds unless `opts.MaxThreads` is
between 1 and 7; in that case every capacity equals `maxThreads`. -/
theorem autoMode_capacity_bounds (h : Host) (t : CaseTables) (opts : ConcurrencyOptions)
    (params : ScanParams) (now : Int) (first : executionStats) (ticks : List TuneTick)
    (hm : (newConcurrencyManager h t opts params now).mode = ConcurrencyModeAuto) :
    (newConcurrencyManager h t opts params now).minThreads = 8 ∧
    ((newConcurrencyManager h t opts params now).minThreads ≤
        (newConcurrencyManager h t opts params now).maxThreads ↔
      ¬ (0 < opts.MaxThreads ∧ opts.MaxThreads < 8)) ∧
    ∀ c ∈ poolCapacities h (newConcurrencyManager h t opts params now) first ticks,
      c ≤ (newConcurrencyManager h t opts params now).maxThreads ∧
      ((newConcurrencyManager h t opts params now).minThreads ≤
          (newConcurrencyManager h t opts params now).maxThreads →
        (newConcurrencyManager h t opts params now).minThreads ≤ c) ∧
      ((newConcurrencyManager h t opts params now).maxThreads <
          (newConcurrencyManager h t opts params now).minThreads →
        c = (newConcurrencyManager h t opts params now).maxThreads) := by
  refine ⟨newConcurrencyManager_minThreads h t opts params now, ?_, ?_⟩
  · rw [newConcurrencyManager_minThreads, newConcurrencyManager_maxThreads_auto h t opts params now hm]
    have h1 := fdAwareThreadCap_range h
    have h2 := defaultAutoMaxThreads_ge h
    split_ifs <;> omega
  · generalize newConcurrencyManager h t opts params now = m at hm
    intro c hc
    obtain ⟨e1, b⟩ := InitialWorkers_auto h m hm
    unfold poolCapacities at hc
    simp only [e1, hm, if_true] at hc
    rcases List.mem_cons.1 hc with hc | hc
    · rw [hc]; exact b
    · unfold concurrencyManager.autoTuneLoop at hc
      simp only at hc
      exact tuneRounds_bounds m ticks _ _ c hc

theorem autoMode_capacity_bounds_witness :
    (newConcurrencyManager demoHost demoCase ⟨"Auto ", 0, 64, 0, 0⟩ ScanParams.zero 0).mode =
      ConcurrencyModeAuto ∧
    ((newConcurrencyManager demoHost demoCase ⟨"Auto ", 0, 64, 0, 0⟩
        ScanParams.zero 0).minThreads = 8 ∧
    ((newConcurrencyManager demoHost demoCase ⟨"Auto ", 0, 64, 0, 0⟩
          ScanParams.zero 0).minThreads ≤
        (newConcurrencyManager demoHost demoCase ⟨"Auto ", 0, 64, 0, 0⟩
          ScanParams.zero 0).maxThreads ↔
      ¬ (0 < (64 : Int) ∧ (64 : Int) < 8)) ∧
    ∀ c ∈ poolCapacities demoHost
        (newConcurrencyManager demoHost demoCase ⟨"Auto ", 0, 64, 0, 0⟩ ScanParams.zero 0)
        ⟨0, 0, 0, 0, 0, 0⟩ [demoOverload, demoOverload],
      c ≤ (newConcurrencyManager demoHost demoCase ⟨"Auto ", 0, 64, 0, 0⟩
          ScanParams.zero 0).maxThreads ∧
      ((newConcurrencyManager demoHost demoCase ⟨"Auto ", 0, 64, 0, 0⟩
            ScanParams.zero 0).minThreads ≤
          (newConcurrencyManager demoHost demoCase ⟨"Auto ", 0, 64, 0, 0⟩
            ScanParams.zero 0).maxThreads →
        (newConcurrencyManager demoHost demoCase ⟨"Auto ", 0, 64, 0, 0⟩
          ScanParams.zero 0).minThreads ≤ c) ∧
      ((newConcurrencyManager demoHost demoCase ⟨"Auto ", 0, 64, 0, 0⟩
            ScanParams.zero 0).maxThreads <
          (newConcurrencyManager demoHost demoCase ⟨"Auto ", 0, 64, 0, 0⟩
            ScanParams.zero 0).minThreads →
        c = (newConcurrencyManager demoHost demoCase ⟨"Auto ", 0, 64, 0, 0⟩
          ScanParams.zero 0).maxThreads)) :=
  ⟨by rw [newConcurrencyManager_mode]; decide,
   autoMode_capacity_bounds demoHost demoCase ⟨"Auto ", 0, 64, 0, 0⟩ ScanParams.zero 0
     ⟨0, 0, 0, 0, 0, 0⟩ [demoOverload, demoOverload]
     (by rw [newConcurrencyManager_mode]; decide)⟩

theorem rateCeiling_pos (m : concurrencyManager) : 0 < rateCeiling m := by
  unfold rateCeiling defaultGlobalMaxPPS
  split_ifs with h1 h2 <;> omega

theorem probeTimeoutSeconds_pos (params : ScanParams) : 0 < probeTimeoutSeconds params := by
  unfold probeTimeoutSeconds
  split_ifs <;> omega

theorem minPositive_three (p a b : Int) (hp : 0 < p) :
    minPositive [p, a, b] =
      (if 0 < b ∧ b < (if 0 < a ∧ a < p then a else p) then b
       else if 0 < a ∧ a < p then a else p) := by
  unfold minPositive
  by_cases ha : 0 < a <;> by_cases hb : 0 < b <;>
    simp [List.filter, List.min?, hp, ha, hb] <;> split_ifs <;> omega

theorem newConcurrencyManager_inflightLimit (h : Host) (t : CaseTables)
    (opts : ConcurrencyOptions) (params : ScanParams) (now : Int) :
    ∃ m0 : concurrencyManager,
      newConcurrencyManager h t opts params now = m0.configureInflightLimit h params ∧
      m0.minThreads = 8 := by
  unfold newConcurrencyManager
  simp only
  split_ifs <;> exact ⟨_, rfl, rfl⟩

theorem configureInflightLimit_fields (h : Host) (m : concurrencyManager)
    (params : ScanParams) :
    (m.configureInflightLimit h params).mode = m.mode ∧
    (m.configureInflightLimit h params).options = m.options ∧
    (m.configureInflightLimit h params).maxThreads = m.maxThreads ∧
    (m.configureInflightLimit h params).minThreads = m.minThreads :=
  ⟨rfl, rfl, rfl, rfl⟩

theorem newConcurrencyManager_manual (h : Host) (t : CaseTables)
    (opts : ConcurrencyOptions) (params : ScanParams) (now : Int)
    (hm : normalizeConcurrencyMode t opts.Mode = ConcurrencyModeManual)
    (ht : 0 < opts.Threads) :
    (newConcurrencyManager h t opts params now).mode = ConcurrencyModeManual ∧
    (newConcurrencyManager h t opts params now).options.Threads = opts.Threads ∧
    (newConcurrencyManager h t opts params now).maxThreads = opts.Threads := by
  have hne : ¬ ConcurrencyModeManual = "" := by decide
  have ht2 : ¬ opts.Threads ≤ 0 := by omega
  unfold newConcurrencyManager concurrencyManager.configureInflightLimit
  simp only [hm, hne, if_false, if_true, ht2]
  exact ⟨trivial, trivial, trivial⟩

theorem InitialWorkers_manual (h : Host) (m : concurrencyManager)
    (hm : m.mode = ConcurrencyModeManual) (ht : 0 < m.options.Threads) :
    (m.InitialWorkers h).1 = m ∧
    (m.InitialWorkers h).2 = max m.options.Threads m.minThreads := by
  have ht2 : ¬ m.options.Threads ≤ 0 := by omega
  unfold concurrencyManager.InitialWorkers
  simp only [hm, if_true, ht2, if_false]
  split_ifs <;> refine ⟨rfl, ?_⟩ <;> simp only <;> omega

/-- C13 (amended): for every options value whose mode reads as manual and whose
`Threads` is `t > 0`, `InitialWorkers` of the new manager returns `max(t, 8)`: the thread
count itself when it is at least `minThreads`, the floor `minThreads = 8` below that; the
pool keeps that size, its capacities being that one value. -/
theorem manual_InitialWorkers (h : Host) (t : CaseTables) (opts : ConcurrencyOptions)
    (params : ScanParams) (now : Int) (first : executionStats) (ticks : List TuneTick)
    (hm : normalizeConcurrencyMode t opts.Mode = ConcurrencyModeManual)
    (ht : 0 < opts.Threads) :
    ((newConcurrencyManager h t opts params now).InitialWorkers h).2 = max opts.Threads 8 ∧
    poolCapacities h (newConcurrencyManager h t opts params now) first ticks =
      [max opts.Threads 8] := by
  obtain ⟨h1, h2, _⟩ := newConcurrencyManager_manual h t opts params now hm ht
  have hmin := newConcurrencyManager_minThreads h t opts params now
  generalize newConcurrencyManager h t opts params now = m at h1 h2 hmin
  obtain ⟨he, hw⟩ := InitialWorkers_manual h m h1 (by omega)
  rw [h2, hmin] at hw
  refine ⟨hw, ?_⟩
  have hmode : (m.InitialWorkers h).1.mode = ConcurrencyModeManual := by
    rw [he]; exact h1
  have hne : ¬ (m.InitialWorkers h).1.mode = ConcurrencyModeAuto := by rw [hmode]; decide
  unfold poolCapacities
  simp only [hne, if_false, hw]

theorem manual_InitialWorkers_witness :
    normalizeConcurrencyMode demoCase "Manual" = ConcurrencyModeManual ∧ (0 : Int) < 50 ∧
    (((newConcurrencyManager demoHost demoCase ⟨"Manual", 50, 0, 0, 0⟩ ScanParams.zero
        0).InitialWorkers demoHost).2 = max 50 8 ∧
    poolCapacities demoHost
        (newConcurrencyManager demoHost demoCase ⟨"Manual", 50, 0, 0, 0⟩ ScanParams.zero 0)
        ⟨0, 0, 0, 0, 0, 0⟩ [demoOverload] = [max 50 8]) :=
  ⟨by decide, by decide,
   manual_InitialWorkers demoHost demoCase ⟨"Manual", 50, 0, 0, 0⟩ ScanParams.zero 0
     ⟨0, 0, 0, 0, 0, 0⟩ [demoOverload] (by decide) (by decide)⟩

/-- C13 (counterexample): a manual run with `Threads = 4` gets a pool of 8
workers. -/
theorem manual_InitialWorkers_raises_small_count :
    normalizeConcurrencyMode demoCase demoManualOptions.Mode = ConcurrencyModeManual ∧
    demoManualOptions.Threads = 4 ∧
    ((newConcurrencyManager demoHost demoCase demoManualOptions ScanParams.zero
        0).InitialWorkers demoHost).2 = 8 := by
  refine ⟨by decide, rfl, ?_⟩
  obtain ⟨h1, h2, _⟩ := newConcurrencyManager_manual demoHost demoCase demoManualOptions
    ScanParams.zero 0 (by decide) (by decide)
  have hmin := newConcurrencyManager_minThreads demoHost demoCase demoManualOptions
    ScanParams.zero 0
  rw [(InitialWorkers_manual _ _ h1 (by rw [h2]; decide)).2, h2, hmin]
  decide

/-- C11 (counterexample): an auto run with `MaxThreads = 4` has `minThreads = 8` and
`maxThreads = 4`; `InitialWorkers` returns 4, and under a tick with every probe failed
no other capacity is set. -/
theorem autoMode_capacity_below_minThreads :
    (newConcurrencyManager demoHost demoCase demoAutoOptions ScanParams.zero 0).mode =
      ConcurrencyModeAuto ∧
    (newConcurrencyManager demoHost demoCase demoAutoOptions ScanParams.zero 0).minThreads =
      8 ∧
    (newConcurrencyManager demoHost demoCase demoAutoOptions ScanParams.zero 0).maxThreads =
      4 ∧
    ((newConcurrencyManager demoHost demoCase demoAutoOptions ScanParams.zero
        0).InitialWorkers demoHost).2 = 4 ∧
    poolCapacities demoHost
      (newConcurrencyManager demoHost demoCase demoAutoOptions ScanParams.zero 0)
      ⟨0, 0, 0, 0, 0, 0⟩ [demoOverload] = [4] := by
  have hm : (newConcurrencyManager demoHost demoCase demoAutoOptions ScanParams.zero 0).mode
      = ConcurrencyModeAuto := by rw [newConcurrencyManager_mode]; decide
  have hmax : (newConcurrencyManager demoHost demoCase demoAutoOptions ScanParams.zero
      0).maxThreads = 4 := by
    rw [newConcurrencyManager_maxThreads_auto _ _ _ _ _ hm]; decide
  have hmin := newConcurrencyManager_minThreads demoHost demoCase demoAutoOptions
    ScanParams.zero 0
  generalize newConcurrencyManager demoHost demoCase demoAutoOptions ScanParams.zero 0 = m
    at hm hmax hmin
  obtain ⟨e1, b1, _, b3⟩ := InitialWorkers_auto demoHost m hm
  have hw : (m.InitialWorkers demoHost).2 = 4 := by
    rw [b3 (by omega), hmax]
  refine ⟨hm, hmin, hmax, hw, ?_⟩
  unfold poolCapacities
  simp only [e1, hm, if_true, hw]
  unfold concurrencyManager.autoTuneLoop
  simp only [tuneRounds]
  have hd := (desiredThreads_bounds m 4
    (demoOverload.stats.snapshot
      (executionStats.snapshot ⟨0, 0, 0, 0, 0, 0⟩ statsSnapshot.zero)) demoOverload.cpu).2.2
    (by omega)
  norm_num [hd, hmax]

theorem defaultThreadCount_range (h : Host) (hn : h.numCPU ≤ 2 ^ 20) :
    0 < defaultThreadCount h ∧ defaultThreadCount h ≤ 2 ^ 23 := by
  unfold defaultThreadCount
  norm_num at hn ⊢
  split_ifs <;> constructor <;> omega

theorem fdAwareThreadCap_le (h : Host) : fdAwareThreadCap h ≤ 2 ^ 29 := by
  unfold fdAwareThreadCap fdSoftLimit
  norm_num
  cases h.rlimitCur with
  | none => simp
  | some cur =>
    simp only
    split_ifs <;> omega

theorem defaultAutoMaxThreads_le (h : Host) : defaultAutoMaxThreads h ≤ 1024 := by
  unfold defaultAutoMaxThreads
  simp only
  split_ifs <;> omega

/-- The manager that `newConcurrencyManager` hands to `configureInflightLimit`, for
options that fit in 32 bits on a host with at most `2 ^ 20` processors. -/
theorem newConcurrencyManager_parts (h : Host) (t : CaseTables)
    (opts : ConcurrencyOptions) (params : ScanParams) (now : Int)
    (hn : h.numCPU ≤ 2 ^ 20) (hT : opts.Threads ≤ 2 ^ 31) (hM : opts.MaxThreads ≤ 2 ^ 31) :
    ∃ m0 : concurrencyManager,
      newConcurrencyManager h t opts params now = m0.configureInflightLimit h params ∧
      m0.minThreads = 8 ∧ m0.options.MaxPPS = opts.MaxPPS ∧
      m0.options.Threads ≤ 2 ^ 31 ∧ 0 < m0.maxThreads ∧ m0.maxThreads ≤ 2 ^ 31 := by
  obtain ⟨d1, d2⟩ := defaultThreadCount_range h hn
  have f1 := fdAwareThreadCap_range h
  have f2 := fdAwareThreadCap_le h
  have a1 := defaultAutoMaxThreads_ge h
  have a2 := defaultAutoMaxThreads_le h
  unfold newConcurrencyManager
  simp only
  generalize defaultThreadCount h = d at d1 d2
  generalize fdAwareThreadCap h = f at f1 f2
  generalize defaultAutoMaxThreads h = a at a1 a2
  norm_num at hT hM d2 f2 ⊢
  split_ifs <;> refine ⟨_, rfl, rfl, rfl, ?_, ?_, ?_⟩ <;> simp only <;> omega

theorem estimateInflightLimit_eq (h : Host) (m : concurrencyManager) (params : ScanParams)
    (hP : m.options.MaxPPS ≤ 2 ^ 31) (hT : m.options.Threads ≤ 2 ^ 31)
    (hM0 : 0 < m.maxThreads) (hM : m.maxThreads ≤ 2 ^ 31)
    (hD : |params.Delay| ≤ 2 ^ 16) (hH : |params.HTTPSDelay| ≤ 2 ^ 16) :
    m.estimateInflightLimit h params =
      max portChunkSize (minPositive [rateCeiling m * probeTimeoutSeconds params,
        m.maxThreads * portChunkSize * 4, fdSoftLimit h / 2]) := by
  have hR := rateCeiling_pos m
  have hTs := probeTimeoutSeconds_pos params
  have hP0 : 0 < rateCeiling m * probeTimeoutSeconds params := Int.mul_pos hR hTs
  obtain ⟨hD1, hD2⟩ := abs_le.mp hD
  obtain ⟨hH1, hH2⟩ := abs_le.mp hH
  norm_num at hP hT hM hD1 hD2 hH1 hH2
  have hRle : rateCeiling m ≤ 42949672960 := by
    unfold rateCeiling defaultGlobalMaxPPS
    split_ifs <;> omega
  have hTle : probeTimeoutSeconds params ≤ 131072 := by
    unfold probeTimeoutSeconds
    split_ifs <;> omega
  have hPle : rateCeiling m * probeTimeoutSeconds params ≤ 2 ^ 53 := by
    have := Int.mul_le_mul hRle hTle (le_of_lt hTs) (by norm_num)
    norm_num at this ⊢
    omega
  have e1 : (if m.options.MaxPPS ≤ 0 then
        (if m.mode = ConcurrencyModeManual ∧ m.options.Threads > 0 then
          wrapInt (m.options.Threads * 20)
         else defaultGlobalMaxPPS)
      else m.options.MaxPPS) = rateCeiling m := by
    unfold rateCeiling
    by_cases a : m.options.MaxPPS ≤ 0
    · have a2 : ¬ m.options.MaxPPS > 0 := by omega
      rw [if_pos a, if_neg a2]
      by_cases b : m.mode = ConcurrencyModeManual ∧ m.options.Threads > 0
      · rw [if_pos b, if_pos b]
        have := b.2
        exact wrapInt_of_range _ (by norm_num; omega) (by norm_num; omega)
      · rw [if_neg b, if_neg b]
    · have a2 : m.options.MaxPPS > 0 := by omega
      rw [if_neg a, if_pos a2]
  have hw : wrapInt (params.Delay + params.HTTPSDelay) = params.Delay + params.HTTPSDelay :=
    wrapInt_of_range _ (by norm_num; omega) (by norm_num; omega)
  have hf : f64 ((params.Delay + params.HTTPSDelay : Int) : ℚ) =
      ((params.Delay + params.HTTPSDelay : Int) : ℚ) :=
    f64_intCast _ (by rw [abs_le]; norm_num; constructor <;> omega)
  have e2 : (if f64 ((wrapInt (params.Delay + params.HTTPSDelay) : Int) : ℚ) ≤ 0 then (2 : ℚ)
      else f64 ((wrapInt (params.Delay + params.HTTPSDelay) : Int) : ℚ)) =
        ((probeTimeoutSeconds params : Int) : ℚ) := by
    rw [hw, hf]
    unfold probeTimeoutSeconds
    by_cases hz : params.Delay + params.HTTPSDelay ≤ 0
    · have : ((params.Delay + params.HTTPSDelay : Int) : ℚ) ≤ 0 := by exact_mod_cast hz
      simp only [this, hz, if_true]; norm_num
    · have : ¬ ((params.Delay + params.HTTPSDelay : Int) : ℚ) ≤ 0 := by exact_mod_cast hz
      simp only [this, hz, if_false]
  have e3 : floatToInt (f64 (f64 ((rateCeiling m : Int) : ℚ) *
      ((probeTimeoutSeconds params : Int) : ℚ))) =
        rateCeiling m * probeTimeoutSeconds params := by
    rw [f64_intCast (rateCeiling m) (by rw [abs_le]; norm_num; constructor <;> omega),
      ← Int.cast_mul,
      f64_intCast _ (by rw [abs_of_pos hP0]; exact hPle)]
    exact floatToInt_intCast _ (by norm_num; omega) (by norm_num at hPle ⊢; omega)
  have e4 : wrapInt (wrapInt (m.maxThreads * portChunkSize) * 4) =
      m.maxThreads * portChunkSize * 4 := by
    unfold portChunkSize
    rw [wrapInt_of_range (m.maxThreads * 8) (by norm_num; omega) (by norm_num; omega)]
    exact wrapInt_of_range _ (by norm_num; omega) (by norm_num; omega)
  rw [minPositive_three _ _ _ hP0]
  unfold concurrencyManager.estimateInflightLimit
  simp only [e1, e2, e3, e4, gt_iff_lt, hR, if_true]
  have hP2 : ¬ rateCeiling m * probeTimeoutSeconds params ≤ 0 := by omega
  simp only [hP2, if_false]
  generalize rateCeiling m * probeTimeoutSeconds params = P at hP0
  generalize m.maxThreads * portChunkSize * 4 = tc
  have hfd : 0 ≤ fdSoftLimit h := by
    unfold fdSoftLimit
    split
    · omega
    · split <;> omega
  generalize fdSoftLimit h = fd at hfd
  unfold portChunkSize
  by_cases h1 : 0 < tc <;> by_cases h2 : 0 < fd <;> by_cases h3 : 0 < fd / 2 <;>
    simp [h1, h2, h3, List.foldl] <;> split_ifs <;> omega

theorem configureInflightLimit_eq (h : Host) (m : concurrencyManager) (params : ScanParams)
    (hmin : m.minThreads = 8)
    (hP : m.options.MaxPPS ≤ 2 ^ 31) (hT : m.options.Threads ≤ 2 ^ 31)
    (hM0 : 0 < m.maxThreads) (hM : m.maxThreads ≤ 2 ^ 31)
    (hD : |params.Delay| ≤ 2 ^ 16) (hH : |params.HTTPSDelay| ≤ 2 ^ 16) :
    (m.configureInflightLimit h params).inflightLimit =
      inflightFormula h (m.configureInflightLimit h params) params 64 := by
  have hf := configureInflightLimit_fields h m params
  have hr : rateCeiling (m.configureInflightLimit h params) = rateCeiling m := by
    unfold rateCeiling; rw [hf.1, hf.2.1]
  have hw : wrapInt (m.minThreads * portChunkSize) = 64 := by
    rw [hmin]; decide
  unfold inflightFormula
  rw [hr, hf.2.2.1]
  unfold concurrencyManager.configureInflightLimit
  simp only [estimateInflightLimit_eq h m params hP hT hM0 hM hD hH, hw]
  generalize minPositive _ = x
  generalize wrapInt (m.maxThreads * portChunkSize) = y
  unfold portChunkSize
  split_ifs <;> omega

theorem newConcurrencyManager_inflightLimit_formula (h : Host) (t : CaseTables)
    (opts : ConcurrencyOptions) (params : ScanParams) (now : Int)
    (hn : h.numCPU ≤ 2 ^ 20) (hT : opts.Threads ≤ 2 ^ 31) (hM : opts.MaxThreads ≤ 2 ^ 31)
    (hP : opts.MaxPPS ≤ 2 ^ 31) (hD : |params.Delay| ≤ 2 ^ 16)
    (hH : |params.HTTPSDelay| ≤ 2 ^ 16) :
    (newConcurrencyManager h t opts params now).inflightLimit =
      inflightFormula h (newConcurrencyManager h t opts params now) params 64 := by
  obtain ⟨m0, e, hmin, hpps, hthr, hm0, hm1⟩ :=
    newConcurrencyManager_parts h t opts params now hn hT hM
  rw [e]
  exact configureInflightLimit_eq h m0 params hmin (by rw [hpps]; exact hP) hthr hm0 hm1 hD hH

/-- C12 (amended): for every host with at most `2 ^ 20` processors, options
`Threads`, `MaxThreads`, `MaxPPS` of at most `2 ^ 31` and timeouts `Delay`, `HTTPSDelay` of
at most `2 ^ 16` seconds in size (within these bounds no product of Go `int` wraps and
every float64 product is exact), the inflight limit of a new manager is
`max(minThreads * portChunkSize, min(rateCeiling * probeTimeoutSeconds,
maxThreads * portChunkSize * 4, fdSoftLimit / 2))` with the minimum over the positive
candidates; the floor `minThreads * portChunkSize` is 64, eight port chunks. -/
theorem inflightLimit_spec (h : Host) (t : CaseTables) (opts : ConcurrencyOptions)
    (params : ScanParams) (now : Int)
    (hn : h.numCPU ≤ 2 ^ 20) (hT : opts.Threads ≤ 2 ^ 31) (hM : opts.MaxThreads ≤ 2 ^ 31)
    (hP : opts.MaxPPS ≤ 2 ^ 31) (hD : |params.Delay| ≤ 2 ^ 16)
    (hH : |params.HTTPSDelay| ≤ 2 ^ 16) :
    (newConcurrencyManager h t opts params now).inflightLimit =
      inflightFormula h (newConcurrencyManager h t opts params now) params
        ((newConcurrencyManager h t opts params now).minThreads * portChunkSize) ∧
    (newConcurrencyManager h t opts params now).minThreads * portChunkSize = 64 ∧
    64 ≤ (newConcurrencyManager h t opts params now).inflightLimit := by
  have h1 := newConcurrencyManager_inflightLimit_formula h t opts params now hn hT hM hP hD hH
  have h2 : (newConcurrencyManager h t opts params now).minThreads * portChunkSize = 64 := by
    rw [newConcurrencyManager_minThreads]; rfl
  refine ⟨by rw [h2]; exact h1, h2, ?_⟩
  rw [h1]
  unfold inflightFormula
  omega

theorem inflightLimit_spec_witness :
    demoHost.numCPU ≤ 2 ^ 20 ∧ demoSlowOptions.Threads ≤ 2 ^ 31 ∧
    demoSlowOptions.MaxThreads ≤ 2 ^ 31 ∧ demoSlowOptions.MaxPPS ≤ 2 ^ 31 ∧
    |demoSlowParams.Delay| ≤ 2 ^ 16 ∧ |demoSlowParams.HTTPSDelay| ≤ 2 ^ 16 ∧
    ((newConcurrencyManager demoHost demoCase demoSlowOptions demoSlowParams 0).inflightLimit =
      inflightFormula demoHost
        (newConcurrencyManager demoHost demoCase demoSlowOptions demoSlowParams 0)
        demoSlowParams
        ((newConcurrencyManager demoHost demoCase demoSlowOptions demoSlowParams 0).minThreads *
          portChunkSize) ∧
    (newConcurrencyManager demoHost demoCase demoSlowOptions demoSlowParams 0).minThreads *
      portChunkSize = 64 ∧
    64 ≤ (newConcurrencyManager demoHost demoCase demoSlowOptions demoSlowParams
      0).inflightLimit) :=
  ⟨by decide, by decide, by decide, by decide, by decide, by decide,
   inflightLimit_spec demoHost demoCase demoSlowOptions demoSlowParams 0 (by decide)
     (by decide) (by decide) (by decide) (by decide) (by decide)⟩

/-- C12 (counterexample): on a host with 1024 file descriptors, an auto run limited
to 10 packets per second with a probe timeout of 2 seconds has candidates 20, 4096 and
512; the formula with a floor of one port chunk gives 20, the code sets the limit to
64. -/
theorem inflightLimit_exceeds_one_chunk_floor :
    inflightFormula demoHost
      (newConcurrencyManager demoHost demoCase demoSlowOptions demoSlowParams 0)
      demoSlowParams portChunkSize = 20 ∧
    (newConcurrencyManager demoHost demoCase demoSlowOptions demoSlowParams 0).inflightLimit =
      64 := by
  have hm : (newConcurrencyManager demoHost demoCase demoSlowOptions demoSlowParams 0).mode
      = ConcurrencyModeAuto := by rw [newConcurrencyManager_mode]; decide
  have hmax : (newConcurrencyManager demoHost demoCase demoSlowOptions demoSlowParams
      0).maxThreads = 128 := by
    rw [newConcurrencyManager_maxThreads_auto _ _ _ _ _ hm]; decide
  have hopt : (newConcurrencyManager demoHost demoCase demoSlowOptions demoSlowParams
      0).options = demoSlowOptions := by
    obtain ⟨m0, e, _⟩ := newConcurrencyManager_inflightLimit demoHost demoCase
      demoSlowOptions demoSlowParams 0
    have hne : ¬ ((if normalizeConcurrencyMode demoCase demoSlowOptions.Mode = "" then
        ConcurrencyModeAuto else normalizeConcurrencyMode demoCase demoSlowOptions.Mode) =
          ConcurrencyModeManual) := by decide
    unfold newConcurrencyManager concurrencyManager.configureInflightLimit
    simp only [hne, if_false]
  have hf : inflightFormula demoHost
      (newConcurrencyManager demoHost demoCase demoSlowOptions demoSlowParams 0)
      demoSlowParams portChunkSize = 20 := by
    unfold inflightFormula rateCeiling
    rw [hmax, hopt]
    decide
  refine ⟨hf, ?_⟩
  have h1 := newConcurrencyManager_inflightLimit_formula demoHost demoCase demoSlowOptions
    demoSlowParams 0 (by decide) (by decide) (by decide) (by decide) (by decide) (by decide)
  rw [h1]
  unfold inflightFormula rateCeiling
  rw [hmax, hopt]
  decide

theorem f64_ofNat_200 : f64 200 = 200 := by
  have := f64_natCast 200 (by norm_num)
  simpa using this

theorem f64_ofNat_100 : f64 100 = 100 := by
  have := f64_natCast 100 (by norm_num)
  simpa using this

theorem floatToInt_200 : floatToInt 200 = 200 := by
  have := floatToInt_intCast 200 (by norm_num) (by norm_num)
  simpa using this

/-- The products of Go `int` wrap: a manual run with `2 ^ 59 + 1` threads and a rate of
100 packets per second has the thread candidate `(2 ^ 59 + 1) * 32`, which wraps to 32,
and the limit is 64 where the formula over the integers gives 200. -/
theorem inflightLimit_wraps :
    (newConcurrencyManager demoHost demoCase ⟨"manual", 2 ^ 59 + 1, 0, 100, 0⟩
      ScanParams.zero 0).inflightLimit = 64 ∧
    inflightFormula demoHost
      (newConcurrencyManager demoHost demoCase ⟨"manual", 2 ^ 59 + 1, 0, 100, 0⟩
        ScanParams.zero 0) ScanParams.zero 64 = 200 := by
  have hmode : normalizeConcurrencyMode demoCase "manual" = ConcurrencyModeManual := by decide
  have hfd : fdSoftLimit demoHost = 1024 := by decide
  have w0 : wrapInt 0 = 0 := by decide
  have w1 : wrapInt 4611686018427387912 = 4611686018427387912 := by decide
  have w2 : wrapInt 18446744073709551648 = 32 := by decide
  have w3 : wrapInt 64 = 64 := by decide
  have hz : ScanParams.zero.Delay + ScanParams.zero.HTTPSDelay = 0 := by decide
  have hne : ¬ ConcurrencyModeManual = "" := by decide
  have key : (newConcurrencyManager demoHost demoCase ⟨"manual", 2 ^ 59 + 1, 0, 100, 0⟩
      ScanParams.zero 0).inflightLimit = 64 := by
    unfold newConcurrencyManager concurrencyManager.configureInflightLimit
      concurrencyManager.estimateInflightLimit
    simp only [hmode, hne, if_false, if_true, hfd, hz, w0, Int.cast_zero, f64_zero, le_refl,
      portChunkSize]
    norm_num [f64_ofNat_100, f64_ofNat_200, floatToInt_200, w1, w2, w3, List.foldl]
  refine ⟨key, ?_⟩
  have hm := newConcurrencyManager_manual demoHost demoCase ⟨"manual", 2 ^ 59 + 1, 0, 100, 0⟩
    ScanParams.zero 0 hmode (by norm_num)
  have hpps : (newConcurrencyManager demoHost demoCase ⟨"manual", 2 ^ 59 + 1, 0, 100, 0⟩
      ScanParams.zero 0).options.MaxPPS = 100 := by
    unfold newConcurrencyManager concurrencyManager.configureInflightLimit
    simp only [hmode, hne, if_false, if_true]
  unfold inflightFormula rateCeiling probeTimeoutSeconds
  rw [hm.2.2, hpps, hfd, hz]
  decide

/-! ## Target stream (C14, C15) -/

theorem dialLoop_quiet (E : StreamEnv) (hdone : ∀ k, E.done k = false) (ip : String)
    (ports : List Int) :
    ∀ k, (dialLoop E ip k ports).cancelled = false ∧
      (dialLoop E ip k ports).allowed = (dialLoop E ip 0 ports).allowed := by
  induction ports with
  | nil => intro k; exact ⟨rfl, rfl⟩
  | cons p rest ih =>
    intro k
    unfold dialLoop
    simp only [hdone, Bool.false_eq_true, if_false]
    cases E.dial ip p
    · exact ⟨rfl, rfl⟩
    · exact ⟨rfl, rfl⟩
    · exact ⟨(ih (k + 1)).1, (ih (k + 1)).2.trans (ih (0 + 1)).2.symm⟩
    · exact ⟨(ih (k + 1)).1, (ih (k + 1)).2.trans (ih (0 + 1)).2.symm⟩

theorem runPreflight_quiet (E : StreamEnv) (hdone : ∀ k, E.done k = false) (ip : String)
    (cfg : Option preflightConfig) (k : Nat) :
    (runPreflight E k ip cfg).cancelled = false ∧
      (runPreflight E k ip cfg).allowed = reachable E cfg ip := by
  unfold reachable runPreflight
  cases cfg with
  | none => exact ⟨rfl, rfl⟩
  | some cfg =>
    simp only
    split
    · exact ⟨rfl, rfl⟩
    · exact dialLoop_quiet E hdone ip cfg.ports k

theorem sendChunk_quiet (E : StreamEnv) (hdone : ∀ k, E.done k = false) (hasConc : Bool)
    (ip : String) (hosts : List String) (chunk : List String) :
    ∀ k, sendChunk E hasConc ip hosts k chunk =
      (k + chunk.length, chunk.map (fun port => StreamEvent.send ⟨ip, port, hosts⟩), false) := by
  induction chunk with
  | nil => intro k; rfl
  | cons p rest ih =>
    intro k
    unfold sendChunk
    simp only [hdone, Bool.false_eq_true, if_false, ih, List.map_cons, List.length_cons]
    congr 1
    omega

theorem nextIP_false (c : cidrCursor) (h : c.nextIP.2.2 = false) : c.left = [] := by
  unfold cidrCursor.nextIP at h
  unfold cidrCursor.left
  split at h
  · rename_i hr
    have : c.remaining.toNat = 0 := by omega
    rw [this]; rfl
  · split at h
    · rename_i hu; rw [hu]; simp
    · simp at h

theorem nextIP_true (c : cidrCursor) (h : c.nextIP.2.2 = true) :
    c.left = c.nextIP.2.1 :: c.nextIP.1.left ∧ c.nextIP.1.fallback = c.fallback := by
  unfold cidrCursor.nextIP at h ⊢
  unfold cidrCursor.left
  split
  · rename_i hr; simp [hr] at h
  · rename_i hr
    split
    · rename_i hu; simp [hr, hu] at h
    · rename_i ip rest hu
      simp only [hu]
      have : c.remaining.toNat = (c.remaining - 1).toNat + 1 := by omega
      rw [this]
      exact ⟨rfl, trivial⟩

theorem advance_false (c : ipCursor) (hostMap : List (String × List String))
    (h : (c.advance hostMap).2 = false) : c.cursor.left = [] := by
  unfold ipCursor.advance at h
  simp only at h
  split at h
  · rename_i h1; exact nextIP_false _ h1
  · simp at h

theorem advance_true (c : ipCursor) (hostMap : List (String × List String))
    (h : ¬ (c.advance hostMap).2 = false) :
    c.cursor.left = (c.advance hostMap).1.ip :: (c.advance hostMap).1.cursor.left ∧
    (c.advance hostMap).1.cursor.fallback = c.cursor.fallback ∧
    (c.advance hostMap).1.hosts =
      hostsForIP (c.advance hostMap).1.ip hostMap c.cursor.fallback ∧
    (c.advance hostMap).1.portIndex = 0 ∧
    (c.advance hostMap).1.preflightChecked = false := by
  unfold ipCursor.advance at h ⊢
  simp only at h ⊢
  split
  · rename_i h1; simp [h1] at h
  · rename_i h1
    have h2 : c.cursor.nextIP.2.2 = true := by simpa using h1
    obtain ⟨e1, e2⟩ := nextIP_true _ h2
    simp only
    rw [e2]
    refine ⟨e1, ?_, ?_, ?_, ?_⟩ <;> first | rfl | trivial

theorem chunk_eq (ports : List String) (start : Nat) :
    (ports.take (if start + 8 > ports.length then ports.length else start + 8)).drop start =
      (ports.drop start).take 8 := by
  rw [List.drop_take]
  split
  · rw [List.take_of_length_le (by simp), List.take_of_length_le (by simp; omega)]
  · congr 1; omega

theorem rest_after_advance (E : StreamEnv) (hostMap : List (String × List String))
    (ports : List String) (hasConc : Bool) (preflight : Option preflightConfig)
    (x : ipCursor) :
    ((x.advance hostMap).2 = false →
      (x.cursor.left.flatMap fun ip =>
        addrTrace ports hasConc preflight (reachable E preflight ip) ip
          (hostsForIP ip hostMap x.cursor.fallback) 0) = []) ∧
    (¬ (x.advance hostMap).2 = false →
      (x.cursor.left.flatMap fun ip =>
        addrTrace ports hasConc preflight (reachable E preflight ip) ip
          (hostsForIP ip hostMap x.cursor.fallback) 0) =
        cursorRest E hostMap ports hasConc preflight (x.advance hostMap).1 ∧
      cursorRounds ports (x.advance hostMap).1 = x.cursor.left.length * (ports.length + 1)) := by
  constructor
  · intro h
    rw [advance_false x hostMap h]; rfl
  · intro h
    obtain ⟨e1, e2, e3, e4, e5⟩ := advance_true x hostMap h
    constructor
    · unfold cursorRest
      rw [e1, List.flatMap_cons, e2, e3, e4, e5]
      simp
    · unfold cursorRounds
      rw [e1, e4, List.length_cons]
      simp only [Nat.sub_zero]
      ring

theorem cursorRest_allowed (E : StreamEnv) (hostMap : List (String × List String))
    (ports : List String) (hasConc : Bool) (preflight : Option preflightConfig) (x : ipCursor)
    (hallow : ¬ (preflight.isSome ∧
      (if x.preflightChecked then x.preflightAllowed else reachable E preflight x.ip) = false)) :
    cursorRest E hostMap ports hasConc preflight x =
      chunksFrom ports hasConc x.ip x.hosts x.portIndex ++
      (x.cursor.left.flatMap fun ip =>
        addrTrace ports hasConc preflight (reachable E preflight ip) ip
          (hostsForIP ip hostMap x.cursor.fallback) 0) := by
  unfold cursorRest addrTrace
  rw [if_neg hallow]

theorem cursorRest_refused (E : StreamEnv) (hostMap : List (String × List String))
    (ports : List String) (hasConc : Bool) (preflight : Option preflightConfig) (x : ipCursor)
    (hrefuse : preflight.isSome ∧
      (if x.preflightChecked then x.preflightAllowed else reachable E preflight x.ip) = false) :
    cursorRest E hostMap ports hasConc preflight x =
      refusal ports x.ip ++
      (x.cursor.left.flatMap fun ip =>
        addrTrace ports hasConc preflight (reachable E preflight ip) ip
          (hostsForIP ip hostMap x.cursor.fallback) 0) := by
  unfold cursorRest addrTrace
  rw [if_pos hrefuse]

theorem chunk_path (E : StreamEnv) (hdone : ∀ k, E.done k = false)
    (hostMap : List (String × List String)) (ports : List String) (hasConc : Bool)
    (preflight : Option preflightConfig) (k : Nat) (x : ipCursor)
    (hallow : ¬ (preflight.isSome ∧
      (if x.preflightChecked then x.preflightAllowed else reachable E preflight x.ip) = false))
    (R : RoundResult)
    (hR : R =
      (let start := x.portIndex
       let finish := start + 8
       let finish := if finish > ports.length then ports.length else finish
       let chunk := (ports.take finish).drop start
       let events :=
         StreamEvent.report x.ip ⟨"enqueued", chunk.length⟩ ::
           (if hasConc then [StreamEvent.incBacklog x.ip chunk.length] else [])
       let s := sendChunk E hasConc x.ip x.hosts k chunk
       if s.2.2 then ⟨s.1, events ++ s.2.1, none, true⟩
       else if finish ≥ ports.length then
         let a := x.advance hostMap
         if a.2 = false then ⟨s.1, events ++ s.2.1, none, false⟩
         else ⟨s.1, events ++ s.2.1, some a.1, false⟩
       else ⟨s.1, events ++ s.2.1, some { x with portIndex := finish }, false⟩)) :
    R.cancelled = false ∧
    cursorRest E hostMap ports hasConc preflight x =
      R.events ++ (R.next.map (cursorRest E hostMap ports hasConc preflight)).getD [] ∧
    (R.next.map (cursorRounds ports)).getD 0 < cursorRounds ports x := by
  subst hR
  simp only [chunk_eq, sendChunk_quiet E hdone, Bool.false_eq_true, if_false]
  obtain ⟨a1, a2⟩ := rest_after_advance E hostMap ports hasConc preflight x
  rw [cursorRest_allowed E hostMap ports hasConc preflight x hallow, chunksFrom]
  by_cases hfin : (if x.portIndex + 8 > ports.length then ports.length else x.portIndex + 8)
      ≥ ports.length
  · have hlt : ¬ x.portIndex + 8 < ports.length := by
      split at hfin <;> omega
    rw [if_pos hfin, if_neg hlt]
    by_cases hadv : (x.advance hostMap).2 = false
    · rw [if_pos hadv, a1 hadv]
      refine ⟨rfl, by simp, ?_⟩
      simp only [Option.map_none', Option.getD_none]
      unfold cursorRounds; omega
    · rw [if_neg hadv, (a2 hadv).1]
      refine ⟨rfl, by simp, ?_⟩
      simp only [Option.map_some', Option.getD_some, (a2 hadv).2]
      unfold cursorRounds; omega
  · have hlt : x.portIndex + 8 < ports.length := by
      split at hfin <;> omega
    have hle : ¬ x.portIndex + 8 > ports.length := by omega
    rw [if_neg hfin, if_pos hlt]
    simp only [if_neg hle, Option.map_some', Option.getD_some]
    refine ⟨trivial, ?_, ?_⟩
    · rw [cursorRest_allowed E hostMap ports hasConc preflight
        { x with portIndex := x.portIndex + 8 } hallow]
      simp
    · unfold cursorRounds; simp only; omega

theorem refuse_path (E : StreamEnv) (hostMap : List (String × List String))
    (ports : List String) (hasConc : Bool) (preflight : Option preflightConfig) (k : Nat)
    (x : ipCursor)
    (hrefuse : preflight.isSome ∧
      (if x.preflightChecked then x.preflightAllowed else reachable E preflight x.ip) = false)
    (R : RoundResult)
    (hR : R =
      (let events :=
         if ports.length > 0 then
           [StreamEvent.report x.ip ⟨"started", ports.length⟩,
            StreamEvent.report x.ip ⟨"failed", ports.length⟩]
         else []
       let a := x.advance hostMap
       if a.2 = false then ⟨k, events, none, false⟩ else ⟨k, events, some a.1, false⟩)) :
    R.cancelled = false ∧
    cursorRest E hostMap ports hasConc preflight x =
      R.events ++ (R.next.map (cursorRest E hostMap ports hasConc preflight)).getD [] ∧
    (R.next.map (cursorRounds ports)).getD 0 < cursorRounds ports x := by
  subst hR
  obtain ⟨a1, a2⟩ := rest_after_advance E hostMap ports hasConc preflight x
  rw [cursorRest_refused E hostMap ports hasConc preflight x hrefuse]
  simp only
  by_cases hadv : (x.advance hostMap).2 = false
  · rw [if_pos hadv, a1 hadv]
    refine ⟨rfl, by simp [refusal], ?_⟩
    simp only [Option.map_none', Option.getD_none]
    unfold cursorRounds; omega
  · rw [if_neg hadv, (a2 hadv).1]
    refine ⟨rfl, by simp [refusal], ?_⟩
    simp only [Option.map_some', Option.getD_some, (a2 hadv).2]
    unfold cursorRounds; omega

theorem cursorRest_checked (E : StreamEnv) (hostMap : List (String × List String))
    (ports : List String) (hasConc : Bool) (preflight : Option preflightConfig) (c : ipCursor)
    (hc : c.preflightChecked = false) :
    cursorRest E hostMap ports hasConc preflight
      { c with preflightChecked := true, preflightAllowed := reachable E preflight c.ip } =
      cursorRest E hostMap ports hasConc preflight c := by
  unfold cursorRest
  simp [hc]

theorem streamRound_quiet (E : StreamEnv) (hdone : ∀ k, E.done k = false)
    (hostMap : List (String × List String)) (ports : List String) (hasConc : Bool)
    (preflight : Option preflightConfig) (k : Nat) (c : ipCursor) :
    (streamRound E hostMap ports hasConc preflight k c).cancelled = false ∧
    cursorRest E hostMap ports hasConc preflight c =
      (streamRound E hostMap ports hasConc preflight k c).events ++
        ((streamRound E hostMap ports hasConc preflight k c).next.map
          (cursorRest E hostMap ports hasConc preflight)).getD [] ∧
    ((streamRound E hostMap ports hasConc preflight k c).next.map (cursorRounds ports)).getD 0 <
      cursorRounds ports c := by
  cases preflight with
  | none =>
    have hallow : ¬ ((none : Option preflightConfig).isSome ∧
        (if c.preflightChecked then c.preflightAllowed else reachable E none c.ip) = false) := by
      simp
    refine chunk_path E hdone hostMap ports hasConc none (k + 1) c hallow _ ?_
    unfold streamRound
    simp [hdone]
  | some cfg =>
    by_cases hc : c.preflightChecked = false
    · obtain ⟨q1, q2⟩ := runPreflight_quiet E hdone c.ip (some cfg) (k + 1)
      have e := cursorRest_checked E hostMap ports hasConc (some cfg) c hc
      generalize hx : ({ c with preflightChecked := true, preflightAllowed := reachable E (some cfg) c.ip } : ipCursor) = x at e
      have er : cursorRounds ports x = cursorRounds ports c := by rw [← hx]; rfl
      have hx1 : x.preflightChecked = true := by rw [← hx]
      have hx2 : x.preflightAllowed = reachable E (some cfg) c.ip := by rw [← hx]
      by_cases hr : reachable E (some cfg) c.ip = false
      · have := refuse_path E hostMap ports hasConc (some cfg)
          (runPreflight E (k + 1) c.ip (some cfg)).k x (by simp [hr, hx1, hx2])
          (streamRound E hostMap ports hasConc (some cfg) k c) (by
            subst hx
            unfold streamRound
            simp [hdone, hc, q1, q2, hr])
        rw [e, er] at this
        exact this
      · have := chunk_path E hdone hostMap ports hasConc (some cfg)
          (runPreflight E (k + 1) c.ip (some cfg)).k x (by simp [hr, hx1, hx2])
          (streamRound E hostMap ports hasConc (some cfg) k c) (by
            subst hx
            unfold streamRound
            simp [hdone, hc, q1, q2, hr])
        rw [e, er] at this
        exact this
    · have hc2 : c.preflightChecked = true := by simpa using hc
      by_cases hr : c.preflightAllowed = false
      · exact refuse_path E hostMap ports hasConc (some cfg) (k + 1) c (by simp [hc2, hr])
          (streamRound E hostMap ports hasConc (some cfg) k c) (by
            unfold streamRound
            simp [hdone, hc2, hr])
      · exact chunk_path E hdone hostMap ports hasConc (some cfg) (k + 1) c (by simp [hc2, hr])
          (streamRound E hostMap ports hasConc (some cfg) k c) (by
            unfold streamRound
            simp [hdone, hc2, hr])

theorem cursorRounds_pos (ports : List String) (c : ipCursor) : 0 < cursorRounds ports c := by
  unfold cursorRounds; omega

theorem streamLoop_quiet (E : StreamEnv) (hdone : ∀ k, E.done k = false)
    (hostMap : List (String × List String)) (ports : List String) (hasConc : Bool)
    (preflight : Option preflightConfig) (fuel : Nat) :
    ∀ (k : Nat) (queue : List ipCursor), (queue.map (cursorRounds ports)).sum ≤ fuel →
      ∃ run, streamLoop E hostMap ports hasConc preflight fuel k queue = some run ∧
        run.cancelled = false ∧
        run.trace.Perm (queue.flatMap (cursorRest E hostMap ports hasConc preflight)) := by
  induction fuel with
  | zero =>
    intro k queue hsum
    cases queue with
    | nil => exact ⟨⟨[], false⟩, by simp [streamLoop], rfl, by simp⟩
    | cons c q =>
      have := cursorRounds_pos ports c
      simp only [List.map_cons, List.sum_cons] at hsum
      omega
  | succ fuel ih =>
    intro k queue hsum
    cases queue with
    | nil => exact ⟨⟨[], false⟩, by simp [streamLoop], rfl, by simp⟩
    | cons c q =>
      obtain ⟨r1, r2, r3⟩ := streamRound_quiet E hdone hostMap ports hasConc preflight k c
      simp only [List.map_cons, List.sum_cons] at hsum
      unfold streamLoop
      simp only [r1, Bool.false_eq_true, if_false]
      generalize streamRound E hostMap ports hasConc preflight k c = r at r1 r2 r3
      obtain ⟨rk, revents, rnext, rc⟩ := r
      simp only at r1 r2 r3 ⊢
      cases rnext with
      | none =>
        simp only [Option.map_none', Option.getD_none, List.append_nil] at r2 r3
        obtain ⟨run, h1, h2, h3⟩ := ih rk q (by omega)
        refine ⟨⟨revents ++ run.trace, run.cancelled⟩, by simp only [h1], h2, ?_⟩
        simp only [List.flatMap_cons, r2]
        exact List.Perm.append_left _ h3
      | some c2 =>
        simp only [Option.map_some', Option.getD_some] at r2 r3
        obtain ⟨run, h1, h2, h3⟩ := ih rk (q ++ [c2]) (by
          simp only [List.map_append, List.sum_append, List.map_cons, List.map_nil,
            List.sum_cons, List.sum_nil]
          omega)
        refine ⟨⟨revents ++ run.trace, run.cancelled⟩, by simp only [h1], h2, ?_⟩
        simp only [List.flatMap_cons, r2, List.append_assoc]
        refine List.Perm.append_left _ ?_
        refine h3.trans ?_
        simp only [List.flatMap_append, List.flatMap_cons, List.flatMap_nil, List.append_nil]
        exact List.perm_append_comm

theorem initialQueue_rest (L : IterLib) (E : StreamEnv) (hostMap : List (String × List String))
    (ports : List String) (hasConc : Bool) (preflight : Option preflightConfig)
    (cidrs : List (Option CIDR)) :
    (initialQueue hostMap (buildIterators L cidrs)).flatMap
        (cursorRest E hostMap ports hasConc preflight) =
      ((plannedAddrs L hostMap cidrs).flatMap fun a =>
        addrTrace ports hasConc preflight (reachable E preflight a.1) a.1 a.2 0) ∧
    ((initialQueue hostMap (buildIterators L cidrs)).map (cursorRounds ports)).sum =
      streamBound L cidrs ports := by
  induction cidrs with
  | nil => exact ⟨rfl, by simp [initialQueue, buildIterators, streamBound]⟩
  | cons oc rest ih =>
    cases oc with
    | none =>
      have e1 : buildIterators L (none :: rest) = buildIterators L rest := by
        simp [buildIterators, newCIDRCursor]
      have e2 : plannedAddrs L hostMap (none :: rest) = plannedAddrs L hostMap rest := by
        simp [plannedAddrs, List.reduceOption_cons_of_none]
      have e3 : streamBound L (none :: rest) ports = streamBound L rest ports := by
        simp [streamBound, List.reduceOption_cons_of_none]
      rw [e1, e2, e3]; exact ih
    | some c =>
      have e2 : plannedAddrs L hostMap (some c :: rest) =
          ((rangeAddrs L c).map fun ip => (ip, hostsForIP ip hostMap (L.ipString c))) ++
            plannedAddrs L hostMap rest := by
        simp [plannedAddrs, List.reduceOption_cons_of_some]
      have e3 : streamBound L (some c :: rest) ports =
          (rangeAddrs L c).length * (ports.length + 1) + streamBound L rest ports := by
        simp [streamBound, List.reduceOption_cons_of_some]
        ring
      rw [e2, e3]
      by_cases hcnt : L.Count c ≤ 0
      · have e1 : buildIterators L (some c :: rest) = buildIterators L rest := by
          simp [buildIterators, newCIDRCursor, hcnt]
        have e4 : rangeAddrs L c = [] := by
          unfold rangeAddrs
          have : (L.Count c).toNat = 0 := by omega
          rw [this]; rfl
        rw [e1, e4]
        simpa using ih
      · obtain ⟨x, hx⟩ : ∃ x : ipCursor, x = { cursor := { cidr := c, upcoming := L.Nexts c, remaining := L.Count c, fallback := L.ipString c }, ip := "", hosts := [], portIndex := 0, preflightChecked := false, preflightAllowed := false } := ⟨_, rfl⟩
        have e1 : buildIterators L (some c :: rest) = x :: buildIterators L rest := by
          rw [hx]; simp [buildIterators, newCIDRCursor, hcnt]
        have hl : x.cursor.left = rangeAddrs L c := by rw [hx]; rfl
        have hf : x.cursor.fallback = L.ipString c := by rw [hx]
        obtain ⟨a1, a2⟩ := rest_after_advance E hostMap ports hasConc preflight x
        rw [hl, hf] at a1 a2
        rw [e1]
        by_cases hadv : (x.advance hostMap).2 = false
        · have e5 : initialQueue hostMap (x :: buildIterators L rest) =
              initialQueue hostMap (buildIterators L rest) := by
            simp [initialQueue, hadv]
          have e4 : rangeAddrs L c = [] := by rw [← hl]; exact advance_false x hostMap hadv
          rw [e5, e4]
          simpa using ih
        · have e5 : initialQueue hostMap (x :: buildIterators L rest) =
              (x.advance hostMap).1 :: initialQueue hostMap (buildIterators L rest) := by
            simp [initialQueue, hadv]
          rw [e5]
          simp only [List.flatMap_cons, List.map_cons, List.sum_cons, List.flatMap_append,
            ih.1, ih.2, ← (a2 hadv).1, (a2 hadv).2]
          refine ⟨?_, trivial⟩
          congr 1
          simp [List.flatMap_map]

theorem streamTargets_eq_loop (L : IterLib) (E : StreamEnv) (fuel : Nat)
    (cidrs : List (Option CIDR)) (hostMap : List (String × List String))
    (ports : List String) (hasConc : Bool) (preflight : Option preflightConfig) :
    streamTargets L E fuel cidrs hostMap ports hasConc preflight =
      streamLoop E hostMap ports hasConc preflight fuel 0
        (initialQueue hostMap (buildIterators L cidrs)) := by
  unfold streamTargets
  simp only
  split
  · rename_i h
    rw [List.length_eq_zero] at h
    rw [h]
    cases fuel <;> rfl
  · split
    · rename_i h
      rw [List.length_eq_zero] at h
      rw [h]
      cases fuel <;> rfl
    · rfl

theorem streamTargets_quiet (L : IterLib) (E : StreamEnv) (hdone : ∀ k, E.done k = false)
    (fuel : Nat) (cidrs : List (Option CIDR)) (hostMap : List (String × List String))
    (ports : List String) (hasConc : Bool) (preflight : Option preflightConfig)
    (hfuel : streamBound L cidrs ports ≤ fuel) :
    ∃ run, streamTargets L E fuel cidrs hostMap ports hasConc preflight = some run ∧
      run.cancelled = false ∧
      run.trace.Perm ((plannedAddrs L hostMap cidrs).flatMap fun a =>
        addrTrace ports hasConc preflight (reachable E preflight a.1) a.1 a.2 0) := by
  obtain ⟨i1, i2⟩ := initialQueue_rest L E hostMap ports hasConc preflight cidrs
  obtain ⟨run, h1, h2, h3⟩ := streamLoop_quiet E hdone hostMap ports hasConc preflight fuel 0
    (initialQueue hostMap (buildIterators L cidrs)) (by rw [i2]; exact hfuel)
  rw [i1] at h3
  exact ⟨run, by rw [streamTargets_eq_loop]; exact h1, h2, h3⟩

theorem sendsOf_append (a b : List StreamEvent) : sendsOf (a ++ b) = sendsOf a ++ sendsOf b := by
  simp [sendsOf, List.filterMap_append]

theorem reportSum_append (kind : String) (a b : List StreamEvent) :
    reportSum kind (a ++ b) = reportSum kind a + reportSum kind b := by
  simp [reportSum]

theorem backlogSum_append (a b : List StreamEvent) :
    backlogSum (a ++ b) = backlogSum a + backlogSum b := by
  simp [backlogSum]

theorem sendsOf_sends (ip : String) (hosts : List String) (l : List String) :
    sendsOf (l.map fun port => StreamEvent.send ⟨ip, port, hosts⟩) =
      l.map fun port => ⟨ip, port, hosts⟩ := by
  induction l with
  | nil => rfl
  | cons p l ih => simp only [List.map_cons, sendsOf, List.filterMap_cons] at ih ⊢; rw [ih]

theorem reportSum_sends (kind : String) (ip : String) (hosts : List String) (l : List String) :
    reportSum kind (l.map fun port => StreamEvent.send ⟨ip, port, hosts⟩) = 0 := by
  induction l with
  | nil => rfl
  | cons p l ih => simp only [List.map_cons, reportSum, List.sum_cons] at ih ⊢; rw [ih]; rfl

theorem backlogSum_sends (ip : String) (hosts : List String) (l : List String) :
    backlogSum (l.map fun port => StreamEvent.send ⟨ip, port, hosts⟩) = 0 := by
  induction l with
  | nil => rfl
  | cons p l ih => simp only [List.map_cons, backlogSum, List.sum_cons] at ih ⊢; rw [ih]; rfl

theorem take_drop_chunk (ports : List String) (start : Nat) :
    (ports.drop start).take 8 ++
      (if start + 8 < ports.length then ports.drop (start + 8) else []) = ports.drop start := by
  split
  · have : ports.drop (start + 8) = (ports.drop start).drop 8 := by
      rw [List.drop_drop]
    rw [this, List.take_append_drop]
  · rw [List.append_nil, List.take_of_length_le (by simp only [List.length_drop]; omega)]

theorem chunksFrom_spec (ports : List String) (hasConc : Bool) (ip : String)
    (hosts : List String) (n : Nat) :
    ∀ start, ports.length - start ≤ n →
      sendsOf (chunksFrom ports hasConc ip hosts start) =
        (ports.drop start).map (fun port => ⟨ip, port, hosts⟩) ∧
      reportSum "enqueued" (chunksFrom ports hasConc ip hosts start) =
        ((ports.drop start).length : Int) ∧
      backlogSum (chunksFrom ports hasConc ip hosts start) =
        (if hasConc then ((ports.drop start).length : Int) else 0) ∧
      ∀ e ∈ chunksFrom ports hasConc ip hosts start,
        (∃ m, e = StreamEvent.report ip ⟨"enqueued", m⟩) ∨
        (∃ m, e = StreamEvent.incBacklog ip m) ∨
        (∃ port, port ∈ ports ∧ e = StreamEvent.send ⟨ip, port, hosts⟩) := by
  induction n with
  | zero =>
    intro start h
    have hlt : ¬ start + 8 < ports.length := by omega
    have hd : ports.drop start = [] := by
      rw [List.drop_eq_nil_iff]; omega
    rw [chunksFrom, if_neg hlt, hd]
    cases hasConc
    · refine ⟨rfl, rfl, rfl, ?_⟩
      intro e he
      simp at he
      left; exact ⟨_, he⟩
    · refine ⟨rfl, rfl, rfl, ?_⟩
      intro e he
      simp at he
      rcases he with he | he
      · left; exact ⟨_, he⟩
      · right; left; exact ⟨_, he⟩
  | succ n ih =>
    intro start h
    have htd := take_drop_chunk ports start
    rw [chunksFrom]
    have hhead : ∀ tl : List StreamEvent,
        sendsOf ((StreamEvent.report ip ⟨"enqueued", (((ports.drop start).take 8).length : Int)⟩ ::
          (if hasConc then
            [StreamEvent.incBacklog ip (((ports.drop start).take 8).length : Int)]
           else [])) ++ tl) = sendsOf tl ∧
        reportSum "enqueued"
          ((StreamEvent.report ip ⟨"enqueued", (((ports.drop start).take 8).length : Int)⟩ ::
          (if hasConc then
            [StreamEvent.incBacklog ip (((ports.drop start).take 8).length : Int)]
           else [])) ++ tl) =
          (((ports.drop start).take 8).length : Int) + reportSum "enqueued" tl ∧
        backlogSum
          ((StreamEvent.report ip ⟨"enqueued", (((ports.drop start).take 8).length : Int)⟩ ::
          (if hasConc then
            [StreamEvent.incBacklog ip (((ports.drop start).take 8).length : Int)]
           else [])) ++ tl) =
          (if hasConc then (((ports.drop start).take 8).length : Int) else 0) +
            backlogSum tl := by
      intro tl
      cases hasConc <;> simp [sendsOf, reportSum, backlogSum]
    simp only [List.append_assoc]
    obtain ⟨hh1, hh2, hh3⟩ := hhead
      (((ports.drop start).take 8).map (fun port => StreamEvent.send ⟨ip, port, hosts⟩) ++
        (if start + 8 < ports.length then chunksFrom ports hasConc ip hosts (start + 8) else []))
    have hmem : ∀ e ∈ ((ports.drop start).take 8).map
        (fun port => StreamEvent.send ⟨ip, port, hosts⟩),
        ∃ port, port ∈ ports ∧ e = StreamEvent.send ⟨ip, port, hosts⟩ := by
      intro e he
      obtain ⟨p, hp, rfl⟩ := List.mem_map.1 he
      exact ⟨p, List.mem_of_mem_drop (List.mem_of_mem_take hp), rfl⟩
    by_cases hlt : start + 8 < ports.length
    · obtain ⟨i1, i2, i3, i4⟩ := ih (start + 8) (by omega)
      simp only [if_pos hlt] at htd hh1 hh2 hh3 ⊢
      refine ⟨?_, ?_, ?_, ?_⟩
      · rw [hh1, sendsOf_append, sendsOf_sends, i1, ← List.map_append, htd]
      · rw [hh2, reportSum_append, reportSum_sends, i2, zero_add, ← Int.natCast_add,
          ← List.length_append, htd]
      · rw [hh3, backlogSum_append, backlogSum_sends, i3, zero_add]
        cases hasConc
        · rfl
        · simp only [if_true]
          rw [← Int.natCast_add, ← List.length_append, htd]
      · intro e he
        rcases List.mem_cons.1 he with he | he
        · left; exact ⟨_, he⟩
        · rcases List.mem_append.1 he with he | he
          · right; left
            split at he
            · exact ⟨_, List.mem_singleton.1 he⟩
            · simp at he
          · rcases List.mem_append.1 he with he | he
            · right; right; exact hmem e he
            · exact i4 e he
    · simp only [if_neg hlt, List.append_nil] at htd hh1 hh2 hh3 ⊢
      refine ⟨?_, ?_, ?_, ?_⟩
      · rw [hh1, sendsOf_sends, htd]
      · rw [hh2, reportSum_sends, add_zero, htd]
      · rw [hh3, backlogSum_sends, add_zero, htd]
      · intro e he
        rcases List.mem_cons.1 he with he | he
        · left; exact ⟨_, he⟩
        · rcases List.mem_append.1 he with he | he
          · right; left
            split at he
            · exact ⟨_, List.mem_singleton.1 he⟩
            · simp at he
          · right; right; exact hmem e he

theorem sendsOf_flatMap {α : Type} (f : α → List StreamEvent) (l : List α) :
    sendsOf (l.flatMap f) = l.flatMap fun a => sendsOf (f a) := by
  induction l with
  | nil => rfl
  | cons a l ih => simp only [List.flatMap_cons, sendsOf_append, ih]

theorem reportSum_flatMap {α : Type} (kind : String) (f : α → List StreamEvent) (l : List α) :
    reportSum kind (l.flatMap f) = (l.map fun a => reportSum kind (f a)).sum := by
  induction l with
  | nil => rfl
  | cons a l ih => simp only [List.flatMap_cons, reportSum_append, ih, List.map_cons, List.sum_cons]

theorem backlogSum_flatMap {α : Type} (f : α → List StreamEvent) (l : List α) :
    backlogSum (l.flatMap f) = (l.map fun a => backlogSum (f a)).sum := by
  induction l with
  | nil => rfl
  | cons a l ih => simp only [List.flatMap_cons, backlogSum_append, ih, List.map_cons, List.sum_cons]

theorem plannedTargets_length (L : IterLib) (hostMap : List (String × List String))
    (cidrs : List (Option CIDR)) (ports : List String) :
    (plannedTargets L hostMap cidrs ports).length =
      ((cidrs.reduceOption.map fun c => (rangeAddrs L c).length).sum) * ports.length := by
  unfold plannedTargets plannedAddrs
  induction cidrs.reduceOption with
  | nil => simp
  | cons c rest ih =>
    simp only [List.flatMap_cons, List.flatMap_append, List.length_append, ih, List.map_cons,
      List.sum_cons, Nat.add_mul]
    congr 1
    generalize rangeAddrs L c = l
    induction l with
    | nil => simp
    | cons a l ih2 =>
      simp only [List.map_cons, List.flatMap_cons, List.length_append, List.length_map, ih2,
        List.length_cons]
      ring

theorem totalCount_eq (L : IterLib) (cidrs : List (Option CIDR))
    (hcount : ∀ c ∈ cidrs.reduceOption, L.Count c = ((L.Nexts c).length : Int)) :
    (((cidrs.reduceOption.map fun c => (rangeAddrs L c).length).sum : Nat) : Int) =
      totalCount L cidrs := by
  unfold totalCount
  generalize cidrs.reduceOption = l at hcount
  induction l with
  | nil => rfl
  | cons c rest ih =>
    simp only [List.map_cons, List.sum_cons, Nat.cast_add]
    rw [ih (fun c hc => hcount c (List.mem_cons_of_mem _ hc))]
    congr 1
    have h := hcount c (List.mem_cons_self _ _)
    unfold rangeAddrs
    rw [h]
    simp

/-- C14: with preflight disabled and a context that is never done, for every list of
ranges and every port list, `streamTargets` given enough rounds returns `nil`, and the
tasks it sent on `out` are, up to order, one for each address of a range and each port,
nothing else; the counts passed to `reporter.Enqueued` sum to their number, and when
`Count()` of each range is the number of its addresses that number is the sum of the
counts times `len(ports)`. -/
theorem streamTargets_emits_each_pair (L : IterLib) (E : StreamEnv) (fuel : Nat)
    (cidrs : List (Option CIDR)) (hostMap : List (String × List String))
    (ports : List String) (hasConc : Bool)
    (hdone : ∀ k, E.done k = false) (hfuel : streamBound L cidrs ports ≤ fuel) :
    ∃ run, streamTargets L E fuel cidrs hostMap ports hasConc none = some run ∧
      run.cancelled = false ∧
      (sendsOf run.trace).Perm (plannedTargets L hostMap cidrs ports) ∧
      reportSum "enqueued" run.trace = ((sendsOf run.trace).length : Int) ∧
      reportSum "started" run.trace = 0 ∧ reportSum "failed" run.trace = 0 ∧
      ((∀ c ∈ cidrs.reduceOption, L.Count c = ((L.Nexts c).length : Int)) →
        ((sendsOf run.trace).length : Int) = totalCount L cidrs * (ports.length : Int)) := by
  obtain ⟨run, h1, h2, h3⟩ := streamTargets_quiet L E hdone fuel cidrs hostMap ports hasConc
    none hfuel
  have hat : ∀ a : String × List String,
      addrTrace ports hasConc none (reachable E none a.1) a.1 a.2 0 =
        chunksFrom ports hasConc a.1 a.2 0 := by
    intro a; unfold addrTrace; simp
  simp only [hat] at h3
  have hs : (sendsOf run.trace).Perm (plannedTargets L hostMap cidrs ports) := by
    have := h3.filterMap (fun e => match e with
      | StreamEvent.send t => some t
      | _ => none)
    have e : sendsOf ((plannedAddrs L hostMap cidrs).flatMap fun a =>
        chunksFrom ports hasConc a.1 a.2 0) = plannedTargets L hostMap cidrs ports := by
      rw [sendsOf_flatMap]
      unfold plannedTargets
      congr 1
      funext a
      rw [(chunksFrom_spec ports hasConc a.1 a.2 ports.length 0 (by omega)).1]
      rfl
    rw [← e]
    exact this
  have hsum : ∀ kind : String, reportSum kind run.trace =
      reportSum kind ((plannedAddrs L hostMap cidrs).flatMap fun a =>
        chunksFrom ports hasConc a.1 a.2 0) := by
    intro kind
    unfold reportSum
    exact (h3.map _).sum_eq
  have hother : ∀ kind : String, kind ≠ "enqueued" →
      reportSum kind ((plannedAddrs L hostMap cidrs).flatMap fun a =>
        chunksFrom ports hasConc a.1 a.2 0) = 0 := by
    intro kind hk
    unfold reportSum
    apply List.sum_eq_zero
    intro x hx
    obtain ⟨e, he, rfl⟩ := List.mem_map.1 hx
    obtain ⟨a, _, hea⟩ := List.mem_flatMap.1 he
    rcases (chunksFrom_spec ports hasConc a.1 a.2 ports.length 0 (by omega)).2.2.2 e hea with
      ⟨m, rfl⟩ | ⟨m, rfl⟩ | ⟨p, _, rfl⟩
    · simp only
      rw [if_neg (fun h => hk h.symm)]
    · rfl
    · rfl
  have henq : reportSum "enqueued" run.trace = ((sendsOf run.trace).length : Int) := by
    rw [hsum, hs.length_eq, plannedTargets_length, reportSum_flatMap]
    unfold plannedAddrs
    induction cidrs.reduceOption with
    | nil => simp
    | cons c rest ih =>
      simp only [List.flatMap_cons, List.map_append, List.sum_append, ih, List.map_cons,
        List.sum_cons, Nat.add_mul, Nat.cast_add]
      congr 1
      generalize rangeAddrs L c = l
      induction l with
      | nil => simp
      | cons a l ih2 =>
        simp only [List.map_cons, List.sum_cons, ih2, List.length_cons, Nat.add_mul,
          Nat.cast_add, one_mul]
        rw [(chunksFrom_spec ports hasConc a _ ports.length 0 (by omega)).2.1]
        simp only [List.drop_zero]
        ring
  refine ⟨run, h1, h2, hs, henq, ?_, ?_, ?_⟩
  · rw [hsum, hother _ (by decide)]
  · rw [hsum, hother _ (by decide)]
  · intro hcount
    rw [hs.length_eq, plannedTargets_length, Nat.cast_mul, totalCount_eq L cidrs hcount]

theorem addrTrace_ip (ports : List String) (hasConc : Bool) (preflight : Option preflightConfig)
    (allowed : Bool) (ip : String) (hosts : List String) :
    ∀ e ∈ addrTrace ports hasConc preflight allowed ip hosts 0, e.cursorIp = ip := by
  intro e he
  unfold addrTrace at he
  split at he
  · unfold refusal at he
    split at he
    · simp at he
      rcases he with rfl | rfl <;> rfl
    · simp at he
  · rcases (chunksFrom_spec ports hasConc ip hosts ports.length 0 (by omega)).2.2.2 e he with
      ⟨m, rfl⟩ | ⟨m, rfl⟩ | ⟨p, _, rfl⟩ <;> rfl

theorem refused_count (E : StreamEnv) (ports : List String) (hasConc : Bool)
    (cfg : preflightConfig) (X : String) (hX : reachable E (some cfg) X = false)
    (kind : String) (hk : kind = "started" ∨ kind = "failed")
    (l : List (String × List String)) :
    (l.flatMap fun a =>
      addrTrace ports hasConc (some cfg) (reachable E (some cfg) a.1) a.1 a.2 0).count
        (StreamEvent.report X ⟨kind, ports.length⟩) =
      if ports.length > 0 then (l.map Prod.fst).count X else 0 := by
  have hne : StreamEvent.report X ⟨"started", ports.length⟩ ≠
      StreamEvent.report X ⟨"failed", ports.length⟩ := by
    intro h
    have := congrArg (fun e => match e with
      | StreamEvent.report _ ev => ev.kind
      | _ => "") h
    simp at this
  induction l with
  | nil => simp
  | cons a l ih =>
    simp only [List.flatMap_cons, List.count_append, ih, List.map_cons]
    by_cases ha : a.1 = X
    · have e : addrTrace ports hasConc (some cfg) (reachable E (some cfg) a.1) a.1 a.2 0 =
          refusal ports X := by
        unfold addrTrace
        rw [ha, hX]
        simp
      rw [e, ha, List.count_cons_self]
      unfold refusal
      by_cases hp : ports.length > 0
      · simp only [hp, if_true]
        rcases hk with rfl | rfl
        · rw [List.count_cons_self, List.count_cons_of_ne hne, List.count_nil]
          omega
        · rw [List.count_cons_of_ne hne.symm, List.count_cons_self, List.count_nil]
          omega
      · simp [hp]
    · have e : (addrTrace ports hasConc (some cfg) (reachable E (some cfg) a.1) a.1 a.2 0).count
          (StreamEvent.report X ⟨kind, ports.length⟩) = 0 := by
        rw [List.count_eq_zero]
        intro hmem
        exact ha (addrTrace_ip _ _ _ _ _ _ _ hmem).symm
      rw [e, List.count_cons_of_ne (fun h => ha h.symm)]
      omega

/-- C15: with preflight enabled and a context that is never done, `streamTargets` given
enough rounds returns `nil`, and for every address `X` that preflight finds unreachable:
no task with the address `X` is sent on `out`, no call of `reporter.Enqueued` and no call
of `conc.IncBacklog` is made for it, everything done for `X` is a report of `len(ports)`
started or of `len(ports)` failed, and each of those two reports is made once for each place
`X` has among the addresses of the ranges (never, when there is no port). -/
theorem streamTargets_unreachable (L : IterLib) (E : StreamEnv) (fuel : Nat)
    (cidrs : List (Option CIDR)) (hostMap : List (String × List String))
    (ports : List String) (hasConc : Bool) (cfg : preflightConfig)
    (hdone : ∀ k, E.done k = false) (hfuel : streamBound L cidrs ports ≤ fuel) :
    ∃ run, streamTargets L E fuel cidrs hostMap ports hasConc (some cfg) = some run ∧
      run.cancelled = false ∧
      ∀ X, reachable E (some cfg) X = false →
        (∀ t ∈ sendsOf run.trace, t.ip ≠ X) ∧
        (∀ n, StreamEvent.report X ⟨"enqueued", n⟩ ∉ run.trace) ∧
        (∀ n, StreamEvent.incBacklog X n ∉ run.trace) ∧
        (∀ e ∈ run.trace, e.cursorIp = X →
          e = StreamEvent.report X ⟨"started", ports.length⟩ ∨
          e = StreamEvent.report X ⟨"failed", ports.length⟩) ∧
        run.trace.count (StreamEvent.report X ⟨"started", ports.length⟩) =
          (if ports.length > 0 then ((plannedAddrs L hostMap cidrs).map Prod.fst).count X
           else 0) ∧
        run.trace.count (StreamEvent.report X ⟨"failed", ports.length⟩) =
          (if ports.length > 0 then ((plannedAddrs L hostMap cidrs).map Prod.fst).count X
           else 0) := by
  obtain ⟨run, h1, h2, h3⟩ := streamTargets_quiet L E hdone fuel cidrs hostMap ports hasConc
    (some cfg) hfuel
  refine ⟨run, h1, h2, ?_⟩
  intro X hX
  have hev : ∀ e ∈ run.trace, e.cursorIp = X →
      e = StreamEvent.report X ⟨"started", ports.length⟩ ∨
      e = StreamEvent.report X ⟨"failed", ports.length⟩ := by
    intro e he hip
    obtain ⟨a, _, hea⟩ := List.mem_flatMap.1 (h3.mem_iff.1 he)
    have hax : a.1 = X := by rw [← addrTrace_ip _ _ _ _ _ _ e hea, hip]
    unfold addrTrace at hea
    rw [hax, hX] at hea
    simp only [Option.isSome_some, and_self, if_true] at hea
    unfold refusal at hea
    split at hea
    · simp at hea
      exact hea
    · simp at hea
  refine ⟨?_, ?_, ?_, hev, ?_, ?_⟩
  · intro t ht hip
    have hmem : StreamEvent.send t ∈ run.trace := by
      unfold sendsOf at ht
      obtain ⟨e, he, hs⟩ := List.mem_filterMap.1 ht
      cases e <;> simp at hs
      subst hs; exact he
    rcases hev _ hmem hip with h | h <;> cases h
  · intro n hmem
    rcases hev _ hmem rfl with h | h
    · have := congrArg (fun e => match e with
        | StreamEvent.report _ ev => ev.kind
        | _ => "") h
      simp at this
    · have := congrArg (fun e => match e with
        | StreamEvent.report _ ev => ev.kind
        | _ => "") h
      simp at this
  · intro n hmem
    rcases hev _ hmem rfl with h | h <;> cases h
  · rw [h3.count_eq]
    exact refused_count E ports hasConc cfg X hX "started" (Or.inl rfl) _
  · rw [h3.count_eq]
    exact refused_count E ports hasConc cfg X hX "failed" (Or.inr rfl) _

set_option maxRecDepth 100000 in
theorem streamTargets_demo :
    (streamTargets demoIter demoEnv 12 [some demoRange] [] ["80", "443"] true none).map
      (fun run => (sendsOf run.trace, reportSum "enqueued" run.trace, run.cancelled)) =
      some ([⟨"203.0.113.0", "80", []⟩, ⟨"203.0.113.0", "443", []⟩,
             ⟨"203.0.113.1", "80", []⟩, ⟨"203.0.113.1", "443", []⟩,
             ⟨"203.0.113.2", "80", []⟩, ⟨"203.0.113.2", "443", []⟩,
             ⟨"203.0.113.3", "80", []⟩, ⟨"203.0.113.3", "443", []⟩], 8, false) := by
  decide

set_option maxRecDepth 100000 in
theorem streamTargets_emits_each_pair_witness :
    (∀ k, demoEnv.done k = false) ∧
    streamBound demoIter [some demoRange] ["80", "443"] ≤ 12 ∧
    (∀ c ∈ [some demoRange].reduceOption,
      demoIter.Count c = ((demoIter.Nexts c).length : Int)) ∧
    totalCount demoIter [some demoRange] * ((["80", "443"].length : Nat) : Int) = 8 ∧
    ∃ run, streamTargets demoIter demoEnv 12 [some demoRange] [] ["80", "443"] true none =
        some run ∧
      run.cancelled = false ∧
      (sendsOf run.trace).Perm (plannedTargets demoIter [] [some demoRange] ["80", "443"]) ∧
      reportSum "enqueued" run.trace = ((sendsOf run.trace).length : Int) ∧
      reportSum "started" run.trace = 0 ∧ reportSum "failed" run.trace = 0 ∧
      ((∀ c ∈ [some demoRange].reduceOption,
          demoIter.Count c = ((demoIter.Nexts c).length : Int)) →
        ((sendsOf run.trace).length : Int) =
          totalCount demoIter [some demoRange] * ((["80", "443"].length : Nat) : Int)) :=
  ⟨fun _ => rfl, by decide, by decide, by decide,
   streamTargets_emits_each_pair demoIter demoEnv 12 [some demoRange] [] ["80", "443"] true
     (fun _ => rfl) (by decide)⟩

set_option maxRecDepth 100000 in
theorem streamTargets_preflight_demo :
    (streamTargets demoIter demoEnv 12 [some demoRange] [] ["80", "443"] true
      (some demoPreflight)).map (fun run => (run.trace, run.cancelled)) =
      some ([StreamEvent.report "203.0.113.0" ⟨"started", 2⟩,
             StreamEvent.report "203.0.113.0" ⟨"failed", 2⟩,
             StreamEvent.report "203.0.113.1" ⟨"enqueued", 2⟩,
             StreamEvent.incBacklog "203.0.113.1" 2,
             StreamEvent.send ⟨"203.0.113.1", "80", []⟩,
             StreamEvent.send ⟨"203.0.113.1", "443", []⟩,
             StreamEvent.report "203.0.113.2" ⟨"started", 2⟩,
             StreamEvent.report "203.0.113.2" ⟨"failed", 2⟩,
             StreamEvent.report "203.0.113.3" ⟨"enqueued", 2⟩,
             StreamEvent.incBacklog "203.0.113.3" 2,
             StreamEvent.send ⟨"203.0.113.3", "80", []⟩,
             StreamEvent.send ⟨"203.0.113.3", "443", []⟩], false) := by
  decide

set_option maxRecDepth 100000 in
theorem streamTargets_unreachable_witness :
    (∀ k, demoEnv.done k = false) ∧
    streamBound demoIter [some demoRange] ["80", "443"] ≤ 12 ∧
    reachable demoEnv (some demoPreflight) "203.0.113.2" = false ∧
    ((plannedAddrs demoIter [] [some demoRange]).map Prod.fst).count "203.0.113.2" = 1 ∧
    ∃ run, streamTargets demoIter demoEnv 12 [some demoRange] [] ["80", "443"] true
        (some demoPreflight) = some run ∧
      run.cancelled = false ∧
      ∀ X, reachable demoEnv (some demoPreflight) X = false →
        (∀ t ∈ sendsOf run.trace, t.ip ≠ X) ∧
        (∀ n, StreamEvent.report X ⟨"enqueued", n⟩ ∉ run.trace) ∧
        (∀ n, StreamEvent.incBacklog X n ∉ run.trace) ∧
        (∀ e ∈ run.trace, e.cursorIp = X →
          e = StreamEvent.report X ⟨"started", (["80", "443"].length : Nat)⟩ ∨
          e = StreamEvent.report X ⟨"failed", (["80", "443"].length : Nat)⟩) ∧
        run.trace.count (StreamEvent.report X ⟨"started", (["80", "443"].length : Nat)⟩) =
          (if ["80", "443"].length > 0 then
            ((plannedAddrs demoIter [] [some demoRange]).map Prod.fst).count X
           else 0) ∧
        run.trace.count (StreamEvent.report X ⟨"failed", (["80", "443"].length : Nat)⟩) =
          (if ["80", "443"].length > 0 then
            ((plannedAddrs demoIter [] [some demoRange]).map Prod.fst).count X
           else 0) :=
  ⟨fun _ => rfl, by decide, by decide, by decide,
   streamTargets_unreachable demoIter demoEnv 12 [some demoRange] [] ["80", "443"] true
     demoPreflight (fun _ => rfl) (by decide)⟩

/-! ## Dispatch loop (C16) -/

theorem submittedOf_append (a b : List DispatchEffect) :
    submittedOf (a ++ b) = submittedOf a ++ submittedOf b := by
  simp [submittedOf, List.filterMap_append]

theorem popDelayedReady_items (now : Int) (delayed : List scheduledTarget) :
    ∀ pending : List scanTarget,
      (popDelayedReady now pending delayed).1 ++
          delayedItems (popDelayedReady now pending delayed).2 =
        pending ++ delayedItems delayed := by
  induction delayed with
  | nil => intro pending; rfl
  | cons d rest ih =>
    intro pending
    unfold popDelayedReady
    split
    · rw [ih]; simp [delayedItems]
    · rfl

theorem pushDelayed_perm (delayed : List scheduledTarget) (entry : scheduledTarget) :
    (delayedItems (pushDelayed delayed entry)).Perm (delayedItems delayed ++ [entry.item]) := by
  unfold pushDelayed delayedItems
  have h := (List.perm_insertionSort (fun a b : scheduledTarget => a.readyAt ≤ b.readyAt)
    (delayed ++ [entry])).map (fun d => d.item)
  simpa using h

theorem submitTask_accounted (hasConc : Bool) (s : DispatchState) (tgt : scanTarget)
    (inp : DispatchInput) (h : Accounted s [tgt]) :
    ((submitTask hasConc s tgt inp).2 = none ∧ Accounted (submitTask hasConc s tgt inp).1 []) ∨
    ((∃ e, (submitTask hasConc s tgt inp).2 = some (some e)) ∧
      Accounted (submitTask hasConc s tgt inp).1 [tgt]) := by
  unfold Accounted at h ⊢
  have hpush : ∀ (e : scheduledTarget), e.item = tgt →
      s.received.Perm (submittedOf s.effects ++ s.pending ++
        delayedItems (pushDelayed s.delayed e) ++ []) := by
    intro e he
    refine h.trans ?_
    simp only [List.append_nil, ← he, List.append_assoc]
    exact List.Perm.append_left _ (List.Perm.append_left _
      (pushDelayed_perm s.delayed e).symm)
  have hsub : s.received.Perm (submittedOf s.effects ++ [tgt] ++ s.pending ++
      delayedItems s.delayed ++ []) := by
    refine h.trans ?_
    rw [List.perm_iff_count]
    intro a
    simp only [List.count_append, List.count_nil]
    omega
  unfold submitTask
  split_ifs
  · right; exact ⟨⟨_, rfl⟩, by simpa [submittedOf_append, submittedOf] using h⟩
  · left; exact ⟨rfl, by simpa [submittedOf_append, submittedOf] using hpush _ rfl⟩
  · left; exact ⟨rfl, by simpa [submittedOf_append, submittedOf] using hpush _ rfl⟩
  · left; exact ⟨rfl, by simpa [submittedOf_append, submittedOf] using hpush _ rfl⟩
  · right; exact ⟨⟨_, rfl⟩, by simpa [submittedOf_append, submittedOf] using h⟩
  · left; exact ⟨rfl, by simpa [submittedOf_append, submittedOf] using hsub⟩
  · right; exact ⟨⟨_, rfl⟩, by simpa [submittedOf_append, submittedOf] using h⟩
  · left; exact ⟨rfl, by simpa [submittedOf_append, submittedOf] using hsub⟩

theorem awaitEvent_accounted (s : DispatchState) (inp : DispatchInput)
    (h : Accounted s []) (hp : s.pending = []) :
    Accounted (awaitEvent s inp).1 [] ∧
    (∀ e, (awaitEvent s inp).2 = some e →
      (awaitEvent s inp).1.pending = [] ∧ (awaitEvent s inp).1.delayed = []) := by
  unfold awaitEvent
  by_cases h1 : s.taskChOpen = false ∧ s.delayed.length = 0
  · rw [if_pos h1]
    split
    · exact ⟨h, fun _ _ => ⟨hp, List.length_eq_zero.1 h1.2⟩⟩
    · exact ⟨h, fun _ _ => ⟨hp, List.length_eq_zero.1 h1.2⟩⟩
  · rw [if_neg h1]
    cases inp.sel with
    | recv tgt =>
      refine ⟨?_, fun e he => by simp at he⟩
      unfold Accounted at h ⊢
      simp only [List.append_nil] at h ⊢
      rw [List.perm_iff_count] at h ⊢
      intro a
      have := h a
      simp only [List.count_append] at this ⊢
      omega
    | closed => exact ⟨h, fun e he => by simp at he⟩
    | timer => exact ⟨h, fun e he => by simp at he⟩
    | ctxDone =>
      simp only
      by_cases h3 : s.taskChOpen = false ∧ s.pending.length = 0 ∧ s.delayed.length = 0
      · rw [if_pos h3]
        split
        · exact ⟨h, fun _ _ => ⟨List.length_eq_zero.1 h3.2.1, List.length_eq_zero.1 h3.2.2⟩⟩
        · exact ⟨h, fun _ _ => ⟨List.length_eq_zero.1 h3.2.1, List.length_eq_zero.1 h3.2.2⟩⟩
      · rw [if_neg h3]
        exact ⟨h, fun e he => by simp at he⟩

theorem dispatchRound_accounted (hasConc : Bool) (s : DispatchState) (inp : DispatchInput)
    (h : Accounted s []) :
    (Accounted (dispatchRound hasConc s inp).1 [] ∧
      ((dispatchRound hasConc s inp).2 = none ∨
        ((dispatchRound hasConc s inp).1.pending = [] ∧
         (dispatchRound hasConc s inp).1.delayed = []))) ∨
    (∃ tgt e, (dispatchRound hasConc s inp).2 = some (some e) ∧
      Accounted (dispatchRound hasConc s inp).1 [tgt]) := by
  have hp := popDelayedReady_items inp.now s.delayed s.pending
  unfold dispatchRound
  simp only
  generalize popDelayedReady inp.now s.pending s.delayed = p at hp
  obtain ⟨pp, pd⟩ := p
  simp only at hp ⊢
  have h1 : s.received.Perm (submittedOf s.effects ++ (pp ++ delayedItems pd)) := by
    unfold Accounted at h
    rw [hp]
    simpa [List.append_assoc] using h
  cases pp with
  | nil =>
    simp only
    obtain ⟨a1, a2⟩ := awaitEvent_accounted
      { s with pending := [], delayed := pd, timerArmed := decide (pd.length > 0) } inp
      (by unfold Accounted; simpa using h1) rfl
    left
    refine ⟨a1, ?_⟩
    cases hr : (awaitEvent
      { s with pending := [], delayed := pd, timerArmed := decide (pd.length > 0) } inp).2 with
    | none => left; rfl
    | some e => right; exact a2 e hr
  | cons tgt rest =>
    simp only
    rcases submitTask_accounted hasConc
      { s with pending := rest, delayed := pd, timerArmed := decide (pd.length > 0) } tgt inp
      (by
        unfold Accounted
        simp only
        refine h1.trans ?_
        rw [List.perm_iff_count]
        intro a
        simp only [List.count_append, List.count_cons, List.count_nil]
        omega) with ⟨b1, b2⟩ | ⟨⟨e, b1⟩, b2⟩
    · left; exact ⟨b2, Or.inl b1⟩
    · right; exact ⟨tgt, e, b1, b2⟩

theorem dispatchLoop_accounted (hasConc : Bool) (inputs : List DispatchInput) :
    ∀ s : DispatchState, Accounted s [] →
      (Accounted (dispatchLoop hasConc s inputs).1 [] ∧
        ((dispatchLoop hasConc s inputs).2 = none ∨
          ((dispatchLoop hasConc s inputs).1.pending = [] ∧
           (dispatchLoop hasConc s inputs).1.delayed = []))) ∨
      (∃ tgt e, (dispatchLoop hasConc s inputs).2 = some (some e) ∧
        Accounted (dispatchLoop hasConc s inputs).1 [tgt]) := by
  induction inputs with
  | nil => intro s h; left; exact ⟨h, Or.inl rfl⟩
  | cons inp rest ih =>
    intro s h
    have hr := dispatchRound_accounted hasConc s inp h
    unfold dispatchLoop
    generalize dispatchRound hasConc s inp = r at hr
    obtain ⟨s2, o⟩ := r
    cases o with
    | none =>
      simp only at hr ⊢
      rcases hr with ⟨a, _⟩ | ⟨_, _, hh, _⟩
      · exact ih s2 a
      · simp at hh
    | some err => exact hr

/-- C16 (amended): in every state the dispatch loop reaches, for every
behaviour of the clock, the inflight semaphore, the rate limiter, the pool, the stream and
the context, the tasks received from `taskCh` are, counted with multiplicity, those
`pool.Invoke` accepted, those still in `pending` or `delayed`, and at most one task in
hand when the function returned; so no task is submitted more often than it was received,
and when the function returns `nil` every received task has been submitted exactly
once. -/
theorem dispatchLoop_accounts (hasConc : Bool) (inputs : List DispatchInput) :
    (∃ dropped, dropped.length ≤ 1 ∧
      Accounted (dispatchLoop hasConc DispatchState.init inputs).1 dropped ∧
      ((dispatchLoop hasConc DispatchState.init inputs).2 = none → dropped = [])) ∧
    (∀ t, (submittedOf (dispatchLoop hasConc DispatchState.init inputs).1.effects).count t ≤
      (dispatchLoop hasConc DispatchState.init inputs).1.received.count t) ∧
    ((dispatchLoop hasConc DispatchState.init inputs).2 = some none →
      (dispatchLoop hasConc DispatchState.init inputs).1.received.Perm
        (submittedOf (dispatchLoop hasConc DispatchState.init inputs).1.effects)) := by
  have h0 : Accounted DispatchState.init [] := by
    unfold Accounted DispatchState.init submittedOf delayedItems
    simp
  have hl := dispatchLoop_accounted hasConc inputs DispatchState.init h0
  generalize dispatchLoop hasConc DispatchState.init inputs = r at hl
  have hcount : ∀ dropped, Accounted r.1 dropped →
      ∀ t, (submittedOf r.1.effects).count t ≤ r.1.received.count t := by
    intro dropped hd t
    unfold Accounted at hd
    rw [List.perm_iff_count] at hd
    have := hd t
    simp only [List.count_append] at this
    omega
  rcases hl with ⟨a, hq⟩ | ⟨tgt, e, he, a⟩
  · refine ⟨⟨[], by simp, a, fun _ => rfl⟩, hcount [] a, ?_⟩
    intro hr
    rcases hq with hq | ⟨q1, q2⟩
    · rw [hq] at hr; simp at hr
    · unfold Accounted at a
      rw [q1, q2] at a
      simpa [delayedItems] using a
  · refine ⟨⟨[tgt], by simp, a, ?_⟩, hcount [tgt] a, ?_⟩
    · intro hr; rw [he] at hr; simp at hr
    · intro hr; rw [he] at hr; simp at hr

/-- C16 (counterexample): a task is received and delayed by the rate limiter, a
second task is received, and the context is cancelled while the dispatcher waits for an
inflight slot. The function returns `ctx.Err()`; both tasks were received, none was
submitted, the first is left in `delayed`, the second is in no queue, and all the
dispatcher did is adjust the backlog and release the slot of the first: nothing counts
the two tasks as abandoned. -/
theorem dispatchLoop_drops_on_cancel :
    dispatchLoop true DispatchState.init demoCancelRounds =
      (⟨[], [⟨demoTask, 6⟩], true, true, false, [demoTask, demoTask2],
        [DispatchEffect.decBacklog 1, DispatchEffect.releaseInflight,
         DispatchEffect.incBacklog 1, DispatchEffect.decBacklog 1]⟩,
       some (some DispatchError.ctx)) ∧
    submittedOf (dispatchLoop true DispatchState.init demoCancelRounds).1.effects = [] := by
  decide

theorem dispatchLoop_demo :
    dispatchLoop true DispatchState.init demoCleanRounds =
      (⟨[], [], false, false, false, [demoTask],
        [DispatchEffect.decBacklog 1, DispatchEffect.wgAdd,
         DispatchEffect.invoke demoTask true]⟩, some none) := by
  decide

/-! ## Defaults of the scan parameters (C21, C28, C29) -/

theorem ToLower_ascii (t : CaseTables) (s : String) (h : ∀ c ∈ s.data, c.toNat ≤ 0x7F) :
    ToLower t s = String.mk (s.data.map asciiLower) := by
  unfold ToLower
  congr 1
  apply List.map_congr_left
  intro c hc
  simp [toLowerRune, h c hc]

theorem normalizeConcurrencyMode_const (t : CaseTables) :
    normalizeConcurrencyMode t ConcurrencyModeManual = ConcurrencyModeManual ∧
    normalizeConcurrencyMode t ConcurrencyModeAuto = ConcurrencyModeAuto := by
  have h1 : TrimSpace ConcurrencyModeManual = "manual" := by decide
  have h2 : TrimSpace ConcurrencyModeAuto = "auto" := by decide
  have h3 : ToLower t "manual" = "manual" := by
    rw [ToLower_ascii t "manual" (by decide)]; decide
  have h4 : ToLower t "auto" = "auto" := by
    rw [ToLower_ascii t "auto" (by decide)]; decide
  unfold normalizeConcurrencyMode
  simp only [h1, h2, h3, h4]
  exact ⟨by decide, by decide⟩

theorem normalizeConcurrencyMode_range (t : CaseTables) (mode : String) :
    normalizeConcurrencyMode t mode = ConcurrencyModeManual ∨
    normalizeConcurrencyMode t mode = ConcurrencyModeAuto ∨
    normalizeConcurrencyMode t mode = "" := by
  unfold normalizeConcurrencyMode
  simp only
  split_ifs
  · left; rfl
  · right; left; rfl
  · right; right; rfl

theorem mergedMode_range (t : CaseTables) (user : ConcurrencyOptions) (legacyThreads : Int)
    (defaults : ConcurrencyOptions) :
    mergedMode t user legacyThreads defaults = ConcurrencyModeManual ∨
    mergedMode t user legacyThreads defaults = ConcurrencyModeAuto := by
  have hne : ConcurrencyModeManual ≠ "" := by decide
  have hne2 : ConcurrencyModeAuto ≠ "" := by decide
  unfold mergedMode
  simp only
  rcases normalizeConcurrencyMode_range t user.Mode with h | h | h
  · rw [h]; simp [hne]
  · rw [h]; simp [hne2]
  · rw [h]
    simp only [if_true]
    by_cases hl : legacyThreads > 0
    · simp [hl, hne]
    · simp only [hl, if_false]
      rcases normalizeConcurrencyMode_range t defaults.Mode with h | h | h
      · rw [h]; simp [hne]
      · rw [h]; simp [hne2]
      · rw [h]; simp

theorem mergedRates_fields (user result : ConcurrencyOptions) :
    (mergedRates user result).Mode = result.Mode ∧
    (mergedRates user result).Threads = result.Threads ∧
    (mergedRates user result).MaxThreads = result.MaxThreads ∧
    (mergedRates user result).MaxPPS =
      max 0 (if user.MaxPPS > 0 then user.MaxPPS else result.MaxPPS) ∧
    (mergedRates user result).PerIPMaxPPS =
      max 0 (if user.PerIPMaxPPS > 0 then user.PerIPMaxPPS else result.PerIPMaxPPS) := by
  obtain ⟨m, th, mt, pps, ip⟩ := result
  obtain ⟨um, uth, umt, upps, uip⟩ := user
  unfold mergedRates
  dsimp only
  split_ifs <;> dsimp only at * <;> refine ⟨rfl, rfl, rfl, ?_, ?_⟩ <;> omega

theorem mergedThreads_pos (user : ConcurrencyOptions) (legacyThreads : Int)
    (defaults : ConcurrencyOptions) : 0 < mergedThreads user legacyThreads defaults := by
  unfold mergedThreads
  simp only
  split_ifs <;> omega

theorem mergedMaxThreads_pos (user defaults : ConcurrencyOptions) :
    0 < mergedMaxThreads user defaults := by
  unfold mergedMaxThreads
  simp only
  split_ifs <;> omega

theorem mergeConcurrencyOptions_eq (t : CaseTables) (user : ConcurrencyOptions)
    (legacyThreads : Int) (defaults : ConcurrencyOptions) :
    mergeConcurrencyOptions t user legacyThreads defaults =
      if mergedMode t user legacyThreads defaults = ConcurrencyModeManual then
        (⟨ConcurrencyModeManual, mergedThreads user legacyThreads defaults, 0,
          max 0 (if user.MaxPPS > 0 then user.MaxPPS else defaults.MaxPPS),
          max 0 (if user.PerIPMaxPPS > 0 then user.PerIPMaxPPS else defaults.PerIPMaxPPS)⟩,
         mergedThreads user legacyThreads defaults)
      else
        (⟨ConcurrencyModeAuto, 0, mergedMaxThreads user defaults,
          max 0 (if user.MaxPPS > 0 then user.MaxPPS else defaults.MaxPPS),
          max 0 (if user.PerIPMaxPPS > 0 then user.PerIPMaxPPS else defaults.PerIPMaxPPS)⟩, 0) := by
  unfold mergeConcurrencyOptions
  simp only
  split
  · rename_i hm
    obtain ⟨f1, f2, f3, f4, f5⟩ := mergedRates_fields user
      { defaults with Mode := mergedMode t user legacyThreads defaults,
                      Threads := mergedThreads user legacyThreads defaults }
    simp only at f1 f2 f3 f4 f5
    rw [Prod.mk.injEq]
    refine ⟨?_, rfl⟩
    rw [ConcurrencyOptions.mk.injEq]
    exact ⟨f1.trans hm, f2, rfl, f4, f5⟩
  · rename_i hm
    have hmode : mergedMode t user legacyThreads defaults = ConcurrencyModeAuto := by
      rcases mergedMode_range t user legacyThreads defaults with h | h
      · exact absurd h hm
      · exact h
    obtain ⟨f1, f2, f3, f4, f5⟩ := mergedRates_fields user
      { defaults with Mode := mergedMode t user legacyThreads defaults,
                      MaxThreads := mergedMaxThreads user defaults }
    simp only at f1 f2 f3 f4 f5
    rw [Prod.mk.injEq]
    refine ⟨?_, rfl⟩
    rw [ConcurrencyOptions.mk.injEq]
    exact ⟨f1.trans hmode, rfl, f3, f4, f5⟩

theorem mergeConcurrencyOptions_idem (t : CaseTables) (user : ConcurrencyOptions)
    (legacyThreads : Int) (defaults : ConcurrencyOptions) :
    mergeConcurrencyOptions t (mergeConcurrencyOptions t user legacyThreads defaults).1
      (mergeConcurrencyOptions t user legacyThreads defaults).2 defaults =
    mergeConcurrencyOptions t user legacyThreads defaults := by
  obtain ⟨c1, c2⟩ := normalizeConcurrencyMode_const t
  have hne : ConcurrencyModeManual ≠ "" := by decide
  have hne2 : ConcurrencyModeAuto ≠ "" := by decide
  have hne3 : ConcurrencyModeAuto ≠ ConcurrencyModeManual := by decide
  have hth := mergedThreads_pos user legacyThreads defaults
  have hmt := mergedMaxThreads_pos user defaults
  rw [mergeConcurrencyOptions_eq t user legacyThreads defaults]
  split
  · rw [mergeConcurrencyOptions_eq]
    have hm : mergedMode t ⟨ConcurrencyModeManual, mergedThreads user legacyThreads defaults, 0,
          max 0 (if user.MaxPPS > 0 then user.MaxPPS else defaults.MaxPPS),
          max 0 (if user.PerIPMaxPPS > 0 then user.PerIPMaxPPS else defaults.PerIPMaxPPS)⟩
        (mergedThreads user legacyThreads defaults) defaults = ConcurrencyModeManual := by
      unfold mergedMode
      simp only [c1, hne, if_false]
    simp only [hm, if_true]
    rw [Prod.mk.injEq]
    have e1 : mergedThreads ⟨ConcurrencyModeManual, mergedThreads user legacyThreads defaults, 0,
          max 0 (if user.MaxPPS > 0 then user.MaxPPS else defaults.MaxPPS),
          max 0 (if user.PerIPMaxPPS > 0 then user.PerIPMaxPPS else defaults.PerIPMaxPPS)⟩
        (mergedThreads user legacyThreads defaults) defaults =
          mergedThreads user legacyThreads defaults := by
      generalize mergedThreads user legacyThreads defaults = th at hth
      unfold mergedThreads
      simp only
      split_ifs <;> omega
    rw [e1, ConcurrencyOptions.mk.injEq]
    refine ⟨⟨rfl, rfl, rfl, ?_, ?_⟩, rfl⟩ <;> split_ifs <;> omega
  · rw [mergeConcurrencyOptions_eq]
    have hm : mergedMode t ⟨ConcurrencyModeAuto, 0, mergedMaxThreads user defaults,
          max 0 (if user.MaxPPS > 0 then user.MaxPPS else defaults.MaxPPS),
          max 0 (if user.PerIPMaxPPS > 0 then user.PerIPMaxPPS else defaults.PerIPMaxPPS)⟩
        0 defaults = ConcurrencyModeAuto := by
      unfold mergedMode
      simp only [c2, hne2, if_false]
    simp only [hm, hne3, if_false]
    rw [Prod.mk.injEq]
    have e1 : mergedMaxThreads ⟨ConcurrencyModeAuto, 0, mergedMaxThreads user defaults,
          max 0 (if user.MaxPPS > 0 then user.MaxPPS else defaults.MaxPPS),
          max 0 (if user.PerIPMaxPPS > 0 then user.PerIPMaxPPS else defaults.PerIPMaxPPS)⟩
        defaults = mergedMaxThreads user defaults := by
      generalize mergedMaxThreads user defaults = mt at hmt
      unfold mergedMaxThreads
      simp only
      split_ifs <;> omega
    rw [e1, ConcurrencyOptions.mk.injEq]
    refine ⟨⟨rfl, rfl, rfl, ?_, ?_⟩, rfl⟩ <;> split_ifs <;> omega

theorem ite_default_idem {α : Type} (P : α → Prop) [DecidablePred P] (a b : α) :
    (if P (if P a then b else a) then b else (if P a then b else a)) =
      (if P a then b else a) := by
  by_cases h : P a <;> simp [h]

theorem worker_idem (a b : String) :
    (if TrimSpace (if TrimSpace a ≠ "" then TrimSpace a else TrimSpace b) ≠ "" then
        TrimSpace (if TrimSpace a ≠ "" then TrimSpace a else TrimSpace b)
      else TrimSpace b) =
      if TrimSpace a ≠ "" then TrimSpace a else TrimSpace b := by
  by_cases h : TrimSpace a = ""
  · simp [h, TrimSpace_idem]
  · simp [h, TrimSpace_idem]

theorem WithDefaults_idem (t : CaseTables) (p : ScanParams) (d : DefaultOptions) :
    (p.WithDefaults t d).WithDefaults t d = p.WithDefaults t d := by
  have hm := mergeConcurrencyOptions_idem t p.Concurrency p.Threads d.Concurrency
  simp only [ScanParams.WithDefaults, ScanParams.mk.injEq]
  and_intros
  all_goals first
    | with_reducible rfl
    | with_reducible exact ite_default_idem (fun s : String => TrimSpace s = "") _ _
    | with_reducible exact ite_default_idem (fun n : Int => n ≤ 0) _ _
    | with_reducible exact ite_default_idem (fun n : Int => n < 0) _ _
    | exact True.intro
    | with_reducible exact worker_idem _ _
    | (rw [hm])
    | (simp only [Bool.or_assoc, Bool.or_self, ← Bool.or_assoc])
    | (simp only [Bool.or_assoc, Bool.or_self])

theorem WithDefaults_Concurrency (t : CaseTables) (p : ScanParams) (d : DefaultOptions) :
    (p.WithDefaults t d).Concurrency =
      (mergeConcurrencyOptions t p.Concurrency p.Threads d.Concurrency).1 ∧
    (p.WithDefaults t d).Threads =
      (mergeConcurrencyOptions t p.Concurrency p.Threads d.Concurrency).2 := by
  simp only [ScanParams.WithDefaults, and_self]

theorem mergeConcurrencyOptions_shape (t : CaseTables) (user : ConcurrencyOptions)
    (legacyThreads : Int) (defaults : ConcurrencyOptions) :
    ((mergeConcurrencyOptions t user legacyThreads defaults).1.Mode = ConcurrencyModeManual ∧
      0 < (mergeConcurrencyOptions t user legacyThreads defaults).1.Threads ∧
      (mergeConcurrencyOptions t user legacyThreads defaults).1.MaxThreads = 0 ∧
      (mergeConcurrencyOptions t user legacyThreads defaults).2 =
        (mergeConcurrencyOptions t user legacyThreads defaults).1.Threads) ∨
    ((mergeConcurrencyOptions t user legacyThreads defaults).1.Mode = ConcurrencyModeAuto ∧
      0 < (mergeConcurrencyOptions t user legacyThreads defaults).1.MaxThreads ∧
      (mergeConcurrencyOptions t user legacyThreads defaults).1.Threads = 0 ∧
      (mergeConcurrencyOptions t user legacyThreads defaults).2 = 0) := by
  rw [mergeConcurrencyOptions_eq]
  split
  · left; exact ⟨rfl, mergedThreads_pos _ _ _, rfl, rfl⟩
  · right; exact ⟨rfl, mergedMaxThreads_pos _ _, rfl, rfl⟩

/-- C29: `WithDefaults` is idempotent: applying it again with the same defaults changes no
field; the resolved mode is `manual` or `auto`; in manual mode `Threads > 0`,
`MaxThreads = 0` and the legacy field equals `Concurrency.Threads`; in auto mode
`MaxThreads > 0`, `Threads = 0` and the legacy field is 0. -/
theorem WithDefaults_idempotent (t : CaseTables) (p : ScanParams) (d : DefaultOptions) :
    (p.WithDefaults t d).WithDefaults t d = p.WithDefaults t d ∧
    (((p.WithDefaults t d).Concurrency.Mode = ConcurrencyModeManual ∧
        0 < (p.WithDefaults t d).Concurrency.Threads ∧
        (p.WithDefaults t d).Concurrency.MaxThreads = 0 ∧
        (p.WithDefaults t d).Threads = (p.WithDefaults t d).Concurrency.Threads) ∨
      ((p.WithDefaults t d).Concurrency.Mode = ConcurrencyModeAuto ∧
        0 < (p.WithDefaults t d).Concurrency.MaxThreads ∧
        (p.WithDefaults t d).Concurrency.Threads = 0 ∧
        (p.WithDefaults t d).Threads = 0)) :=
  ⟨WithDefaults_idem t p d, by
    rw [(WithDefaults_Concurrency t p d).1, (WithDefaults_Concurrency t p d).2]
    exact mergeConcurrencyOptions_shape t p.Concurrency p.Threads d.Concurrency⟩

/-- C21: for every parameters whose `Concurrency.Mode` normalises to no mode (empty or not
recognised), whose `Concurrency.Threads` is not positive and whose deprecated `Threads` is
`t > 0`, and for every defaults, `WithDefaults` returns `Concurrency.Mode = manual`,
`Concurrency.Threads = t`, `Concurrency.MaxThreads = 0` and `Threads = t`. -/
theorem WithDefaults_legacy_threads (t : CaseTables) (p : ScanParams) (d : DefaultOptions)
    (hmode : normalizeConcurrencyMode t p.Concurrency.Mode = "")
    (hthreads : p.Concurrency.Threads ≤ 0) (hlegacy : 0 < p.Threads) :
    (p.WithDefaults t d).Concurrency.Mode = ConcurrencyModeManual ∧
    (p.WithDefaults t d).Concurrency.Threads = p.Threads ∧
    (p.WithDefaults t d).Concurrency.MaxThreads = 0 ∧
    (p.WithDefaults t d).Threads = p.Threads := by
  have hm : mergedMode t p.Concurrency p.Threads d.Concurrency = ConcurrencyModeManual := by
    have hne : ConcurrencyModeManual ≠ "" := by decide
    unfold mergedMode
    simp only [hmode, if_true, gt_iff_lt, hlegacy, hne, if_false]
  have hth : mergedThreads p.Concurrency p.Threads d.Concurrency = p.Threads := by
    unfold mergedThreads
    simp only [hthreads, if_true]
    split_ifs <;> omega
  have he := mergeConcurrencyOptions_eq t p.Concurrency p.Threads d.Concurrency
  rw [if_pos hm, hth] at he
  rw [(WithDefaults_Concurrency t p d).1, (WithDefaults_Concurrency t p d).2, he]
  exact ⟨rfl, rfl, rfl, rfl⟩

theorem WithDefaults_legacy_threads_witness :
    normalizeConcurrencyMode demoCase demoLegacyParams.Concurrency.Mode = "" ∧
    demoLegacyParams.Concurrency.Threads ≤ 0 ∧ 0 < demoLegacyParams.Threads ∧
    ((demoLegacyParams.WithDefaults demoCase demoDefaults).Concurrency.Mode =
        ConcurrencyModeManual ∧
      (demoLegacyParams.WithDefaults demoCase demoDefaults).Concurrency.Threads =
        demoLegacyParams.Threads ∧
      (demoLegacyParams.WithDefaults demoCase demoDefaults).Concurrency.MaxThreads = 0 ∧
      (demoLegacyParams.WithDefaults demoCase demoDefaults).Threads =
        demoLegacyParams.Threads) :=
  ⟨by decide, by decide, by decide,
   WithDefaults_legacy_threads demoCase demoLegacyParams demoDefaults (by decide) (by decide)
     (by decide)⟩

theorem WithDefaults_demo :
    demoLegacyParams.WithDefaults demoCase demoDefaults =
      { ScanParams.zero with Ports := "80", Worker := "w1",
                             Concurrency := ⟨"manual", 16, 0, 0, 0⟩, Threads := 16 } := by
  decide

theorem defaultRates_fields (opts : ConcurrencyOptions) :
    (defaultRates opts).MaxPPS = (if opts.MaxPPS ≤ 0 then defaultGlobalMaxPPS else opts.MaxPPS) ∧
    (defaultRates opts).PerIPMaxPPS =
      (if opts.PerIPMaxPPS ≤ 0 then defaultPerIPMaxPPS else opts.PerIPMaxPPS) ∧
    (defaultRates opts).Mode = opts.Mode ∧ (defaultRates opts).Threads = opts.Threads ∧
    (defaultRates opts).MaxThreads = opts.MaxThreads := by
  obtain ⟨m, th, mt, pps, ip⟩ := opts
  unfold defaultRates defaultGlobalMaxPPS defaultPerIPMaxPPS
  simp only
  by_cases h1 : pps ≤ 0 <;> by_cases h2 : ip ≤ 0 <;> by_cases h3 : pps < 0 <;>
    by_cases h4 : ip < 0 <;> simp [h1, h2, h3, h4] <;> omega

theorem normalizeDefaultConcurrency_rates (h : Host) (t : CaseTables)
    (opts : ConcurrencyOptions) :
    (normalizeDefaultConcurrency h t opts).MaxPPS =
      (if opts.MaxPPS ≤ 0 then defaultGlobalMaxPPS else opts.MaxPPS) ∧
    (normalizeDefaultConcurrency h t opts).PerIPMaxPPS =
      (if opts.PerIPMaxPPS ≤ 0 then defaultPerIPMaxPPS else opts.PerIPMaxPPS) := by
  unfold normalizeDefaultConcurrency
  simp only
  generalize (if normalizeConcurrencyMode t opts.Mode = "" then ConcurrencyModeAuto
    else normalizeConcurrencyMode t opts.Mode) = mode
  by_cases hm : mode = ConcurrencyModeManual
  · rw [if_pos hm]
    by_cases ht : opts.Threads ≤ 0
    · rw [if_pos ht]
      exact ⟨(defaultRates_fields _).1, (defaultRates_fields _).2.1⟩
    · rw [if_neg ht]
      exact ⟨(defaultRates_fields _).1, (defaultRates_fields _).2.1⟩
  · rw [if_neg hm]
    by_cases ht : opts.MaxThreads ≤ 0
    · rw [if_pos ht]
      exact ⟨(defaultRates_fields _).1, (defaultRates_fields _).2.1⟩
    · rw [if_neg ht]
      exact ⟨(defaultRates_fields _).1, (defaultRates_fields _).2.1⟩

theorem mergeConcurrencyOptions_rates (t : CaseTables) (user : ConcurrencyOptions)
    (legacyThreads : Int) (defaults : ConcurrencyOptions) :
    (mergeConcurrencyOptions t user legacyThreads defaults).1.MaxPPS =
      max 0 (if user.MaxPPS > 0 then user.MaxPPS else defaults.MaxPPS) ∧
    (mergeConcurrencyOptions t user legacyThreads defaults).1.PerIPMaxPPS =
      max 0 (if user.PerIPMaxPPS > 0 then user.PerIPMaxPPS else defaults.PerIPMaxPPS) := by
  rw [mergeConcurrencyOptions_eq]
  split <;> exact ⟨rfl, rfl⟩

theorem NewTokenBucket_isSome (rate : ℚ) (capacity now : Int) (h : 0 < rate) :
    (NewTokenBucket rate capacity now).isSome = true := by
  unfold NewTokenBucket
  rw [if_neg (by linarith)]
  rfl

theorem newRateLimiterFromOptions_on (opts : ConcurrencyOptions) (now : Int)
    (h1 : 1 ≤ opts.MaxPPS) (h2 : 1 ≤ opts.PerIPMaxPPS) :
    ∃ r, newRateLimiterFromOptions opts now = some r ∧ r.global.isSome = true ∧
      r.perRate = (opts.PerIPMaxPPS : ℚ) ∧ 0 < r.perCap ∧
      ∀ now2, (NewTokenBucket r.perRate r.perCap now2).isSome = true := by
  have q1 : (0 : ℚ) < (opts.MaxPPS : ℚ) := by exact_mod_cast (by omega : 0 < opts.MaxPPS)
  have q2 : (0 : ℚ) < (opts.PerIPMaxPPS : ℚ) := by
    exact_mod_cast (by omega : 0 < opts.PerIPMaxPPS)
  have p1 : opts.MaxPPS > 0 := by omega
  have p2 : opts.PerIPMaxPPS > 0 := by omega
  have hcap : 0 < (if opts.PerIPMaxPPS / 4 ≤ 0 then opts.PerIPMaxPPS
      else opts.PerIPMaxPPS / 4) := by
    split_ifs <;> omega
  have hg := NewTokenBucket_isSome (opts.MaxPPS : ℚ)
    (if opts.MaxPPS / 4 ≤ 0 then opts.MaxPPS else opts.MaxPPS / 4) now q1
  have hnone : ¬ (((NewTokenBucket (opts.MaxPPS : ℚ)
      (if opts.MaxPPS / 4 ≤ 0 then opts.MaxPPS else opts.MaxPPS / 4) now).isNone = true) ∧
        (opts.PerIPMaxPPS : ℚ) ≤ 0) := by
    intro hh; linarith [hh.2]
  refine ⟨{ global := NewTokenBucket (opts.MaxPPS : ℚ)
              (if opts.MaxPPS / 4 ≤ 0 then opts.MaxPPS else opts.MaxPPS / 4) now,
            perIP := [], perRate := (opts.PerIPMaxPPS : ℚ),
            perCap := if opts.PerIPMaxPPS / 4 ≤ 0 then opts.PerIPMaxPPS
              else opts.PerIPMaxPPS / 4 }, ?_, hg, rfl, hcap,
          fun now2 => NewTokenBucket_isSome _ _ _ q2⟩
  unfold newRateLimiterFromOptions
  simp only [p1, p2, if_true]
  rw [if_neg hnone]

/-- C28: for every host, defaults `d` and parameters `p`, the concurrency options of
`p.WithDefaults(normalizeDefaults(d))` have `MaxPPS >= 1` and `PerIPMaxPPS >= 1`: a
positive user value is kept, any other is replaced by the value of the defaults, which is
the one of `d` if positive and else 200 (20 per destination). So
`newRateLimiterFromOptions` returns a limiter with a global bucket and a positive
per-destination rate and capacity, from which a bucket is made for every destination. -/
theorem rate_limit_never_off (h : Host) (t : CaseTables) (d : DefaultOptions) (p : ScanParams)
    (now : Int) :
    1 ≤ (p.WithDefaults t (normalizeDefaults h t d)).Concurrency.MaxPPS ∧
    1 ≤ (p.WithDefaults t (normalizeDefaults h t d)).Concurrency.PerIPMaxPPS ∧
    (p.WithDefaults t (normalizeDefaults h t d)).Concurrency.MaxPPS =
      (if p.Concurrency.MaxPPS > 0 then p.Concurrency.MaxPPS
       else if d.Concurrency.MaxPPS ≤ 0 then 200 else d.Concurrency.MaxPPS) ∧
    (p.WithDefaults t (normalizeDefaults h t d)).Concurrency.PerIPMaxPPS =
      (if p.Concurrency.PerIPMaxPPS > 0 then p.Concurrency.PerIPMaxPPS
       else if d.Concurrency.PerIPMaxPPS ≤ 0 then 20 else d.Concurrency.PerIPMaxPPS) ∧
    ∃ r, newRateLimiterFromOptions
        (p.WithDefaults t (normalizeDefaults h t d)).Concurrency now = some r ∧
      r.global.isSome = true ∧
      r.perRate = ((p.WithDefaults t (normalizeDefaults h t d)).Concurrency.PerIPMaxPPS : ℚ) ∧
      0 < r.perCap ∧
      ∀ now2, (NewTokenBucket r.perRate r.perCap now2).isSome = true := by
  have hd : (normalizeDefaults h t d).Concurrency =
      normalizeDefaultConcurrency h t d.Concurrency := by
    simp only [normalizeDefaults]
  obtain ⟨n1, n2⟩ := normalizeDefaultConcurrency_rates h t d.Concurrency
  obtain ⟨m1, m2⟩ := mergeConcurrencyOptions_rates t p.Concurrency p.Threads
    (normalizeDefaults h t d).Concurrency
  rw [← (WithDefaults_Concurrency t p (normalizeDefaults h t d)).1] at m1 m2
  rw [hd, n1] at m1
  rw [hd, n2] at m2
  unfold defaultGlobalMaxPPS at m1
  unfold defaultPerIPMaxPPS at m2
  have e1 : (p.WithDefaults t (normalizeDefaults h t d)).Concurrency.MaxPPS =
      (if p.Concurrency.MaxPPS > 0 then p.Concurrency.MaxPPS
       else if d.Concurrency.MaxPPS ≤ 0 then 200 else d.Concurrency.MaxPPS) := by
    rw [m1]; split_ifs <;> omega
  have e2 : (p.WithDefaults t (normalizeDefaults h t d)).Concurrency.PerIPMaxPPS =
      (if p.Concurrency.PerIPMaxPPS > 0 then p.Concurrency.PerIPMaxPPS
       else if d.Concurrency.PerIPMaxPPS ≤ 0 then 20 else d.Concurrency.PerIPMaxPPS) := by
    rw [m2]; split_ifs <;> omega
  have g1 : 1 ≤ (p.WithDefaults t (normalizeDefaults h t d)).Concurrency.MaxPPS := by
    rw [e1]; split_ifs <;> omega
  have g2 : 1 ≤ (p.WithDefaults t (normalizeDefaults h t d)).Concurrency.PerIPMaxPPS := by
    rw [e2]; split_ifs <;> omega
  exact ⟨g1, g2, e1, e2, newRateLimiterFromOptions_on _ now g1 g2⟩

/-! ## Statistics (C27) -/

theorem dialLoop_spec (E : StreamEnv) (hdone : ∀ k, E.done k = false) (ip : String)
    (ports : List Int) (hcancel : ∀ port ∈ ports, E.dial ip port ≠ DialResult.canceled) :
    ∀ k, ((dialLoop E ip k ports).allowed = true ↔
        ∃ port ∈ ports, E.dial ip port = DialResult.connected) ∧
      (dialLoop E ip k ports).cancelled = false ∧
      dialTrace E ip k ports =
        upToFirst (fun port => decide (E.dial ip port = DialResult.connected)) ports := by
  induction ports with
  | nil => intro k; simp [dialLoop, dialTrace, upToFirst]
  | cons p rest ih =>
    intro k
    have ih2 := ih (fun port hp => hcancel port (List.mem_cons_of_mem _ hp)) (k + 1)
    have hp := hcancel p (List.mem_cons_self _ _)
    unfold dialLoop dialTrace upToFirst
    simp only [hdone, Bool.false_eq_true, if_false]
    cases hd : E.dial ip p with
    | connected => simp [hd]
    | canceled => exact absurd hd hp
    | timeout =>
      simp only [decide_False, Bool.false_eq_true, if_false, List.mem_cons, exists_eq_or_imp,
        hd, false_or, reduceCtorEq]
      exact ⟨ih2.1, ih2.2.1, by rw [ih2.2.2]⟩
    | other =>
      simp only [decide_False, Bool.false_eq_true, if_false, List.mem_cons, exists_eq_or_imp,
        hd, false_or, reduceCtorEq]
      exact ⟨ih2.1, ih2.2.1, by rw [ih2.2.2]⟩

/-- C25: for every preflight configuration with a non-empty port list and every dial
outcome per address and port, when the context is never done and no dial reports
`context.Canceled`, `runPreflight` returns a nil error, returns `true` if and only if the
dial succeeds for at least one configured port, and dials the ports in list order up to
and including the first success (all of them when none succeeds), whatever the failure of
the others is. -/
theorem runPreflight_spec (E : StreamEnv) (k : Nat) (ip : String) (cfg : preflightConfig)
    (hports : cfg.ports ≠ []) (hdone : ∀ k, E.done k = false)
    (hcancel : ∀ port ∈ cfg.ports, E.dial ip port ≠ DialResult.canceled) :
    ((runPreflight E k ip (some cfg)).allowed = true ↔
      ∃ port ∈ cfg.ports, E.dial ip port = DialResult.connected) ∧
    (runPreflight E k ip (some cfg)).cancelled = false ∧
    dialTrace E ip k cfg.ports =
      upToFirst (fun port => decide (E.dial ip port = DialResult.connected)) cfg.ports := by
  have hl : ¬ cfg.ports.length = 0 := fun h => hports (List.length_eq_zero.1 h)
  unfold runPreflight
  simp only [hl, if_false]
  exact dialLoop_spec E hdone ip cfg.ports hcancel k

set_option maxRecDepth 100000 in
theorem runPreflight_spec_witness :
    demoPreflight.ports ≠ [] ∧ (∀ k, demoEnv.done k = false) ∧
    (∀ port ∈ demoPreflight.ports, demoEnv.dial "203.0.113.1" port ≠ DialResult.canceled) ∧
    (((runPreflight demoEnv 0 "203.0.113.1" (some demoPreflight)).allowed = true ↔
      ∃ port ∈ demoPreflight.ports,
        demoEnv.dial "203.0.113.1" port = DialResult.connected) ∧
    (runPreflight demoEnv 0 "203.0.113.1" (some demoPreflight)).cancelled = false ∧
    dialTrace demoEnv "203.0.113.1" 0 demoPreflight.ports =
      upToFirst (fun port => decide (demoEnv.dial "203.0.113.1" port = DialResult.connected))
        demoPreflight.ports) :=
  ⟨by decide, fun _ => rfl, by decide,
   runPreflight_spec demoEnv 0 "203.0.113.1" demoPreflight (by decide) (fun _ => rfl)
     (by decide)⟩

set_option maxRecDepth 100000 in
theorem runPreflight_demo :
    runPreflight demoEnv 0 "203.0.113.1" (some demoPreflight) = ⟨2, true, false⟩ ∧
    dialTrace demoEnv "203.0.113.1" 0 [80, 443, 53] = [80, 443] ∧
    runPreflight demoEnv 0 "203.0.113.2" (some demoPreflight) = ⟨2, false, false⟩ ∧
    dialTrace demoEnv "203.0.113.2" 0 [80, 443, 53] = [80, 443, 53] := by
  decide

/-! ## Delayed queue (C26) -/

theorem pushDelayed_sorted (delayed : List scheduledTarget) (entry : scheduledTarget) :
    (pushDelayed delayed entry).Sorted readyOrder ∧
    (pushDelayed delayed entry).Perm (delayed ++ [entry]) := by
  unfold pushDelayed
  exact ⟨List.sorted_insertionSort readyOrder _, List.perm_insertionSort _ _⟩

theorem popDelayedReady_sorted (now : Int) (delayed : List scheduledTarget)
    (hs : delayed.Sorted readyOrder) :
    ∀ pending : List scanTarget,
      popDelayedReady now pending delayed =
        (pending ++ (delayed.filter fun d => decide (d.readyAt ≤ now)).map (fun d => d.item),
         delayed.filter fun d => decide (now < d.readyAt)) := by
  induction delayed with
  | nil => intro pending; simp [popDelayedReady]
  | cons d rest ih =>
    intro pending
    have hs2 : rest.Sorted readyOrder := hs.of_cons
    have hle : ∀ x ∈ rest, d.readyAt ≤ x.readyAt := fun x hx => List.rel_of_sorted_cons hs x hx
    unfold popDelayedReady
    by_cases h : d.readyAt ≤ now
    · have h2 : ¬ now < d.readyAt := by omega
      rw [if_pos h, ih hs2]
      simp [List.filter_cons, h, h2]
    · have h2 : now < d.readyAt := by omega
      rw [if_neg h]
      have e1 : (rest.filter fun d => decide (d.readyAt ≤ now)) = [] := by
        rw [List.filter_eq_nil_iff]
        intro x hx
        have := hle x hx
        simp only [decide_eq_true_eq]; omega
      have e2 : (rest.filter fun d => decide (now < d.readyAt)) = rest := by
        rw [List.filter_eq_self]
        intro x hx
        have := hle x hx
        simp only [decide_eq_true_eq]; omega
      simp [List.filter_cons, h, h2, e1, e2]

theorem popDelayedReady_sublist (now : Int) (delayed : List scheduledTarget) :
    ∀ pending : List scanTarget, (popDelayedReady now pending delayed).2.Sublist delayed := by
  induction delayed with
  | nil => intro pending; simp [popDelayedReady]
  | cons d rest ih =>
    intro pending
    unfold popDelayedReady
    by_cases h : d.readyAt ≤ now
    · rw [if_pos h]; exact (ih _).cons _
    · rw [if_neg h]

theorem submitTask_delayed (hasConc : Bool) (s : DispatchState) (tgt : scanTarget)
    (inp : DispatchInput) :
    (submitTask hasConc s tgt inp).1.delayed = s.delayed ∨
    ∃ entry, (submitTask hasConc s tgt inp).1.delayed = pushDelayed s.delayed entry := by
  unfold submitTask
  split_ifs
  all_goals first
    | exact Or.inl rfl
    | exact Or.inr ⟨_, rfl⟩

theorem awaitEvent_delayed (s : DispatchState) (inp : DispatchInput) :
    (awaitEvent s inp).1.delayed = s.delayed := by
  unfold awaitEvent
  by_cases h1 : s.taskChOpen = false ∧ s.delayed.length = 0
  · rw [if_pos h1]; split_ifs <;> rfl
  · rw [if_neg h1]
    cases inp.sel with
    | recv tgt => rfl
    | closed => rfl
    | timer => rfl
    | ctxDone => dsimp only; split_ifs <;> rfl

theorem dispatchRound_sorted (hasConc : Bool) (s : DispatchState) (inp : DispatchInput)
    (hs : s.delayed.Sorted readyOrder) :
    (dispatchRound hasConc s inp).1.delayed.Sorted readyOrder := by
  have h2 : (popDelayedReady inp.now s.pending s.delayed).2.Sorted readyOrder :=
    List.Pairwise.sublist (popDelayedReady_sublist _ _ _) hs
  unfold dispatchRound
  dsimp only
  split
  · rename_i tgt rest heq
    rcases submitTask_delayed hasConc
      { pending := rest, delayed := (popDelayedReady inp.now s.pending s.delayed).2,
        timerArmed := decide ((popDelayedReady inp.now s.pending s.delayed).2.length > 0),
        taskChOpen := s.taskChOpen, canceled := s.canceled, received := s.received,
        effects := s.effects } tgt inp with h | ⟨e, h⟩
    · rw [h]; exact h2
    · rw [h]; exact (pushDelayed_sorted _ _).1
  · rw [awaitEvent_delayed]; exact h2

theorem dispatchLoop_sorted (hasConc : Bool) (inputs : List DispatchInput) :
    ∀ s : DispatchState, s.delayed.Sorted readyOrder →
      (dispatchLoop hasConc s inputs).1.delayed.Sorted readyOrder := by
  induction inputs with
  | nil => intro s hs; exact hs
  | cons inp rest ih =>
    intro s hs
    have h := dispatchRound_sorted hasConc s inp hs
    unfold dispatchLoop
    rcases hr : dispatchRound hasConc s inp with ⟨s2, r⟩
    rw [hr] at h
    cases r with
    | some err => exact h
    | none => exact ih s2 h

/-- C26: after any number of rounds of `dispatchTargets` the delayed queue is sorted by
`readyAt`; `pushDelayed` of any entry gives a queue sorted by `readyAt` that holds the
old entries and the new one, each as often as before; and for every time `now`,
`popDelayedReady` appends to `pending` the tasks of exactly the delayed entries with
`readyAt <= now`, each once and in queue order, and leaves exactly the entries with
`readyAt > now` in the delayed queue. -/
theorem delayed_queue_sorted_and_promoted (hasConc : Bool) (inputs : List DispatchInput)
    (entry : scheduledTarget) (now : Int) :
    (dispatchLoop hasConc DispatchState.init inputs).1.delayed.Sorted readyOrder ∧
    (pushDelayed (dispatchLoop hasConc DispatchState.init inputs).1.delayed entry).Sorted
      readyOrder ∧
    (pushDelayed (dispatchLoop hasConc DispatchState.init inputs).1.delayed entry).Perm
      ((dispatchLoop hasConc DispatchState.init inputs).1.delayed ++ [entry]) ∧
    popDelayedReady now (dispatchLoop hasConc DispatchState.init inputs).1.pending
        (dispatchLoop hasConc DispatchState.init inputs).1.delayed =
      ((dispatchLoop hasConc DispatchState.init inputs).1.pending ++
        ((dispatchLoop hasConc DispatchState.init inputs).1.delayed.filter
          fun d => decide (d.readyAt ≤ now)).map (fun d => d.item),
       (dispatchLoop hasConc DispatchState.init inputs).1.delayed.filter
          fun d => decide (now < d.readyAt)) := by
  have hs := dispatchLoop_sorted hasConc inputs DispatchState.init List.sorted_nil
  exact ⟨hs, (pushDelayed_sorted _ _).1, (pushDelayed_sorted _ _).2,
    popDelayedReady_sorted now _ hs _⟩

set_option maxRecDepth 100000 in
theorem delayed_queue_demo :
    pushDelayed [⟨demoTask, 10⟩, ⟨demoTask2, 30⟩] ⟨demoTask, 20⟩ =
      [⟨demoTask, 10⟩, ⟨demoTask, 20⟩, ⟨demoTask2, 30⟩] ∧
    popDelayedReady 20 [] [⟨demoTask, 10⟩, ⟨demoTask, 20⟩, ⟨demoTask2, 30⟩] =
      ([demoTask, demoTask], [⟨demoTask2, 30⟩]) ∧
    popDelayedReady 9 [] [⟨demoTask, 10⟩, ⟨demoTask, 20⟩, ⟨demoTask2, 30⟩] =
      ([], [⟨demoTask, 10⟩, ⟨demoTask, 20⟩, ⟨demoTask2, 30⟩]) := by
  decide

theorem takeRest_eq (l acc : List String) :
    takeRest acc l = acc ++ (keepFirst l).filter fun y => y ∉ acc := by
  induction l generalizing acc with
  | nil => simp [takeRest, keepFirst]
  | cons x xs ih =>
    unfold takeRest
    by_cases hm : x ∈ acc
    · rw [if_pos hm, ih]
      simp only [keepFirst, List.filter_cons, hm, not_true_eq_false, decide_False,
        List.filter_filter]
      congr 1
      apply List.filter_congr
      intro y _
      by_cases hy : y ∈ acc
      · simp [hy]
      · have : y ≠ x := fun e => hy (e ▸ hm)
        simp [hy, this]
    · rw [if_neg hm, ih]
      simp only [keepFirst, List.filter_cons, hm, not_false_eq_true, decide_True, if_true,
        List.filter_filter, List.append_assoc, List.singleton_append]
      congr 2
      apply List.filter_congr
      intro y _
      by_cases hy : y ∈ acc <;> by_cases hy2 : y = x <;> simp [hy, hy2]

theorem takeLayer_eq (original layer acc : List String) :
    takeLayer original acc layer = takeRest acc (layer.filter fun p => p ∈ original) := by
  induction layer generalizing acc with
  | nil => simp [takeLayer, takeRest]
  | cons x xs ih =>
    unfold takeLayer
    by_cases ho : x ∈ original
    · simp only [ho, not_true_eq_false, if_false, List.filter_cons, decide_True, if_true]
      rw [takeRest]
      by_cases hm : x ∈ acc
      · rw [if_pos hm, if_pos hm, ih]
      · rw [if_neg hm, if_neg hm, ih]
    · simp only [ho, not_false_eq_true, if_true, List.filter_cons, decide_False]
      rw [ih]
      rfl

theorem takeRest_append (l1 l2 acc : List String) :
    takeRest acc (l1 ++ l2) = takeRest (takeRest acc l1) l2 := by
  induction l1 generalizing acc with
  | nil => simp [takeRest]
  | cons x xs ih =>
    simp only [List.cons_append, takeRest]
    by_cases hm : x ∈ acc
    · rw [if_pos hm, if_pos hm]; exact ih _
    · rw [if_neg hm, if_neg hm]; exact ih _

theorem keepFirst_of_nodup (l : List String) (h : l.Nodup) : keepFirst l = l := by
  induction l with
  | nil => rfl
  | cons x xs ih =>
    rw [List.nodup_cons] at h
    simp only [keepFirst, ih h.2]
    congr 1
    rw [List.filter_eq_self]
    intro y hy
    have : y ≠ x := fun e => h.1 (e ▸ hy)
    simp [this]

theorem keepFirst_const (l : List String) (p : String) (h : ∀ y ∈ l, y = p) :
    keepFirst l = if l = [] then [] else [p] := by
  cases l with
  | nil => rfl
  | cons x xs =>
    have hx : x = p := h x (List.mem_cons_self _ _)
    have hf : ((keepFirst xs).filter fun y => y ≠ x) = [] := by
      rw [List.filter_eq_nil_iff]
      intro y hy
      rw [mem_keepFirst] at hy
      have := h y (List.mem_cons_of_mem _ hy)
      simp [this, hx]
    rw [keepFirst, hf, hx]
    simp

theorem prioritizePorts_long (L : PortLib) (ports : List String) (h : ¬ ports.length ≤ 1) :
    prioritizePorts L ports =
      keepFirst ((layerPorts L).filter fun p => p ∈ ports) ++
        (keepFirst ports).filter fun p =>
          p ∉ keepFirst ((layerPorts L).filter fun p => p ∈ ports) := by
  unfold prioritizePorts
  rw [if_neg h]
  simp only [priorityNames, List.foldl_cons, List.foldl_nil, takeLayer_eq]
  have hin : takeRest (takeRest (takeRest []
        ((L.ParsePortsString "top1").filter fun p => p ∈ ports))
        ((L.ParsePortsString "top2").filter fun p => p ∈ ports))
        ((L.ParsePortsString "top3").filter fun p => p ∈ ports) =
      keepFirst ((layerPorts L).filter fun p => p ∈ ports) := by
    rw [← takeRest_append, ← takeRest_append, takeRest_eq]
    simp [layerPorts]
  rw [hin, takeRest_eq]

theorem prioritizePorts_eq (L : PortLib) (ports : List String) (hnd : ports.Nodup) :
    prioritizePorts L ports =
      keepFirst ((layerPorts L).filter fun p => p ∈ ports) ++
        ports.filter fun p => p ∉ layerPorts L := by
  have hrest : ((keepFirst ports).filter fun p =>
        p ∉ keepFirst ((layerPorts L).filter fun p => p ∈ ports)) =
      ports.filter fun p => p ∉ layerPorts L := by
    rw [keepFirst_of_nodup ports hnd]
    apply List.filter_congr
    intro y hy
    simp [mem_keepFirst, List.mem_filter, hy]
  by_cases h : ports.length ≤ 1
  · unfold prioritizePorts
    rw [if_pos h]
    match ports, h with
    | [], _ => simp [keepFirst]
    | [p], _ =>
      have hall : ∀ y ∈ (layerPorts L).filter fun q => q ∈ [p], y = p := by
        intro y hy
        rw [List.mem_filter] at hy
        simpa using hy.2
      rw [keepFirst_const _ p hall]
      by_cases hp : p ∈ layerPorts L
      · have hf : ((layerPorts L).filter fun q => q ∈ [p]) ≠ [] := by
          intro e
          have : p ∈ (layerPorts L).filter fun q => q ∈ [p] := by
            simp [List.mem_filter, hp]
          rw [e] at this
          exact absurd this (List.not_mem_nil _)
        rw [if_neg hf]
        simp [hp]
      · have hf : ((layerPorts L).filter fun q => q ∈ [p]) = [] := by
          rw [List.filter_eq_nil_iff]
          intro x hx
          have : x ≠ p := fun e => hp (e ▸ hx)
          simp [this]
        rw [if_pos hf]
        simp [hp]
    | _ :: _ :: _, h => simp at h
  · rw [prioritizePorts_long L ports h, hrest]

/-- C30: for every duplicate-free list of port strings and whatever the priority layers
`top1`, `top2`, `top3` hold, `prioritizePorts` returns a permutation of its input without
duplicates and of the same length: first the ports that occur in a priority layer, in the
order the layers name them first, then the remaining ports in their original order. -/
theorem prioritizePorts_permutes (L : PortLib) (ports : List String) (hnd : ports.Nodup) :
    (prioritizePorts L ports).Perm ports ∧
    (prioritizePorts L ports).Nodup ∧
    (prioritizePorts L ports).length = ports.length ∧
    prioritizePorts L ports =
      keepFirst ((layerPorts L).filter fun p => p ∈ ports) ++
        ports.filter fun p => p ∉ layerPorts L := by
  have heq := prioritizePorts_eq L ports hnd
  have hnd2 : (prioritizePorts L ports).Nodup := by
    rw [heq, List.nodup_append]
    refine ⟨keepFirst_nodup _, hnd.filter _, ?_⟩
    intro x hx hy
    rw [mem_keepFirst, List.mem_filter] at hx
    rw [List.mem_filter] at hy
    simp only [decide_not, Bool.not_eq_true', decide_eq_false_iff_not] at hy
    exact hy.2 hx.1
  have hperm : (prioritizePorts L ports).Perm ports := by
    rw [List.perm_ext_iff_of_nodup hnd2 hnd]
    intro a
    rw [heq, List.mem_append, mem_keepFirst, List.mem_filter, List.mem_filter]
    simp only [decide_eq_true_eq, decide_not, Bool.not_eq_true', decide_eq_false_iff_not]
    by_cases h1 : a ∈ layerPorts L <;> by_cases h2 : a ∈ ports <;> simp [h1, h2]
  exact ⟨hperm, hnd2, hperm.length_eq, heq⟩

set_option maxRecDepth 100000 in
theorem prioritizePorts_permutes_witness :
    ["8443", "443", "21", "80", "22"].Nodup ∧
    (prioritizePorts demoPortLib ["8443", "443", "21", "80", "22"]).Perm
      ["8443", "443", "21", "80", "22"] ∧
    (prioritizePorts demoPortLib ["8443", "443", "21", "80", "22"]).Nodup ∧
    (prioritizePorts demoPortLib ["8443", "443", "21", "80", "22"]).length =
      ["8443", "443", "21", "80", "22"].length ∧
    prioritizePorts demoPortLib ["8443", "443", "21", "80", "22"] =
      keepFirst ((layerPorts demoPortLib).filter fun p =>
        p ∈ ["8443", "443", "21", "80", "22"]) ++
        ["8443", "443", "21", "80", "22"].filter fun p => p ∉ layerPorts demoPortLib :=
  ⟨by decide, prioritizePorts_permutes demoPortLib ["8443", "443", "21", "80", "22"]
    (by decide)⟩

set_option maxRecDepth 100000 in
theorem prioritizePorts_demo :
    prioritizePorts demoPortLib ["8443", "443", "21", "80", "22"] =
      ["80", "443", "22", "8443", "21"] ∧
    prioritizePorts demoPortLib ["21"] = ["21"] ∧
    prioritizePorts demoPortLib [] = [] := by
  decide

theorem desiredThreads_eq (m : concurrencyManager) (c : Int) (snap : statsSnapshot)
    (cpu : Option ℚ) :
    desiredThreads m c snap cpu =
      if max (tuneTarget c snap cpu) m.minThreads > m.maxThreads then m.maxThreads
      else max (tuneTarget c snap cpu) m.minThreads := by
  unfold desiredThreads
  generalize tuneTarget c snap cpu = d
  dsimp only
  by_cases h : d < m.minThreads
  · rw [if_pos h, max_eq_right (le_of_lt h)]
  · rw [if_neg h, max_eq_left (not_lt.1 h)]

theorem floor_seven_tenths (c : Int) : ⌊(7 / 10 : ℚ) * (c : ℚ)⌋ = 7 * c / 10 := by
  have h := Rat.floor_intCast_div_natCast (7 * c) 10
  have e : (7 / 10 : ℚ) * (c : ℚ) = ((7 * c : Int) : ℚ) / ((10 : Nat) : ℚ) := by
    push_cast; ring
  rw [e, h]
  rfl

theorem roundBits_small (n : Nat) (h : n < 2 ^ 53) : roundBits n = n := by
  have hb : bitLength n n - 53 = 0 := by
    by_cases h0 : n = 0
    · subst h0; rfl
    · obtain ⟨k, hk, hlo, hhi⟩ := bitLength_spec n n le_rfl h0
      have : k < 53 := by
        by_contra hc
        have : 2 ^ 53 ≤ 2 ^ k := Nat.pow_le_pow_right (by norm_num) (by omega)
        omega
      omega
  unfold roundBits
  simp [hb, Nat.mod_one]

/-- The rounding error of `roundBits` is at most one part in `2 ^ 53`. -/
theorem roundBits_error (n : Nat) :
    2 ^ 53 * roundBits n ≤ 2 ^ 53 * n + n ∧ 2 ^ 53 * n ≤ 2 ^ 53 * roundBits n + n := by
  by_cases hs : n < 2 ^ 53
  · rw [roundBits_small n hs]; constructor <;> omega
  · have h0 : n ≠ 0 := by
      intro e; subst e; simp at hs
    obtain ⟨k, hk, hlo, hhi⟩ := bitLength_spec n n le_rfl h0
    have hk53 : 53 ≤ k := by
      by_contra hc
      have : 2 ^ (k + 1) ≤ 2 ^ 53 := Nat.pow_le_pow_right (by norm_num) (by omega)
      omega
    obtain ⟨sh, rfl⟩ : ∃ sh, k = sh + 53 := ⟨k - 53, by omega⟩
    have hsh : bitLength n n - 53 = sh + 1 := by omega
    have hpow : 2 ^ (sh + 53) = 9007199254740992 * 2 ^ sh := by
      rw [pow_add]; norm_num; ring
    have hpow1 : 2 ^ (sh + 1) = 2 * 2 ^ sh := by rw [pow_succ]; ring
    have hdm := Nat.div_add_mod n (2 ^ (sh + 1))
    have hml := Nat.mod_lt n (show 2 ^ (sh + 1) > 0 by positivity)
    unfold roundBits
    simp only [hsh]
    generalize n / 2 ^ (sh + 1) = q at *
    generalize n % 2 ^ (sh + 1) = r at *
    rw [hpow1] at hdm hml ⊢
    rw [hpow] at hlo
    generalize 2 ^ sh = X at *
    have e1 : 2 * X * q = 2 * (X * q) := by ring
    have e2 : (q + 1) * (2 * X) = 2 * (X * q) + 2 * X := by ring
    have e3 : q * (2 * X) = 2 * (X * q) := by ring
    rw [e1] at hdm
    rw [e2, e3]
    generalize X * q = Y at *
    norm_num
    split_ifs with hc
    · constructor <;> omega
    · constructor <;> omega

theorem shrink70_nonneg (c : Int) (h0 : 0 ≤ c) (h1 : c < 2 ^ 49) :
    (shrink70 c = 7 * c / 10 ∨ shrink70 c = 7 * c / 10 - 1) ∧
    (¬ (10 : Int) ∣ c → shrink70 c = 7 * c / 10) := by
  obtain ⟨n, rfl⟩ := Int.eq_ofNat_of_zero_le h0
  have hn : n < 2 ^ 49 := by exact_mod_cast h1
  have hsmall : roundBits n = n := roundBits_small n (by
    have : (2:Nat) ^ 49 ≤ 2 ^ 53 := Nat.pow_le_pow_right (by norm_num) (by norm_num)
    omega)
  have herr := roundBits_error (n * float07)
  unfold shrink70
  simp only [Int.natAbs_ofNat, hsmall]
  clear hsmall
  have hneg : ¬ ((n : Int) < 0) := by omega
  rw [if_neg hneg]
  generalize roundBits (n * float07) = R at herr
  unfold float07 at herr
  have hq := Nat.div_add_mod R (2 ^ 53)
  have hr := Nat.mod_lt R (show 2 ^ 53 > 0 by norm_num)
  generalize R / 2 ^ 53 = Q at *
  generalize R % 2 ^ 53 = r at *
  have hd1 : 10 * (7 * (n : Int) / 10) ≤ 7 * n := by omega
  have hd2 : 7 * (n : Int) < 10 * (7 * (n : Int) / 10) + 10 := by omega
  have hd3 : ¬ (10 : Int) ∣ (n : Int) → 10 * (7 * (n : Int) / 10) + 1 ≤ 7 * n := by
    intro h; omega
  generalize 7 * (n : Int) / 10 = d at *
  have herr1 : (2 ^ 53 : Int) * R ≤ 2 ^ 53 * (n * 6305039478318694) + n * 6305039478318694 := by
    exact_mod_cast herr.1
  have herr2 : (2 ^ 53 : Int) * (n * 6305039478318694) ≤
      2 ^ 53 * R + n * 6305039478318694 := by
    exact_mod_cast herr.2
  have hq2 : (2 ^ 53 : Int) * Q + r = R := by exact_mod_cast hq
  have hr2 : (r : Int) < 2 ^ 53 := by exact_mod_cast hr
  have hr3 : (0 : Int) ≤ r := Int.ofNat_nonneg r
  have hn2 : (n : Int) < 2 ^ 49 := by exact_mod_cast hn
  have hn3 : (0 : Int) ≤ n := Int.ofNat_nonneg n
  rw [← hq2] at herr1 herr2
  clear hq2 hq hr herr hneg h0 h1 hn
  generalize (Q : Int) = q at *
  generalize (r : Int) = r at *
  generalize (n : Int) = n at *
  norm_num at herr1 herr2 hr2 hn2
  have hup : q ≤ d := by
    by_contra hc
    have : d + 1 ≤ q := by omega
    linarith
  have hlo : d - 1 ≤ q := by
    by_contra hc
    have : q + 2 ≤ d := by omega
    linarith
  refine ⟨by omega, ?_⟩
  intro hdiv
  have h3 := hd3 hdiv
  have : d ≤ q := by
    by_contra hc
    have : q + 1 ≤ d := by omega
    linarith
  omega

theorem demoTuneManager_bounds :
    demoTuneManager.minThreads = 8 ∧ demoTuneManager.maxThreads = 256 := by
  have hm : demoTuneManager.mode = ConcurrencyModeAuto := by
    unfold demoTuneManager; rw [newConcurrencyManager_mode]; decide
  refine ⟨newConcurrencyManager_minThreads _ _ _ _ _, ?_⟩
  unfold demoTuneManager at hm ⊢
  rw [newConcurrencyManager_maxThreads_auto _ _ _ _ _ hm]
  decide

/-- A float64 quotient lies above the float64 of a threshold when two float64 numbers
stand between the threshold and the exact quotient. -/
theorem f64_lt_of_gap (thr x y0 y1 : ℚ) (h0 : 0 ≤ thr) (h1 : thr ≤ y0) (h2 : y0 < y1)
    (h3 : y1 ≤ x) (r0 : isF64 y0) (r1 : isF64 y1) : f64 thr < f64 x := by
  have a := f64_le_of_le thr y0 h0 h1 r0
  have b := le_f64_of_le x y1 (by linarith) h3 r1
  linarith

theorem windowOps_eq (snap : statsSnapshot) (hw : windowTotal snap ≤ 2 ^ 27) :
    windowOps snap = windowTotal snap := by
  unfold windowTotal at hw
  unfold windowOps windowTotal addU64
  have h1 : snap.deltaSuccess + snap.deltaFailure < 2 ^ 64 := by norm_num at hw ⊢; omega
  rw [Nat.mod_eq_of_lt h1]
  exact Nat.mod_eq_of_lt (by norm_num at hw ⊢; omega)

theorem f64_quot (a w : Nat) (ha : a ≤ 2 ^ 53) (hw : w ≤ 2 ^ 53) :
    f64 (f64 (a : ℚ) / f64 (w : ℚ)) = f64 ((a : ℚ) / (w : ℚ)) := by
  rw [f64_natCast a ha, f64_natCast w hw]

theorem isF64_of_nat_shift (m k : Nat) (hm : m ≤ 2 ^ 53) : isF64 ((m : ℚ) / 2 ^ k) := by
  refine ⟨m, -(k : Int), ?_, ?_⟩
  · rw [abs_of_nonneg (by positivity)]; exact_mod_cast hm
  · rw [zpow_neg, zpow_natCast]; push_cast; ring

/-- The float64 comparison `errRate > 0.05` is the comparison of the exact quotient with
`5 / 100`, for windows of at most `2 ^ 27` operations. -/
theorem errRate_gt_iff (snap : statsSnapshot) (hw : windowTotal snap ≤ 2 ^ 27) :
    errRate snap > f64 (5 / 100) ↔ errorRatio snap > 5 / 100 := by
  have hops := windowOps_eq snap hw
  unfold errRate errorRatio
  rw [hops]
  by_cases h0 : windowTotal snap = 0
  · have hn : ¬ windowTotal snap > 0 := by omega
    rw [if_neg hn, if_pos h0]
    have := f64_nonneg (5 / 100) (by norm_num)
    constructor
    · intro h; linarith
    · intro h; norm_num at h
  · have hp : windowTotal snap > 0 := by omega
    rw [if_pos hp, if_neg h0]
    have hf : snap.deltaFailure ≤ windowTotal snap := by unfold windowTotal; omega
    generalize windowTotal snap = w at *
    generalize snap.deltaFailure = a at *
    have hw53 : w ≤ 2 ^ 53 := le_trans hw (by norm_num)
    rw [f64_quot a w (le_trans hf hw53) hw53]
    have hwq : (0 : ℚ) < (w : ℚ) := by exact_mod_cast hp
    have hx0 : (0 : ℚ) ≤ (a : ℚ) / w := by positivity
    constructor
    · intro h
      by_contra hc
      rw [gt_iff_lt, not_lt] at hc
      have := f64_mono _ _ hx0 hc
      linarith
    · intro h
      rw [gt_iff_lt, lt_div_iff₀ hwq] at h
      have h1 : (w : ℚ) < 20 * a := by linarith
      have h2 : w + 1 ≤ 20 * a := by exact_mod_cast h1
      have h3 : (w : ℚ) + 1 ≤ 20 * a := by exact_mod_cast h2
      have h4 : (w : ℚ) ≤ 134217728 := by
        have : w ≤ 134217728 := by norm_num at hw; exact hw
        exact_mod_cast this
      refine f64_lt_of_gap (5 / 100) _ ((54975581389 : Nat) / 2 ^ 40)
        ((54975581390 : Nat) / 2 ^ 40) (by norm_num) (by norm_num) (by norm_num) ?_
        (isF64_of_nat_shift _ _ (by norm_num)) (isF64_of_nat_shift _ _ (by norm_num))
      rw [le_div_iff₀ hwq]
      norm_num
      linarith

/-- The float64 comparison `timeoutRate > 0.03` is the comparison of the exact quotient
with `3 / 100`, for windows of at most `2 ^ 27` operations. -/
theorem timeoutRate_gt_iff (snap : statsSnapshot) (hw : windowTotal snap ≤ 2 ^ 27) :
    timeoutRate snap > f64 (3 / 100) ↔ timeoutRatio snap > 3 / 100 := by
  have hops := windowOps_eq snap hw
  unfold timeoutRate timeoutRatio
  rw [hops]
  by_cases h0 : windowTotal snap = 0
  · have hn : ¬ windowTotal snap > 0 := by omega
    rw [if_neg hn, if_pos h0]
    have := f64_nonneg (3 / 100) (by norm_num)
    constructor
    · intro h; linarith
    · intro h; norm_num at h
  · have hp : windowTotal snap > 0 := by omega
    rw [if_pos hp, if_neg h0]
    have hf : snap.deltaTimeout ≤ windowTotal snap := by unfold windowTotal; omega
    generalize windowTotal snap = w at *
    generalize snap.deltaTimeout = a at *
    have hw53 : w ≤ 2 ^ 53 := le_trans hw (by norm_num)
    rw [f64_quot a w (le_trans hf hw53) hw53]
    have hwq : (0 : ℚ) < (w : ℚ) := by exact_mod_cast hp
    have hx0 : (0 : ℚ) ≤ (a : ℚ) / w := by positivity
    constructor
    · intro h
      by_contra hc
      rw [gt_iff_lt, not_lt] at hc
      have := f64_mono _ _ hx0 hc
      linarith
    · intro h
      rw [gt_iff_lt, lt_div_iff₀ hwq] at h
      have h1 : 3 * (w : ℚ) < 100 * a := by linarith
      have h2 : 3 * w + 1 ≤ 100 * a := by exact_mod_cast h1
      have h3 : 3 * (w : ℚ) + 1 ≤ 100 * a := by exact_mod_cast h2
      have h4 : (w : ℚ) ≤ 134217728 := by
        have : w ≤ 134217728 := by norm_num at hw; exact hw
        exact_mod_cast this
      refine f64_lt_of_gap (3 / 100) _ ((32985348834 : Nat) / 2 ^ 40)
        ((32985348835 : Nat) / 2 ^ 40) (by norm_num) (by norm_num) (by norm_num) ?_
        (isF64_of_nat_shift _ _ (by norm_num)) (isF64_of_nat_shift _ _ (by norm_num))
      rw [le_div_iff₀ hwq]
      norm_num
      linarith

/-- The float64 comparison `avgRTT < 50` is the comparison of the exact average with 50
milliseconds, for windows of at most `2 ^ 27` operations that took at most `2 ^ 53`
nanoseconds. -/
theorem avgRTT_lt_iff (snap : statsSnapshot) (hw : windowTotal snap ≤ 2 ^ 27)
    (hd : snap.deltaDurNS ≤ 2 ^ 53) :
    avgRTT snap < 50 ↔ meanRTT snap < 50 := by
  have hops := windowOps_eq snap hw
  unfold avgRTT meanRTT
  rw [hops]
  by_cases h0 : windowTotal snap = 0
  · have hn : ¬ (snap.deltaDurNS > 0 ∧ windowTotal snap > 0) := by omega
    rw [if_neg hn, if_pos h0]
  · have hp : windowTotal snap > 0 := by omega
    rw [if_neg h0]
    generalize windowTotal snap = w at *
    generalize snap.deltaDurNS = d at *
    have hwq : (0 : ℚ) < (w : ℚ) := by exact_mod_cast hp
    by_cases hd0 : d = 0
    · have hn : ¬ (d > 0 ∧ w > 0) := by omega
      rw [if_neg hn, hd0]
      norm_num
    · have hy : d > 0 ∧ w > 0 := ⟨by omega, hp⟩
      rw [if_pos hy]
      have hw53 : w ≤ 2 ^ 53 := le_trans hw (by norm_num)
      rw [f64_natCast d hd, f64_natCast w hw53]
      have hx0 : (0 : ℚ) ≤ (d : ℚ) / w := by positivity
      have hf0 := f64_nonneg _ hx0
      have hq0 : (0 : ℚ) ≤ f64 ((d : ℚ) / w) / 1000000 := by positivity
      have h4 : (w : ℚ) ≤ 134217728 := by
        have : w ≤ 134217728 := by norm_num at hw; exact hw
        exact_mod_cast this
      constructor
      · intro h
        by_contra hc
        rw [not_lt] at hc
        have h1 : (50000000 : ℚ) ≤ (d : ℚ) / w := by
          rw [le_div_iff₀ (by norm_num : (0 : ℚ) < 1000000)] at hc
          linarith
        have h2 : (50000000 : ℚ) ≤ f64 ((d : ℚ) / w) := by
          have := le_f64_of_le _ ((50000000 : Nat) : ℚ) hx0 (by exact_mod_cast h1)
            (isF64_natCast _ (by norm_num))
          exact_mod_cast this
        have h3 : (50 : ℚ) ≤ f64 ((d : ℚ) / w) / 1000000 := by
          rw [le_div_iff₀ (by norm_num : (0 : ℚ) < 1000000)]
          linarith
        have h5 : (50 : ℚ) ≤ f64 (f64 ((d : ℚ) / w) / 1000000) := by
          have := le_f64_of_le _ ((50 : Nat) : ℚ) hq0 (by exact_mod_cast h3)
            (isF64_natCast _ (by norm_num))
          exact_mod_cast this
        linarith
      · intro h
        rw [div_lt_iff₀ (by norm_num : (0 : ℚ) < 1000000), div_lt_iff₀ hwq] at h
        have h1 : (d : ℚ) < 50000000 * w := by linarith
        have h2 : d + 1 ≤ 50000000 * w := by exact_mod_cast h1
        have h3 : (d : ℚ) + 1 ≤ 50000000 * w := by exact_mod_cast h2
        have h5 : (d : ℚ) / w ≤ (6710886399999999 : Nat) / 2 ^ 27 := by
          rw [div_le_iff₀ hwq]
          norm_num
          linarith
        have h6 := f64_le_of_le _ _ hx0 h5 (isF64_of_nat_shift _ _ (by norm_num))
        have h7 : f64 ((d : ℚ) / w) / 1000000 ≤ (7036874417766399 : Nat) / 2 ^ 47 := by
          rw [div_le_iff₀ (by norm_num : (0 : ℚ) < 1000000)]
          norm_num at h6 ⊢
          linarith
        have h8 := f64_le_of_le _ _ hq0 h7 (isF64_of_nat_shift _ _ (by norm_num))
        norm_num at h8 ⊢
        linarith

theorem sampleCPU_one : sampleCPU (some 1) = 100 := by
  have := f64_natCast 100 (by norm_num)
  simpa [sampleCPU] using this

theorem shrinkDue_iff (snap : statsSnapshot) (cpu : Option ℚ)
    (hw : windowTotal snap ≤ 2 ^ 27) :
    shrinkDue snap cpu ↔
      (sampleCPU cpu > 85 ∨ errorRatio snap > 5 / 100 ∨ timeoutRatio snap > 3 / 100) := by
  unfold shrinkDue
  rw [errRate_gt_iff snap hw, timeoutRate_gt_iff snap hw]

/-- The `switch` of the tuning loop with its conditions as comparisons of exact
quotients. -/
theorem tuneTarget_eq (c : Int) (snap : statsSnapshot) (cpu : Option ℚ)
    (hc0 : 0 ≤ c) (hc1 : c < 2 ^ 49) (hw : windowTotal snap ≤ 2 ^ 27)
    (hd : snap.deltaDurNS ≤ 2 ^ 53) :
    tuneTarget c snap cpu =
      if sampleCPU cpu > 85 ∨ errorRatio snap > 5 / 100 ∨ timeoutRatio snap > 3 / 100 then
        shrink70 c
      else if snap.backlog > c then c + 64
      else if meanRTT snap < 50 ∧ snap.backlog > 0 then c + 32
      else c := by
  have w64 : wrapInt (c + 64) = c + 64 :=
    wrapInt_of_range _ (by norm_num; omega) (by norm_num at hc1 ⊢; omega)
  have w32 : wrapInt (c + 32) = c + 32 :=
    wrapInt_of_range _ (by norm_num; omega) (by norm_num at hc1 ⊢; omega)
  unfold tuneTarget
  rw [w64, w32]
  by_cases hs : shrinkDue snap cpu
  · rw [if_pos hs, if_pos ((shrinkDue_iff snap cpu hw).mp hs)]
  · rw [if_neg hs, if_neg (fun h => hs ((shrinkDue_iff snap cpu hw).mpr h))]
    by_cases hb : snap.backlog > c
    · rw [if_pos hb, if_pos hb]
    · rw [if_neg hb, if_neg hb]
      by_cases hr : avgRTT snap < 50 ∧ snap.backlog > 0
      · rw [if_pos hr, if_pos ⟨(avgRTT_lt_iff snap hw hd).mp hr.1, hr.2⟩]
      · rw [if_neg hr, if_neg (fun h => hr ⟨(avgRTT_lt_iff snap hw hd).mpr h.1, h.2⟩)]

/-- C24 (amended): for a current capacity `0 <= c < 2 ^ 49` and a window of at most
`2 ^ 27` operations that took at most `2 ^ 53` nanoseconds (within these bounds the
float64 comparisons of the code decide as the comparisons of the exact quotients, and no
sum of Go `int` wraps), one step of the tuning loop computes the desired capacity in this
priority order: if CPU usage > 85 or error rate > 0.05 or timeout rate > 0.03 then the
float64 product of `c` and `0.7` without its fraction; else if backlog > `c` then
`c + 64`; else if the average round-trip time is below 50 ms and backlog > 0 then
`c + 32`; else `c`. The shrink rule wins over both grow rules. The result is then raised
to `minThreads` and after that lowered to `maxThreads`, so that it lies in
`[minThreads, maxThreads]` when that interval is not empty. The shrunk value is
`floor(0.7 * c)` or one less, and it is `floor(0.7 * c)` when `c` is not a multiple of
10. -/
theorem autoTune_step (m : concurrencyManager) (c : Int) (snap : statsSnapshot)
    (cpu : Option ℚ) (hc0 : 0 ≤ c) (hc1 : c < 2 ^ 49) (hw : windowTotal snap ≤ 2 ^ 27)
    (hd : snap.deltaDurNS ≤ 2 ^ 53) :
    (tuneTarget c snap cpu =
      if sampleCPU cpu > 85 ∨ errorRatio snap > 5 / 100 ∨ timeoutRatio snap > 3 / 100 then
        shrink70 c
      else if snap.backlog > c then c + 64
      else if meanRTT snap < 50 ∧ snap.backlog > 0 then c + 32
      else c) ∧
    (sampleCPU cpu > 85 ∨ errorRatio snap > 5 / 100 ∨ timeoutRatio snap > 3 / 100 →
      tuneTarget c snap cpu = shrink70 c) ∧
    (desiredThreads m c snap cpu =
      if max (tuneTarget c snap cpu) m.minThreads > m.maxThreads then m.maxThreads
      else max (tuneTarget c snap cpu) m.minThreads) ∧
    (m.minThreads ≤ m.maxThreads →
      m.minThreads ≤ desiredThreads m c snap cpu ∧
      desiredThreads m c snap cpu ≤ m.maxThreads) ∧
    (shrink70 c = ⌊(7 / 10 : ℚ) * (c : ℚ)⌋ ∨ shrink70 c = ⌊(7 / 10 : ℚ) * (c : ℚ)⌋ - 1) ∧
    (¬ (10 : Int) ∣ c → shrink70 c = ⌊(7 / 10 : ℚ) * (c : ℚ)⌋) := by
  have ht := tuneTarget_eq c snap cpu hc0 hc1 hw hd
  refine ⟨ht, ?_, desiredThreads_eq m c snap cpu, ?_, ?_⟩
  · intro h
    rw [ht, if_pos h]
  · intro hle
    rw [desiredThreads_eq]
    generalize tuneTarget c snap cpu = d
    split_ifs with h
    · exact ⟨hle, le_rfl⟩
    · exact ⟨le_max_right _ _, not_lt.1 h⟩
  · rw [floor_seven_tenths]
    exact shrink70_nonneg c hc0 hc1

theorem demoOverload_window :
    windowTotal (demoOverload.stats.snapshot statsSnapshot.zero) = 50 ∧
    (demoOverload.stats.snapshot statsSnapshot.zero).deltaDurNS = 1000000 ∧
    (demoOverload.stats.snapshot statsSnapshot.zero).deltaFailure = 50 ∧
    (demoOverload.stats.snapshot statsSnapshot.zero).deltaTimeout = 0 ∧
    (demoOverload.stats.snapshot statsSnapshot.zero).backlog = 100 := by
  decide

theorem autoTune_step_witness :
    (0 : Int) ≤ 90 ∧ (90 : Int) < 2 ^ 49 ∧
    windowTotal (demoOverload.stats.snapshot statsSnapshot.zero) ≤ 2 ^ 27 ∧
    (demoOverload.stats.snapshot statsSnapshot.zero).deltaDurNS ≤ 2 ^ 53 ∧
    ((tuneTarget 90 (demoOverload.stats.snapshot statsSnapshot.zero) demoOverload.cpu =
      if sampleCPU demoOverload.cpu > 85 ∨
          errorRatio (demoOverload.stats.snapshot statsSnapshot.zero) > 5 / 100 ∨
          timeoutRatio (demoOverload.stats.snapshot statsSnapshot.zero) > 3 / 100 then
        shrink70 90
      else if (demoOverload.stats.snapshot statsSnapshot.zero).backlog > 90 then 90 + 64
      else if meanRTT (demoOverload.stats.snapshot statsSnapshot.zero) < 50 ∧
          (demoOverload.stats.snapshot statsSnapshot.zero).backlog > 0 then 90 + 32
      else 90) ∧
    (sampleCPU demoOverload.cpu > 85 ∨
        errorRatio (demoOverload.stats.snapshot statsSnapshot.zero) > 5 / 100 ∨
        timeoutRatio (demoOverload.stats.snapshot statsSnapshot.zero) > 3 / 100 →
      tuneTarget 90 (demoOverload.stats.snapshot statsSnapshot.zero) demoOverload.cpu =
        shrink70 90) ∧
    (desiredThreads demoTuneManager 90 (demoOverload.stats.snapshot statsSnapshot.zero)
        demoOverload.cpu =
      if max (tuneTarget 90 (demoOverload.stats.snapshot statsSnapshot.zero)
          demoOverload.cpu) demoTuneManager.minThreads > demoTuneManager.maxThreads then
        demoTuneManager.maxThreads
      else max (tuneTarget 90 (demoOverload.stats.snapshot statsSnapshot.zero)
        demoOverload.cpu) demoTuneManager.minThreads) ∧
    (demoTuneManager.minThreads ≤ demoTuneManager.maxThreads →
      demoTuneManager.minThreads ≤ desiredThreads demoTuneManager 90
        (demoOverload.stats.snapshot statsSnapshot.zero) demoOverload.cpu ∧
      desiredThreads demoTuneManager 90 (demoOverload.stats.snapshot statsSnapshot.zero)
        demoOverload.cpu ≤ demoTuneManager.maxThreads) ∧
    (shrink70 90 = ⌊(7 / 10 : ℚ) * ((90 : Int) : ℚ)⌋ ∨
      shrink70 90 = ⌊(7 / 10 : ℚ) * ((90 : Int) : ℚ)⌋ - 1) ∧
    (¬ (10 : Int) ∣ 90 → shrink70 90 = ⌊(7 / 10 : ℚ) * ((90 : Int) : ℚ)⌋)) :=
  ⟨by norm_num, by norm_num, by rw [demoOverload_window.1]; norm_num,
   by rw [demoOverload_window.2.1]; norm_num,
   autoTune_step demoTuneManager 90 (demoOverload.stats.snapshot statsSnapshot.zero)
     demoOverload.cpu (by norm_num) (by norm_num)
     (by rw [demoOverload_window.1]; norm_num) (by rw [demoOverload_window.2.1]; norm_num)⟩

/-- C24 (counterexample): at capacity 90, within the bounds 8 and 256 of the manager, an
overloaded step asks for 62 workers, while `floor(0.7 * 90)` is 63. -/
theorem autoTune_shrink_below_floor :
    shrinkDue (demoOverload.stats.snapshot statsSnapshot.zero) demoOverload.cpu ∧
    tuneTarget 90 (demoOverload.stats.snapshot statsSnapshot.zero) demoOverload.cpu = 62 ∧
    desiredThreads demoTuneManager 90 (demoOverload.stats.snapshot statsSnapshot.zero)
      demoOverload.cpu = 62 ∧
    demoTuneManager.minThreads = 8 ∧ demoTuneManager.maxThreads = 256 ∧
    ⌊(7 / 10 : ℚ) * ((90 : Int) : ℚ)⌋ = 63 := by
  have hs : shrinkDue (demoOverload.stats.snapshot statsSnapshot.zero) demoOverload.cpu := by
    left
    show sampleCPU (some 1) > 85
    rw [sampleCPU_one]
    norm_num
  have h90 : shrink70 90 = 62 := by decide
  have ht : tuneTarget 90 (demoOverload.stats.snapshot statsSnapshot.zero)
      demoOverload.cpu = 62 := by
    unfold tuneTarget
    rw [if_pos hs, h90]
  refine ⟨hs, ht, ?_, demoTuneManager_bounds.1, demoTuneManager_bounds.2, ?_⟩
  · rw [desiredThreads_eq, ht, demoTuneManager_bounds.1, demoTuneManager_bounds.2]
    decide
  · rw [floor_seven_tenths]
    decide

theorem poolCapacities_demo :
    poolCapacities demoHost
      (newConcurrencyManager demoHost demoCase ⟨"Auto ", 0, 64, 0, 0⟩ ScanParams.zero 0)
      ⟨0, 0, 0, 0, 0, 0⟩ [demoOverload, demoOverload] = [32, 22, 15] := by
  have hm : (newConcurrencyManager demoHost demoCase ⟨"Auto ", 0, 64, 0, 0⟩ ScanParams.zero
      0).mode = ConcurrencyModeAuto := by rw [newConcurrencyManager_mode]; decide
  have hmax : (newConcurrencyManager demoHost demoCase ⟨"Auto ", 0, 64, 0, 0⟩ ScanParams.zero
      0).maxThreads = 64 := by
    rw [newConcurrencyManager_maxThreads_auto _ _ _ _ _ hm]; decide
  have hmin := newConcurrencyManager_minThreads demoHost demoCase ⟨"Auto ", 0, 64, 0, 0⟩
    ScanParams.zero 0
  generalize newConcurrencyManager demoHost demoCase ⟨"Auto ", 0, 64, 0, 0⟩
    ScanParams.zero 0 = m at hm hmax hmin
  have hne : ¬ m.mode = ConcurrencyModeManual := by rw [hm]; decide
  have hw : m.InitialWorkers demoHost = (m, 32) := by
    unfold concurrencyManager.InitialWorkers
    simp only [hne, if_false, hmin, hmax]
    have : defaultThreadCount demoHost = 32 := by decide
    rw [this]; rfl
  unfold poolCapacities
  simp only [hw, hm, if_true]
  unfold concurrencyManager.autoTuneLoop
  have h32 : shrink70 32 = 22 := by decide
  have h22 : shrink70 22 = 15 := by decide
  have hs : ∀ snap, shrinkDue snap demoOverload.cpu := by
    intro snap
    left
    show sampleCPU (some 1) > 85
    rw [sampleCPU_one]
    norm_num
  norm_num [tuneRounds, desiredThreads, tuneTarget, hs, hmin, hmax, h32, h22]

theorem quoteChars_eq_nil (l : List Char) : quoteChars l = [] ↔ l = [] := by
  cases l with
  | nil => simp [quoteChars]
  | cons c rest =>
    unfold quoteChars
    split_ifs <;> simp

theorem QuoteMeta_eq_empty (s : String) : QuoteMeta s = "" ↔ s = "" := by
  unfold QuoteMeta
  constructor
  · intro h
    have h2 : quoteChars s.data = [] := by
      have := congrArg String.data h
      simpa using this
    rw [quoteChars_eq_nil] at h2
    exact String.ext h2
  · intro h
    subst h
    rfl

theorem anchored_ne_empty (s : String) : "^" ++ s ++ "$" ≠ "" := by
  intro h
  have := congrArg String.length h
  simp only [String.length_append] at this
  have h1 : "^".length = 1 := by decide
  have h0 : "".length = 0 := by decide
  omega

theorem patternExpr_none (cfg : MatcherConfig) :
    patternExpr cfg = none ↔ cfg.Pattern = "" ∧ cfg.Contains = "" ∧ cfg.Equals = "" := by
  unfold patternExpr
  by_cases h1 : cfg.Pattern = ""
  · by_cases h2 : cfg.Contains = ""
    · by_cases h3 : cfg.Equals = "" <;> simp [h1, h2, h3]
    · simp [h1, h2]
  · simp [h1]

theorem compilePattern_eq (L : TextLib) (cfg : MatcherConfig) :
    compilePattern L cfg =
      match patternExpr cfg with
      | none => Except.error MatcherError.emptyPattern
      | some expr => regexpCompile L expr := by
  unfold compilePattern patternExpr
  by_cases h1 : cfg.Pattern = ""
  · by_cases h2 : cfg.Contains = ""
    · by_cases h3 : cfg.Equals = ""
      · simp [h1, h2, h3]
      · simp only [h1, h2, h3, ne_eq, not_true_eq_false, not_false_eq_true, if_true,
          if_false, anchored_ne_empty]
    · have hq : QuoteMeta cfg.Contains ≠ "" := fun e => h2 ((QuoteMeta_eq_empty _).1 e)
      simp only [h1, h2, ne_eq, not_true_eq_false, not_false_eq_true, if_true, if_false, hq]
  · simp only [h1, ne_eq, not_false_eq_true, if_true]
    split_ifs <;> rfl

theorem compilePattern_error_iff (L : TextLib) (cfg : MatcherConfig) :
    (∃ err, compilePattern L cfg = Except.error err) ↔
      (cfg.Pattern = "" ∧ cfg.Contains = "" ∧ cfg.Equals = "") ∨
      ∃ expr, patternExpr cfg = some expr ∧ L.compiles expr = false := by
  rw [compilePattern_eq, ← patternExpr_none]
  cases h : patternExpr cfg with
  | none => simp
  | some expr =>
    simp only [regexpCompile]
    by_cases hc : L.compiles expr = true
    · simp [hc]
    · simp [hc]

theorem badMatcher_pattern (L : TextLib) (cfg : MatcherConfig)
    (hp : cfg.type ∈ patternTypes) :
    badMatcher L cfg ↔ ∃ err, compilePattern L cfg = Except.error err := by
  have hf : cfg.type ≠ "http_favicon" := by
    intro e; rw [e] at hp; revert hp; decide
  rw [compilePattern_error_iff]
  unfold badMatcher
  constructor
  · rintro (h | h | h | h)
    · exact absurd hp h.1
    · exact Or.inl h.2
    · exact Or.inr h.2
    · exact absurd h.1 hf
  · rintro (h | h)
    · exact Or.inr (Or.inl ⟨hp, h⟩)
    · exact Or.inr (Or.inr (Or.inl ⟨hp, h⟩))

theorem badMatcher_favicon (L : TextLib) (cfg : MatcherConfig)
    (hf : cfg.type = "http_favicon") :
    badMatcher L cfg ↔ TrimSpace cfg.Equals = "" := by
  have hp : cfg.type ∉ patternTypes := by rw [hf]; decide
  unfold badMatcher
  constructor
  · rintro (h | h | h | h)
    · exact absurd hf h.2
    · exact absurd h.1 hp
    · exact absurd h.1 hp
    · exact h.2
  · intro h
    exact Or.inr (Or.inr (Or.inr ⟨hf, h⟩))

theorem buildMatcher_error_iff (L : TextLib) (t : CaseTables) (cfg : MatcherConfig) :
    (∃ err, buildMatcher L t cfg = Except.error err) ↔ badMatcher L cfg := by
  unfold buildMatcher
  by_cases h1 : cfg.type = "banner"
  · rw [if_pos h1, badMatcher_pattern L cfg (by rw [h1]; decide)]
    cases compilePattern L cfg <;> simp
  rw [if_neg h1]
  by_cases h2 : cfg.type = "http_header"
  · rw [if_pos h2, badMatcher_pattern L cfg (by rw [h2]; decide)]
    cases compilePattern L cfg <;> simp
  rw [if_neg h2]
  by_cases h3 : cfg.type = "http_title"
  · rw [if_pos h3, badMatcher_pattern L cfg (by rw [h3]; decide)]
    cases compilePattern L cfg <;> simp
  rw [if_neg h3]
  by_cases h4 : cfg.type = "http_body"
  · rw [if_pos h4, badMatcher_pattern L cfg (by rw [h4]; decide)]
    cases compilePattern L cfg <;> simp
  rw [if_neg h4]
  by_cases h5 : cfg.type = "http_header_any"
  · rw [if_pos h5, badMatcher_pattern L cfg (by rw [h5]; decide)]
    cases compilePattern L cfg <;> simp
  rw [if_neg h5]
  by_cases h6 : cfg.type = "http_favicon"
  · rw [if_pos h6, badMatcher_favicon L cfg h6]
    dsimp only
    by_cases he : TrimSpace cfg.Equals = ""
    · simp [he]
    · simp [he]
  rw [if_neg h6]
  by_cases h7 : cfg.type = "tls_subject"
  · rw [if_pos h7, badMatcher_pattern L cfg (by rw [h7]; decide)]
    cases compilePattern L cfg <;> simp
  rw [if_neg h7]
  by_cases h8 : cfg.type = "passive"
  · rw [if_pos h8, badMatcher_pattern L cfg (by rw [h8]; decide)]
    cases compilePattern L cfg <;> simp
  rw [if_neg h8]
  have hp : cfg.type ∉ patternTypes := by
    simp only [patternTypes, List.mem_cons, List.mem_singleton, List.not_mem_nil, or_false]
    tauto
  exact ⟨fun _ => Or.inl ⟨hp, h6⟩, fun _ => ⟨_, rfl⟩⟩

theorem compileMatchers_error_iff (L : TextLib) (t : CaseTables) (cfgs : List MatcherConfig) :
    ∀ acc : List matcherFunc,
      (∃ err, compileMatchers L t acc cfgs = Except.error err) ↔
        ∃ cfg ∈ cfgs, badMatcher L cfg := by
  induction cfgs with
  | nil => intro acc; simp [compileMatchers]
  | cons cfg rest ih =>
    intro acc
    unfold compileMatchers
    cases hb : buildMatcher L t cfg with
    | error err =>
      have : badMatcher L cfg := (buildMatcher_error_iff L t cfg).1 ⟨err, hb⟩
      simp only [List.mem_cons, exists_eq_or_imp]
      exact ⟨fun _ => Or.inl this, fun _ => ⟨err, rfl⟩⟩
    | ok mf =>
      have : ¬ badMatcher L cfg := by
        intro h
        obtain ⟨err, he⟩ := (buildMatcher_error_iff L t cfg).2 h
        rw [hb] at he
        cases he
      simp only [List.mem_cons, exists_eq_or_imp, this, false_or]
      exact ih _

theorem compileRule_error_iff (L : TextLib) (t : CaseTables) (rule : Rule) :
    (∃ err, compileRule L t rule = Except.error err) ↔
      ∃ cfg ∈ rule.Matchers, badMatcher L cfg := by
  rw [← compileMatchers_error_iff L t rule.Matchers []]
  unfold compileRule
  cases compileMatchers L t [] rule.Matchers <;> simp

theorem compileRule_raw (L : TextLib) (t : CaseTables) (rule : Rule) (compiled : compiledRule)
    (h : compileRule L t rule = Except.ok compiled) : compiled.raw = rule := by
  unfold compileRule at h
  cases hm : compileMatchers L t [] rule.Matchers with
  | error err => rw [hm] at h; cases h
  | ok ms => rw [hm] at h; cases h; rfl

theorem compileRulesFrom_spec (L : TextLib) (t : CaseTables) (list : List Rule) :
    ∀ acc : List compiledRule,
      ((∃ rule ∈ list, rule.ID = "" ∨ ∃ cfg ∈ rule.Matchers, badMatcher L cfg) →
        ∃ err, compileRulesFrom L t acc list = Except.error err) ∧
      ((¬ ∃ rule ∈ list, rule.ID = "" ∨ ∃ cfg ∈ rule.Matchers, badMatcher L cfg) →
        ∃ rs, compileRulesFrom L t acc list = Except.ok rs ∧
          ∃ new : List compiledRule, rs.rules = acc ++ new ∧
            new.map (fun cr => cr.raw) = list ∧
            ∀ cr ∈ new, compileRule L t cr.raw = Except.ok cr) := by
  induction list with
  | nil =>
    intro acc
    refine ⟨by simp, fun _ => ⟨⟨acc⟩, rfl, [], by simp, rfl, by simp⟩⟩
  | cons rule rest ih =>
    intro acc
    unfold compileRulesFrom
    by_cases hid : rule.ID = ""
    · rw [if_pos hid]
      refine ⟨fun _ => ⟨_, rfl⟩, fun h => absurd ⟨rule, List.mem_cons_self _ _, Or.inl hid⟩ h⟩
    · rw [if_neg hid]
      cases hc : compileRule L t rule with
      | error err =>
        have hbad := (compileRule_error_iff L t rule).1 ⟨err, hc⟩
        exact ⟨fun _ => ⟨_, rfl⟩,
          fun h => absurd ⟨rule, List.mem_cons_self _ _, Or.inr hbad⟩ h⟩
      | ok compiled =>
        have hgood : ¬ ∃ cfg ∈ rule.Matchers, badMatcher L cfg := by
          intro h
          obtain ⟨err, he⟩ := (compileRule_error_iff L t rule).2 h
          rw [hc] at he
          cases he
        have hraw := compileRule_raw L t rule compiled hc
        obtain ⟨ih1, ih2⟩ := ih (acc ++ [compiled])
        constructor
        · rintro ⟨r, hr, hbad⟩
          rw [List.mem_cons] at hr
          rcases hr with rfl | hr
          · rcases hbad with h | h
            · exact absurd h hid
            · exact absurd h hgood
          · exact ih1 ⟨r, hr, hbad⟩
        · intro hno
          have hno2 : ¬ ∃ rule ∈ rest, rule.ID = "" ∨ ∃ cfg ∈ rule.Matchers, badMatcher L cfg :=
            fun ⟨r, hr, hbad⟩ => hno ⟨r, List.mem_cons_of_mem _ hr, hbad⟩
          obtain ⟨rs, hrs, new, hnew, hmap, hall⟩ := ih2 hno2
          refine ⟨rs, hrs, compiled :: new, ?_, ?_, ?_⟩
          · rw [hnew]; simp
          · simp [hmap, hraw]
          · intro cr hcr
            rw [List.mem_cons] at hcr
            rcases hcr with rfl | hcr
            · rw [hraw]; exact hc
            · exact hall cr hcr

/-- C22 (amended): `compileRules` rejects a bad rule list as a whole. The result is an
error, and no rule set, if some rule has an empty id or a matcher that `buildMatcher`
rejects: one of unknown type, one built from a pattern with empty `pattern`, `contains`
and `equals`, one built from a pattern that `regexp.Compile` rejects, or an `http_favicon`
matcher whose `equals` is blank. Otherwise it succeeds with one compiled rule for each
input rule, in the same order. -/
theorem compileRules_spec (L : TextLib) (t : CaseTables) (list : List Rule) :
    ((∃ rule ∈ list, rule.ID = "" ∨ ∃ cfg ∈ rule.Matchers, badMatcher L cfg) →
      ∃ err, compileRules L t list = Except.error err) ∧
    ((¬ ∃ rule ∈ list, rule.ID = "" ∨ ∃ cfg ∈ rule.Matchers, badMatcher L cfg) →
      ∃ rs, compileRules L t list = Except.ok rs ∧
        rs.rules.map (fun cr => cr.raw) = list ∧
        rs.rules.length = list.length ∧
        ∀ cr ∈ rs.rules, compileRule L t cr.raw = Except.ok cr) := by
  obtain ⟨h1, h2⟩ := compileRulesFrom_spec L t list []
  refine ⟨h1, fun hno => ?_⟩
  obtain ⟨rs, hrs, new, hnew, hmap, hall⟩ := h2 hno
  rw [List.nil_append] at hnew
  refine ⟨rs, hrs, ?_, ?_, ?_⟩
  · rw [hnew]; exact hmap
  · rw [hnew, ← hmap, List.length_map]
  · rw [hnew]; exact hall

/-- C22 (counterexample): a rule whose id is not empty and whose one matcher has the known
type `http_favicon` and a blank, non-empty `equals` is rejected. -/
theorem compileRules_rejects_blank_favicon :
    compileRules demoText demoCase [demoBlankFavicon] =
      Except.error (RuleSetError.compileRule "blank-favicon" MatcherError.emptyFavicon) ∧
    demoBlankFavicon.ID ≠ "" ∧
    (∀ cfg ∈ demoBlankFavicon.Matchers,
      cfg.type = "http_favicon" ∧ cfg.type ∉ patternTypes ∧
      ¬ (cfg.Pattern = "" ∧ cfg.Contains = "" ∧ cfg.Equals = "")) := by
  refine ⟨by rfl, by decide, by decide⟩

theorem compileRules_demo :
    compileRules demoText demoCase [demoInvalidRule] = Except.error RuleSetError.missingId ∧
    compileRules demoText demoCase [demoBodyRule, demoInvalidRule] =
      Except.error RuleSetError.missingId ∧
    compileRules demoText demoCase [demoBadPattern] =
      Except.error (RuleSetError.compileRule "bad-pattern" (MatcherError.badPattern "(")) ∧
    compileRules demoText demoCase [demoBodyRule, demoMultiRule] =
      Except.ok ⟨[⟨demoBodyRule, [matcherFunc.httpBody "hello"]⟩,
                  ⟨demoMultiRule, [matcherFunc.httpBody "foo"]⟩]⟩ := by
  refine ⟨by rfl, by rfl, by rfl, by rfl⟩

/-! ### Matching on the body (C23) -/

theorem buildMatcher_body (L : TextLib) (t : CaseTables) (key c equals : String)
    (hc : c ≠ "") (hcompiles : L.compiles (QuoteMeta c) = true) :
    buildMatcher L t ⟨"http_body", key, "", c, equals, false⟩ =
      Except.ok (matcherFunc.httpBody (QuoteMeta c)) := by
  have hp : compilePattern L ⟨"http_body", key, "", c, equals, false⟩ =
      Except.ok (QuoteMeta c) := by
    rw [compilePattern_eq]
    simp [patternExpr, hc, regexpCompile, hcompiles]
  unfold buildMatcher
  simp only [hp]
  rw [if_neg (by decide), if_neg (by decide), if_neg (by decide), if_pos trivial]

theorem compileRules_body (L : TextLib) (t : CaseTables) (rule : Rule) (key c equals : String)
    (hid : rule.ID ≠ "")
    (hm : rule.Matchers = [⟨"http_body", key, "", c, equals, false⟩])
    (hc : c ≠ "") (hcompiles : L.compiles (QuoteMeta c) = true) :
    compileRules L t [rule] = Except.ok ⟨[⟨rule, [matcherFunc.httpBody (QuoteMeta c)]⟩]⟩ := by
  have h1 : compileRule L t rule =
      Except.ok ⟨rule, [matcherFunc.httpBody (QuoteMeta c)]⟩ := by
    unfold compileRule
    rw [hm]
    simp only [compileMatchers, buildMatcher_body L t key c equals hc hcompiles,
      List.nil_append]
  unfold compileRules
  simp only [compileRulesFrom, hid, if_false, h1, List.nil_append]

theorem matchRules_body (L : TextLib) (t : CaseTables) (rule : Rule) (c : String)
    (input : Input) (ev : Evidence)
    (hports : rule.Ports = []) (hprotos : rule.Protocols = [])
    (hlit : ∀ s, L.MatchString (QuoteMeta c) s = Contains s c) :
    matchRules L t input ev [⟨rule, [matcherFunc.httpBody (QuoteMeta c)]⟩] =
      if (gatherHTTPInfos ev).any (fun info => Contains info.BodySample c) then resultOf rule
      else MatchResult.zero := by
  simp only [matchRules, ruleMatchesPort, ruleMatchesProto, hports, hprotos, List.length_nil,
    if_true, Bool.not_true, Bool.or_self, Bool.false_eq_true, if_false, List.all_cons,
    List.all_nil, Bool.and_true, matcherFunc.run, hlit]

theorem literalFrom_quoteChars (l : List Char) : literalFrom false (quoteChars l) = some l := by
  induction l with
  | nil => rfl
  | cons c rest ih =>
    unfold quoteChars
    by_cases hs : isSpecial c = true
    · rw [if_pos hs]
      have h92 : (Char.ofNat 92).toNat = 92 := by decide
      rw [literalFrom, if_pos h92, literalFrom, if_pos hs, ih]
      rfl
    · rw [if_neg hs]
      have hc : ¬ c.toNat = 92 := by
        intro h
        apply hs
        simp [isSpecial, h]
      rw [literalFrom, if_neg hc, if_neg hs, ih]
      rfl

/-- The instance `demoText` reads a quoted text as that text. -/
theorem demoText_literal (c s : String) :
    demoText.compiles (QuoteMeta c) = true ∧
    demoText.MatchString (QuoteMeta c) s = Contains s c := by
  simp only [demoText, QuoteMeta, literalOf, literalFrom_quoteChars, Option.isSome_some,
    true_and]

/-- The expression `regexp.QuoteMeta` makes of a text is a literal expression for that
text: it compiles, and it matches the strings that contain the text. -/
theorem withLiterals_quoted (M : TextLib) (c s : String) :
    (withLiterals M).compiles (QuoteMeta c) = true ∧
    (withLiterals M).MatchString (QuoteMeta c) s = Contains s c := by
  simp only [withLiterals, QuoteMeta, literalOf, literalFrom_quoteChars, Option.isSome_some,
    Bool.true_or, true_and]

/-- C23: for a rule set compiled from a single rule with a non-empty id, no port or
protocol restriction and one `http_body` matcher with `contains` = `c`, `c` not empty and
the case not ignored, with a regexp library that reads literal expressions as package
`regexp` does and any other expression in whatever way: `Match` returns the result of
that rule, with its id, if and only if `c` is a substring of the `BodySample` of at least
one gathered HTTP response, and the empty `MatchResult` otherwise; the gathered
responses are `Evidence.HTTPs` when it is not empty and otherwise the single
`Evidence.HTTP`. -/
theorem Match_http_body_contains (M : TextLib) (t : CaseTables) (rule : Rule)
    (key c equals : String) (input : Input) (ev : Evidence)
    (hid : rule.ID ≠ "") (hports : rule.Ports = []) (hprotos : rule.Protocols = [])
    (hm : rule.Matchers = [⟨"http_body", key, "", c, equals, false⟩])
    (hc : c ≠ "") :
    ∃ rs, compileRules (withLiterals M) t [rule] = Except.ok rs ∧
      rs.rules.map (fun cr => cr.raw) = [rule] ∧
      ((rs.Match (withLiterals M) t input ev).RuleID = rule.ID ↔
        ∃ info ∈ gatherHTTPInfos ev, Contains info.BodySample c = true) ∧
      ((∃ info ∈ gatherHTTPInfos ev, Contains info.BodySample c = true) →
        rs.Match (withLiterals M) t input ev = resultOf rule) ∧
      ((¬ ∃ info ∈ gatherHTTPInfos ev, Contains info.BodySample c = true) →
        rs.Match (withLiterals M) t input ev = MatchResult.zero) ∧
      gatherHTTPInfos ev = (if ev.HTTPs ≠ [] then ev.HTTPs else ev.HTTP.toList) := by
  have hcompiles := (withLiterals_quoted M c "").1
  have hlit := fun s => (withLiterals_quoted M c s).2
  refine ⟨_, compileRules_body (withLiterals M) t rule key c equals hid hm hc hcompiles, rfl, ?_⟩
  have hmatch := matchRules_body (withLiterals M) t rule c input ev hports hprotos hlit
  have hany : ((gatherHTTPInfos ev).any (fun info => Contains info.BodySample c) = true) ↔
      ∃ info ∈ gatherHTTPInfos ev, Contains info.BodySample c = true := by
    rw [List.any_eq_true]
  unfold RuleSet.Match
  dsimp only
  rw [hmatch]
  refine ⟨?_, ?_, ?_, ?_⟩
  · rw [← hany]
    by_cases h : (gatherHTTPInfos ev).any (fun info => Contains info.BodySample c) = true
    · rw [if_pos h]; exact ⟨fun _ => h, fun _ => rfl⟩
    · rw [if_neg h]
      refine ⟨fun e => absurd e.symm ?_, fun e => absurd e h⟩
      exact hid
  · intro h
    rw [if_pos (hany.2 h)]
  · intro h
    rw [if_neg (fun e => h (hany.1 e))]
  · unfold gatherHTTPInfos
    cases hh : ev.HTTPs with
    | nil => cases ev.HTTP <;> simp
    | cons a l => simp

theorem Match_http_body_contains_witness :
    demoDotRule.ID ≠ "" ∧ demoDotRule.Ports = [] ∧ demoDotRule.Protocols = [] ∧
    demoDotRule.Matchers = [⟨"http_body", "", "", "v1.2", "", false⟩] ∧
    "v1.2" ≠ "" ∧
    ∃ rs, compileRules (withLiterals demoText) demoCase [demoDotRule] = Except.ok rs ∧
      rs.rules.map (fun cr => cr.raw) = [demoDotRule] ∧
      ((rs.Match (withLiterals demoText) demoCase demoInput demoDotEvidence).RuleID =
          demoDotRule.ID ↔
        ∃ info ∈ gatherHTTPInfos demoDotEvidence,
          Contains info.BodySample "v1.2" = true) ∧
      ((∃ info ∈ gatherHTTPInfos demoDotEvidence, Contains info.BodySample "v1.2" = true) →
        rs.Match (withLiterals demoText) demoCase demoInput demoDotEvidence =
          resultOf demoDotRule) ∧
      ((¬ ∃ info ∈ gatherHTTPInfos demoDotEvidence,
          Contains info.BodySample "v1.2" = true) →
        rs.Match (withLiterals demoText) demoCase demoInput demoDotEvidence =
          MatchResult.zero) ∧
      gatherHTTPInfos demoDotEvidence =
        (if demoDotEvidence.HTTPs ≠ [] then demoDotEvidence.HTTPs
         else demoDotEvidence.HTTP.toList) :=
  ⟨by decide, rfl, rfl, rfl, by decide,
   Match_http_body_contains demoText demoCase demoDotRule "" "v1.2" "" demoInput
     demoDotEvidence (by decide) rfl rfl rfl (by decide)⟩

theorem QuoteMeta_demo : QuoteMeta "v1.2" = "v1\\.2" ∧ QuoteMeta "hello" = "hello" := by
  decide

theorem compileRules_dot :
    compileRules (withLiterals demoText) demoCase [demoDotRule] =
      Except.ok ⟨[⟨demoDotRule, [matcherFunc.httpBody "v1\\.2"]⟩]⟩ := by
  rw [← QuoteMeta_demo.1]
  exact compileRules_body (withLiterals demoText) demoCase demoDotRule "" "v1.2" "" (by decide)
    rfl (by decide) (withLiterals_quoted demoText "v1.2" "").1

set_option maxRecDepth 100000 in
/-- The two tests of `ruleset_test.go` on body matchers, and a `contains` text with a dot:
the compiled expression is the text with the dot escaped, it matches the body that holds
the text and not the body that holds another character in the place of the dot. -/
theorem Match_demo :
    RuleSet.Match (withLiterals demoText) demoCase
      ⟨[⟨demoBodyRule, [matcherFunc.httpBody "hello"]⟩]⟩
      demoInput demoBodyEvidence = resultOf demoBodyRule ∧
    (resultOf demoBodyRule).RuleID = "test-body" ∧
    RuleSet.Match (withLiterals demoText) demoCase
      ⟨[⟨demoMultiRule, [matcherFunc.httpBody "foo"]⟩]⟩
      demoInput demoMultiEvidence = resultOf demoMultiRule ∧
    (resultOf demoMultiRule).RuleID = "test-body-multi" ∧
    gatherHTTPInfos demoMultiEvidence = demoMultiEvidence.HTTPs ∧
    RuleSet.Match (withLiterals demoText) demoCase
      ⟨[⟨demoBodyRule, [matcherFunc.httpBody "hello"]⟩]⟩
      demoInput demoMultiEvidence = MatchResult.zero ∧
    RuleSet.Match (withLiterals demoText) demoCase
      ⟨[⟨demoDotRule, [matcherFunc.httpBody "v1\\.2"]⟩]⟩
      demoInput demoDotEvidence = resultOf demoDotRule ∧
    RuleSet.Match (withLiterals demoText) demoCase
      ⟨[⟨demoDotRule, [matcherFunc.httpBody "v1\\.2"]⟩]⟩
      demoInput demoDotOther = MatchResult.zero := by
  decide

end Mfinder
